import Mathlib

/-!
# Gridded tensors (o2scl `tensor_grid`)

A shallow embedding of `src/base/tensor_grid.h`.

Conventions of the embedding:

* `double` values are exact rationals (`ℚ`), `size_t` values are natural
  numbers (no wrap-around: every quantity computed below is bounded by the
  length of a vector that exists in memory).
* `std::vector` is `List`.  The unchecked `operator[]` is a total read
  (`List.getD _ _ 0`) and a total write (`List.set`): outside the vector, where
  the source has no defined behaviour, a read gives 0 and a write is dropped.
* `O2SCL_ERR` raises: a `const` method returns `Except exc _`, a mutating
  method returns an `outcome` holding the object as the call leaves it together
  with the error raised, if any.
-/

namespace O2scl

/-! ## Data model -/

/-- Error codes handed to the error handler by `O2SCL_ERR`. -/
inductive exc where
  | exc_einval
  | exc_esanity
  | exc_eindex
  | exc_efailed
deriving DecidableEq, Repr

/-- Modelled from the spec: the selector of the linear 1D scheme, the default
`interp_type` (`interp.h` is not among the sources). -/
def itp_linear : Nat := 1

/-- The members of `tensor_grid`: `rk`, `size` and `data` come from the base
class `tensor`, `grid`, `grid_set` and `itype` are its own. -/
structure tensor_grid where
  rk : Nat
  size : List Nat
  data : List ℚ
  grid : List ℚ
  grid_set : Bool
  itype : Nat
deriving DecidableEq

/-- What a mutating method leaves behind: the object and the error raised. -/
structure outcome where
  st : tensor_grid
  raised : Option exc
deriving DecidableEq

/-- The method `std::vector::resize(n)`: the first `n` entries are kept, new ones are
value-initialised. -/
def vec_resize {α : Type} (d : α) (v : List α) (n : Nat) : List α :=
  v.take n ++ List.replicate (n - v.length) d

/-- The accumulation `for(k=0;k<i;k++) s+=n(k)` starting from `s=0`. -/
def offset_of (n : Nat → Nat) (i : Nat) : Nat :=
  (List.range i).foldl (fun s k => s + n k) 0

/-- The loop `for(k=0;k<i;k++) istart+=size[k]` shared by the grid accessors
(with `i = rk` it is the `ngrid` / `tot2` loop). -/
def istart_of (size : List Nat) (i : Nat) : Nat :=
  offset_of (fun k => size.getD k 0) i

/-! ## Constructors -/

/-- Modelled from the spec: the default constructor of the base class `tensor`
(`tensor.h` is not among the sources): rank 0, no sizes, no data. -/
def tensor_default : tensor_grid :=
  { rk := 0, size := [], data := [], grid := [], grid_set := false, itype := 0 }

/-- The constructor `tensor_grid()`. -/
def tensor_grid_default : tensor_grid :=
  { tensor_default with grid_set := false, itype := itp_linear }

/-- Modelled from the spec: the constructor `tensor(rank,dim)` of the base
class (`tensor.h` is not among the sources): rank `rank`, sizes `dim[0..rank-1]`,
all positive or else invalid-argument, and a data buffer whose length is the
product of the sizes (empty for rank 0). -/
def tensor_rank_dim (rank : Nat) (dim : List Nat) : Except exc tensor_grid :=
  if rank = 0 then .ok tensor_default
  else
    match (List.range rank).find? (fun i => dim.getD i 0 == 0) with
    | some _ => .error .exc_einval
    | none =>
      .ok { tensor_default with
            rk := rank
            size := (List.range rank).map (fun i => dim.getD i 0)
            data := List.replicate ((List.range rank).foldl
                      (fun tot i => tot * dim.getD i 0) 1) 0 }

/-- The constructor `tensor_grid(rank,dim)`: the base constructor, then the zero-size
check over `i < rk`. -/
def tensor_grid_rank_dim (rank : Nat) (dim : List Nat) : Except exc tensor_grid :=
  match tensor_rank_dim rank dim with
  | .error e => .error e
  | .ok t0 =>
    let t1 := { t0 with grid_set := false, itype := itp_linear }
    match (List.range t1.rk).find? (fun i => dim.getD i 0 == 0) with
    | some _ => .error .exc_einval
    | none => .ok t1

/-! ## Grid lookup -/

/-- The rounding of a rational to the nearest integer, ties to the even one. -/
def round_half_even (x : ℚ) : Int :=
  if x - (Int.floor x : ℚ) < 1 / 2 then Int.floor x
  else if 1 / 2 < x - (Int.floor x : ℚ) then Int.floor x + 1
  else if Int.floor x % 2 = 0 then Int.floor x
  else Int.floor x + 1

/-- The rounding of the exact result of an operation on `double`s to the nearest `double`
(binary64: 53 significant bits, least exponent -1022, ties to even), for results of finite
size. -/
def round_double (x : ℚ) : ℚ :=
  if x = 0 then 0
  else
    (round_half_even (x / (2 : ℚ) ^ (max (Int.log 2 |x|) (-1022) - 52)) : ℚ) *
      (2 : ℚ) ^ (max (Int.log 2 |x|) (-1022) - 52)

/-- One pass of the scan in `lookup_grid_val`: the state is `(best, min, val2)`. The
difference `grid[j]-temp` is a `double`: `fl` is the rounding of its exact value (the
identity is exact arithmetic, `round_double` the arithmetic of the machine). -/
def lookup_step (fl : ℚ → ℚ) (grid : List ℚ) (temp : ℚ) (s : Nat × ℚ × ℚ) (j : Nat) :
    Nat × ℚ × ℚ :=
  if |fl (grid.getD j 0 - temp)| < s.2.1 then
    (j, |fl (grid.getD j 0 - temp)|, grid.getD j 0)
  else s

/-- The method `lookup_grid_val(i,val,val2)`: returns the index and the value stored in
`val2`; `fl` rounds the differences `grid[j]-temp`. -/
def lookup_grid_val (fl : ℚ → ℚ) (t : tensor_grid) (i : Nat) (val : ℚ) :
    Except exc (Nat × ℚ) :=
  if t.rk ≤ i then .error .exc_einval
  else if t.grid_set = false then .error .exc_einval
  else
    let temp := val
    let istart := istart_of t.size i
    let r := (List.range' istart (t.size.getD i 0)).foldl (lookup_step fl t.grid temp)
      (istart, |fl (t.grid.getD istart 0 - temp)|, t.grid.getD istart 0)
    .ok (r.1 - istart, r.2.2)

/-- The method `lookup_grid(i,val)`. -/
def lookup_grid (fl : ℚ → ℚ) (t : tensor_grid) (i : Nat) (val : ℚ) : Except exc Nat :=
  match lookup_grid_val fl t i val with
  | .error e => .error e
  | .ok r => .ok r.1

/-- The read `grid[istart+j]` of the `j`th point of axis `i` in the packed grid. -/
def grid_at (t : tensor_grid) (i j : Nat) : ℚ :=
  t.grid.getD (istart_of t.size i + j) 0

/-- The method `get_grid(i,j)`. -/
def get_grid (t : tensor_grid) (i j : Nat) : Except exc ℚ :=
  if t.grid_set = false then .error .exc_einval
  else if t.rk ≤ i then .error .exc_einval
  else .ok (grid_at t i j)

/-- The method `is_grid_set()`. -/
def is_grid_set (t : tensor_grid) : Bool := t.grid_set

/-! ## Access by nearest grid point -/

/-- The loop `for(i=0;i<rk;i++) index[i]=lookup_grid(i,gridp[i])` of `get_val` and
`set_val`, run over the axes listed; the first failing lookup raises. -/
def lookup_indices (fl : ℚ → ℚ) (t : tensor_grid) (gridp : List ℚ) :
    List Nat → Except exc (List Nat)
  | [] => .ok []
  | i :: rest =>
    match lookup_grid fl t i (gridp.getD i 0) with
    | .error e => .error e
    | .ok j =>
      match lookup_indices fl t gridp rest with
      | .error e => .error e
      | .ok js => .ok (j :: js)

/-- The packing loop `ix=index[0]; for(i=1;i<rk;i++) { ix*=size[i]; ix+=index[i]; }`. -/
def pack_index (size index : List Nat) (rk : Nat) : Nat :=
  (List.range' 1 (rk - 1)).foldl (fun ix i => ix * size.getD i 0 + index.getD i 0)
    (index.getD 0 0)

/-- The method `get_val(gridp)`; `fl` rounds the differences of the lookups. -/
def get_val (fl : ℚ → ℚ) (t : tensor_grid) (gridp : List ℚ) : Except exc ℚ :=
  match lookup_indices fl t gridp (List.range t.rk) with
  | .error e => .error e
  | .ok index => .ok (t.data.getD (pack_index t.size index t.rk) 0)

/-- The method `set_val(grdp,val)`; `fl` rounds the differences of the lookups. -/
def set_val (fl : ℚ → ℚ) (t : tensor_grid) (grdp : List ℚ) (val : ℚ) : outcome :=
  match lookup_indices fl t grdp (List.range t.rk) with
  | .error e => ⟨t, some e⟩
  | .ok index => ⟨{ t with data := t.data.set (pack_index t.size index t.rk) val }, none⟩

/-! ## Resizing and clearing -/

/-- The body of the size loop of `resize`: `size[i]=dim[i]; tot*=size[i]`. The product
`tot` is a `size_t` of 64 bits: the multiplication wraps around at `2^64`. -/
def resize_step (dim : List Nat) (s : List Nat × Nat) (i : Nat) : List Nat × Nat :=
  ((s.1.set i (dim.getD i 0)), (s.2 * (s.1.set i (dim.getD i 0)).getD i 0) % 2 ^ 64)

/-- The method `resize(rank,dim)`. -/
def resize (t : tensor_grid) (rank : Nat) (dim : List Nat) : outcome :=
  match (List.range rank).find? (fun i => dim.getD i 0 == 0) with
  | some _ => ⟨t, some .exc_einval⟩
  | none =>
    let t1 := { t with rk := rank }
    let t2 := { t1 with size := vec_resize 0 t1.size t1.rk }
    let t3 := { t2 with grid_set := false, grid := vec_resize 0 t2.grid 0 }
    if rank = 0 then
      ⟨{ t3 with data := vec_resize 0 t3.data 0 }, none⟩
    else
      let r := (List.range t3.rk).foldl (resize_step dim) (t3.size, 1)
      ⟨{ t3 with size := r.1, data := vec_resize 0 t3.data r.2 }, none⟩

/-- The method `set_grid_packed(grid_vec)`. -/
def set_grid_packed (t : tensor_grid) (grid_vec : List ℚ) : outcome :=
  if t.rk = 0 then ⟨t, some .exc_einval⟩
  else
    let ngrid := istart_of t.size t.rk
    let g1 := vec_resize 0 t.grid ngrid
    let g2 := (List.range ngrid).foldl (fun g i => g.set i (grid_vec.getD i 0)) g1
    ⟨{ t with grid := g2, grid_set := true }, none⟩

/-- The inner loop `for(j=0;j<n;j++) { grid[k]=f(j); k++; }`; the state is `(grid, k)`. -/
def fill_axis (f : Nat → ℚ) (n : Nat) (s : List ℚ × Nat) : List ℚ × Nat :=
  (List.range n).foldl (fun s j => (s.1.set s.2 (f j), s.2 + 1)) s

/-- The double loop `k=0; for(i=0;i<rk;i++) for(j=0;j<n(i);j++) { grid[k]=f(i,j); k++; }`
of `set_grid` and `default_grid`. -/
def fill_grid (f : Nat → Nat → ℚ) (n : Nat → Nat) (rk : Nat) (g : List ℚ) : List ℚ × Nat :=
  (List.range rk).foldl (fun s i => fill_axis (f i) (n i) s) (g, 0)

/-- The method `set_grid(grid_vecs)` for a vector of vectors. -/
def set_grid (t : tensor_grid) (grid_vecs : List (List ℚ)) : outcome :=
  if t.rk = 0 then ⟨t, some .exc_einval⟩
  else
    let ngrid := istart_of t.size t.rk
    let g1 := vec_resize 0 t.grid ngrid
    let r := fill_grid (fun i j => (grid_vecs.getD i []).getD j 0)
      (fun i => t.size.getD i 0) t.rk g1
    ⟨{ t with grid := r.1, grid_set := true }, none⟩

/-- Row-major packing, last index fastest: the stride of an axis is the product of
the sizes of the axes after it. -/
def row_major : List Nat → List Nat → Nat
  | _ :: ss, i :: rest => i * ss.prod + row_major ss rest
  | _, _ => 0

/-- Modelled from the spec: the indexed read `tensor::get(index)` of the base class
(`tensor.h` is not among the sources): the flat buffer read at the row-major
packing of the multi-index. -/
def get (t : tensor_grid) (index : List Nat) : ℚ :=
  t.data.getD (row_major t.size index) 0

/-- The grid invariant of the data model: an unset grid is empty, a set grid has
one entry per point of every axis. -/
def grid_inv (t : tensor_grid) : Prop :=
  (t.grid_set = false → t.grid.length = 0) ∧
  (t.grid_set = true → t.grid.length = istart_of t.size t.rk)

instance (t : tensor_grid) : Decidable (grid_inv t) := by
  unfold grid_inv; infer_instance

/-! ## Sample objects -/

/-- Shape `(3,3)`, grids `[0,1,2]` and `[0,1,2]`, values `v(i,j)=i+j`. -/
def sample33 : tensor_grid :=
  { rk := 2, size := [3, 3], data := [0, 1, 2, 1, 2, 3, 2, 3, 4],
    grid := [0, 1, 2, 0, 1, 2], grid_set := true, itype := itp_linear }

/-- Rank 1, two points with the same grid value `0`, data `[1,2]`. -/
def sample_dup : tensor_grid :=
  { rk := 1, size := [2], data := [1, 2], grid := [0, 0], grid_set := true,
    itype := itp_linear }

/-! ## Operations of the base class and collaborators -/

/-- Modelled from the spec: `tensor::total_size()` of the base class (`tensor.h` is not
among the sources): the number of cells, the product of the sizes, 0 for rank 0. -/
def total_size (t : tensor_grid) : Nat :=
  if t.rk = 0 then 0 else t.size.prod

/-- Modelled from the spec: `tensor::unpack_index(ix,index)` of the base class
(`tensor.h` is not among the sources), the inverse of the row-major packing: the
index of an axis is the quotient by the product of the later sizes, the remainder
goes on (the same scheme as the unpacking of `sum_ix` in `rearrange_and_copy`). -/
def unpack_index : List Nat → Nat → List Nat
  | [], _ => []
  | _ :: ss, ix => (ix / ss.prod) :: unpack_index ss (ix % ss.prod)

/-- Modelled from the spec: `tensor::set(index,val)` of the base class (`tensor.h` is
not among the sources): the flat buffer written at the row-major packing. -/
def set (t : tensor_grid) (index : List Nat) (val : ℚ) : tensor_grid :=
  { t with data := t.data.set (row_major t.size index) val }

/-- Modelled from the spec: `tensor::get_size(i)` of the base class. -/
def get_size (t : tensor_grid) (i : Nat) : Nat := t.size.getD i 0

/-- Modelled from the spec: `tensor::get_rank()` of the base class. -/
def get_rank (t : tensor_grid) : Nat := t.rk

/-- Collaborators that are not among the sources, taken as parameters: `find` is
`search_vec(n,x).find(x0)` on the vector `x` (the bracketing search), `pow_size` is the
conversion `(size_t) pow(x,y)` for a real exponent. -/
structure externals where
  find : List ℚ → ℚ → Nat
  pow_size : ℚ → ℚ → Nat

/-- Modelled from the spec: a nearest-below bracketing search that stays in
`0..n-2`: the last `i <= n-2` with `x[i] <= x0`, or 0. -/
def search_below (x : List ℚ) (x0 : ℚ) : Nat :=
  (List.range (x.length - 1)).foldl (fun r i => if x.getD i 0 ≤ x0 then i else r) 0

/-- Sample collaborators: the nearest-below search, and a power that is not used. -/
def sample_ext : externals :=
  { find := search_below, pow_size := fun _ _ => 0 }

/-- A vector `dst` whose first entries have been overwritten by `src`. -/
def write_front (dst src : List Nat) : List Nat :=
  src ++ dst.drop src.length

/-! ## Linear interpolation -/

/-- The loop of `interp_linear_power_two` that fills the smaller tensor: for each cell
of `tnew`, `index` is unpacked, its last entry set to 0 and to 1, and the blend of the
two values of `t` is stored. -/
def collapse_last (t tnew : tensor_grid) (frac : ℚ) : tensor_grid :=
  (List.range (total_size tnew)).foldl (fun tn i =>
    let index := write_front (List.replicate t.rk 0) (unpack_index tn.size i)
    let index0 := index.set (t.rk - 1) 0
    let val_lo := get t index0
    let index1 := index0.set (t.rk - 1) 1
    let val_hi := get t index1
    set tn index1 (val_lo + frac * (val_hi - val_lo))) tnew

/-- The recursion of `interp_linear_power_two(v)`, one level per unit of `fuel`. -/
def power_two_loop : Nat → tensor_grid → List ℚ → Except exc ℚ
  | 0, _, _ => .error .exc_esanity
  | fuel + 1, t, v =>
    if t.rk = 1 then
      .ok (t.data.getD 0 0 + (t.data.getD 1 0 - t.data.getD 0 0) /
        (t.grid.getD 1 0 - t.grid.getD 0 0) * (v.getD 0 0 - t.grid.getD 0 0))
    else
      let last := t.rk - 1
      match get_grid t last 0, get_grid t last 1 with
      | .error e, _ => .error e
      | _, .error e => .error e
      | .ok g0, .ok g1 =>
        let frac := (v.getD last 0 - g0) / (g1 - g0)
        match tensor_grid_rank_dim (t.rk - 1) t.size with
        | .error e => .error e
        | .ok tnew0 =>
          let o := set_grid_packed tnew0 t.grid
          match o.raised with
          | some e => .error e
          | none => power_two_loop fuel (collapse_last t o.st frac) v

/-- The method `interp_linear_power_two(v)`: the rank drops by one at each level, so
`rk+1` levels are enough. -/
def interp_linear_power_two (t : tensor_grid) (v : List ℚ) : Except exc ℚ :=
  power_two_loop (t.rk + 1) t v

/-- The loop `for(j=0;j<size[i];j++) grid_unpacked[j]=grid[j+rgs]` of `interp_linear`. -/
def unpack_grid (t : tensor_grid) (i rgs : Nat) : List ℚ :=
  (List.range (t.size.getD i 0)).map (fun j => t.grid.getD (j + rgs) 0)

/-- One round of the corner search of `interp_linear`; the state is `(rgs, loc, gnew)`. -/
def corner_step (ext : externals) (t : tensor_grid) (v : List ℚ)
    (s : Nat × List Nat × List ℚ) (i : Nat) : Nat × List Nat × List ℚ :=
  let grid_unpacked := unpack_grid t i s.1
  let l := ext.find grid_unpacked (v.getD i 0)
  (s.1 + t.size.getD i 0, s.2.1.set i l,
    s.2.2 ++ [grid_unpacked.getD l 0, grid_unpacked.getD (l + 1) 0])

/-- The copy loop of `interp_linear`: cell `index_new` of the hypercube receives the
cell `index_new[j]+loc[j]` of `t`. -/
def copy_corner (t tnew : tensor_grid) (loc : List Nat) : tensor_grid :=
  (List.range (total_size tnew)).foldl (fun tn i =>
    let index_new := write_front (List.replicate t.rk 0) (unpack_index tn.size i)
    let index_old := (List.range t.rk).foldl
      (fun io j => io.set j (index_new.getD j 0 + loc.getD j 0)) (List.replicate t.rk 0)
    set tn index_new (get t index_old)) tnew

/-- The method `interp_linear(v)`. -/
def interp_linear (ext : externals) (t : tensor_grid) (v : List ℚ) : Except exc ℚ :=
  let c := (List.range t.rk).foldl (corner_step ext t v) (0, List.replicate t.rk 0, [])
  let snew := List.replicate t.rk 2
  match tensor_grid_rank_dim t.rk snew with
  | .error e => .error e
  | .ok tnew0 =>
    let o := set_grid_packed tnew0 c.2.2
    match o.raised with
    | some e => .error e
    | none => interp_linear_power_two (copy_corner t o.st c.2.1) v

/-- A loop `for(i...)` over the rounds listed whose body may raise: the first raise
ends the loop. -/
def for_loop {σ : Type} (f : σ → Nat → Except exc σ) : List Nat → σ → Except exc σ
  | [], s => .ok s
  | i :: rest, s =>
    match f s i with
    | .error e => .error e
    | .ok s1 => for_loop f rest s1

/-- The loop `for(j=0;j<size[ixi];j++) grid_one[j]=get_grid(ixi,j)` of
`interp_linear_partial`, over the points listed. -/
def grid_one_loop (t : tensor_grid) (ixi : Nat) : List Nat → Except exc (List ℚ)
  | [] => .ok []
  | j :: rest =>
    match get_grid t ixi j with
    | .error e => .error e
    | .ok g =>
      match grid_one_loop t ixi rest with
      | .error e => .error e
      | .ok gs => .ok (g :: gs)

/-- One round of the corner search of `interp_linear_partial`; the state is
`(loc, gnew)`. -/
def partial_corner_step (ext : externals) (t : tensor_grid) (ix_to_interp : List Nat)
    (val : List ℚ) (s : List Nat × List ℚ) (i : Nat) : Except exc (List Nat × List ℚ) :=
  let ixi := ix_to_interp.getD i 0
  if get_rank t ≤ ixi then .error .exc_einval
  else
    match grid_one_loop t ixi (List.range (t.size.getD ixi 0)) with
    | .error e => .error e
    | .ok grid_one =>
      let l := ext.find grid_one (val.getD i 0)
      .ok (s.1.set i l, s.2 ++ [grid_one.getD l 0, grid_one.getD (l + 1) 0])

/-- The copy loop of `interp_linear_partial`; the state is `(tnew, ix)`: the entries of
`ix` at the interpolated axes are overwritten for every cell of the hypercube. -/
def copy_partial (t : tensor_grid) (ix_to_interp loc : List Nat)
    (s : tensor_grid × List Nat) : tensor_grid × List Nat :=
  (List.range (total_size s.1)).foldl (fun s i =>
    let index_new := write_front (List.replicate ix_to_interp.length 0)
      (unpack_index s.1.size i)
    let ix := (List.range ix_to_interp.length).foldl
      (fun ix j => ix.set (ix_to_interp.getD j 0) (index_new.getD j 0 + loc.getD j 0)) s.2
    (set s.1 index_new (get t ix), ix)) s

/-- The method `interp_linear_partial(ix_to_interp,ix,val)`. -/
def interp_linear_partial (ext : externals) (t : tensor_grid) (ix_to_interp ix : List Nat)
    (val : List ℚ) : Except exc ℚ :=
  if val.length ≠ ix_to_interp.length then .error .exc_einval
  else if get_rank t < ix_to_interp.length ∨ ix_to_interp.length = 0 then .error .exc_einval
  else
    match for_loop (partial_corner_step ext t ix_to_interp val)
        (List.range ix_to_interp.length) (List.replicate ix_to_interp.length 0, []) with
    | .error e => .error e
    | .ok c =>
      let snew := List.replicate ix_to_interp.length 2
      match tensor_grid_rank_dim ix_to_interp.length snew with
      | .error e => .error e
      | .ok tnew0 =>
        let o := set_grid_packed tnew0 c.2
        match o.raised with
        | some e => .error e
        | none =>
          interp_linear_power_two ( copy_partial t ix_to_interp c.1 (o.st, ix)).1 val

/-! ## Index specifications -/

/-- Modelled from the spec: the tags of `index_spec` (`tensor.h` is not among the
sources); `empty` is the tag of a default-constructed entry. -/
inductive spec_type where
  | empty
  | index
  | fixed
  | sum
  | trace
  | reverse
  | range
  | interp
  | grid
deriving DecidableEq, Repr

/-- Modelled from the spec: the record `index_spec` (`tensor.h` is not among the
sources) with the members read by `rearrange_and_copy`. -/
structure index_spec where
  type : spec_type
  ix1 : Nat
  ix2 : Nat
  ix3 : Nat
  val1 : ℚ
  val2 : ℚ
  val3 : ℚ
deriving DecidableEq

/-- A default-constructed `index_spec`. -/
def index_spec_empty : index_spec := ⟨.empty, 0, 0, 0, 0, 0, 0⟩

/-- Modelled from the spec: keep axis `ix`. -/
def ix_index (ix : Nat) : index_spec := ⟨.index, ix, 0, 0, 0, 0, 0⟩

/-- Modelled from the spec: keep axis `ix` in reverse order. -/
def ix_reverse (ix : Nat) : index_spec := ⟨.reverse, ix, 0, 0, 0, 0, 0⟩

/-- Modelled from the spec: keep the indices from `start` to `stop` of axis `ix`. -/
def ix_range (ix start stop : Nat) : index_spec := ⟨.range, ix, start, stop, 0, 0, 0⟩

/-- Modelled from the spec: trace over the axes `ix` and `ix2`. -/
def ix_trace (ix ix2 : Nat) : index_spec := ⟨.trace, ix, ix2, 0, 0, 0, 0⟩

/-- Modelled from the spec: sum over axis `ix`. -/
def ix_sum (ix : Nat) : index_spec := ⟨.sum, ix, 0, 0, 0, 0, 0⟩

/-- Modelled from the spec: fix axis `ix` at index `ix2`. -/
def ix_fixed (ix ix2 : Nat) : index_spec := ⟨.fixed, ix, ix2, 0, 0, 0, 0⟩

/-- Modelled from the spec: interpolate axis `ix` at the value `v`. -/
def ix_interp (ix : Nat) (v : ℚ) : index_spec := ⟨.interp, ix, 0, 0, v, 0, 0⟩

/-! ## Rearrangement -/

/-- The four places where `rearrange_and_copy` rejects its input, by message. -/
inductive rearr_fail where
  | range_beyond
  | type_not_allowed
  | zero_new_indices
  | not_all_accounted
deriving DecidableEq, Repr

/-- How `rearrange_and_copy` leaves before the cell loop: through the error handler
at one of the four places, or by `return tensor_grid<>()`. -/
inductive rearr_exit where
  | raised (site : rearr_fail)
  | returned_empty
deriving DecidableEq, Repr

/-- The pattern `if (err_on_fail) O2SCL_ERR2(...) else return tensor_grid<>()`. -/
def exit_at (err_on_fail : Bool) (site : rearr_fail) : rearr_exit :=
  if err_on_fail then .raised site else .returned_empty

/-- What the caller gets from an early exit: every raise is `exc_einval`, the empty
return is a default-constructed tensor. -/
def exit_result : rearr_exit → Except exc tensor_grid
  | .raised _ => .error .exc_einval
  | .returned_empty => .ok tensor_grid_default

/-- The locals of `rearrange_and_copy` filled by the first loop. -/
structure rearr where
  rank_new : Nat
  size_new : List Nat
  spec_old : List index_spec
  spec_new : List index_spec
  n_sum_loop : Nat
  n_interps : Nat
  sum_sizes : List Nat
  ix_to_interp : List Nat
deriving DecidableEq

/-- The locals of `rearrange_and_copy` before the first loop. -/
def rearr_init (rank_old : Nat) : rearr :=
  { rank_new := 0, size_new := [], spec_old := List.replicate rank_old index_spec_empty,
    spec_new := [], n_sum_loop := 1, n_interps := 0, sum_sizes := [], ix_to_interp := [] }

/-- The body of the first loop of `rearrange_and_copy` for the entry `s`. -/
def classify_step (ext : externals) (t : tensor_grid) (err_on_fail : Bool) (st : rearr)
    (s : index_spec) : Except rearr_exit rearr :=
  match s.type with
  | .index | .reverse =>
    .ok { st with
          size_new := st.size_new ++ [t.size.getD s.ix1 0]
          spec_old := st.spec_old.set s.ix1 ⟨s.type, st.rank_new, s.ix2, 0, s.val1, 0, 0⟩
          spec_new := st.spec_new ++ [⟨s.type, s.ix1, s.ix2, 0, s.val1, 0, 0⟩]
          rank_new := st.rank_new + 1 }
  | .range =>
    if t.size.getD s.ix1 0 ≤ s.ix2 ∨ t.size.getD s.ix1 0 ≤ s.ix3 then
      .error (exit_at err_on_fail .range_beyond)
    else
      .ok { st with
            size_new := st.size_new ++
              [if s.ix2 < s.ix3 then s.ix3 - s.ix2 + 1 else s.ix2 - s.ix3 + 1]
            spec_old := st.spec_old.set s.ix1 ⟨s.type, st.rank_new, s.ix2, s.ix3, s.val1, 0, 0⟩
            spec_new := st.spec_new ++ [⟨s.type, s.ix1, s.ix2, s.ix3, s.val1, 0, 0⟩]
            rank_new := st.rank_new + 1 }
  | .trace =>
    let sz := if t.size.getD s.ix1 0 < t.size.getD s.ix2 0 then t.size.getD s.ix1 0
      else t.size.getD s.ix2 0
    .ok { st with
          n_sum_loop := st.n_sum_loop * sz
          sum_sizes := st.sum_sizes ++ [sz]
          spec_old := (st.spec_old.set s.ix1 ⟨s.type, s.ix1, s.ix2, 0, s.val1, 0, 0⟩).set s.ix2
            ⟨s.type, s.ix2, s.ix1, 0, s.val1, 0, 0⟩ }
  | .sum =>
    .ok { st with
          n_sum_loop := st.n_sum_loop * t.size.getD s.ix1 0
          sum_sizes := st.sum_sizes ++ [t.size.getD s.ix1 0]
          spec_old := st.spec_old.set s.ix1 ⟨s.type, s.ix1, s.ix2, 0, s.val1, 0, 0⟩ }
  | .fixed =>
    .ok { st with
          spec_old := st.spec_old.set s.ix1 ⟨s.type, st.rank_new, s.ix2, 0, s.val1, 0, 0⟩ }
  | .interp =>
    .ok { st with
          spec_old := st.spec_old.set s.ix1 ⟨s.type, st.rank_new, s.ix2, 0, s.val1, 0, 0⟩
          n_interps := st.n_interps + 1
          ix_to_interp := st.ix_to_interp ++ [s.ix1] }
  | .grid =>
    .ok { st with
          spec_old := st.spec_old.set s.ix1
            ⟨s.type, st.rank_new, s.ix2, s.ix3, s.val1, s.val2, s.val3⟩
          n_interps := st.n_interps + 1
          rank_new := st.rank_new + 1
          size_new := st.size_new ++
            [if s.ix3 = 1 then ext.pow_size (s.val2 / s.val1) (1 / s.val3)
             else (Int.floor ((s.val2 - s.val1) / s.val3)).toNat]
          ix_to_interp := st.ix_to_interp ++ [s.ix1] }
  | .empty => .error (exit_at err_on_fail .type_not_allowed)

/-- The first loop of `rearrange_and_copy` over the entries of `spec`. -/
def classify_loop (ext : externals) (t : tensor_grid) (err_on_fail : Bool) :
    List index_spec → rearr → Except rearr_exit rearr
  | [], st => .ok st
  | s :: rest, st =>
    match classify_step ext t err_on_fail st s with
    | .error x => .error x
    | .ok st1 => classify_loop ext t err_on_fail rest st1

/-- The loop `for(i=0;i<rank_old;i++)` that looks for old axes left without an entry,
over the axes listed: with `err_on_fail` an empty entry raises, without it the first
round returns the empty tensor. -/
def validate_loop (err_on_fail : Bool) (spec_old : List index_spec) :
    List Nat → Option rearr_exit
  | [] => none
  | i :: rest =>
    if err_on_fail then
      if (spec_old.getD i index_spec_empty).type = .empty then
        some (.raised .not_all_accounted)
      else validate_loop err_on_fail spec_old rest
    else some .returned_empty

/-- The part of `rearrange_and_copy` before the new tensor is created: the first loop,
the test of the new rank and the test of the old axes. -/
def rearrange_check (ext : externals) (t : tensor_grid) (spec : List index_spec)
    (err_on_fail : Bool) : Except rearr_exit rearr :=
  match classify_loop ext t err_on_fail spec (rearr_init t.rk) with
  | .error x => .error x
  | .ok st =>
    if st.rank_new = 0 then .error (exit_at err_on_fail .zero_new_indices)
    else
      match validate_loop err_on_fail st.spec_old (List.range t.rk) with
      | some x => .error x
      | none => .ok st

/-- The body of the loop over the old axes `j` that locates the cell `i` of the new
tensor in the old one; the state is `(ix_old, interp_vals)`. -/
def old_index_step (t : tensor_grid) (st : rearr) (i : Nat) (ix_new : List Nat)
    (s : List Nat × List ℚ) (j : Nat) : List Nat × List ℚ :=
  let so := st.spec_old.getD j index_spec_empty
  match so.type with
  | .index => (s.1.set j (ix_new.getD so.ix1 0), s.2)
  | .range =>
    if so.ix2 < so.ix3 then
      (s.1.set j (ix_new.getD so.ix1 0 + (st.spec_old.getD i index_spec_empty).ix2), s.2)
    else (s.1.set j (so.ix2 - ix_new.getD so.ix1 0), s.2)
  | .reverse => (s.1.set j (get_size t j - 1 - ix_new.getD so.ix1 0), s.2)
  | .fixed => (s.1.set j so.ix2, s.2)
  | .interp => (s.1, s.2 ++ [so.val1])
  | .grid =>
    if so.ix3 = 1 then (s.1, s.2 ++ [so.val1 * so.val3 ^ (ix_new.getD so.ix1 0)])
    else (s.1, s.2 ++ [so.val1 + (ix_new.getD so.ix1 0 : ℚ) * so.val3])
  | _ => s

/-- The body of the loop that unpacks `j` into `sum_ix`; the state is `(j2, sum_ix)`. -/
def unpack_sum_step (sum_sizes : List Nat) (n_sums : Nat) (s : Nat × List Nat) (k : Nat) :
    Nat × List Nat :=
  if k = n_sums - 1 then (s.1, s.2.set k s.1)
  else
    let sub_size := (List.range' (k + 1) (n_sums - (k + 1))).foldl
      (fun p kk => p * sum_sizes.getD kk 0) 1
    (s.1 - sub_size * (s.1 / sub_size), s.2.set k (s.1 / sub_size))

/-- The body of the loop that copies `sum_ix` to the summed and traced entries of
`ix_old`; the state is `(ix_old, cnt)`. -/
def remap_step (spec_old : List index_spec) (sum_ix : List Nat) (s : List Nat × Nat)
    (k : Nat) : Except exc (List Nat × Nat) :=
  let so := spec_old.getD k index_spec_empty
  if so.type = .sum then
    if sum_ix.length ≤ s.2 then .error .exc_esanity
    else .ok (s.1.set k (sum_ix.getD s.2 0), s.2 + 1)
  else if so.type = .trace ∧ so.ix1 < so.ix2 then
    if sum_ix.length ≤ s.2 then .error .exc_esanity
    else .ok ((s.1.set so.ix1 (sum_ix.getD s.2 0)).set so.ix2 (sum_ix.getD s.2 0), s.2 + 1)
  else .ok s

/-- The body of the loop `for(j=0;j<n_sum_loop;j++)`; the state is
`(val, ix_old, sum_ix)`. -/
def sum_step (ext : externals) (t : tensor_grid) (st : rearr) (interp_vals : List ℚ)
    (s : ℚ × List Nat × List Nat) (j : Nat) : Except exc (ℚ × List Nat × List Nat) :=
  let n_sums := st.sum_sizes.length
  let sum_ix := ((List.range n_sums).foldl (unpack_sum_step st.sum_sizes n_sums)
    (j, s.2.2)).2
  match for_loop (remap_step st.spec_old sum_ix) (List.range t.rk) (s.2.1, 0) with
  | .error e => .error e
  | .ok r =>
    if 0 < st.n_interps then
      match interp_linear_partial ext t st.ix_to_interp r.1 interp_vals with
      | .error e => .error e
      | .ok x => .ok (s.1 + x, r.1, sum_ix)
    else .ok (s.1 + get t r.1, r.1, sum_ix)

/-- The variables that live across the cells of the new tensor. -/
structure cell_state where
  t_new : tensor_grid
  ix_new : List Nat
  ix_old : List Nat
  sum_ix : List Nat

/-- The body of the loop over the cells `i` of the new tensor. -/
def cell_step (ext : externals) (t : tensor_grid) (st : rearr) (s : cell_state) (i : Nat) :
    Except exc cell_state :=
  let ix_new := write_front s.ix_new (unpack_index s.t_new.size i)
  let o := (List.range t.rk).foldl (old_index_step t st i ix_new)
    (s.ix_old, List.replicate st.n_interps 0)
  match for_loop (sum_step ext t st o.2) (List.range st.n_sum_loop) (0, o.1, s.sum_ix) with
  | .error e => .error e
  | .ok r => .ok ⟨set s.t_new ix_new r.1, ix_new, r.2.1, r.2.2⟩

/-- The method `rearrange_and_copy(spec,verbose,err_on_fail)`; `verbose` only selects
what is printed and is left out. -/
def rearrange_and_copy (ext : externals) (t : tensor_grid) (spec : List index_spec)
    (err_on_fail : Bool) : Except exc tensor_grid :=
  match rearrange_check ext t spec err_on_fail with
  | .error x => exit_result x
  | .ok st =>
    match tensor_grid_rank_dim st.rank_new st.size_new with
    | .error e => .error e
    | .ok t_new =>
      match for_loop (cell_step ext t st) (List.range (total_size t_new))
          ⟨t_new, List.replicate st.rank_new 0, List.replicate t.rk 0,
            List.replicate st.sum_sizes.length 0⟩ with
      | .error e => .error e
      | .ok s => .ok s.t_new

/-! ## More sample objects -/

/-- Shape `(3,2)` without a grid, values 1 to 6 in row-major order. -/
def sample32 : tensor_grid :=
  { rk := 2, size := [3, 2], data := [1, 2, 3, 4, 5, 6], grid := [], grid_set := false,
    itype := itp_linear }

/-- Shape `(2,2,2)` without a grid, zero except the cell `(1,0,1)` that holds 5. -/
def sample222 : tensor_grid :=
  { rk := 3, size := [2, 2, 2], data := [0, 0, 0, 0, 0, 5, 0, 0], grid := [],
    grid_set := false, itype := itp_linear }

/-! ## Validity check -/

/-- Rank 1, two points, data `[1,2]`, no grid. -/
def sample_nogrid : tensor_grid :=
  { rk := 1, size := [2], data := [1, 2], grid := [], grid_set := false,
    itype := itp_linear }

/-- Shape `(3,1)` without a grid, values 10, 20, 30. -/
def sample31 : tensor_grid :=
  { rk := 2, size := [3, 1], data := [10, 20, 30], grid := [], grid_set := false,
    itype := itp_linear }

/-! ## Well-formed spec lists -/

/-- A Range entry with a bound that is not below the size of its source axis. -/
def bad_range (t : tensor_grid) (s : index_spec) : Prop :=
  s.type = .range ∧ (t.size.getD s.ix1 0 ≤ s.ix2 ∨ t.size.getD s.ix1 0 ≤ s.ix3)

instance (t : tensor_grid) (s : index_spec) : Decidable (bad_range t s) := by
  unfold bad_range; infer_instance

/-- An entry that gives an axis to the new tensor: Index, Reverse, Range or Grid. -/
def keeps_axis (s : index_spec) : Bool :=
  s.type = .index ∨ s.type = .reverse ∨ s.type = .range ∨ s.type = .grid

/-- The rank of the new tensor: the number of entries that give it an axis. -/
def new_rank (spec : List index_spec) : Nat :=
  (spec.filter keeps_axis).length

/-- The entry `s` assigns the source axis `a`: it has a supported type and names `a`
(as its axis, or as the second axis of a Trace). -/
def assigns (s : index_spec) (a : Nat) : Prop :=
  s.type ≠ .empty ∧ (s.ix1 = a ∨ (s.type = .trace ∧ s.ix2 = a))

instance (s : index_spec) (a : Nat) : Decidable (assigns s a) := by
  unfold assigns; infer_instance

/-- The source axis `a` is assigned by some entry of the spec list. -/
def covered (spec : List index_spec) (a : Nat) : Prop :=
  ∃ s, s ∈ spec ∧ assigns s a

instance (spec : List index_spec) (a : Nat) : Decidable (covered spec a) := by
  unfold covered; infer_instance

/-- The tensors built for `interp_linear_power_two`: rank `n`, two points on every
axis, grid set. -/
def hypercube (n : Nat) (t : tensor_grid) : Prop :=
  t.rk = n ∧ t.size = List.replicate n 2 ∧ t.grid_set = true

/-! ## Grid of one axis -/

/-- The method `set_grid_i_vec(ix,grid_vec)`: the double loop walks the packed grid with
the counter `k` and writes `grid_vec[j]` where the test `j==ix` holds; the state of the
loops is `(grid, k)`. -/
def set_grid_i_vec (t : tensor_grid) (ix : Nat) (grid_vec : List ℚ) : outcome :=
  if t.grid_set = false then ⟨t, some .exc_einval⟩
  else if t.rk = 0 then ⟨t, some .exc_einval⟩
  else
    let r := (List.range t.rk).foldl (fun s i =>
      (List.range (t.size.getD i 0)).foldl (fun s j =>
        ((if j = ix then s.1.set s.2 (grid_vec.getD j 0) else s.1), s.2 + 1)) s) (t.grid, 0)
    ⟨{ t with grid := r.1 }, none⟩

/-- Shape `(3,2,1)` without a grid, values 1 to 6 in row-major order. -/
def sample321 : tensor_grid :=
  { rk := 3, size := [3, 2, 1], data := [1, 2, 3, 4, 5, 6], grid := [], grid_set := false,
    itype := itp_linear }

/-! ## The 2D table that receives a projection -/

/-- Modelled from the spec: the 2D table `table3d` used as the projection target
(`table3d.h` is not among the sources): `numx` by `numy` points, their grid values, and
named slices, each slice a list of `numx` rows of `numy` values. -/
structure table3d where
  numx : Nat
  numy : Nat
  xval : List ℚ
  yval : List ℚ
  slices : List (String × List (List ℚ))

/-- Modelled from the spec: a default-constructed `table3d`, without points and without
slices. -/
def table3d_empty : table3d :=
  { numx := 0, numy := 0, xval := [], yval := [], slices := [] }

/-- Modelled from the spec: `table3d::get_size(nx,ny)`. -/
def table3d.get_size (tab : table3d) : Nat × Nat := (tab.numx, tab.numy)

/-- Modelled from the spec: `table3d::set_xy(x_name,nx,x,y_name,ny,y)`, the grid names
left out. -/
def table3d.set_xy (tab : table3d) (nx : Nat) (x : List ℚ) (ny : Nat) (y : List ℚ) :
    table3d :=
  { tab with numx := nx, numy := ny, xval := (List.range nx).map (fun i => x.getD i 0),
             yval := (List.range ny).map (fun j => y.getD j 0) }

/-- Modelled from the spec: `table3d::get_grid_x(i)`. -/
def table3d.get_grid_x (tab : table3d) (i : Nat) : ℚ := tab.xval.getD i 0

/-- Modelled from the spec: `table3d::get_grid_y(j)`. -/
def table3d.get_grid_y (tab : table3d) (j : Nat) : ℚ := tab.yval.getD j 0

/-- The rows of the first slice called `name`, no rows when there is none. -/
def table3d.slice (tab : table3d) (name : String) : List (List ℚ) :=
  match tab.slices.find? (fun p => p.1 == name) with
  | some p => p.2
  | none => []

/-- Modelled from the spec: `table3d::is_slice(name,ix)`, whether a slice called `name`
is present. -/
def table3d.is_slice (tab : table3d) (name : String) : Bool :=
  (tab.slices.find? (fun p => p.1 == name)).isSome

/-- Modelled from the spec: `table3d::new_slice(name)`, a new slice of zeros. -/
def table3d.new_slice (tab : table3d) (name : String) : table3d :=
  { tab with slices := tab.slices ++
      [(name, List.replicate tab.numx (List.replicate tab.numy 0))] }

/-- Modelled from the spec: `table3d::get(i,j,name)`. -/
def table3d.get (tab : table3d) (i j : Nat) (name : String) : ℚ :=
  ((tab.slice name).getD i []).getD j 0

/-- The entry `(i,j)` of a list of rows overwritten. -/
def mat_set (m : List (List ℚ)) (i j : Nat) (val : ℚ) : List (List ℚ) :=
  m.set i ((m.getD i []).set j val)

/-- Modelled from the spec: `table3d::set(i,j,name,val)`. -/
def table3d.set (tab : table3d) (i j : Nat) (name : String) (val : ℚ) : table3d :=
  { tab with slices := tab.slices.map (fun p =>
      if p.1 = name then (p.1, mat_set p.2 i j val) else p) }

/-- Modelled from the spec: `table3d::set_slice_all(name,val)`. -/
def table3d.set_slice_all (tab : table3d) (name : String) (val : ℚ) : table3d :=
  { tab with slices := tab.slices.map (fun p =>
      if p.1 = name then (p.1, List.replicate tab.numx (List.replicate tab.numy val))
      else p) }

/-- The shape invariant of a table: every slice has `numx` rows of `numy` values. -/
def table3d.wf (tab : table3d) : Prop :=
  ∀ p, p ∈ tab.slices → p.2.length = tab.numx ∧ ∀ row, row ∈ p.2 → row.length = tab.numy

instance (tab : table3d) : Decidable tab.wf := by
  unfold table3d.wf; infer_instance

/-! ## Projection to a 2D table -/

/-- The method `copy_grid(i,v)`. -/
def copy_grid (t : tensor_grid) (i : Nat) (v : List ℚ) : List ℚ :=
  (List.range (t.size.getD i 0)).foldl
    (fun v k => v.set k (t.grid.getD (istart_of t.size i + k) 0))
    (vec_resize 0 v (t.size.getD i 0))

/-- The writes `index[k]=...` of `unpack_index(ix,index)` into the vector handed to it,
which it does not resize: the entries of `src` are written by index into `dst`, and a
write beyond the end of `dst` is dropped. -/
def write_index (dst src : List Nat) : List Nat :=
  (List.range src.length).foldl (fun d k => d.set k (src.getD k 0)) dst

/-- The method `convert_table3d_sum(ix_x,ix_y,tab,x_name,y_name,slice_name)`; the names
of the two grids are left out. The state of the loop over the cells is `(tab, ix)`:
the vector `ix` is declared empty (`std::vector<size_t> ix;`) and handed as it is to
`unpack_index`; the reads `ix[ix_x]`, `ix[ix_y]` beyond its end give 0. -/
def convert_table3d_sum (t : tensor_grid) (ix_x ix_y : Nat) (tab : table3d)
    (slice_name : String) : Except exc table3d :=
  let tab1 :=
    if tab.get_size.1 = 0 ∧ tab.get_size.2 = 0 then
      let grid_x := copy_grid t ix_x []
      let grid_y := copy_grid t ix_y []
      tab.set_xy grid_x.length grid_x grid_y.length grid_y
    else tab
  let nx := tab1.get_size.1
  let ny := tab1.get_size.2
  if nx ≠ t.size.getD ix_x 0 ∨ ny ≠ t.size.getD ix_y 0 then .error .exc_einval
  else
    let tab2 := tab1.set_slice_all slice_name 0
    .ok ((List.range (total_size t)).foldl (fun (s : table3d × List Nat) i =>
      let ix := write_index s.2 (unpack_index t.size i)
      (s.1.set (ix.getD ix_x 0) (ix.getD ix_y 0) slice_name
        (s.1.get (ix.getD ix_x 0) (ix.getD ix_y 0) slice_name + t.data.getD i 0), ix))
      (tab2, [])).1

/-- The method `copy_table3d_align(ix_x,ix_y,index,tab,slice_name)`: the table and the
vector `index` as the call leaves them. The state of the loops is `(tab, index)`. -/
def copy_table3d_align (t : tensor_grid) (ix_x ix_y : Nat) (index : List Nat)
    (tab : table3d) (slice_name : String) : Except exc (table3d × List Nat) :=
  if t.rk ≤ ix_x ∨ t.rk ≤ ix_y ∨ ix_x = ix_y then .error .exc_efailed
  else
    let nx := tab.get_size.1
    let ny := tab.get_size.2
    if nx ≠ t.size.getD ix_x 0 ∨ ny ≠ t.size.getD ix_y 0 then .error .exc_einval
    else
      let tab1 := if tab.is_slice slice_name then tab else tab.new_slice slice_name
      .ok ((List.range nx).foldl (fun (s : table3d × List Nat) i =>
        (List.range ny).foldl (fun (s : table3d × List Nat) j =>
          let index := (s.2.set ix_x i).set ix_y j
          (s.1.set i j slice_name (get t index), index)) s) (tab1, index))

/-- The method `copy_table3d_align_setxy(ix_x,ix_y,index,tab,x_name,y_name,slice_name)`;
the names of the two grids are left out. -/
def copy_table3d_align_setxy (t : tensor_grid) (ix_x ix_y : Nat) (index : List Nat)
    (tab : table3d) (slice_name : String) : Except exc (table3d × List Nat) :=
  let tab1 :=
    if tab.get_size.1 = 0 ∧ tab.get_size.2 = 0 then
      let grid_x := copy_grid t ix_x []
      let grid_y := copy_grid t ix_y []
      tab.set_xy grid_x.length grid_x grid_y.length grid_y
    else tab
  copy_table3d_align t ix_x ix_y index tab1 slice_name

/-- The loop `for(i=0;i<rk;i++) if (i!=ix_x && i!=ix_y) vals[i]=get_grid(i,index[i])` of
`copy_table3d_interp`. -/
def fixed_vals_step (t : tensor_grid) (ix_x ix_y : Nat) (index : List Nat) (vals : List ℚ)
    (i : Nat) : Except exc (List ℚ) :=
  if i ≠ ix_x ∧ i ≠ ix_y then
    match get_grid t i (index.getD i 0) with
    | .error e => .error e
    | .ok g => .ok (vals.set i g)
  else .ok vals

/-- The method `copy_table3d_interp(ix_x,ix_y,index,tab,slice_name)`. The state of the
loops over the table is `(tab, vals)`. -/
def copy_table3d_interp (ext : externals) (t : tensor_grid) (ix_x ix_y : Nat)
    (index : List Nat) (tab : table3d) (slice_name : String) :
    Except exc (table3d × List Nat) :=
  if t.rk ≤ ix_x ∨ t.rk ≤ ix_y ∨ ix_x = ix_y then .error .exc_efailed
  else
    let nx := tab.get_size.1
    let ny := tab.get_size.2
    if nx = 0 ∧ ny = 0 then copy_table3d_align t ix_x ix_y index tab slice_name
    else
      match for_loop (fixed_vals_step t ix_x ix_y index) (List.range t.rk)
          (List.replicate t.rk 0) with
      | .error e => .error e
      | .ok vals =>
        let tab1 := if tab.is_slice slice_name then tab else tab.new_slice slice_name
        match for_loop (fun (s : table3d × List ℚ) i =>
            for_loop (fun (s : table3d × List ℚ) j =>
              let vals := (s.2.set ix_x (s.1.get_grid_x i)).set ix_y (s.1.get_grid_y j)
              match interp_linear ext t vals with
              | .error e => .error e
              | .ok x => .ok (s.1.set i j slice_name x, vals)) (List.range ny) s)
            (List.range nx) (tab1, vals) with
        | .error e => .error e
        | .ok s => .ok (s.1, index)

/-! ## Slices by interpolation -/

/-- The search `for(k...) if (ifix[k]==j) ix_found=k` of `copy_slice_interp`, with `none`
for `-1`; the test `found` of its first loop is whether the search ends on an entry. -/
def find_fixed (ifix : List Nat) (j : Nat) : Option Nat :=
  (List.range ifix.length).foldl (fun r k => if ifix.getD k 0 = j then some k else r) none

/-- One round of the first loop of `copy_slice_interp`; the state is
`(sz_new, grid_new)`. -/
def slice_shape_step (t : tensor_grid) (ifix : List Nat) (s : List Nat × List (List ℚ))
    (i : Nat) : Except exc (List Nat × List (List ℚ)) :=
  if (find_fixed ifix i).isSome = false then
    match grid_one_loop t i (List.range (get_size t i)) with
    | .error e => .error e
    | .ok grid_temp => .ok (s.1 ++ [get_size t i], s.2 ++ [grid_temp])
  else .ok s

/-- One round of the loop of `copy_slice_interp` that fills `point_old` for the cell
`ix_new`. -/
def point_old_step (t : tensor_grid) (ifix : List Nat) (vals : List ℚ) (ix_new : List Nat)
    (point_old : List ℚ) (j : Nat) : Except exc (List ℚ) :=
  match find_fixed ifix j with
  | none =>
    match get_grid t j (ix_new.getD j 0) with
    | .error e => .error e
    | .ok g => .ok (point_old.set j g)
  | some k => .ok (point_old.set j (vals.getD k 0))

/-- The method `copy_slice_interp(ifix,vals)`. The state of the loop over the cells is
`(tg_new, ix_new, point_old)`. -/
def copy_slice_interp (ext : externals) (t : tensor_grid) (ifix : List Nat) (vals : List ℚ) :
    Except exc tensor_grid :=
  if t.rk < 1 + ifix.length then .error .exc_einval
  else if ifix.length ≠ vals.length then .error .exc_einval
  else
    let rank_new := t.rk - ifix.length
    match for_loop (slice_shape_step t ifix) (List.range t.rk) ([], []) with
    | .error e => .error e
    | .ok shape =>
      match tensor_grid_rank_dim rank_new shape.1 with
      | .error e => .error e
      | .ok tg0 =>
        let o := set_grid tg0 shape.2
        match o.raised with
        | some e => .error e
        | none =>
          match for_loop (fun (s : tensor_grid × List Nat × List ℚ) i =>
              let ix_new := write_front s.2.1 (unpack_index s.1.size i)
              match for_loop (point_old_step t ifix vals ix_new) (List.range t.rk) s.2.2 with
              | .error e => .error e
              | .ok point_old =>
                match interp_linear ext t point_old with
                | .error e => .error e
                | .ok x => .ok (set s.1 ix_new x, ix_new, point_old))
              (List.range (total_size o.st))
              (o.st, List.replicate rank_new 0, List.replicate t.rk 0) with
          | .error e => .error e
          | .ok s => .ok s.1

/-- A table with 3 by 3 points on the grids `[0,1,2]` and the slice `z` of zeros. -/
def sample_tab33 : table3d :=
  { numx := 3, numy := 3, xval := [0, 1, 2], yval := [0, 1, 2],
    slices := [("z", [[0, 0, 0], [0, 0, 0], [0, 0, 0]])] }

/-! ## Spec lists that keep, reverse or sum axes -/

/-- The spec list with one entry per position `m < n`, of type `ty m` on the old axis
`pi m`, the other members as the makers `ix_index`, `ix_reverse` and `ix_sum` leave
them. -/
def axis_spec (ty : Nat → spec_type) (pi : Nat → Nat) (n : Nat) : List index_spec :=
  (List.range n).map (fun m => ⟨ty m, pi m, 0, 0, 0, 0, 0⟩)

/-- The number of entries before position `m` that are not sums: the new axis of the
entry at position `m` when it is kept. -/
def kept_before (ty : Nat → spec_type) (m : Nat) : Nat :=
  ((List.range m).filter (fun k => decide (ty k ≠ .sum))).length

/-- The sizes of the new tensor for the spec list `axis_spec ty pi n`: the sizes of the
axes of the entries that are not sums, in the order of the list. -/
def kept_sizes (t : tensor_grid) (ty : Nat → spec_type) (pi : Nat → Nat) (n : Nat) :
    List Nat :=
  ((List.range n).filter (fun k => decide (ty k ≠ .sum))).map (fun k => t.size.getD (pi k) 0)

/-- The number of index combinations of the summed axes of `axis_spec ty pi n`. -/
def sum_extent (t : tensor_grid) (ty : Nat → spec_type) (pi : Nat → Nat) (n : Nat) : Nat :=
  (((List.range n).filter (fun k => decide (ty k = .sum))).map
    (fun k => t.size.getD (pi k) 0)).prod

/-- The index on the old axis `j` of the cell read for the cell `u` of the new tensor in
round `jj` of the sum loop, by the entry of the old-axis table: a kept axis takes the
index of its new axis, a reversed axis counts it from the end, a summed or traced axis
takes the round. -/
def old_ix (t : tensor_grid) (spec_old : List index_spec) (u : List Nat) (jj j : Nat) : Nat :=
  match (spec_old.getD j index_spec_empty).type with
  | .index => u.getD (spec_old.getD j index_spec_empty).ix1 0
  | .reverse => t.size.getD j 0 - 1 - u.getD (spec_old.getD j index_spec_empty).ix1 0
  | _ => jj

/-- The cell of the old tensor read for the cell `u` of the new tensor in round `jj` of
the sum loop. -/
def old_cell (t : tensor_grid) (spec_old : List index_spec) (u : List Nat) (jj : Nat) :
    List Nat :=
  (List.range t.rk).map (old_ix t spec_old u jj)

/-- The same cell in terms of the spec list `axis_spec ty pi n`: `rho j` is the position
of the entry on the old axis `j`. -/
def axis_cell (t : tensor_grid) (ty : Nat → spec_type) (rho : Nat → Nat) (u : List Nat)
    (jj : Nat) : List Nat :=
  (List.range t.rk).map (fun j =>
    match ty (rho j) with
    | .reverse => t.size.getD j 0 - 1 - u.getD (kept_before ty (rho j)) 0
    | .sum => jj
    | _ => u.getD (kept_before ty (rho j)) 0)

/-- The invariants of a tensor built by the constructors: one positive size per axis and
one value per cell. -/
def valid (t : tensor_grid) : Prop :=
  t.size.length = t.rk ∧ (∀ k, k < t.rk → 0 < t.size.getD k 0) ∧
    t.data.length = t.size.prod

instance (t : tensor_grid) : Decidable (valid t) := by
  unfold valid; infer_instance

/-! ## Linear interpolation with one free axis -/

/-- The loop of the rank-2 case of `interp_linear_power_two_vec0`; the state is
`(res, ix0, ix1)`. -/
def vec0_base_loop (t : tensor_grid) (v : List ℚ) (n : Nat)
    (s : List ℚ × List Nat × List Nat) : List ℚ × List Nat × List Nat :=
  (List.range n).foldl (fun (s : List ℚ × List Nat × List Nat) i =>
    let ix0 := s.2.1.set 0 i
    let ix1 := s.2.2.set 0 i
    (s.1.set i (get t ix0 + (get t ix1 - get t ix0) /
      (t.grid.getD (n + 1) 0 - t.grid.getD n 0) * (v.getD 1 0 - t.grid.getD n 0)),
     ix0, ix1)) s

/-- The recursion of `interp_linear_power_two_vec0(v,res)`, one level per unit of
`fuel`. -/
def power_two_vec0_loop : Nat → tensor_grid → List ℚ → List ℚ → Except exc (List ℚ)
  | 0, _, _, _ => .error .exc_esanity
  | fuel + 1, t, v, res =>
    if t.rk = 2 then
      let n := t.size.getD 0 0
      .ok (vec0_base_loop t v n
        (vec_resize 0 res n, (List.replicate 2 0).set 1 0, (List.replicate 2 0).set 1 1)).1
    else
      let last := t.rk - 1
      match get_grid t last 0, get_grid t last 1 with
      | .error e, _ => .error e
      | _, .error e => .error e
      | .ok g0, .ok g1 =>
        let frac := (v.getD last 0 - g0) / (g1 - g0)
        match tensor_grid_rank_dim (t.rk - 1) t.size with
        | .error e => .error e
        | .ok tnew0 =>
          let o := set_grid_packed tnew0 t.grid
          match o.raised with
          | some e => .error e
          | none => power_two_vec0_loop fuel (collapse_last t o.st frac) v res

/-- The method `interp_linear_power_two_vec0(v,res)`: the rank drops by one at each
level, so `rk+1` levels are enough. -/
def interp_linear_power_two_vec0 (t : tensor_grid) (v res : List ℚ) : Except exc (List ℚ) :=
  power_two_vec0_loop (t.rk + 1) t v res

/-- The method `interp_linear_vec0(v,res)`: the grid of axis 0 is copied whole, the
corner search runs over the axes from 1 on. -/
def interp_linear_vec0 (ext : externals) (t : tensor_grid) (v res : List ℚ) :
    Except exc (List ℚ) :=
  let gnew0 := (List.range (t.size.getD 0 0)).foldl (fun g i => g ++ [t.grid.getD i 0]) []
  let c := (List.range' 1 (t.rk - 1)).foldl (corner_step ext t v)
    (t.size.getD 0 0, (List.replicate t.rk 0).set 0 0, gnew0)
  let snew := (List.range' 1 (t.rk - 1)).foldl (fun s i => s.set i 2)
    ((List.replicate t.rk 0).set 0 (t.size.getD 0 0))
  match tensor_grid_rank_dim t.rk snew with
  | .error e => .error e
  | .ok tnew0 =>
    let o := set_grid_packed tnew0 c.2.2
    match o.raised with
    | some e => .error e
    | none => interp_linear_power_two_vec0 (copy_corner t o.st c.2.1) v res

/-- The vector `map` of `interp_linear_vec`: the free axis first, then the others. -/
def free_map (rk ifree : Nat) : List Nat :=
  (List.range rk).foldl (fun m i => if i ≠ ifree then m ++ [i] else m) [ifree]

/-- The corner search of `interp_linear_vec`; the state is `(rgs, loc)`. -/
def free_corner_step (ext : externals) (t : tensor_grid) (v : List ℚ) (ifree : Nat)
    (s : Nat × List Nat) (i : Nat) : Nat × List Nat :=
  let grid_unpacked := unpack_grid t i s.1
  (s.1 + t.size.getD i 0,
    if i ≠ ifree then s.2.set i (ext.find grid_unpacked (v.getD i 0)) else s.2)

/-- The body of the double loop of `interp_linear_vec` that fills the remapped grid and
point; the state is `(gnew, vnew)`. -/
def remap_grid_step (t : tensor_grid) (v : List ℚ) (ifree : Nat) (map loc : List Nat)
    (new_ix : Nat) (s : List ℚ × List ℚ) (old_ix : Nat) : Except exc (List ℚ × List ℚ) :=
  if map.getD new_ix 0 = old_ix then
    if old_ix = ifree then
      match grid_one_loop t old_ix (List.range (t.size.getD old_ix 0)) with
      | .error e => .error e
      | .ok g => .ok (s.1 ++ g, s.2 ++ [v.getD old_ix 0])
    else
      match get_grid t old_ix (loc.getD old_ix 0), get_grid t old_ix (loc.getD old_ix 0 + 1) with
      | .error e, _ => .error e
      | _, .error e => .error e
      | .ok g0, .ok g1 => .ok (s.1 ++ [g0, g1], s.2 ++ [v.getD old_ix 0])
  else .ok s

/-- The copy loop of `interp_linear_vec`: cell `index_new` of the new tensor receives
the cell of `t` with `index_old[map[j]]=index_new[j]+loc[map[j]]`. -/
def copy_free (t tnew : tensor_grid) (map loc : List Nat) : tensor_grid :=
  (List.range (total_size tnew)).foldl (fun tn i =>
    let index_new := write_front (List.replicate t.rk 0) (unpack_index tn.size i)
    let index_old := (List.range t.rk).foldl
      (fun io j => io.set (map.getD j 0) (index_new.getD j 0 + loc.getD (map.getD j 0) 0))
      (List.replicate t.rk 0)
    set tn index_new (get t index_old)) tnew

/-- The method `interp_linear_vec(v,ifree,res)`. -/
def interp_linear_vec (ext : externals) (t : tensor_grid) (v : List ℚ) (ifree : Nat)
    (res : List ℚ) : Except exc (List ℚ) :=
  let n := t.size.getD ifree 0
  let map := free_map t.rk ifree
  let loc := ((List.range t.rk).foldl (free_corner_step ext t v ifree)
    (0, (List.replicate t.rk 0).set ifree 0)).2
  match for_loop (fun s new_ix =>
      for_loop (remap_grid_step t v ifree map loc new_ix) (List.range t.rk) s)
      (List.range t.rk) ([], []) with
  | .error e => .error e
  | .ok gv =>
    let snew := (List.range t.rk).foldl (fun s i => if i ≠ ifree then s ++ [2] else s) [n]
    match tensor_grid_rank_dim t.rk snew with
    | .error e => .error e
    | .ok tnew0 =>
      let o := set_grid_packed tnew0 gv.1
      match o.raised with
      | some e => .error e
      | none => interp_linear_power_two_vec0 (copy_free t o.st map loc) gv.2 res

/-! ## Vector statistics (`vec_stats.h`) -/

/-- The function `vector_mean(n,data)`: the running update of the mean. -/
def vector_mean (n : Nat) (data : List ℚ) : ℚ :=
  (List.range n).foldl (fun mean i => mean + (data.getD i 0 - mean) / ((i : ℚ) + 1)) 0

/-- The function `vector_variance_fmean(n,data,mean)`. -/
def vector_variance_fmean (n : Nat) (data : List ℚ) (mean : ℚ) : ℚ :=
  (List.range n).foldl (fun var i =>
    let delta := data.getD i 0 - mean
    var + (delta * delta - var) / ((i : ℚ) + 1)) 0

/-- The function `vector_variance(n,data)`. -/
def vector_variance (n : Nat) (data : List ℚ) : Except exc ℚ :=
  if n < 2 then .error .exc_einval
  else
    let mean := vector_mean n data
    let var := vector_variance_fmean n data mean
    .ok (var * (n : ℚ) / (((n - 1 : Nat) : ℚ)))

/-- The function `vector_absdev(n,data,mean)`. -/
def vector_absdev (n : Nat) (data : List ℚ) (mean : ℚ) : ℚ :=
  if n = 0 then 0
  else (List.range n).foldl (fun sum i => sum + |data.getD i 0 - mean|) 0 / (n : ℚ)

/-! ## Interpolation by Kriging (`interp_krige.h`) -/

/-- Collaborators of `interp_krige` that are not among the sources, taken as parameters:
`invert n m` stands for `LU_decomp`, `diagonal_has_zero` and `LU_invert` on the `n` by
`n` matrix `m`, with `none` when the decomposition has a zero on its diagonal; `exp` and
`pow` are the functions of the C library. -/
structure krige_externals where
  invert : Nat → List (List ℚ) → Option (List (List ℚ))
  exp : ℚ → ℚ
  pow : ℚ → ℚ → ℚ

/-- The members of `interp_krige`: `Kinvf` and the covariance function `f` are its own,
`min_size`, `px`, `py` and `sz` come from the base class `interp_base`. -/
structure interp_krige where
  min_size : Nat
  Kinvf : List ℚ
  f : ℚ → ℚ → ℚ
  px : List ℚ
  py : List ℚ
  sz : Nat

/-- What a mutating method of `interp_krige` leaves behind: the object and the error
raised. -/
structure krige_outcome where
  st : interp_krige
  raised : Option exc

/-- The constructor `interp_krige()` writes `min_size` only; the other members are
those of `st0`. -/
def interp_krige_new (st0 : interp_krige) : interp_krige :=
  { st0 with min_size := 2 }

/-- The double loop of `set_covar_noise` that fills `KXX`: the entries below the diagonal
are copied from the entries above it. -/
def covar_KXX (fcovar : ℚ → ℚ → ℚ) (noise_var : ℚ) (n_dim : Nat) (x : List ℚ) :
    List (List ℚ) :=
  (List.range n_dim).foldl (fun m irow =>
    (List.range n_dim).foldl (fun m icol =>
      if icol < irow then mat_set m irow icol ((m.getD icol []).getD irow 0)
      else if irow = icol then
        mat_set m irow icol (fcovar (x.getD irow 0) (x.getD icol 0) + noise_var)
      else mat_set m irow icol (fcovar (x.getD irow 0) (x.getD icol 0))) m)
    (List.replicate n_dim (List.replicate n_dim 0))

/-- Modelled from the spec: `axpy_prod(m,y,v,true)` of Boost stores the product of the
`n` by `n` matrix `m` and the vector `y` in `v`. -/
def axpy_prod (n : Nat) (m : List (List ℚ)) (y : List ℚ) : List ℚ :=
  (List.range n).map (fun i =>
    (List.range n).foldl (fun s j => s + (m.getD i []).getD j 0 * y.getD j 0) 0)

/-- The method `set_covar_noise(n_dim,x,y,fcovar,noise_var)`. -/
def interp_krige.set_covar_noise (ext : krige_externals) (st : interp_krige) (n_dim : Nat)
    (x y : List ℚ) (fcovar : ℚ → ℚ → ℚ) (noise_var : ℚ) : krige_outcome :=
  if n_dim < st.min_size then { st := st, raised := some .exc_einval }
  else
    match ext.invert n_dim (covar_KXX fcovar noise_var n_dim x) with
    | none => { st := { st with f := fcovar }, raised := some .exc_efailed }
    | some inv_KXX =>
      { st := { st with f := fcovar, Kinvf := axpy_prod n_dim inv_KXX y, px := x, py := y,
                        sz := n_dim },
        raised := none }

/-- The method `eval(x0)`. The local `double ret;` has no initialiser, so the loop starts
from whatever the variable holds: the parameter `ret`. -/
def interp_krige.eval (st : interp_krige) (ret : ℚ) (x0 : ℚ) : ℚ :=
  (List.range st.sz).foldl
    (fun ret i => ret + st.f x0 (st.px.getD i 0) * st.Kinvf.getD i 0) ret

/-- The members of `interp_krige_optim`: the parent object, the length scale and the
coefficient of the covariance function. -/
structure interp_krige_optim where
  base : interp_krige
  len : ℚ
  var : ℚ

/-- The method `covar(x1,x2)`. -/
def interp_krige_optim.covar (ext : krige_externals) (o : interp_krige_optim) (x1 x2 : ℚ) :
    ℚ :=
  o.var * ext.exp (-(ext.pow ((x1 - x2) / o.len) 2))

/-- Modelled from the spec: `vector_min_value(n,data)` of `vector.h`, the smallest of the
first `n` entries. -/
def vector_min_value (n : Nat) (data : List ℚ) : ℚ :=
  (List.range n).foldl (fun m i => if data.getD i 0 < m then data.getD i 0 else m)
    (data.getD 0 0)

/-- Modelled from the spec: `vector_copy_jackknife(src,iout,dest)` of `vector.h`, the
copy of `src` without the entry `iout`. -/
def vector_copy_jackknife (src : List ℚ) (iout : Nat) : List ℚ :=
  src.eraseIdx iout

/-- The locals `nvar` and `nlen` of `set_noise`. -/
def nvar : Nat := 10

def nlen : Nat := 10

/-- The double loop of `set_noise` that fills `KXX` in the search: it reads `x`, and the
covariance is `exp(-var*pow((x[irow]-x[icol])/len,2.0))`. -/
def optim_KXX (ext : krige_externals) (var len : ℚ) (n : Nat) (x : List ℚ) : List (List ℚ) :=
  (List.range n).foldl (fun m irow =>
    (List.range n).foldl (fun m icol =>
      if icol < irow then mat_set m irow icol ((m.getD icol []).getD irow 0)
      else mat_set m irow icol
        (ext.exp ((-var) * ext.pow ((x.getD irow 0 - x.getD icol 0) / len) 2))) m)
    (List.replicate n (List.replicate n 0))

/-- One round `k` of the leave-one-out loop of `set_noise`; the state is
`(qual, Kinvf)`. -/
def jackknife_step (ext : krige_externals) (var len : ℚ) (size : Nat) (x y : List ℚ)
    (s : ℚ × List ℚ) (k : Nat) : Except exc (ℚ × List ℚ) :=
  let x2 := vector_copy_jackknife x k
  let y2 := vector_copy_jackknife y k
  match ext.invert (size - 1) (optim_KXX ext var len (size - 1) x) with
  | none => .error .exc_efailed
  | some inv_KXX =>
    let Kinvf := axpy_prod (size - 1) inv_KXX y2
    let ypred := (List.range (size - 1)).foldl (fun yp i =>
      yp + ext.exp ((-var) * ext.pow ((x.getD k 0 - x2.getD i 0) / len) 2) * Kinvf.getD i 0) 0
    let yact := y.getD k 0
    .ok (s.1 + ext.pow (yact - ypred) 2, Kinvf)

/-- The variables of the grid search of `set_noise`: the members `var`, `len` and `Kinvf`
and the locals `var_opt` and `len_opt`. -/
structure search_state where
  var : ℚ
  len : ℚ
  Kinvf : List ℚ
  var_opt : ℚ
  len_opt : ℚ

/-- One round `j` of the inner loop of the search. The local `min_qual` is declared
without initialiser and nothing is ever stored in it: it is a parameter. -/
def search_len_step (ext : krige_externals) (size : Nat) (x y : List ℚ)
    (min_qual len_min len_ratio : ℚ) (i : Nat) (s : search_state) (j : Nat) :
    Except exc search_state :=
  let len := len_min * ext.pow len_ratio ((j : ℚ) / ((nlen : ℚ) - 1))
  match for_loop (jackknife_step ext s.var len size x y) (List.range size) (0, s.Kinvf) with
  | .error e => .error e
  | .ok q =>
    if (i = 0 ∧ j = 0) ∨ q.1 < min_qual then
      .ok { var := s.var, len := len, Kinvf := q.2, var_opt := s.var, len_opt := len }
    else .ok { s with len := len, Kinvf := q.2 }

/-- One round `i` of the outer loop of the search. -/
def search_var_step (ext : krige_externals) (size : Nat) (x y : List ℚ)
    (min_qual var_min var_ratio len_min len_ratio : ℚ) (s : search_state) (i : Nat) :
    Except exc search_state :=
  let var := var_min * ext.pow var_ratio ((i : ℚ) / ((nvar : ℚ) - 1))
  for_loop (search_len_step ext size x y min_qual len_min len_ratio i) (List.range nlen)
    { s with var := var }

/-- The shortest distance between neighbours divided by 3: the local `len_min` of
`set_noise`. -/
def optim_len_min (size : Nat) (x : List ℚ) : ℚ :=
  vector_min_value (size - 1)
    ((List.range (size - 1)).map (fun i => |x.getD (i + 1) 0 - x.getD i 0|)) / 3

/-- The local `len_ratio` of `set_noise`. -/
def optim_len_ratio (size : Nat) (x : List ℚ) : ℚ :=
  |x.getD (size - 1) 0 - x.getD 0 0| * 3 / optim_len_min size x

/-- The method `set_noise(size,x,y,noise_var)` of `interp_krige_optim`. The locals
`min_qual`, `var_opt` and `len_opt` are declared without initialiser: their start values
are parameters. -/
def interp_krige_optim.set_noise (ext : krige_externals) (o : interp_krige_optim)
    (min_qual var_opt len_opt : ℚ) (size : Nat) (x y : List ℚ) (noise_var : ℚ) :
    Except exc interp_krige_optim :=
  match vector_variance size y with
  | .error e => .error e
  | .ok var_min =>
    match for_loop (search_var_step ext size x y min_qual var_min 100
        (optim_len_min size x) (optim_len_ratio size x)) (List.range nvar)
        { var := o.var, len := o.len, Kinvf := o.base.Kinvf, var_opt := var_opt,
          len_opt := len_opt } with
    | .error e => .error e
    | .ok s =>
      let o1 : interp_krige_optim :=
        { base := { o.base with Kinvf := s.Kinvf }, len := s.len_opt, var := s.var_opt }
      let r := o1.base.set_covar_noise ext size x y (o1.covar ext) noise_var
      match r.raised with
      | some e => .error e
      | none => .ok { o1 with base := r.st }

/-- Sample inversion: the inverse of a matrix with one or two rows, `none` when the
determinant is 0 and for other sizes. -/
def sample_invert (n : Nat) (m : List (List ℚ)) : Option (List (List ℚ)) :=
  let a := (m.getD 0 []).getD 0 0
  let b := (m.getD 0 []).getD 1 0
  let c := (m.getD 1 []).getD 0 0
  let d := (m.getD 1 []).getD 1 0
  if n = 1 then (if a = 0 then none else some [[1 / a]])
  else if n = 2 then
    (if a * d - b * c = 0 then none
     else some [[d / (a * d - b * c), -b / (a * d - b * c)],
                [-c / (a * d - b * c), a / (a * d - b * c)]])
  else none

/-- Sample collaborators: the inversion above, and rational stand-ins for `exp` (positive,
increasing, 1 at 0) and `pow` (the square for the exponent 2, 1 for the exponent 0, the
base for the exponent 1). -/
def sample_krige_ext : krige_externals :=
  { invert := sample_invert,
    exp := fun z => if 0 ≤ z then 1 + z else 1 / (1 - z),
    pow := fun a b => if b = 2 then a * a else 1 + (a - 1) * b }

/-- A sample object of `interp_krige_optim` before any call of `set`. -/
def sample_optim : interp_krige_optim :=
  { base := interp_krige_new
      { min_size := 0, Kinvf := [], f := fun _ _ => 0, px := [], py := [], sz := 0 },
    len := 0, var := 0 }

/-! ## Grid from uniform grids -/

/-- Modelled from the spec: a `uniform_grid<double>` (`uniform_grid.h` is not among the
sources) as `set_grid` sees it: the number of points and the point `operator[](j)`. -/
structure uniform_grid where
  npoints : Nat
  point : Nat → ℚ

/-- Modelled from the spec: `uniform_grid::get_npoints()`. -/
def uniform_grid.get_npoints (u : uniform_grid) : Nat := u.npoints

/-- The entry `ugs[i]` of a vector of uniform grids. -/
def ugs_at (ugs : List uniform_grid) (i : Nat) : uniform_grid :=
  ugs.getD i { npoints := 0, point := fun _ => 0 }

/-- The method `set_grid(ugs)` for a vector of uniform grids: the length of the packed
grid and the bounds of the fill loop are taken from `ugs[i].get_npoints()`. -/
def set_grid_ugs (t : tensor_grid) (ugs : List uniform_grid) : outcome :=
  if t.rk = 0 then ⟨t, some .exc_einval⟩
  else
    let ngrid := offset_of (fun i => (ugs_at ugs i).get_npoints) t.rk
    let g1 := vec_resize 0 t.grid ngrid
    let r := fill_grid (fun i j => (ugs_at ugs i).point j)
      (fun i => (ugs_at ugs i).get_npoints) t.rk g1
    ⟨{ t with grid := r.1, grid_set := true }, none⟩

/-- Two uniform grids for a tensor with two axes: four points 0, 1, 2, 3 and three points
5, 6, 7. -/
def sample_ugs : List uniform_grid :=
  [{ npoints := 4, point := fun j => (j : ℚ) }, { npoints := 3, point := fun j => (j : ℚ) + 5 }]

/-! ## The multilinear form -/

/-- The corners of the hypercube with `n` axes: the index vectors with entries 0 and 1. -/
def corners : Nat → List (List Nat)
  | 0 => [[]]
  | n + 1 => (corners n).flatMap (fun c => [c ++ [0], c ++ [1]])

/-- The sum over the corners `c` of the hypercube with `n` axes of `F c` times the
product over the axes `i` of the weight `w i c[i]`. -/
def multilinear_sum (n : Nat) (F : List Nat → ℚ) (w : Nat → Nat → ℚ) : ℚ :=
  ((corners n).map
    (fun c => F c * ((List.range n).map (fun i => w i (c.getD i 0))).prod)).sum

/-- The weight of the index `b` of axis `i` at the point `v`: `1 - t_i` for the index 0
and `t_i` for the index 1, with `t_i = (v[i] - g_i0) / (g_i1 - g_i0)`. -/
def corner_weight (t : tensor_grid) (v : List ℚ) (i b : Nat) : ℚ :=
  if b = 0 then 1 - (v.getD i 0 - grid_at t i 0) / (grid_at t i 1 - grid_at t i 0)
  else (v.getD i 0 - grid_at t i 0) / (grid_at t i 1 - grid_at t i 0)

/-- The multilinear form on a hypercube of rank `r`: the sum over all corners `c` of the
value stored at `c` times the product of the weights of its indices. -/
def multilinear (r : Nat) (t : tensor_grid) (v : List ℚ) : ℚ :=
  multilinear_sum r (get t) (corner_weight t v)

/-- The rank-2 hypercube with grid `[0,1]` on both axes and the values 1, 2, 3, 5. -/
def sample_cube2 : tensor_grid :=
  { rk := 2, size := [2, 2], data := [1, 2, 3, 5], grid := [0, 1, 0, 1], grid_set := true,
    itype := itp_linear }

/-- The grid values of axis `a`, point by point. -/
def axis_grid (t : tensor_grid) (a : Nat) : List ℚ :=
  (List.range (t.size.getD a 0)).map (fun j => grid_at t a j)

/-- The axes of a tensor of rank `rk` other than `ifree`, in their order. -/
def other_axes (rk ifree : Nat) : List Nat :=
  (List.range rk).filter (fun a => decide (a ≠ ifree))

/-- The index found by the bracketing search on axis `a` for the point `v`. -/
def found (ext : externals) (t : tensor_grid) (v : List ℚ) (a : Nat) : Nat :=
  ext.find (axis_grid t a) (v.getD a 0)

/-- The index vector `ix` overwritten, on every axis other than `ifree`, by the index of
the corner `c` plus the index found on that axis. -/
def partial_cell (ext : externals) (t : tensor_grid) (v : List ℚ) (ifree : Nat)
    (c ix : List Nat) : List Nat :=
  (List.range (other_axes t.rk ifree).length).foldl
    (fun ix j => ix.set ((other_axes t.rk ifree).getD j 0)
      (c.getD j 0 + found ext t v ((other_axes t.rk ifree).getD j 0))) ix

/-! ## Nearest grid point: `lookup_grid` -/

/-- Loop invariant of the scan of `lookup_grid_val` over the packed positions
`a, ..., a+n-1`: the running best is a first minimiser of the rounded distance. -/
theorem lookup_scan_spec (fl : ℚ → ℚ) (grid : List ℚ) (v : ℚ) (a n : Nat) :
    let r := (List.range' a n).foldl (lookup_step fl grid v)
      (a, |fl (grid.getD a 0 - v)|, grid.getD a 0)
    r.2.1 = |fl (grid.getD r.1 0 - v)| ∧ r.2.2 = grid.getD r.1 0 ∧ a ≤ r.1 ∧
      (r.1 < a + n ∨ r.1 = a) ∧
      (∀ k, a ≤ k → k < a + n → r.2.1 ≤ |fl (grid.getD k 0 - v)|) ∧
      (∀ k, a ≤ k → k < r.1 → r.2.1 < |fl (grid.getD k 0 - v)|) := by
  induction n with
  | zero =>
    intro r
    refine ⟨rfl, rfl, le_refl _, Or.inr rfl, ?_, ?_⟩
    · intro k h1 h2; omega
    · intro k h1 h2
      have : r.1 = a := rfl
      omega
  | succ n ih =>
    simp only [List.range'_concat, List.foldl_append, List.foldl_cons, List.foldl_nil,
      Nat.one_mul]
    simp only at ih
    generalize (List.range' a n).foldl (lookup_step fl grid v)
      (a, |fl (grid.getD a 0 - v)|, grid.getD a 0) = r at ih ⊢
    obtain ⟨h1, h2, h3, h4, h5, h6⟩ := ih
    unfold lookup_step
    split_ifs with hlt
    · refine ⟨rfl, rfl, by simp, Or.inl (by simp), ?_, ?_⟩
      · intro k hk1 hk2
        rcases Nat.lt_or_ge k (a + n) with hk | hk
        · exact le_of_lt (lt_of_lt_of_le hlt (h5 k hk1 hk))
        · have : k = a + n := by omega
          subst this; simp
      · intro k hk1 hk2
        exact lt_of_lt_of_le hlt (h5 k hk1 hk2)
    · refine ⟨h1, h2, h3, ?_, ?_, h6⟩
      · rcases h4 with h | h
        · exact Or.inl (by omega)
        · exact Or.inr h
      · intro k hk1 hk2
        rcases Nat.lt_or_ge k (a + n) with hk | hk
        · exact h5 k hk1 hk
        · have : k = a + n := by omega
          subst this; exact not_lt.mp hlt

/-- On a set grid and an axis below the rank with at least one point, `lookup_grid_val`
returns the first index of least rounded distance together with the grid value there. -/
theorem lookup_grid_val_spec (fl : ℚ → ℚ) (t : tensor_grid) (i : Nat) (v : ℚ)
    (hset : t.grid_set = true) (hi : i < t.rk) (hsz : 0 < t.size.getD i 0) :
    ∃ j, lookup_grid_val fl t i v = .ok (j, grid_at t i j) ∧ j < t.size.getD i 0 ∧
      (∀ k, k < t.size.getD i 0 → |fl (grid_at t i j - v)| ≤ |fl (grid_at t i k - v)|) ∧
      (∀ k, k < j → |fl (grid_at t i j - v)| < |fl (grid_at t i k - v)|) := by
  have hs := lookup_scan_spec fl t.grid v (istart_of t.size i) (t.size.getD i 0)
  simp only at hs
  unfold lookup_grid_val
  rw [if_neg (by omega), if_neg (by simp [hset])]
  simp only
  generalize (List.range' (istart_of t.size i) (t.size.getD i 0)).foldl
    (lookup_step fl t.grid v) (istart_of t.size i,
      |fl (t.grid.getD (istart_of t.size i) 0 - v)|, t.grid.getD (istart_of t.size i) 0) = r
    at hs ⊢
  obtain ⟨h1, h2, h3, h4, h5, h6⟩ := hs
  have hb : r.1 < istart_of t.size i + t.size.getD i 0 := by
    rcases h4 with h | h <;> omega
  have hg : grid_at t i (r.1 - istart_of t.size i) = t.grid.getD r.1 0 := by
    unfold grid_at
    congr 1
    omega
  refine ⟨r.1 - istart_of t.size i, ?_, by omega, ?_, ?_⟩
  · rw [hg, h2]
  · intro k hk
    rw [hg, ← h1]
    exact h5 _ (by omega) (by omega)
  · intro k hk
    rw [hg, ← h1]
    exact h6 _ (by omega) (by omega)

/-- The method `lookup_grid` forwards the outcome of `lookup_grid_val`, dropping the value. -/
theorem lookup_grid_of_val {fl : ℚ → ℚ} {t : tensor_grid} {i : Nat} {v : ℚ} {j : Nat} {x : ℚ}
    (h : lookup_grid_val fl t i v = .ok (j, x)) : lookup_grid fl t i v = .ok j := by
  unfold lookup_grid
  rw [h]

/-- C2: `lookup_grid(i,v)` raises invalid-argument exactly when the grid is not set or
`i >= rank`, it raises nothing else, and in every other case it returns an index. -/
theorem lookup_grid_fails_iff (fl : ℚ → ℚ) (t : tensor_grid) (i : Nat) (v : ℚ) :
    (lookup_grid fl t i v = .error .exc_einval ↔ (is_grid_set t = false ∨ t.rk ≤ i)) ∧
    (∀ e, lookup_grid fl t i v = .error e → e = .exc_einval) ∧
    (¬ (is_grid_set t = false ∨ t.rk ≤ i) → ∃ j, lookup_grid fl t i v = .ok j) := by
  unfold lookup_grid lookup_grid_val is_grid_set
  by_cases h1 : t.rk ≤ i
  · simp [h1]
  · by_cases h2 : t.grid_set = false
    · simp [h1, h2]
    · simp [h1, h2]

/-- Witness for C2: on the `(3,3)` sample axis 0 is looked up and axis 2 is refused. -/
theorem lookup_grid_fails_iff_witness :
    (∃ j, lookup_grid id sample33 0 (7 / 5) = .ok j) ∧
    lookup_grid id sample33 2 (7 / 5) = .error .exc_einval :=
  ⟨(lookup_grid_fails_iff id sample33 0 (7 / 5)).2.2 (by decide),
   (lookup_grid_fails_iff id sample33 2 (7 / 5)).1.2 (Or.inr (by decide))⟩

/-- The absolute value of a rounded difference grows with the difference above 0, for a
rounding that keeps the order and keeps 0. -/
theorem abs_fl_mono_nonneg (fl : ℚ → ℚ) (hmono : ∀ x y, x ≤ y → fl x ≤ fl y)
    (h0 : fl 0 = 0) (x y : ℚ) (hx : 0 ≤ x) (hxy : x ≤ y) : |fl x| ≤ |fl y| := by
  have h1 : 0 ≤ fl x := by
    rw [← h0]
    exact hmono 0 x hx
  have h2 := hmono x y hxy
  rw [abs_of_nonneg h1, abs_of_nonneg (le_trans h1 h2)]
  exact h2

/-- The absolute value of a rounded difference grows with the size of the difference
below 0, for a rounding that keeps the order and keeps 0. -/
theorem abs_fl_mono_nonpos (fl : ℚ → ℚ) (hmono : ∀ x y, x ≤ y → fl x ≤ fl y)
    (h0 : fl 0 = 0) (x y : ℚ) (hx : x ≤ 0) (hxy : y ≤ x) : |fl x| ≤ |fl y| := by
  have h1 : fl x ≤ 0 := by
    rw [← h0]
    exact hmono x 0 hx
  have h2 := hmono y x hxy
  rw [abs_of_nonpos h1, abs_of_nonpos (le_trans h2 h1)]
  linarith

/-- The index returned by `lookup_grid` on an axis whose rounded distances to `v` do not
decrease from the first point on is 0. -/
theorem lookup_grid_first (fl : ℚ → ℚ) (t : tensor_grid) (i : Nat) (v : ℚ)
    (hset : t.grid_set = true) (hi : i < t.rk) (hsz : 0 < t.size.getD i 0)
    (h : ∀ k, k < t.size.getD i 0 → |fl (grid_at t i 0 - v)| ≤ |fl (grid_at t i k - v)|) :
    lookup_grid fl t i v = .ok 0 := by
  obtain ⟨j, h1, h2, h3, h4⟩ := lookup_grid_val_spec fl t i v hset hi hsz
  rw [lookup_grid_of_val h1]
  rcases Nat.eq_zero_or_pos j with hj | hj
  · rw [hj]
  · exact absurd (h4 0 hj) (not_lt.mpr (h j h2))

/-- The index returned by `lookup_grid` on an axis whose rounded distances to `v` do not
increase up to the point before the last, while the last point has another rounded
difference than the one before it, is `size[i]-1`. -/
theorem lookup_grid_last (fl : ℚ → ℚ) (t : tensor_grid) (i : Nat) (v : ℚ)
    (hset : t.grid_set = true) (hi : i < t.rk) (hsz : 0 < t.size.getD i 0)
    (h : ∀ k, k + 1 < t.size.getD i 0 →
      |fl (grid_at t i (t.size.getD i 0 - 2) - v)| ≤ |fl (grid_at t i k - v)|)
    (hl : |fl (grid_at t i (t.size.getD i 0 - 1) - v)| ≤
      |fl (grid_at t i (t.size.getD i 0 - 2) - v)|)
    (hne : 1 < t.size.getD i 0 →
      |fl (grid_at t i (t.size.getD i 0 - 2) - v)| ≠
        |fl (grid_at t i (t.size.getD i 0 - 1) - v)|) :
    lookup_grid fl t i v = .ok (t.size.getD i 0 - 1) := by
  obtain ⟨j, h1, h2, h3, h4⟩ := lookup_grid_val_spec fl t i v hset hi hsz
  rw [lookup_grid_of_val h1]
  rcases Nat.lt_or_ge j (t.size.getD i 0 - 1) with hlt | hge
  · exfalso
    have ha := h j (by omega)
    have hb := h3 (t.size.getD i 0 - 1) (by omega)
    exact hne (by omega) (le_antisymm (le_trans ha hb) hl)
  · have : j = t.size.getD i 0 - 1 := by omega
    rw [this]

/-- The grid of axis 0 of the `(3,3)` sample increases strictly. -/
theorem sample33_axis0_increasing :
    ∀ j k, j < k → k < sample33.size.getD 0 0 → grid_at sample33 0 j < grid_at sample33 0 k := by
  intro j k hjk hk
  have hk3 : k < 3 := hk
  interval_cases k <;> interval_cases j <;>
    norm_num [grid_at, sample33, istart_of, offset_of]

/-- The binary exponent of a rational between two consecutive powers of 2. -/
theorem int_log_two_eq (x : ℚ) (e : Int) (h1 : (2 : ℚ) ^ e ≤ x) (h2 : x < (2 : ℚ) ^ (e + 1)) :
    Int.log 2 x = e := by
  have hx : 0 < x := lt_of_lt_of_le (by positivity) h1
  apply le_antisymm
  · have := (Int.lt_zpow_iff_log_lt (b := 2) (by norm_num) hx (x := e + 1)).mp (by exact_mod_cast h2)
    omega
  · exact (Int.zpow_le_iff_le_log (b := 2) (by norm_num) hx).mp (by exact_mod_cast h1)

/-- A rational whose part beyond an integer is below one half rounds to that integer. -/
theorem round_half_even_eq (x : ℚ) (n : Int) (h1 : (n : ℚ) ≤ x) (h2 : x < (n : ℚ) + 1 / 2) :
    round_half_even x = n := by
  have hf : Int.floor x = n := Int.floor_eq_iff.mpr ⟨h1, by linarith⟩
  unfold round_half_even
  rw [hf, if_pos (by linarith)]

/-- The differences `k - 10^17` for `0 <= k < 8` round to the `double` `-10^17`: the
`double`s of that size are the multiples of 16. -/
theorem round_double_near_1e17 (k : ℚ) (h0 : 0 ≤ k) (h8 : k < 8) :
    round_double (k - 10 ^ 17) = -10 ^ 17 := by
  have hlog : Int.log 2 |k - 10 ^ 17| = 56 := by
    apply int_log_two_eq
    · rw [abs_of_nonpos (by linarith)]
      norm_num
      linarith
    · rw [abs_of_nonpos (by linarith)]
      norm_num
      linarith
  unfold round_double
  rw [if_neg (by intro h; linarith), hlog]
  have hmax : max (56 : Int) (-1022) - 52 = 4 := by decide
  rw [hmax, round_half_even_eq _ (-6250000000000000)]
  · norm_num
  · norm_num
    linarith
  · norm_num
    linarith

/-- The `double` `-3` is its own rounding. -/
theorem round_double_neg_three : round_double (-3) = -3 := by
  have hlog : Int.log 2 |(-3 : ℚ)| = 1 := by
    apply int_log_two_eq <;> norm_num [abs_of_neg]
  unfold round_double
  rw [if_neg (by norm_num), hlog]
  have hmax : max (1 : Int) (-1022) - 52 = -51 := by decide
  rw [hmax, round_half_even_eq _ (-6755399441055744)] <;> norm_num

/-- The `double` `-4` is its own rounding. -/
theorem round_double_neg_four : round_double (-4) = -4 := by
  have hlog : Int.log 2 |(-4 : ℚ)| = 2 := by
    apply int_log_two_eq <;> norm_num [abs_of_neg]
  unfold round_double
  rw [if_neg (by norm_num), hlog]
  have hmax : max (2 : Int) (-1022) - 52 = -50 := by decide
  rw [hmax, round_half_even_eq _ (-4503599627370496)] <;> norm_num

/-- The rounding to an integer gives the integer below when the part beyond it is at most
one half, the integer above when it is at least one half. -/
theorem round_half_even_cases (z : ℚ) :
    (round_half_even z = Int.floor z ∧ z - (Int.floor z : ℚ) ≤ 1 / 2) ∨
    (round_half_even z = Int.floor z + 1 ∧ 1 / 2 ≤ z - (Int.floor z : ℚ)) := by
  unfold round_half_even
  split_ifs with h1 h2 h3
  · exact Or.inl ⟨rfl, le_of_lt h1⟩
  · exact Or.inr ⟨rfl, le_of_lt h2⟩
  · exact Or.inl ⟨rfl, not_lt.mp h2⟩
  · exact Or.inr ⟨rfl, not_lt.mp h1⟩

/-- No integer is nearer to `z` than the rounding of `z`. -/
theorem round_half_even_nearest (z : ℚ) (n : Int) :
    |z - (round_half_even z : ℚ)| ≤ |z - (n : ℚ)| := by
  have h1 : ((Int.floor z : Int) : ℚ) ≤ z := Int.floor_le z
  have h2 : z < ((Int.floor z : Int) : ℚ) + 1 := Int.lt_floor_add_one z
  have hn : (n : ℚ) ≤ (Int.floor z : ℚ) ∨ ((Int.floor z : Int) : ℚ) + 1 ≤ (n : ℚ) := by
    rcases le_or_lt n (Int.floor z) with h | h
    · exact Or.inl (by exact_mod_cast h)
    · exact Or.inr (by exact_mod_cast h)
  rcases round_half_even_cases z with ⟨hr, hf⟩ | ⟨hr, hf⟩
  · rw [hr, abs_of_nonneg (by linarith)]
    rcases hn with h | h
    · exact le_trans (by linarith) (le_abs_self _)
    · exact le_trans (by linarith) (neg_le_abs _)
  · rw [hr]
    push_cast
    rw [abs_of_nonpos (by linarith)]
    rcases hn with h | h
    · exact le_trans (by linarith) (le_abs_self _)
    · exact le_trans (by linarith) (neg_le_abs _)

/-- The rounding of a rational between `-N` and `N` lies between `-N` and `N`. -/
theorem round_half_even_bound (z : ℚ) (N : Int) (h : |z| ≤ (N : ℚ)) :
    |round_half_even z| ≤ N := by
  have h1 : ((Int.floor z : Int) : ℚ) ≤ z := Int.floor_le z
  have h2 : z < ((Int.floor z : Int) : ℚ) + 1 := Int.lt_floor_add_one z
  obtain ⟨ha, hb⟩ := abs_le.mp h
  have hlo : -N ≤ Int.floor z := by
    apply Int.le_floor.mpr
    push_cast
    exact ha
  rcases round_half_even_cases z with ⟨hr, hf⟩ | ⟨hr, hf⟩
  · rw [hr]
    apply abs_le.mpr
    refine ⟨hlo, ?_⟩
    have : ((Int.floor z : Int) : ℚ) ≤ (N : ℚ) := by linarith
    exact_mod_cast this
  · rw [hr]
    apply abs_le.mpr
    refine ⟨by omega, ?_⟩
    have : ((Int.floor z : Int) : ℚ) < (N : ℚ) := by linarith
    have h3 : Int.floor z < N := by exact_mod_cast this
    omega

/-- No multiple of the spacing of the `double`s around `x` is nearer to `x` than the
rounding of `x`. -/
theorem round_double_multiple (x : ℚ) (hx : x ≠ 0) (n : Int) :
    |x - round_double x| ≤
      |x - (n : ℚ) * (2 : ℚ) ^ (max (Int.log 2 |x|) (-1022) - 52)| := by
  unfold round_double
  rw [if_neg hx]
  generalize (2 : ℚ) ^ (max (Int.log 2 |x|) (-1022) - 52) = u at *
  by_cases hu : u = 0
  · rw [hu]
    simp
  · have e1 : ∀ r : ℚ, |x - r * u| = |x / u - r| * |u| := by
      intro r
      rw [← abs_mul]
      congr 1
      field_simp
      ring
    rw [e1, e1]
    exact mul_le_mul_of_nonneg_right (round_half_even_nearest (x / u) n) (abs_nonneg u)

/-- The rounding of `x` is a `double`: an integer of at most 53 bits times a power of 2
not below `2^-1074`. -/
theorem round_double_is_double (x : ℚ) :
    ∃ m k : Int, |m| ≤ 2 ^ 53 ∧ -1074 ≤ k ∧ round_double x = (m : ℚ) * (2 : ℚ) ^ k := by
  by_cases hx : x = 0
  · exact ⟨0, 0, by norm_num, by norm_num, by simp [round_double, hx]⟩
  · refine ⟨round_half_even (x / (2 : ℚ) ^ (max (Int.log 2 |x|) (-1022) - 52)),
      max (Int.log 2 |x|) (-1022) - 52, ?_, ?_, ?_⟩
    · apply round_half_even_bound
      have hpos : 0 < |x| := abs_pos.mpr hx
      have h1 : |x| < (2 : ℚ) ^ (Int.log 2 |x| + 1) := by
        exact_mod_cast Int.lt_zpow_succ_log_self (b := 2) (by norm_num) |x|
      have h2 : (2 : ℚ) ^ (Int.log 2 |x| + 1) ≤
          (2 : ℚ) ^ (max (Int.log 2 |x|) (-1022) + 1) :=
        zpow_le_zpow_right₀ (by norm_num) (by omega)
      have h3 : (2 : ℚ) ^ (max (Int.log 2 |x|) (-1022) + 1) =
          (2 : ℚ) ^ (53 : Int) * (2 : ℚ) ^ (max (Int.log 2 |x|) (-1022) - 52) := by
        rw [← zpow_add₀ (by norm_num : (2 : ℚ) ≠ 0)]
        congr 1
        omega
      have hu : 0 < (2 : ℚ) ^ (max (Int.log 2 |x|) (-1022) - 52) := by positivity
      have hc : ((2 ^ 53 : Int) : ℚ) = (2 : ℚ) ^ (53 : Int) := by norm_num
      rw [abs_div, abs_of_pos hu, div_le_iff₀ hu, hc, ← h3]
      exact le_of_lt (lt_of_lt_of_le h1 h2)
    · have := le_max_right (Int.log 2 |x|) (-1022)
      omega
    · unfold round_double
      rw [if_neg hx]

/-- No `double` is nearer to `x` than the rounding of `x`. -/
theorem round_double_nearest (x : ℚ) (m k : Int) (hm : |m| ≤ 2 ^ 53) (hk : -1074 ≤ k) :
    |x - round_double x| ≤ |x - (m : ℚ) * (2 : ℚ) ^ k| := by
  by_cases hx : x = 0
  · rw [hx]
    simp [round_double]
  · have hpos : 0 < |x| := abs_pos.mpr hx
    by_cases hke : max (Int.log 2 |x|) (-1022) - 52 ≤ k
    · have h := round_double_multiple x hx
        (m * 2 ^ (k - (max (Int.log 2 |x|) (-1022) - 52)).toNat)
      have e : (((m * 2 ^ (k - (max (Int.log 2 |x|) (-1022) - 52)).toNat : Int) : ℚ)) *
          (2 : ℚ) ^ (max (Int.log 2 |x|) (-1022) - 52) = (m : ℚ) * (2 : ℚ) ^ k := by
        push_cast
        rw [mul_assoc, ← zpow_natCast, ← zpow_add₀ (by norm_num : (2 : ℚ) ≠ 0)]
        congr 2
        rw [Int.toNat_of_nonneg (by omega)]
        omega
      rw [e] at h
      exact h
    · have hmax : max (Int.log 2 |x|) (-1022) = Int.log 2 |x| := by
        apply max_eq_left
        by_contra hc
        rw [max_eq_right (by omega)] at hke
        omega
      rw [hmax] at hke
      have h2e : (2 : ℚ) ^ (Int.log 2 |x|) ≤ |x| := by
        exact_mod_cast Int.zpow_log_le_self (b := 2) (by norm_num) hpos
      have hd : |(m : ℚ) * (2 : ℚ) ^ k| ≤ (2 : ℚ) ^ (Int.log 2 |x|) := by
        have hk0 : 0 < (2 : ℚ) ^ k := by positivity
        rw [abs_mul, abs_of_pos hk0]
        have hm2 : |(m : ℚ)| ≤ (2 : ℚ) ^ (53 : Int) := by
          have : ((|m| : Int) : ℚ) ≤ ((2 ^ 53 : Int) : ℚ) := by exact_mod_cast hm
          rw [Int.cast_abs] at this
          norm_num at this ⊢
          exact this
        calc |(m : ℚ)| * (2 : ℚ) ^ k ≤ (2 : ℚ) ^ (53 : Int) * (2 : ℚ) ^ k :=
              mul_le_mul_of_nonneg_right hm2 (le_of_lt hk0)
          _ = (2 : ℚ) ^ (53 + k) := by rw [← zpow_add₀ (by norm_num : (2 : ℚ) ≠ 0)]
          _ ≤ (2 : ℚ) ^ (Int.log 2 |x|) := zpow_le_zpow_right₀ (by norm_num) (by omega)
      have hsub := abs_sub_abs_le_abs_sub x ((m : ℚ) * (2 : ℚ) ^ k)
      have e52 : ((2 : ℚ) ^ (52 : Int)) * (2 : ℚ) ^ (Int.log 2 |x| - 52) =
          (2 : ℚ) ^ (Int.log 2 |x|) := by
        rw [← zpow_add₀ (by norm_num : (2 : ℚ) ≠ 0)]
        congr 1
        omega
      rcases lt_or_gt_of_ne hx with hneg | hpos2
      · have h := round_double_multiple x hx (-(2 ^ 52))
        rw [hmax] at h
        have e : (((-(2 ^ 52) : Int)) : ℚ) * (2 : ℚ) ^ (Int.log 2 |x| - 52) =
            -(2 : ℚ) ^ (Int.log 2 |x|) := by
          rw [← e52]
          push_cast
          norm_num
        rw [e] at h
        have habs : |x| = -x := abs_of_neg hneg
        have h5 : |x - -(2 : ℚ) ^ (Int.log 2 |x|)| = -x - (2 : ℚ) ^ (Int.log 2 |x|) := by
          rw [abs_of_nonpos (by linarith)]
          ring
        rw [h5] at h
        linarith
      · have h := round_double_multiple x hx (2 ^ 52)
        rw [hmax] at h
        have e : (((2 ^ 52 : Int)) : ℚ) * (2 : ℚ) ^ (Int.log 2 |x| - 52) =
            (2 : ℚ) ^ (Int.log 2 |x|) := by
          rw [← e52]
          push_cast
          norm_num
        rw [e] at h
        have habs : |x| = x := abs_of_pos hpos2
        have h5 : |x - (2 : ℚ) ^ (Int.log 2 |x|)| = x - (2 : ℚ) ^ (Int.log 2 |x|) := by
          rw [abs_of_nonneg (by linarith)]
        rw [h5] at h
        linarith

/-- The rounding to `double` keeps the order. -/
theorem round_double_mono (x y : ℚ) (h : x ≤ y) : round_double x ≤ round_double y := by
  rcases eq_or_lt_of_le h with heq | hlt
  · rw [heq]
  · by_contra hc
    have hba : round_double y < round_double x := not_le.mp hc
    obtain ⟨m1, k1, a1, a2, a3⟩ := round_double_is_double x
    obtain ⟨m2, k2, b1, b2, b3⟩ := round_double_is_double y
    have n1 := round_double_nearest x m2 k2 b1 b2
    have n2 := round_double_nearest y m1 k1 a1 a2
    rw [← b3] at n1
    rw [← a3] at n2
    rcases abs_cases (x - round_double x) with ⟨c1, _⟩ | ⟨c1, _⟩ <;>
    rcases abs_cases (x - round_double y) with ⟨c2, _⟩ | ⟨c2, _⟩ <;>
    rcases abs_cases (y - round_double y) with ⟨c3, _⟩ | ⟨c3, _⟩ <;>
    rcases abs_cases (y - round_double x) with ⟨c4, _⟩ | ⟨c4, _⟩ <;>
    rw [c1, c2] at n1 <;> rw [c3, c4] at n2 <;> linarith

/-- The rounding to `double` keeps 0. -/
theorem round_double_zero : round_double 0 = 0 := by
  simp [round_double]

/-- Counterexample to C3 as stated: the grid `0, 1, 2` of axis 0 of the `(3,3)` sample is
strictly increasing and `10^17` lies beyond its last value, but with the arithmetic of
`double`s the three differences `0-10^17`, `1-10^17`, `2-10^17` all round to `-10^17`,
no later point is strictly closer than the first, and `lookup_grid(0,1e17)` returns
index 0, not `size[0]-1 = 2`. -/
theorem lookup_grid_boundary_counterexample :
    is_grid_set sample33 = true ∧ 0 < sample33.rk ∧ sample33.size.getD 0 0 - 1 = 2 ∧
    (∀ j k, j < k → k < sample33.size.getD 0 0 →
      grid_at sample33 0 j < grid_at sample33 0 k) ∧
    grid_at sample33 0 (sample33.size.getD 0 0 - 1) ≤ 10 ^ 17 ∧
    round_double (grid_at sample33 0 0 - 10 ^ 17) = -10 ^ 17 ∧
    round_double (grid_at sample33 0 1 - 10 ^ 17) = -10 ^ 17 ∧
    round_double (grid_at sample33 0 2 - 10 ^ 17) = -10 ^ 17 ∧
    lookup_grid round_double sample33 0 (10 ^ 17) = .ok 0 ∧
    lookup_grid round_double sample33 0 (10 ^ 17) ≠ .ok (sample33.size.getD 0 0 - 1) := by
  have hg0 : grid_at sample33 0 0 = 0 := by
    norm_num [grid_at, sample33, istart_of, offset_of]
  have hg1 : grid_at sample33 0 1 = 1 := by
    norm_num [grid_at, sample33, istart_of, offset_of]
  have hg2 : grid_at sample33 0 2 = 2 := by
    norm_num [grid_at, sample33, istart_of, offset_of]
  have hr0 : round_double (grid_at sample33 0 0 - 10 ^ 17) = -10 ^ 17 := by
    rw [hg0]
    exact round_double_near_1e17 0 (by norm_num) (by norm_num)
  have hr1 : round_double (grid_at sample33 0 1 - 10 ^ 17) = -10 ^ 17 := by
    rw [hg1]
    exact round_double_near_1e17 1 (by norm_num) (by norm_num)
  have hr2 : round_double (grid_at sample33 0 2 - 10 ^ 17) = -10 ^ 17 := by
    rw [hg2]
    exact round_double_near_1e17 2 (by norm_num) (by norm_num)
  have hl : lookup_grid round_double sample33 0 (10 ^ 17) = .ok 0 := by
    apply lookup_grid_first round_double sample33 0 (10 ^ 17) rfl (by decide) (by decide)
    intro k hk
    have hk3 : k < 3 := hk
    interval_cases k
    · exact le_refl _
    · rw [hr0, hr1]
    · rw [hr0, hr2]
  refine ⟨by decide, by decide, by decide, sample33_axis0_increasing, ?_, hr0, hr1, hr2,
    hl, ?_⟩
  · rw [show sample33.size.getD 0 0 - 1 = 2 from by decide, hg2]
    norm_num
  · rw [hl]
    intro h
    have := Except.ok.inj h
    revert this
    decide

/-- C3 (amended): with a rounding `fl` of the differences that keeps the order and keeps
0 (as the rounding of `double`s does, and the identity of exact arithmetic), on an axis
whose grid is strictly monotonic (in either direction), a value at or beyond the first
grid value is looked up as index 0, and a value at or beyond the last grid value as index
`size[i]-1` when the differences of `v` to the last point and to the point before it are
not rounded to the same number; the index returned is always below `size[i]`. -/
theorem lookup_grid_boundary (fl : ℚ → ℚ) (t : tensor_grid) (i : Nat) (v : ℚ)
    (hset : is_grid_set t = true) (hi : i < t.rk) (hsz : 0 < t.size.getD i 0)
    (hfl : ∀ x y, x ≤ y → fl x ≤ fl y) (h0 : fl 0 = 0) :
    ((∀ j k, j < k → k < t.size.getD i 0 → grid_at t i j < grid_at t i k) →
      (v ≤ grid_at t i 0 → lookup_grid fl t i v = .ok 0) ∧
      (grid_at t i (t.size.getD i 0 - 1) ≤ v →
        (1 < t.size.getD i 0 → fl (grid_at t i (t.size.getD i 0 - 2) - v) ≠
          fl (grid_at t i (t.size.getD i 0 - 1) - v)) →
        lookup_grid fl t i v = .ok (t.size.getD i 0 - 1))) ∧
    ((∀ j k, j < k → k < t.size.getD i 0 → grid_at t i k < grid_at t i j) →
      (grid_at t i 0 ≤ v → lookup_grid fl t i v = .ok 0) ∧
      (v ≤ grid_at t i (t.size.getD i 0 - 1) →
        (1 < t.size.getD i 0 → fl (grid_at t i (t.size.getD i 0 - 2) - v) ≠
          fl (grid_at t i (t.size.getD i 0 - 1) - v)) →
        lookup_grid fl t i v = .ok (t.size.getD i 0 - 1))) ∧
    (∃ j, lookup_grid fl t i v = .ok j ∧ j < t.size.getD i 0) := by
  have hgs : t.grid_set = true := hset
  have hle_inc : (∀ j k, j < k → k < t.size.getD i 0 → grid_at t i j < grid_at t i k) →
      ∀ j k, j ≤ k → k < t.size.getD i 0 → grid_at t i j ≤ grid_at t i k := by
    intro hm j k hjk hk
    rcases Nat.lt_or_ge j k with h | h
    · exact le_of_lt (hm j k h hk)
    · have : j = k := by omega
      rw [this]
  have hle_dec : (∀ j k, j < k → k < t.size.getD i 0 → grid_at t i k < grid_at t i j) →
      ∀ j k, j ≤ k → k < t.size.getD i 0 → grid_at t i k ≤ grid_at t i j := by
    intro hm j k hjk hk
    rcases Nat.lt_or_ge j k with h | h
    · exact le_of_lt (hm j k h hk)
    · have : j = k := by omega
      rw [this]
  refine ⟨fun hmono => ⟨fun hv => ?_, fun hv hne => ?_⟩,
    fun hmono => ⟨fun hv => ?_, fun hv hne => ?_⟩, ?_⟩
  · -- increasing, below the first point
    apply lookup_grid_first fl t i v hgs hi hsz
    intro k hk
    have hk0 := hle_inc hmono 0 k (Nat.zero_le k) hk
    exact abs_fl_mono_nonneg fl hfl h0 _ _ (by linarith) (by linarith)
  · -- increasing, above the last point
    have hA := hle_inc hmono (t.size.getD i 0 - 2) (t.size.getD i 0 - 1) (by omega) (by omega)
    apply lookup_grid_last fl t i v hgs hi hsz
    · intro k hk
      have hB := hle_inc hmono k (t.size.getD i 0 - 2) (by omega) (by omega)
      exact abs_fl_mono_nonpos fl hfl h0 _ _ (by linarith) (by linarith)
    · exact abs_fl_mono_nonpos fl hfl h0 _ _ (by linarith) (by linarith)
    · intro h1 heq
      have ha : fl (grid_at t i (t.size.getD i 0 - 1) - v) ≤ 0 := by
        rw [← h0]
        exact hfl _ _ (by linarith)
      have hb : fl (grid_at t i (t.size.getD i 0 - 2) - v) ≤ 0 := by
        rw [← h0]
        exact hfl _ _ (by linarith)
      rw [abs_of_nonpos ha, abs_of_nonpos hb] at heq
      exact hne h1 (neg_injective heq)
  · -- decreasing, above the first point
    apply lookup_grid_first fl t i v hgs hi hsz
    intro k hk
    have hk0 := hle_dec hmono 0 k (Nat.zero_le k) hk
    exact abs_fl_mono_nonpos fl hfl h0 _ _ (by linarith) (by linarith)
  · -- decreasing, below the last point
    have hA := hle_dec hmono (t.size.getD i 0 - 2) (t.size.getD i 0 - 1) (by omega) (by omega)
    apply lookup_grid_last fl t i v hgs hi hsz
    · intro k hk
      have hB := hle_dec hmono k (t.size.getD i 0 - 2) (by omega) (by omega)
      exact abs_fl_mono_nonneg fl hfl h0 _ _ (by linarith) (by linarith)
    · exact abs_fl_mono_nonneg fl hfl h0 _ _ (by linarith) (by linarith)
    · intro h1 heq
      have ha : 0 ≤ fl (grid_at t i (t.size.getD i 0 - 1) - v) := by
        rw [← h0]
        exact hfl _ _ (by linarith)
      have hb : 0 ≤ fl (grid_at t i (t.size.getD i 0 - 2) - v) := by
        rw [← h0]
        exact hfl _ _ (by linarith)
      rw [abs_of_nonneg ha, abs_of_nonneg hb] at heq
      exact hne h1 heq
  · obtain ⟨j, h1, h2, _, _⟩ := lookup_grid_val_spec fl t i v hgs hi hsz
    exact ⟨j, lookup_grid_of_val h1, h2⟩

/-- Witness for C3 (amended): beyond the last grid value of axis 0 of the `(3,3)` sample
the lookup of 5 gives index 2, in exact arithmetic and in the arithmetic of `double`s
(the differences `1-5` and `2-5` are `double`s and stay apart). -/
theorem lookup_grid_boundary_witness :
    lookup_grid id sample33 0 5 = .ok (sample33.size.getD 0 0 - 1) ∧
    lookup_grid round_double sample33 0 5 = .ok (sample33.size.getD 0 0 - 1) :=
  ⟨((lookup_grid_boundary id sample33 0 5 (by decide) (by decide) (by decide)
      (fun _ _ h => h) rfl).1
    sample33_axis0_increasing).2 (by norm_num [grid_at, sample33, istart_of, offset_of])
    (fun _ => by norm_num [grid_at, sample33, istart_of, offset_of]),
   ((lookup_grid_boundary round_double sample33 0 5 (by decide) (by decide) (by decide)
      round_double_mono round_double_zero).1
    sample33_axis0_increasing).2 (by norm_num [grid_at, sample33, istart_of, offset_of])
    (fun _ => by
      have h1 : grid_at sample33 0 (sample33.size.getD 0 0 - 2) - 5 = -4 := by
        norm_num [grid_at, sample33, istart_of, offset_of]
      have h2 : grid_at sample33 0 (sample33.size.getD 0 0 - 1) - 5 = -3 := by
        norm_num [grid_at, sample33, istart_of, offset_of]
      rw [h1, h2, round_double_neg_four, round_double_neg_three]
      norm_num)⟩

/-! ## Access by nearest grid point: `get_val` -/

/-- Reading one position further in lists with one more head is the same read. -/
theorem horner_shift (s j : Nat) (ss js : List Nat) (n k acc : Nat) :
    (List.range' (k + 1) n).foldl
        (fun ix i => ix * (s :: ss).getD i 0 + (j :: js).getD i 0) acc =
      (List.range' k n).foldl (fun ix i => ix * ss.getD i 0 + js.getD i 0) acc := by
  induction n generalizing k acc with
  | zero => rfl
  | succ n ih =>
    simp only [List.range'_succ, List.foldl_cons]
    rw [ih (k + 1)]
    simp

/-- The packing loop run from an accumulator over all positions is Horner evaluation
of the row-major packing. -/
theorem horner_row_major (ss : List Nat) :
    ∀ (js : List Nat) (acc : Nat), ss.length = js.length →
      (List.range' 0 ss.length).foldl (fun ix i => ix * ss.getD i 0 + js.getD i 0) acc =
        acc * ss.prod + row_major ss js := by
  induction ss with
  | nil =>
    intro js acc _
    simp [row_major]
  | cons s ss ih =>
    intro js acc hlen
    cases js with
    | nil => simp at hlen
    | cons j js =>
      simp only [List.length_cons, List.range'_succ, List.foldl_cons]
      rw [horner_shift s j ss js ss.length 0]
      rw [ih js _ (by simpa using hlen)]
      simp only [List.getD_cons_zero, List.prod_cons, row_major]
      ring

/-- The packing loop of `get_val` computes the row-major packing of the index vector. -/
theorem pack_index_eq_row_major (size index : List Nat) (rk : Nat)
    (hs : size.length = rk) (hx : index.length = rk) :
    pack_index size index rk = row_major size index := by
  unfold pack_index
  cases size with
  | nil =>
    have h0 : rk = 0 := by simpa using hs.symm
    subst h0
    cases index with
    | nil => simp [row_major]
    | cons j js => simp at hx
  | cons s ss =>
    cases index with
    | nil =>
      simp at hs hx
      omega
    | cons j js =>
      have hrk : rk - 1 = ss.length := by simp at hs; omega
      rw [hrk, horner_shift s j ss js ss.length 0,
        horner_row_major ss js _ (by simp at hs hx; omega)]
      simp [row_major]

/-- The index loop succeeds with the looked-up indices when every lookup succeeds. -/
theorem lookup_indices_ok (fl : ℚ → ℚ) (t : tensor_grid) (p : List ℚ) (f : Nat → Nat)
    (axes : List Nat) (h : ∀ i ∈ axes, lookup_grid fl t i (p.getD i 0) = .ok (f i)) :
    lookup_indices fl t p axes = .ok (axes.map f) := by
  induction axes with
  | nil => rfl
  | cons a rest ih =>
    unfold lookup_indices
    rw [h a (by simp), ih (fun i hi => h i (by simp [hi]))]
    rfl

/-- When every lookup on the axes `0..rk-1` succeeds, `get_val` reads the data at the
packed index of the looked-up indices. -/
theorem get_val_of_lookups (fl : ℚ → ℚ) (t : tensor_grid) (p : List ℚ) (f : Nat → Nat)
    (h : ∀ i, i < t.rk → lookup_grid fl t i (p.getD i 0) = .ok (f i)) :
    get_val fl t p =
      .ok (t.data.getD (pack_index t.size ((List.range t.rk).map f) t.rk) 0) := by
  unfold get_val
  rw [lookup_indices_ok fl t p f (List.range t.rk) (fun i hi => h i (List.mem_range.mp hi))]

/-- The rounding to an integer is off by at most one half. -/
theorem round_half_even_error (z : ℚ) : |z - (round_half_even z : ℚ)| ≤ 1 / 2 := by
  have h1 : ((Int.floor z : Int) : ℚ) ≤ z := Int.floor_le z
  have h2 : z < ((Int.floor z : Int) : ℚ) + 1 := Int.lt_floor_add_one z
  rcases round_half_even_cases z with ⟨hr, hf⟩ | ⟨hr, hf⟩
  · rw [hr, abs_of_nonneg (by linarith)]
    exact hf
  · rw [hr]
    push_cast
    rw [abs_of_nonpos (by linarith)]
    linarith

/-- The rounding to `double` of a rational between -2 and 2 is off by at most `2^-52`,
which is below one twentieth. -/
theorem round_double_error (x : ℚ) (hx : |x| ≤ 2) : |round_double x - x| ≤ 1 / 20 := by
  by_cases h0 : x = 0
  · rw [h0]
    simp [round_double]
  · have hpos : 0 < |x| := abs_pos.mpr h0
    have hlog : Int.log 2 |x| < 2 := by
      apply (Int.lt_zpow_iff_log_lt (b := 2) (by norm_num) hpos).mp
      norm_num
      linarith
    have hu0 : 0 < (2 : ℚ) ^ (max (Int.log 2 |x|) (-1022) - 52) := by positivity
    have hu : (2 : ℚ) ^ (max (Int.log 2 |x|) (-1022) - 52) ≤ (2 : ℚ) ^ (-51 : Int) :=
      zpow_le_zpow_right₀ (by norm_num) (by
        have := max_le (show Int.log 2 |x| ≤ 1 by omega) (show (-1022 : Int) ≤ 1 by norm_num)
        omega)
    have h51 : (2 : ℚ) ^ (-51 : Int) ≤ 1 / 10 := by norm_num
    unfold round_double
    rw [if_neg h0]
    generalize (2 : ℚ) ^ (max (Int.log 2 |x|) (-1022) - 52) = u at hu0 hu
    have e1 : (round_half_even (x / u) : ℚ) * u - x =
        -((x / u - (round_half_even (x / u) : ℚ)) * u) := by
      field_simp
      ring
    rw [e1, abs_neg, abs_mul, abs_of_pos hu0]
    have := round_half_even_error (x / u)
    have hu2 : u ≤ 1 / 10 := le_trans hu h51
    calc |x / u - (round_half_even (x / u) : ℚ)| * u ≤ 1 / 2 * u :=
          mul_le_mul_of_nonneg_right this (le_of_lt hu0)
      _ ≤ 1 / 20 := by linarith

/-- The rounding to `double` gives 0 only below the least positive `double`. -/
theorem round_double_eq_zero (x : ℚ) (h : round_double x = 0) : |x| < (2 : ℚ) ^ (-1074 : Int) := by
  by_cases h0 : x = 0
  · rw [h0]
    simp
    positivity
  · have hpos : 0 < |x| := abs_pos.mpr h0
    unfold round_double at h
    rw [if_neg h0] at h
    have hu0 : 0 < (2 : ℚ) ^ (max (Int.log 2 |x|) (-1022) - 52) := by positivity
    have hr : (round_half_even (x / (2 : ℚ) ^ (max (Int.log 2 |x|) (-1022) - 52)) : ℚ) = 0 := by
      rcases mul_eq_zero.mp h with h1 | h1
      · exact h1
      · exact absurd h1 (ne_of_gt hu0)
    have herr := round_half_even_error (x / (2 : ℚ) ^ (max (Int.log 2 |x|) (-1022) - 52))
    rw [hr, sub_zero, abs_div, abs_of_pos hu0, div_le_iff₀ hu0] at herr
    have h2e : (2 : ℚ) ^ (Int.log 2 |x|) ≤ |x| := by
      exact_mod_cast Int.zpow_log_le_self (b := 2) (by norm_num) hpos
    have hmax : max (Int.log 2 |x|) (-1022) = -1022 := by
      apply max_eq_right
      by_contra hc
      have hm : max (Int.log 2 |x|) (-1022) = Int.log 2 |x| := max_eq_left (by omega)
      rw [hm] at herr
      have e : (2 : ℚ) ^ (Int.log 2 |x|) =
          (2 : ℚ) ^ (52 : Int) * (2 : ℚ) ^ (Int.log 2 |x| - 52) := by
        rw [← zpow_add₀ (by norm_num : (2 : ℚ) ≠ 0)]
        congr 1
        omega
      have hv : 0 < (2 : ℚ) ^ (Int.log 2 |x| - 52) := by positivity
      rw [e] at h2e
      have h52 : (1 : ℚ) ≤ (2 : ℚ) ^ (52 : Int) := by norm_num
      nlinarith
    rw [hmax] at herr
    have e2 : (2 : ℚ) ^ (-1022 - 52 : Int) = (2 : ℚ) ^ (-1074 : Int) := by norm_num
    rw [e2] at herr
    have hv : 0 < (2 : ℚ) ^ (-1074 : Int) := by positivity
    generalize (2 : ℚ) ^ (-1074 : Int) = w at herr hv ⊢
    linarith

/-- On the `(3,3)` sample with `v(i,j)=i+j`, `get_val([1.4,0.6])` is 2 with every
rounding of the differences that is off by at most one twentieth between -2 and 2. -/
theorem get_val_sample_rounded (fl : ℚ → ℚ) (hfl : ∀ x, |x| ≤ 2 → |fl x - x| ≤ 1 / 20) :
    get_val fl sample33 [7 / 5, 3 / 5] = .ok 2 := by
  have hg : ∀ i k, i < 2 → k < 3 → grid_at sample33 i k = (k : ℚ) := by
    intro i k hi hk
    interval_cases i <;> interval_cases k <;>
      norm_num [grid_at, sample33, istart_of, offset_of, List.range, List.range.loop]
  have hb : ∀ x : ℚ, |x| ≤ 2 → x - 1 / 20 ≤ fl x ∧ fl x ≤ x + 1 / 20 := by
    intro x hx
    have := abs_le.mp (hfl x hx)
    constructor <;> linarith
  have hl : ∀ i, i < sample33.rk →
      lookup_grid fl sample33 i (([7 / 5, 3 / 5] : List ℚ).getD i 0) = .ok ((fun _ => 1) i) := by
    intro i hi
    have hi2 : i < 2 := hi
    obtain ⟨j, h1, h2, h3, h4⟩ := lookup_grid_val_spec fl sample33 i
      (([7 / 5, 3 / 5] : List ℚ).getD i 0) rfl hi (by interval_cases i <;> decide)
    rw [lookup_grid_of_val h1]
    have hj3 : j < 3 := by
      interval_cases i <;> exact h2
    have hk1 := h3 1 (by interval_cases i <;> decide)
    rw [hg i j hi2 hj3, hg i 1 hi2 (by norm_num)] at hk1
    interval_cases i
    · have a1 := hb ((1 : Nat) - 7 / 5) (by norm_num [abs_le])
      interval_cases j
      · exfalso
        have a0 := hb ((0 : Nat) - 7 / 5) (by norm_num [abs_le])
        simp only [List.getD_cons_zero] at hk1
        rw [abs_of_nonpos (by linarith [a0.2]), abs_of_nonpos (by linarith [a1.2])] at hk1
        norm_num at a0 a1 hk1
        linarith [a0.1, a0.2, a1.1, a1.2]
      · rfl
      · exfalso
        have a2 := hb ((2 : Nat) - 7 / 5) (by norm_num [abs_le])
        simp only [List.getD_cons_zero] at hk1
        rw [abs_of_nonneg (by linarith [a2.1]), abs_of_nonpos (by linarith [a1.2])] at hk1
        norm_num at a2 a1 hk1
        linarith [a2.1, a2.2, a1.1, a1.2]
    · have a1 := hb ((1 : Nat) - 3 / 5) (by norm_num [abs_le])
      have e : (([7 / 5, 3 / 5] : List ℚ).getD 1 0) = 3 / 5 := rfl
      rw [e] at hk1
      interval_cases j
      · exfalso
        have a0 := hb ((0 : Nat) - 3 / 5) (by norm_num [abs_le])
        rw [abs_of_nonpos (by linarith [a0.2]), abs_of_nonneg (by linarith [a1.1])] at hk1
        norm_num at a0 a1 hk1
        linarith [a0.1, a0.2, a1.1, a1.2]
      · rfl
      · exfalso
        have a2 := hb ((2 : Nat) - 3 / 5) (by norm_num [abs_le])
        rw [abs_of_nonneg (by linarith [a2.1]), abs_of_nonneg (by linarith [a1.1])] at hk1
        norm_num at a2 a1 hk1
        linarith [a2.1, a2.2, a1.1, a1.2]
  rw [get_val_of_lookups fl sample33 [7 / 5, 3 / 5] (fun _ => 1) hl]
  simp [sample33, pack_index, List.range, List.range.loop, List.range']

/-- C4: on a tensor of rank at least 1 with the grid set, `get_val(p)` returns
the data entry at the row-major packing of the indices `lookup_grid(i,p[i])`, whatever
the rounding `fl` of the lookups; on the `(3,3)` sample with `v(i,j)=i+j`,
`get_val([1.4,0.6])` is 2, in exact arithmetic and in the arithmetic of `double`s. -/
theorem get_val_row_major :
    (∀ (fl : ℚ → ℚ) (t : tensor_grid) (p : List ℚ), 0 < t.rk → is_grid_set t = true →
      t.size.length = t.rk → (∀ i, i < t.rk → 0 < t.size.getD i 0) → p.length = t.rk →
      ∃ index : List Nat, index.length = t.rk ∧
        (∀ i, i < t.rk → lookup_grid fl t i (p.getD i 0) = .ok (index.getD i 0)) ∧
        get_val fl t p = .ok (t.data.getD (row_major t.size index) 0)) ∧
    get_val id sample33 [7 / 5, 3 / 5] = .ok 2 ∧
    get_val round_double sample33 [7 / 5, 3 / 5] = .ok 2 := by
  refine ⟨?_, ?_, get_val_sample_rounded round_double round_double_error⟩
  · intro fl t p _ hset hlen hsz _
    have hex : ∀ i, ∃ j, i < t.rk → lookup_grid fl t i (p.getD i 0) = .ok j := by
      intro i
      by_cases hi : i < t.rk
      · obtain ⟨j, hj, _⟩ := lookup_grid_val_spec fl t i (p.getD i 0) hset hi (hsz i hi)
        exact ⟨j, fun _ => lookup_grid_of_val hj⟩
      · exact ⟨0, fun h => absurd h hi⟩
    choose f hf using hex
    refine ⟨(List.range t.rk).map f, by simp, ?_, ?_⟩
    · intro i hi
      rw [hf i hi]
      simp [List.getD_eq_getElem?_getD, hi]
    · rw [get_val_of_lookups fl t p f hf,
        pack_index_eq_row_major t.size _ t.rk hlen (by simp)]
  · simp [get_val, lookup_indices, lookup_grid, lookup_grid_val, lookup_step, sample33,
      istart_of, offset_of, pack_index, List.range, List.range.loop, List.range']
    norm_num [abs_of_nonneg, abs_of_neg]

/-- Witness for C4: the general statement applied to the `(3,3)` sample at `[1.4,0.6]`. -/
theorem get_val_row_major_witness :
    ∃ index : List Nat, index.length = sample33.rk ∧
      (∀ i, i < sample33.rk →
        lookup_grid id sample33 i ([7 / 5, 3 / 5].getD i 0) = .ok (index.getD i 0)) ∧
      get_val id sample33 [7 / 5, 3 / 5] =
        .ok (sample33.data.getD (row_major sample33.size index) 0) :=
  get_val_row_major.1 id sample33 [7 / 5, 3 / 5] (by decide) (by decide) (by decide)
    (by decide) (by decide)

/-- A list of length `n` is the list of its reads at `0..n-1`. -/
theorem map_getD_range (l : List Nat) (n : Nat) (h : l.length = n) :
    (List.range n).map (fun i => l.getD i 0) = l := by
  apply List.ext_getElem
  · simp [h]
  · intro i h1 h2
    simp [List.getD_eq_getElem?_getD, h2]

/-- Looking up the grid value of a point that is the first of its axis with that value
gives back the index of the point, when the rounding `fl` keeps 0 and rounds to 0 no
difference of two unequal grid values of the axis. -/
theorem lookup_grid_at_grid_point (fl : ℚ → ℚ) (t : tensor_grid) (i m : Nat)
    (hset : t.grid_set = true) (hi : i < t.rk) (hm : m < t.size.getD i 0)
    (h0 : fl 0 = 0)
    (hfl : ∀ k, k < t.size.getD i 0 → fl (grid_at t i k - grid_at t i m) = 0 →
      grid_at t i k = grid_at t i m)
    (hfirst : ∀ k, k < m → grid_at t i k ≠ grid_at t i m) :
    lookup_grid fl t i (grid_at t i m) = .ok m := by
  obtain ⟨j, h1, h2, h3, h4⟩ :=
    lookup_grid_val_spec fl t i (grid_at t i m) hset hi (by omega)
  have hz : grid_at t i j = grid_at t i m := by
    have h := h3 m hm
    rw [sub_self, h0, abs_zero] at h
    have hz0 : |fl (grid_at t i j - grid_at t i m)| = 0 := le_antisymm h (abs_nonneg _)
    exact hfl j h2 (abs_eq_zero.mp hz0)
  have hjm : j = m := by
    rcases Nat.lt_trichotomy j m with hlt | heq | hgt
    · exact absurd hz (hfirst j hlt)
    · exact heq
    · have h := h4 m hgt
      rw [hz, sub_self, h0, abs_zero] at h
      exact absurd h (lt_irrefl _)
  rw [lookup_grid_of_val h1, hjm]

/-- C5 (amended): with the grid set, for an in-range multi-index `idx` such that on every
axis no lower index carries the grid value of `idx[i]`, `get_val` at the point of grid
coordinates `get_grid(i,idx[i])` returns the same value as the indexed `get(idx)`; the
rounding `fl` of the lookups keeps 0 and rounds to 0 no difference of two unequal grid
values of an axis (as the identity of exact arithmetic does). -/
theorem get_val_at_grid_point (fl : ℚ → ℚ) (t : tensor_grid) (idx : List Nat) (p : List ℚ)
    (hset : is_grid_set t = true) (hlen : t.size.length = t.rk) (hidx : idx.length = t.rk)
    (hin : ∀ i, i < t.rk → idx.getD i 0 < t.size.getD i 0)
    (hfirst : ∀ i, i < t.rk → ∀ k, k < idx.getD i 0 →
      get_grid t i k ≠ get_grid t i (idx.getD i 0))
    (hp : ∀ i, i < t.rk → get_grid t i (idx.getD i 0) = .ok (p.getD i 0))
    (h0 : fl 0 = 0)
    (hfl : ∀ i, i < t.rk → ∀ k, k < t.size.getD i 0 →
      fl (grid_at t i k - p.getD i 0) = 0 → grid_at t i k = p.getD i 0) :
    get_val fl t p = .ok (get t idx) := by
  have hg : ∀ i, i < t.rk → ∀ k, get_grid t i k = .ok (grid_at t i k) := by
    intro i hi k
    unfold get_grid
    rw [if_neg (by simpa [is_grid_set] using hset), if_neg (by omega)]
  have hl : ∀ i, i < t.rk → lookup_grid fl t i (p.getD i 0) = .ok (idx.getD i 0) := by
    intro i hi
    have hpi : p.getD i 0 = grid_at t i (idx.getD i 0) := by
      have h := hp i hi
      rw [hg i hi] at h
      exact (Except.ok.inj h).symm
    have hfli := hfl i hi
    rw [hpi] at hfli ⊢
    refine lookup_grid_at_grid_point fl t i _ hset hi (hin i hi) h0 hfli ?_
    intro k hk heq
    apply hfirst i hi k hk
    rw [hg i hi, hg i hi, heq]
  rw [get_val_of_lookups fl t p (fun i => idx.getD i 0) hl, map_getD_range idx t.rk hidx,
    pack_index_eq_row_major t.size idx t.rk hlen hidx]
  rfl

/-- Witness for C5 (amended): the cell `(1,2)` of the `(3,3)` sample, at the point `[1,2]`,
in exact arithmetic and in the arithmetic of `double`s. -/
theorem get_val_at_grid_point_witness :
    get_val id sample33 [1, 2] = .ok (get sample33 [1, 2]) ∧
    get_val round_double sample33 [1, 2] = .ok (get sample33 [1, 2]) :=
  ⟨get_val_at_grid_point id sample33 [1, 2] [1, 2] (by decide) (by decide) (by decide)
    (by decide)
    (by
      intro i hi k hk
      have hi2 : i < 2 := hi
      interval_cases i
      · have hk1 : k < 1 := hk
        interval_cases k
        norm_num [get_grid, grid_at, sample33, istart_of, offset_of]
      · have hk1 : k < 2 := hk
        interval_cases k <;>
          norm_num [get_grid, grid_at, sample33, istart_of, offset_of, List.range,
            List.range.loop])
    (by
      intro i hi
      have hi2 : i < 2 := hi
      interval_cases i <;>
        norm_num [get_grid, grid_at, sample33, istart_of, offset_of, List.range,
          List.range.loop])
    rfl (fun _ _ _ _ h => sub_eq_zero.mp h),
   get_val_at_grid_point round_double sample33 [1, 2] [1, 2] (by decide) (by decide)
    (by decide) (by decide)
    (by
      intro i hi k hk
      have hi2 : i < 2 := hi
      interval_cases i
      · have hk1 : k < 1 := hk
        interval_cases k
        norm_num [get_grid, grid_at, sample33, istart_of, offset_of]
      · have hk1 : k < 2 := hk
        interval_cases k <;>
          norm_num [get_grid, grid_at, sample33, istart_of, offset_of, List.range,
            List.range.loop])
    (by
      intro i hi
      have hi2 : i < 2 := hi
      interval_cases i <;>
        norm_num [get_grid, grid_at, sample33, istart_of, offset_of, List.range,
          List.range.loop])
    round_double_zero
    (by
      intro i hi k hk h
      have hz := round_double_eq_zero _ h
      have hi2 : i < 2 := hi
      interval_cases i
      · have hk3 : k < 3 := hk
        interval_cases k <;>
          norm_num [grid_at, sample33, istart_of, offset_of, List.range, List.range.loop,
            abs_lt] at hz ⊢
      · have hk3 : k < 3 := hk
        interval_cases k <;>
          norm_num [grid_at, sample33, istart_of, offset_of, List.range, List.range.loop,
            abs_lt] at hz ⊢)⟩

/-- Counterexample to C5 as stated: on a rank-1 tensor whose two grid points both have
the value 0, the in-range index `[1]` has the grid point `[0]`, where `get_val` returns
the data of index 0 and not the data `get([1])`, in exact arithmetic and in the
arithmetic of `double`s alike. -/
theorem get_val_at_grid_point_counterexample :
    is_grid_set sample_dup = true ∧ sample_dup.rk = 1 ∧ 1 < sample_dup.size.getD 0 0 ∧
    get_grid sample_dup 0 1 = .ok 0 ∧
    get_val id sample_dup [0] = .ok 1 ∧ get sample_dup [1] = 2 ∧
    get_val id sample_dup [0] ≠ .ok (get sample_dup [1]) ∧
    get_val round_double sample_dup [0] = .ok 1 := by
  have h1 : get_val id sample_dup [0] = .ok 1 := by
    simp [get_val, lookup_indices, lookup_grid, lookup_grid_val, lookup_step, sample_dup,
      istart_of, offset_of, pack_index, List.range, List.range.loop, List.range']
  have h2 : get sample_dup [1] = 2 := by
    simp [get, sample_dup, row_major]
  refine ⟨by decide, by decide, by decide, ?_, h1, h2, ?_, ?_⟩
  · simp [get_grid, grid_at, sample_dup, istart_of, offset_of, List.range, List.range.loop]
  · rw [h1, h2]
    intro h
    have := Except.ok.inj h
    norm_num at this
  · simp [get_val, lookup_indices, lookup_grid, lookup_grid_val, lookup_step, sample_dup,
      istart_of, offset_of, pack_index, List.range, List.range.loop, List.range',
      round_double]

/-! ## Resizing -/

/-- The length after `std::vector::resize(n)` is `n`. -/
theorem vec_resize_length {α : Type} (d : α) (v : List α) (n : Nat) :
    (vec_resize d v n).length = n := by
  simp [vec_resize]
  omega

/-- Reading a list after a write: the written position holds the new value, the others
their old one. -/
theorem getD_set {α : Type} (l : List α) (i j : Nat) (a d : α) :
    (l.set i a).getD j d = if i = j ∧ j < l.length then a else l.getD j d := by
  simp only [List.getD_eq_getElem?_getD, List.getElem?_set]
  by_cases h : i = j
  · subst h
    by_cases h2 : i < l.length
    · simp [h2]
    · simp [h2, List.getElem?_eq_none (Nat.le_of_not_lt h2)]
  · simp [h]

/-- The zero-size check of `resize` passes exactly when no requested size is zero. -/
theorem resize_check_none (rank : Nat) (dim : List Nat) :
    (List.range rank).find? (fun i => dim.getD i 0 == 0) = none ↔
      ∀ i, i < rank → 0 < dim.getD i 0 := by
  rw [List.find?_eq_none]
  constructor
  · intro h i hi
    have := h i (List.mem_range.mpr hi)
    simp only [beq_iff_eq] at this
    omega
  · intro h i hi
    have := h i (List.mem_range.mp hi)
    simp only [beq_iff_eq]
    omega

/-- C6: `resize(rank,dim)` with some `dim[i] == 0`, `i < rank`, raises invalid-argument
and leaves the object exactly as it was: rank, sizes, data, grid and `grid_set`. -/
theorem resize_zero_size (t : tensor_grid) (rank : Nat) (dim : List Nat)
    (h : ∃ i, i < rank ∧ dim.getD i 0 = 0) :
    (resize t rank dim).raised = some .exc_einval ∧ (resize t rank dim).st = t ∧
      (resize t rank dim).st.rk = t.rk ∧ (resize t rank dim).st.size = t.size ∧
      (resize t rank dim).st.data = t.data ∧ (resize t rank dim).st.grid = t.grid ∧
      (resize t rank dim).st.grid_set = t.grid_set := by
  have hres : resize t rank dim = ⟨t, some .exc_einval⟩ := by
    unfold resize
    cases hf : (List.range rank).find? (fun i => dim.getD i 0 == 0) with
    | some x => rfl
    | none =>
      exfalso
      obtain ⟨i, hi, hz⟩ := h
      have := (resize_check_none rank dim).mp hf i hi
      omega
  rw [hres]
  exact ⟨rfl, rfl, rfl, rfl, rfl, rfl, rfl⟩

/-- Witness for C6: resizing the `(3,3)` sample to sizes `(2,0)`. -/
theorem resize_zero_size_witness :
    (resize sample33 2 [2, 0]).raised = some .exc_einval ∧
      (resize sample33 2 [2, 0]).st = sample33 ∧
      (resize sample33 2 [2, 0]).st.rk = sample33.rk ∧
      (resize sample33 2 [2, 0]).st.size = sample33.size ∧
      (resize sample33 2 [2, 0]).st.data = sample33.data ∧
      (resize sample33 2 [2, 0]).st.grid = sample33.grid ∧
      (resize sample33 2 [2, 0]).st.grid_set = sample33.grid_set :=
  resize_zero_size sample33 2 [2, 0] ⟨1, by decide, by decide⟩

/-- One more round of the offset accumulation. -/
theorem offset_of_succ (n : Nat → Nat) (i : Nat) :
    offset_of n (i + 1) = offset_of n i + n i := by
  simp [offset_of, List.range_succ, List.foldl_append]

/-- The offset accumulation is the sum `n(0)+...+n(i-1)`. -/
theorem offset_of_eq_sum (n : Nat → Nat) (i : Nat) :
    offset_of n i = ∑ k in Finset.range i, n k := by
  induction i with
  | zero => simp [offset_of]
  | succ i ih => rw [offset_of_succ, Finset.sum_range_succ, ih]

/-- Offsets grow with the axis. -/
theorem offset_of_mono (n : Nat → Nat) {i j : Nat} (h : i ≤ j) :
    offset_of n i ≤ offset_of n j := by
  induction j with
  | zero =>
    have : i = 0 := by omega
    rw [this]
  | succ j ih =>
    rcases Nat.lt_or_ge i (j + 1) with hlt | hge
    · have := ih (by omega)
      rw [offset_of_succ]
      omega
    · have : i = j + 1 := by omega
      rw [this]

/-- The point `j < n(i)` of axis `i < r` lies below the offset of axis `r`. -/
theorem offset_of_lt (n : Nat → Nat) {i j r : Nat} (hi : i < r) (hj : j < n i) :
    offset_of n i + j < offset_of n r := by
  have h1 := offset_of_mono n (show i + 1 ≤ r by omega)
  rw [offset_of_succ] at h1
  omega

/-- Loop invariant of the inner fill loop after `m` rounds from the state `s`. -/
theorem fill_axis_spec (f : Nat → ℚ) (m : Nat) (s : List ℚ × Nat) :
    (fill_axis f m s).2 = s.2 + m ∧ (fill_axis f m s).1.length = s.1.length ∧
    ∀ p, (fill_axis f m s).1.getD p 0 =
      if s.2 ≤ p ∧ p < s.2 + m ∧ p < s.1.length then f (p - s.2) else s.1.getD p 0 := by
  unfold fill_axis
  induction m with
  | zero =>
    refine ⟨rfl, rfl, fun p => ?_⟩
    rw [if_neg (by omega)]
    rfl
  | succ m ih =>
    obtain ⟨h1, h2, h3⟩ := ih
    simp only [List.range_succ, List.foldl_append, List.foldl_cons, List.foldl_nil]
    generalize (List.range m).foldl (fun s j => (s.1.set s.2 (f j), s.2 + 1)) s = r
      at h1 h2 h3 ⊢
    refine ⟨by simp only [h1]; omega, by simp [h2], fun p => ?_⟩
    simp only [getD_set, h3 p, h1, h2]
    by_cases hp : s.2 + m = p
    · by_cases hl : p < s.1.length
      · rw [if_pos ⟨hp, hl⟩, if_pos ⟨by omega, by omega, hl⟩]
        congr 1
        omega
      · rw [if_neg (by tauto), if_neg (by omega), if_neg (by omega)]
    · rw [if_neg (by tauto)]
      by_cases hq : s.2 ≤ p ∧ p < s.2 + m ∧ p < s.1.length
      · rw [if_pos hq, if_pos ⟨hq.1, by omega, hq.2.2⟩]
      · rw [if_neg hq, if_neg (by omega)]

/-- Loop invariant of the double fill loop after `r` axes. -/
theorem fill_grid_spec (f : Nat → Nat → ℚ) (n : Nat → Nat) (r : Nat) (g : List ℚ) :
    (fill_grid f n r g).2 = offset_of n r ∧ (fill_grid f n r g).1.length = g.length ∧
    (∀ i j, i < r → j < n i → offset_of n i + j < g.length →
      (fill_grid f n r g).1.getD (offset_of n i + j) 0 = f i j) ∧
    (∀ p, offset_of n r ≤ p → (fill_grid f n r g).1.getD p 0 = g.getD p 0) := by
  unfold fill_grid
  induction r with
  | zero =>
    refine ⟨rfl, rfl, fun i j hi => absurd hi (Nat.not_lt_zero _), fun p _ => rfl⟩
  | succ r ih =>
    obtain ⟨h1, h2, h3, h4⟩ := ih
    simp only [List.range_succ, List.foldl_append, List.foldl_cons, List.foldl_nil]
    generalize (List.range r).foldl (fun s i => fill_axis (f i) (n i) s) (g, 0) = s
      at h1 h2 h3 h4 ⊢
    obtain ⟨a1, a2, a3⟩ := fill_axis_spec (f r) (n r) s
    refine ⟨by rw [a1, h1, offset_of_succ], by rw [a2, h2], ?_, ?_⟩
    · intro i j hi hj hlen
      rw [a3, h1, h2]
      rcases Nat.lt_or_ge i r with hlt | hge
      · have := offset_of_lt n hlt hj
        rw [if_neg (by omega)]
        exact h3 i j hlt hj hlen
      · have hir : i = r := by omega
        subst hir
        rw [if_pos ⟨by omega, by omega, hlen⟩]
        congr 1
        omega
    · intro p hp
      rw [offset_of_succ] at hp
      rw [a3, h1, if_neg (by omega)]
      exact h4 p (by omega)

/-- Loop invariant of the copy loop of `set_grid_packed` after `m` rounds. -/
theorem copy_loop_spec (v : Nat → ℚ) (m : Nat) (g : List ℚ) :
    ((List.range m).foldl (fun g i => g.set i (v i)) g).length = g.length ∧
    ∀ p, ((List.range m).foldl (fun g i => g.set i (v i)) g).getD p 0 =
      if p < m ∧ p < g.length then v p else g.getD p 0 := by
  induction m with
  | zero =>
    refine ⟨rfl, fun p => ?_⟩
    rw [if_neg (by omega)]
    rfl
  | succ m ih =>
    obtain ⟨h1, h2⟩ := ih
    simp only [List.range_succ, List.foldl_append, List.foldl_cons, List.foldl_nil]
    generalize (List.range m).foldl (fun g i => g.set i (v i)) g = r at h1 h2 ⊢
    refine ⟨by simp [h1], fun p => ?_⟩
    simp only [getD_set, h2 p, h1]
    by_cases hp : m = p
    · by_cases hl : p < g.length
      · rw [if_pos ⟨hp, hl⟩, if_pos ⟨by omega, hl⟩, hp]
      · rw [if_neg (by tauto), if_neg (by omega), if_neg (by tauto)]
    · rw [if_neg (by tauto)]
      by_cases hq : p < m ∧ p < g.length
      · rw [if_pos hq, if_pos ⟨by omega, hq.2⟩]
      · rw [if_neg hq, if_neg (by omega)]

/-- Without `err_on_fail` the first loop never raises: it only leaves by returning
the empty tensor. -/
theorem classify_loop_false (ext : externals) (t : tensor_grid) (spec : List index_spec)
    (st : rearr) (x : rearr_exit)
    (h : classify_loop ext t false spec st = .error x) : x = .returned_empty := by
  induction spec generalizing st with
  | nil => simp [classify_loop] at h
  | cons s rest ih =>
    unfold classify_loop at h
    cases hs : classify_step ext t false st s with
    | error y =>
      rw [hs] at h
      simp only at h
      have hy : y = x := Except.error.inj h
      subst hy
      unfold classify_step at hs
      split at hs <;> (try split_ifs at hs) <;> first
        | (cases hs; done)
        | (cases hs; rfl)
    | ok st1 =>
      rw [hs] at h
      exact ih st1 h

/-- C20 (what the code does): without `err_on_fail`, on a tensor of rank at least 1,
`rearrange_and_copy` returns the empty rank-0 tensor for every spec list, well-formed or
not: the test of the old axes returns it in its first round. -/
theorem rearrange_no_err_always_empty (ext : externals) (t : tensor_grid)
    (spec : List index_spec) (hrk : 0 < t.rk) :
    rearrange_and_copy ext t spec false = .ok tensor_grid_default := by
  unfold rearrange_and_copy rearrange_check
  cases hc : classify_loop ext t false spec (rearr_init t.rk) with
  | error x =>
    rw [classify_loop_false ext t spec _ x hc]
    rfl
  | ok st =>
    simp only
    by_cases h0 : st.rank_new = 0
    · rw [if_pos h0]
      rfl
    · rw [if_neg h0]
      obtain ⟨n, hn⟩ : ∃ n, t.rk = n + 1 := ⟨t.rk - 1, by omega⟩
      rw [hn, List.range_succ_eq_map]
      rfl

/-- Witness for C20: the well-formed spec list `[index(0), index(1)]` on the `(3,2)`
sample gives the empty rank-0 tensor without `err_on_fail` and a rank-2 copy with it. -/
theorem rearrange_no_err_always_empty_witness :
    rearrange_and_copy sample_ext sample32 [ix_index 0, ix_index 1] false =
      .ok tensor_grid_default ∧
    rearrange_and_copy sample_ext sample32 [ix_index 0, ix_index 1] true =
      .ok { sample32 with data := [1, 2, 3, 4, 5, 6] } :=
  ⟨rearrange_no_err_always_empty sample_ext sample32 [ix_index 0, ix_index 1] (by decide),
   by
    simp [rearrange_and_copy, rearrange_check, classify_loop, classify_step, rearr_init,
      validate_loop, ix_index, sample32, index_spec_empty, tensor_grid_rank_dim,
      tensor_rank_dim, tensor_default, total_size, for_loop, cell_step, sum_step,
      remap_step, old_index_step, unpack_sum_step, unpack_index, write_front, set, get,
      row_major, List.range, List.range.loop, List.range', itp_linear, exit_at]⟩

/-- C18 (what the code does): on the `(3,1)` sample with values 10, 20, 30 the spec list
`[range(0,1,2), index(1)]` gives a `(2,1)` tensor whose cell `(1,0)` holds 20, the value
of the old cell `(1,0)`, and not 30, the value of the old cell `(1+1,0)`: the increasing
branch adds `spec_old[i].ix2`, indexed by the cell counter `i`, to the new index. -/
theorem rearrange_range_increasing :
    rearrange_and_copy sample_ext sample31 [ix_range 0 1 2, ix_index 1] true =
      .ok { rk := 2, size := [2, 1], data := [20, 20], grid := [], grid_set := false,
            itype := itp_linear } ∧
    get sample31 [1 + 0, 0] = 20 ∧ get sample31 [1 + 1, 0] = 30 := by
  refine ⟨?_, ?_, ?_⟩
  · simp [rearrange_and_copy, rearrange_check, classify_loop, classify_step, rearr_init,
      validate_loop, ix_index, ix_range, sample31, index_spec_empty, tensor_grid_rank_dim,
      tensor_rank_dim, tensor_default, total_size, for_loop, cell_step, sum_step,
      remap_step, old_index_step, unpack_sum_step, unpack_index, write_front, set, get,
      row_major, List.range, List.range.loop, List.range', itp_linear, exit_at]
  · simp [get, sample31, row_major]
  · simp [get, sample31, row_major]

/-! ## Rearrangement: validation -/

/-- The type read from the old-axis table after one entry has been written. -/
theorem type_getD_set (l : List index_spec) (i a : Nat) (x : index_spec) :
    ((l.set i x).getD a index_spec_empty).type =
      if i = a ∧ a < l.length then x.type else (l.getD a index_spec_empty).type := by
  rw [getD_set]
  split_ifs <;> rfl

/-- What one round of the first loop does to the rank and the old-axis table when it
does not exit. -/
theorem classify_step_ok (ext : externals) (t : tensor_grid) (e : Bool) (st st1 : rearr)
    (s : index_spec) (h : classify_step ext t e st s = .ok st1) :
    s.type ≠ .empty ∧ ¬ bad_range t s ∧
    st1.spec_old.length = st.spec_old.length ∧
    st1.rank_new = st.rank_new + (if keeps_axis s then 1 else 0) ∧
    ∀ a, (st1.spec_old.getD a index_spec_empty).type =
      if (s.ix1 = a ∨ (s.type = .trace ∧ s.ix2 = a)) ∧ a < st.spec_old.length then s.type
      else (st.spec_old.getD a index_spec_empty).type := by
  unfold classify_step at h
  cases hty : s.type <;> rw [hty] at h <;> simp only at h
  case empty => cases h
  case trace =>
    cases h
    refine ⟨by simp, by simp [bad_range, hty], by simp, by simp [keeps_axis, hty],
      fun a => ?_⟩
    simp only [type_getD_set, List.length_set]
    by_cases h1 : s.ix1 = a <;> by_cases h2 : s.ix2 = a <;>
      by_cases h3 : a < st.spec_old.length <;> simp [h1, h2, h3]
  case range =>
    by_cases hb : t.size.getD s.ix1 0 ≤ s.ix2 ∨ t.size.getD s.ix1 0 ≤ s.ix3
    · rw [if_pos hb] at h
      cases h
    rw [if_neg hb] at h
    cases h
    refine ⟨by simp, fun hbr => hb hbr.2, by simp, by simp [keeps_axis, hty],
      fun a => ?_⟩
    simp only [type_getD_set]
    by_cases h1 : s.ix1 = a <;> by_cases h3 : a < st.spec_old.length <;> simp [h1, h3]
  all_goals
    cases h
    refine ⟨by simp, by simp [bad_range, hty], by simp, by simp [keeps_axis, hty],
      fun a => ?_⟩
    simp only [type_getD_set]
    by_cases h1 : s.ix1 = a <;> by_cases h3 : a < st.spec_old.length <;> simp [h1, h3]

/-- With `err_on_fail` the first loop exits only through the error handler, at a Range
entry with a bound out of range or at an entry of a type that is not allowed. -/
theorem classify_step_error (ext : externals) (t : tensor_grid) (st : rearr)
    (s : index_spec) (x : rearr_exit) (h : classify_step ext t true st s = .error x) :
    (x = .raised .range_beyond ∧ bad_range t s) ∨
    (x = .raised .type_not_allowed ∧ s.type = .empty) := by
  unfold classify_step at h
  cases hty : s.type <;> rw [hty] at h <;> simp only at h
  case empty =>
    cases h
    exact Or.inr ⟨rfl, rfl⟩
  case range =>
    by_cases hb : t.size.getD s.ix1 0 ≤ s.ix2 ∨ t.size.getD s.ix1 0 ≤ s.ix3
    · rw [if_pos hb] at h
      cases h
      exact Or.inl ⟨rfl, hty, hb⟩
    · rw [if_neg hb] at h
      cases h
  all_goals cases h

/-- The first loop, when it does not exit: no entry is of a type that is not allowed,
no Range bound is out of range, the new rank counts the entries that give an axis, and
an old axis has a non-empty table entry exactly when it had one before or an entry of
the list assigns it. -/
theorem classify_loop_ok (ext : externals) (t : tensor_grid) (e : Bool)
    (spec : List index_spec) :
    ∀ (st st1 : rearr), classify_loop ext t e spec st = .ok st1 →
      (∀ s, s ∈ spec → s.type ≠ .empty ∧ ¬ bad_range t s) ∧
      st1.spec_old.length = st.spec_old.length ∧
      st1.rank_new = st.rank_new + new_rank spec ∧
      ∀ a, a < st.spec_old.length →
        ((st1.spec_old.getD a index_spec_empty).type ≠ .empty ↔
          ((st.spec_old.getD a index_spec_empty).type ≠ .empty ∨ covered spec a)) := by
  induction spec with
  | nil =>
    intro st st1 h
    unfold classify_loop at h
    cases h
    refine ⟨fun s hs => absurd hs (List.not_mem_nil s), rfl, by simp [new_rank],
      fun a _ => ?_⟩
    simp [covered]
  | cons s rest ih =>
    intro st st1 h
    unfold classify_loop at h
    cases hs : classify_step ext t e st s with
    | error x => rw [hs] at h; cases h
    | ok st2 =>
      rw [hs] at h
      simp only at h
      obtain ⟨a1, a2, a3, a4, a5⟩ := classify_step_ok ext t e st st2 s hs
      obtain ⟨b1, b2, b3, b4⟩ := ih st2 st1 h
      refine ⟨?_, by rw [b2, a3], ?_, fun a ha => ?_⟩
      · intro s' hs'
        rcases List.mem_cons.mp hs' with h1 | h1
        · rw [h1]; exact ⟨a1, a2⟩
        · exact b1 s' h1
      · rw [b3, a4]
        unfold new_rank
        rw [List.filter_cons]
        split_ifs
        · simp only [List.length_cons]; omega
        · omega
      · rw [b4 a (by omega), a5 a]
        unfold covered assigns
        by_cases hc : (s.ix1 = a ∨ (s.type = .trace ∧ s.ix2 = a))
        · rw [if_pos ⟨hc, ha⟩]
          constructor
          · intro _
            exact Or.inr ⟨s, List.mem_cons_self _ _, a1, hc⟩
          · intro _
            exact Or.inl a1
        · rw [if_neg (by tauto)]
          constructor
          · rintro (h1 | ⟨s', hs', hs2⟩)
            · exact Or.inl h1
            · exact Or.inr ⟨s', List.mem_cons_of_mem _ hs', hs2⟩
          · rintro (h1 | ⟨s', hs', hs2⟩)
            · exact Or.inl h1
            · rcases List.mem_cons.mp hs' with h2 | h2
              · rw [h2] at hs2
                exact absurd hs2.2 hc
              · exact Or.inr ⟨s', h2, hs2⟩

/-- With `err_on_fail` an exit of the first loop is a raise at a Range entry of the
list with a bound out of range, or a raise at an entry of a type that is not allowed. -/
theorem classify_loop_error (ext : externals) (t : tensor_grid) (spec : List index_spec) :
    ∀ (st : rearr) (x : rearr_exit), classify_loop ext t true spec st = .error x →
      (x = .raised .range_beyond ∧ ∃ s, s ∈ spec ∧ bad_range t s) ∨
      (x = .raised .type_not_allowed ∧ ∃ s, s ∈ spec ∧ s.type = .empty) := by
  induction spec with
  | nil =>
    intro st x h
    unfold classify_loop at h
    cases h
  | cons s rest ih =>
    intro st x h
    unfold classify_loop at h
    cases hs : classify_step ext t true st s with
    | error y =>
      rw [hs] at h
      simp only at h
      have hy : y = x := Except.error.inj h
      subst hy
      rcases classify_step_error ext t st s y hs with ⟨h1, h2⟩ | ⟨h1, h2⟩
      · exact Or.inl ⟨h1, s, List.mem_cons_self _ _, h2⟩
      · exact Or.inr ⟨h1, s, List.mem_cons_self _ _, h2⟩
    | ok st2 =>
      rw [hs] at h
      rcases ih st2 x h with ⟨h1, s', hs', h2⟩ | ⟨h1, s', hs', h2⟩
      · exact Or.inl ⟨h1, s', List.mem_cons_of_mem _ hs', h2⟩
      · exact Or.inr ⟨h1, s', List.mem_cons_of_mem _ hs', h2⟩

/-- With `err_on_fail` the test of the old axes raises exactly when one of the axes
listed has an empty table entry. -/
theorem validate_loop_true (spec_old : List index_spec) (axes : List Nat) :
    (validate_loop true spec_old axes = none ↔
      ∀ a, a ∈ axes → (spec_old.getD a index_spec_empty).type ≠ .empty) ∧
    (validate_loop true spec_old axes = none ∨
      validate_loop true spec_old axes = some (.raised .not_all_accounted)) := by
  induction axes with
  | nil => simp [validate_loop]
  | cons i rest ih =>
    unfold validate_loop
    simp only [if_true]
    by_cases h : (spec_old.getD i index_spec_empty).type = .empty
    · rw [if_pos h]
      refine ⟨⟨fun hn => (by cases hn), fun ha => ?_⟩, Or.inr rfl⟩
      exact absurd h (ha i (List.mem_cons_self _ _))
    · rw [if_neg h]
      refine ⟨?_, ih.2⟩
      rw [ih.1]
      constructor
      · intro hr a ha
        rcases List.mem_cons.mp ha with h1 | h1
        · rw [h1]; exact h
        · exact hr a h1
      · intro hr a ha
        exact hr a (List.mem_cons_of_mem _ ha)

/-- Before the first loop every old axis has an empty table entry. -/
theorem rearr_init_spec_old (rank_old a : Nat) :
    (rearr_init rank_old).spec_old.length = rank_old ∧
    ((rearr_init rank_old).spec_old.getD a index_spec_empty).type = .empty := by
  unfold rearr_init
  simp only [List.length_replicate, true_and]
  rw [List.getD_eq_getElem?_getD]
  by_cases h : a < rank_old
  · simp [List.getElem?_replicate, h, index_spec_empty]
  · simp [List.getElem?_replicate, h, index_spec_empty]

/-- C19: with `err_on_fail`, `rearrange_and_copy` raises invalid-argument whenever a Range
entry has a bound that is not below the size of its source axis, the new rank is 0, or
some source axis below the rank is assigned by no entry; and when every axis is
covered, all Range bounds are in range and the new rank is positive it leaves at none
of these three places (and at no place at all if every entry has an allowed type). -/
theorem rearrange_validation (ext : externals) (t : tensor_grid) (spec : List index_spec) :
    (((∃ s, s ∈ spec ∧ bad_range t s) ∨ new_rank spec = 0 ∨
        (∃ a, a < t.rk ∧ ¬ covered spec a)) →
      rearrange_and_copy ext t spec true = .error .exc_einval) ∧
    ((∀ s, s ∈ spec → ¬ bad_range t s) → 0 < new_rank spec →
      (∀ a, a < t.rk → covered spec a) →
      rearrange_check ext t spec true ≠ .error (.raised .range_beyond) ∧
      rearrange_check ext t spec true ≠ .error (.raised .zero_new_indices) ∧
      rearrange_check ext t spec true ≠ .error (.raised .not_all_accounted) ∧
      ((∀ s, s ∈ spec → s.type ≠ .empty) →
        ∃ st, rearrange_check ext t spec true = .ok st)) := by
  constructor
  · intro hbad
    unfold rearrange_and_copy rearrange_check
    cases hc : classify_loop ext t true spec (rearr_init t.rk) with
    | error x =>
      rcases classify_loop_error ext t spec _ x hc with ⟨h1, _⟩ | ⟨h1, _⟩ <;> rw [h1] <;> rfl
    | ok st =>
      obtain ⟨c1, c2, c3, c4⟩ := classify_loop_ok ext t true spec _ st hc
      simp only
      by_cases h0 : st.rank_new = 0
      · rw [if_pos h0]
        rfl
      · rw [if_neg h0]
        have hv := validate_loop_true st.spec_old (List.range t.rk)
        rcases hv.2 with hn | hs
        · exfalso
          rcases hbad with ⟨s, hs, hb⟩ | hz | ⟨a, ha, hcov⟩
          · exact (c1 s hs).2 hb
          · rw [c3, hz] at h0
            exact h0 rfl
          · have h1 := hv.1.mp hn a (List.mem_range.mpr ha)
            rw [c4 a (by rw [(rearr_init_spec_old t.rk a).1]; exact ha)] at h1
            rcases h1 with h2 | h2
            · exact h2 (rearr_init_spec_old t.rk a).2
            · exact hcov h2
        · rw [hs]
          rfl
  · intro hrange hrank hcov
    unfold rearrange_check
    cases hc : classify_loop ext t true spec (rearr_init t.rk) with
    | error x =>
      simp only
      rcases classify_loop_error ext t spec _ x hc with ⟨h1, s, hs, hb⟩ | ⟨h1, s, hs, he⟩
      · exact absurd hb (hrange s hs)
      · rw [h1]
        refine ⟨by simp, by simp, by simp, fun hall => absurd he (hall s hs)⟩
    | ok st =>
      obtain ⟨c1, c2, c3, c4⟩ := classify_loop_ok ext t true spec _ st hc
      simp only
      have h0 : ¬ st.rank_new = 0 := by
        rw [c3]
        simp [rearr_init]
        omega
      rw [if_neg h0]
      have hv := validate_loop_true st.spec_old (List.range t.rk)
      have hnone : validate_loop true st.spec_old (List.range t.rk) = none := by
        rw [hv.1]
        intro a ha
        have ha2 := List.mem_range.mp ha
        rw [c4 a (by rw [(rearr_init_spec_old t.rk a).1]; exact ha2)]
        exact Or.inr (hcov a ha2)
      rw [hnone]
      exact ⟨by simp, by simp, by simp, fun _ => ⟨st, rfl⟩⟩

/-- Witness for C19: on the `(3,2)` sample a Range bound equal to the size is refused, and
the well-formed spec list `[range(0,1,2), index(1)]` passes the checks. -/
theorem rearrange_validation_witness :
    rearrange_and_copy sample_ext sample32 [ix_range 0 1 3, ix_index 1] true =
      .error .exc_einval ∧
    (rearrange_check sample_ext sample32 [ix_range 0 1 2, ix_index 1] true ≠
        .error (.raised .range_beyond) ∧
      rearrange_check sample_ext sample32 [ix_range 0 1 2, ix_index 1] true ≠
        .error (.raised .zero_new_indices) ∧
      rearrange_check sample_ext sample32 [ix_range 0 1 2, ix_index 1] true ≠
        .error (.raised .not_all_accounted) ∧
      ((∀ s, s ∈ [ix_range 0 1 2, ix_index 1] → s.type ≠ .empty) →
        ∃ st, rearrange_check sample_ext sample32 [ix_range 0 1 2, ix_index 1] true =
          .ok st)) :=
  ⟨(rearrange_validation sample_ext sample32 [ix_range 0 1 3, ix_index 1]).1
      (Or.inl ⟨ix_range 0 1 3, by simp, by decide⟩),
   (rearrange_validation sample_ext sample32 [ix_range 0 1 2, ix_index 1]).2
      (by decide) (by decide) (by decide)⟩

/-! ## Row-major packing and unpacking -/

/-- Unpacking gives one index per axis. -/
theorem unpack_index_length (ss : List Nat) : ∀ i, (unpack_index ss i).length = ss.length := by
  induction ss with
  | nil => intro i; rfl
  | cons s ss ih => intro i; simp [unpack_index, ih]

/-- Packing the unpacked indices of a cell number gives the number back. -/
theorem row_major_unpack_index (ss : List Nat) :
    ∀ i, i < ss.prod → row_major ss (unpack_index ss i) = i := by
  induction ss with
  | nil =>
    intro i hi
    simp at hi
    simp [unpack_index, row_major, hi]
  | cons s ss ih =>
    intro i hi
    have hP : 0 < ss.prod := by
      rcases Nat.eq_zero_or_pos ss.prod with h | h
      · rw [List.prod_cons, h] at hi
        omega
      · exact h
    simp only [unpack_index, row_major]
    rw [ih _ (Nat.mod_lt _ hP)]
    exact Nat.div_add_mod' i ss.prod

/-- The unpacked indices of a cell number are below the sizes. -/
theorem unpack_index_lt (ss : List Nat) :
    ∀ i, i < ss.prod → ∀ k, k < ss.length →
      (unpack_index ss i).getD k 0 < ss.getD k 0 := by
  induction ss with
  | nil => intro i _ k hk; simp at hk
  | cons s ss ih =>
    intro i hi k hk
    have hP : 0 < ss.prod := by
      rcases Nat.eq_zero_or_pos ss.prod with h | h
      · rw [List.prod_cons, h] at hi
        omega
      · exact h
    cases k with
    | zero =>
      simp only [unpack_index, List.getD_cons_zero]
      rw [List.prod_cons] at hi
      exact Nat.div_lt_of_lt_mul (by rw [Nat.mul_comm]; exact hi)
    | succ k =>
      simp only [unpack_index, List.getD_cons_succ]
      exact ih _ (Nat.mod_lt _ hP) k (by simpa using hk)

/-- The packing of in-range indices is below the number of cells, and unpacking it
gives the indices back. -/
theorem row_major_in_range (ss : List Nat) :
    ∀ idx : List Nat, idx.length = ss.length →
      (∀ k, k < ss.length → idx.getD k 0 < ss.getD k 0) →
      row_major ss idx < ss.prod ∧ unpack_index ss (row_major ss idx) = idx := by
  induction ss with
  | nil =>
    intro idx hlen _
    have : idx = [] := List.length_eq_zero.mp (by simpa using hlen)
    subst this
    simp [row_major, unpack_index]
  | cons s ss ih =>
    intro idx hlen hlt
    cases idx with
    | nil => simp at hlen
    | cons i rest =>
      have h0 : i < s := by simpa using hlt 0 (by simp)
      obtain ⟨h1, h2⟩ := ih rest (by simpa using hlen) (fun k hk => by
        simpa using hlt (k + 1) (by simpa using hk))
      have hP : 0 < ss.prod := by omega
      simp only [row_major, unpack_index, List.prod_cons]
      refine ⟨?_, ?_⟩
      · calc i * ss.prod + row_major ss rest < i * ss.prod + ss.prod := by omega
          _ = (i + 1) * ss.prod := by ring
          _ ≤ s * ss.prod := Nat.mul_le_mul_right _ h0
      · have hd : (i * ss.prod + row_major ss rest) / ss.prod = i := by
          rw [Nat.add_comm, Nat.add_mul_div_right _ _ hP, Nat.div_eq_of_lt h1]
          omega
        have hm : (i * ss.prod + row_major ss rest) % ss.prod = row_major ss rest := by
          rw [Nat.add_comm, Nat.add_mul_mod_self_right, Nat.mod_eq_of_lt h1]
        rw [hd, hm, h2]

/-- Entries of the index vector beyond the rank do not enter the packing. -/
theorem row_major_append (ss : List Nat) :
    ∀ (idx extra : List Nat), idx.length = ss.length →
      row_major ss (idx ++ extra) = row_major ss idx := by
  induction ss with
  | nil =>
    intro idx extra hlen
    have : idx = [] := List.length_eq_zero.mp (by simpa using hlen)
    subst this
    cases extra <;> simp [row_major]
  | cons s ss ih =>
    intro idx extra hlen
    cases idx with
    | nil => simp at hlen
    | cons i rest =>
      have h := ih rest extra (by simpa using hlen)
      show i * ss.prod + row_major ss (rest ++ extra) = i * ss.prod + row_major ss rest
      rw [h]

/-! ## Loops that fill a tensor -/

/-- A loop whose body stores one value with `set`, the cell and the value depending on
the sizes only, changes the data buffer alone. -/
theorem fold_set_data (G : List Nat → Nat → List Nat) (V : List Nat → Nat → ℚ)
    (l : List Nat) :
    ∀ tn0 : tensor_grid,
      l.foldl (fun tn i => set tn (G tn.size i) (V tn.size i)) tn0 =
        { tn0 with
          data := (l.foldl (fun d i =>
            d.set (row_major tn0.size (G tn0.size i)) (V tn0.size i)) tn0.data) } := by
  induction l with
  | nil => intro tn0; rfl
  | cons i rest ih =>
    intro tn0
    simp only [List.foldl_cons]
    rw [ih]
    rfl

/-- A loop over the cell numbers `0..N-1` that stores the value `V i` in the cell
with number `i` leaves `V i` at position `i` of the data buffer. -/
theorem fold_set_cells (pos : Nat → Nat) (V : Nat → ℚ) (N : Nat) (d0 : List ℚ)
    (hpos : ∀ i, i < N → pos i = i) :
    ((List.range N).foldl (fun d i => d.set (pos i) (V i)) d0).length = d0.length ∧
    ∀ p, ((List.range N).foldl (fun d i => d.set (pos i) (V i)) d0).getD p 0 =
      if p < N ∧ p < d0.length then V p else d0.getD p 0 := by
  have h : (List.range N).foldl (fun d i => d.set (pos i) (V i)) d0 =
      (List.range N).foldl (fun d i => d.set i (V i)) d0 := by
    apply List.foldl_ext
    intro d i hi
    rw [hpos i (List.mem_range.mp hi)]
  rw [h]
  exact copy_loop_spec V N d0

/-! ## Hypercubes -/

/-- The constructor with a positive rank and positive sizes. -/
theorem tensor_grid_rank_dim_ok (rank : Nat) (dim : List Nat) (hr : rank ≠ 0)
    (hd : ∀ i, i < rank → 0 < dim.getD i 0) :
    tensor_grid_rank_dim rank dim = .ok
      { rk := rank, size := (List.range rank).map (fun i => dim.getD i 0),
        data := List.replicate ((List.range rank).foldl (fun tot i => tot * dim.getD i 0) 1) 0,
        grid := [], grid_set := false, itype := itp_linear } := by
  have hf := (resize_check_none rank dim).mpr hd
  unfold tensor_grid_rank_dim tensor_rank_dim
  rw [if_neg hr, hf]
  simp only
  rw [hf]
  rfl

/-- The first `n` sizes of a list of twos. -/
theorem map_getD_replicate (n m : Nat) (h : n ≤ m) :
    (List.range n).map (fun i => (List.replicate m 2).getD i 0) = List.replicate n 2 := by
  apply List.ext_getElem
  · simp
  · intro i h1 h2
    have hi : i < n := by simpa using h1
    have him : i < m := by omega
    simp [List.getD_eq_getElem?_getD, List.getElem?_replicate, him]

/-- A size read from a list of twos. -/
theorem getD_replicate_two (m i : Nat) (h : i < m) : (List.replicate m 2).getD i 0 = 2 := by
  simp [List.getD_eq_getElem?_getD, List.getElem?_replicate, h]

/-- The constructor called with `n` axes of two points. -/
theorem tensor_grid_rank_dim_twos (n m : Nat) (hn : n ≠ 0) (h : n ≤ m) :
    ∃ d, tensor_grid_rank_dim n (List.replicate m 2) = .ok
      { rk := n, size := List.replicate n 2, data := d, grid := [], grid_set := false,
        itype := itp_linear } ∧ d.length = 2 ^ n ∧ ∀ p, d.getD p 0 = 0 := by
  have hd : ∀ i, i < n → 0 < (List.replicate m 2).getD i 0 := by
    intro i hi
    rw [getD_replicate_two m i (by omega)]
    omega
  refine ⟨List.replicate ((List.range n).foldl
    (fun tot i => tot * (List.replicate m 2).getD i 0) 1) 0, ?_, ?_, ?_⟩
  · rw [tensor_grid_rank_dim_ok n _ hn hd, map_getD_replicate n m h]
  · rw [List.length_replicate]
    have : ∀ k, k ≤ n → (List.range k).foldl
        (fun tot i => tot * (List.replicate m 2).getD i 0) 1 = 2 ^ k := by
      intro k
      induction k with
      | zero => intro _; rfl
      | succ k ih =>
        intro hk
        rw [List.range_succ, List.foldl_append, ih (by omega)]
        simp only [List.foldl_cons, List.foldl_nil]
        rw [getD_replicate_two m k (by omega), pow_succ]
    exact this n (le_refl _)
  · intro p
    rw [List.getD_eq_getElem?_getD, List.getElem?_replicate]
    split_ifs <;> rfl

/-- On a tensor of positive rank `set_grid_packed` raises nothing and changes the grid
and `grid_set` only. -/
theorem set_grid_packed_ok (t : tensor_grid) (g : List ℚ) (h : t.rk ≠ 0) :
    (set_grid_packed t g).raised = none ∧ (set_grid_packed t g).st.rk = t.rk ∧
    (set_grid_packed t g).st.size = t.size ∧ (set_grid_packed t g).st.data = t.data ∧
    (set_grid_packed t g).st.grid_set = true ∧
    (set_grid_packed t g).st.grid.length = istart_of t.size t.rk ∧
    ∀ p, p < istart_of t.size t.rk → (set_grid_packed t g).st.grid.getD p 0 = g.getD p 0 := by
  unfold set_grid_packed
  rw [if_neg h]
  obtain ⟨c1, c2⟩ := copy_loop_spec (fun i => g.getD i 0) (istart_of t.size t.rk)
    (vec_resize 0 t.grid (istart_of t.size t.rk))
  refine ⟨rfl, rfl, rfl, rfl, rfl, ?_, fun p hp => ?_⟩
  · simp only
    rw [c1, vec_resize_length]
  · simp only
    rw [c2, vec_resize_length, if_pos ⟨hp, hp⟩]

/-- The loop of `interp_linear_power_two` changes the data buffer of the smaller
tensor only. -/
theorem collapse_last_shape (t tnew : tensor_grid) (frac : ℚ) :
    (collapse_last t tnew frac).rk = tnew.rk ∧ (collapse_last t tnew frac).size = tnew.size ∧
    (collapse_last t tnew frac).grid = tnew.grid ∧
    (collapse_last t tnew frac).grid_set = tnew.grid_set := by
  unfold collapse_last
  rw [fold_set_data
    (fun sz i => ((write_front (List.replicate t.rk 0) (unpack_index sz i)).set
      (t.rk - 1) 0).set (t.rk - 1) 1)
    (fun sz i => get t ((write_front (List.replicate t.rk 0) (unpack_index sz i)).set
        (t.rk - 1) 0) + frac *
      (get t (((write_front (List.replicate t.rk 0) (unpack_index sz i)).set
        (t.rk - 1) 0).set (t.rk - 1) 1) -
       get t ((write_front (List.replicate t.rk 0) (unpack_index sz i)).set (t.rk - 1) 0)))]
  exact ⟨rfl, rfl, rfl, rfl⟩

/-- On a hypercube of rank at least 1 `interp_linear_power_two` raises nothing: every
level finds the grid set and builds a hypercube of one rank less. -/
theorem power_two_loop_ok (v : List ℚ) (n : Nat) :
    ∀ (t : tensor_grid) (fuel : Nat), n + 1 ≤ fuel → hypercube (n + 1) t →
      ∃ x, power_two_loop fuel t v = .ok x := by
  induction n with
  | zero =>
    intro t fuel hf ⟨h1, _, _⟩
    obtain ⟨f, rfl⟩ : ∃ f, fuel = f + 1 := ⟨fuel - 1, by omega⟩
    unfold power_two_loop
    rw [if_pos h1]
    exact ⟨_, rfl⟩
  | succ n ih =>
    intro t fuel hf ⟨h1, h2, h3⟩
    obtain ⟨f, rfl⟩ : ∃ f, fuel = f + 1 := ⟨fuel - 1, by omega⟩
    unfold power_two_loop
    rw [if_neg (by omega)]
    have hg : ∀ j, get_grid t (t.rk - 1) j = .ok (grid_at t (t.rk - 1) j) := by
      intro j
      unfold get_grid
      rw [if_neg (by simp [h3]), if_neg (by omega)]
    simp only [hg]
    obtain ⟨d, hc, _, _⟩ := tensor_grid_rank_dim_twos (n + 1) (n + 2) (by omega) (by omega)
    rw [h1, h2]
    simp only [Nat.add_sub_cancel]
    rw [hc]
    simp only
    obtain ⟨s1, s2, s3, s4, s5, _, _⟩ := set_grid_packed_ok
      { rk := n + 1, size := List.replicate (n + 1) 2, data := d, grid := [],
        grid_set := false, itype := itp_linear } t.grid (by simp)
    rw [s1]
    simp only
    apply ih _ f (by omega)
    obtain ⟨c1, c2, c3, c4⟩ := collapse_last_shape t (set_grid_packed
      { rk := n + 1, size := List.replicate (n + 1) 2, data := d, grid := [],
        grid_set := false, itype := itp_linear } t.grid).st
      ((v.getD (n + 1) 0 - grid_at t (n + 1) 0) / (grid_at t (n + 1) 1 - grid_at t (n + 1) 0))
    exact ⟨by rw [c1, s2], by rw [c2, s3], by rw [c4, s5]⟩

/-! ## Interpolation: failures -/

/-- A property kept by the body of a loop is kept by the loop. -/
theorem foldl_inv {σ : Type} (Q : σ → Prop) (f : σ → Nat → σ)
    (h : ∀ s i, Q s → Q (f s i)) : ∀ (l : List Nat) (s : σ), Q s → Q (l.foldl f s) := by
  intro l
  induction l with
  | nil => intro s hs; exact hs
  | cons i rest ih => intro s hs; exact ih _ (h s i hs)

/-- A loop whose body raises nothing raises nothing. -/
theorem for_loop_ok {σ : Type} (f : σ → Nat → Except exc σ) (l : List Nat)
    (h : ∀ s i, i ∈ l → ∃ s1, f s i = .ok s1) : ∀ s, ∃ s1, for_loop f l s = .ok s1 := by
  induction l with
  | nil => intro s; exact ⟨s, rfl⟩
  | cons i rest ih =>
    intro s
    obtain ⟨s1, h1⟩ := h s i (List.mem_cons_self _ _)
    unfold for_loop
    rw [h1]
    exact ih (fun s i hi => h s i (List.mem_cons_of_mem _ hi)) s1

/-- A loop whose body can only raise `e`, and does raise in one of its rounds whatever
the state, raises `e`. -/
theorem for_loop_error {σ : Type} (f : σ → Nat → Except exc σ) (e : exc) (l : List Nat)
    (honly : ∀ s i e1, f s i = .error e1 → e1 = e)
    (hsome : ∃ i, i ∈ l ∧ ∀ s, ∃ e1, f s i = .error e1) :
    ∀ s, for_loop f l s = .error e := by
  induction l with
  | nil =>
    obtain ⟨i, hi, _⟩ := hsome
    exact absurd hi (List.not_mem_nil i)
  | cons i rest ih =>
    intro s
    unfold for_loop
    cases h1 : f s i with
    | error e1 => rw [honly s i e1 h1]
    | ok s1 =>
      simp only
      apply ih
      obtain ⟨i0, hi0, hr⟩ := hsome
      rcases List.mem_cons.mp hi0 with h2 | h2
      · obtain ⟨e1, he1⟩ := hr s
        rw [h2, h1] at he1
        cases he1
      · exact ⟨i0, h2, hr⟩

/-- The grid of an axis below the rank, read point by point, when the grid is set. -/
theorem grid_one_loop_ok (t : tensor_grid) (ixi : Nat) (hset : t.grid_set = true)
    (hi : ixi < t.rk) (l : List Nat) :
    grid_one_loop t ixi l = .ok (l.map (fun j => grid_at t ixi j)) := by
  induction l with
  | nil => rfl
  | cons j rest ih =>
    unfold grid_one_loop get_grid
    rw [if_neg (by simp [hset]), if_neg (by omega), ih]
    rfl

/-- Reading the grid of an axis point by point can only raise invalid-argument, and
does so when the grid is not set and there is a point to read. -/
theorem grid_one_loop_error (t : tensor_grid) (ixi : Nat) (l : List Nat) :
    (∀ e, grid_one_loop t ixi l = .error e → e = .exc_einval) ∧
    (t.grid_set = false → l ≠ [] → grid_one_loop t ixi l = .error .exc_einval) := by
  induction l with
  | nil =>
    refine ⟨fun e h => ?_, fun _ h => absurd rfl h⟩
    unfold grid_one_loop at h
    cases h
  | cons j rest ih =>
    refine ⟨fun e h => ?_, fun hset _ => ?_⟩
    · unfold grid_one_loop at h
      cases hg : get_grid t ixi j with
      | error e1 =>
        rw [hg] at h
        have he : e1 = e := Except.error.inj h
        rw [← he]
        unfold get_grid at hg
        split_ifs at hg <;> cases hg <;> rfl
      | ok g =>
        rw [hg] at h
        cases hr : grid_one_loop t ixi rest with
        | error e1 =>
          rw [hr] at h
          have he : e1 = e := Except.error.inj h
          rw [← he]
          exact ih.1 e1 hr
        | ok gs =>
          rw [hr] at h
          cases h
    · unfold grid_one_loop get_grid
      rw [if_pos hset]

/-- A round of the corner search of `interp_linear_partial` can only raise
invalid-argument. -/
theorem partial_corner_step_error (ext : externals) (t : tensor_grid)
    (ix_to_interp : List Nat) (val : List ℚ) (s : List Nat × List ℚ) (i : Nat) (e : exc)
    (h : partial_corner_step ext t ix_to_interp val s i = .error e) : e = .exc_einval := by
  unfold partial_corner_step at h
  simp only at h
  split_ifs at h with h1
  · cases h; rfl
  · cases hg : grid_one_loop t (ix_to_interp.getD i 0)
        (List.range (t.size.getD (ix_to_interp.getD i 0) 0)) with
    | error e1 =>
      rw [hg] at h
      have he : e1 = e := Except.error.inj h
      rw [← he]
      exact (grid_one_loop_error t _ _).1 e1 hg
    | ok g =>
      rw [hg] at h
      cases h

/-- The copy loop of `interp_linear_partial` changes the data buffer of the hypercube
only. -/
theorem copy_partial_shape (t : tensor_grid) (ix_to_interp loc : List Nat)
    (s : tensor_grid × List Nat) :
    ( copy_partial t ix_to_interp loc s).1.rk = s.1.rk ∧
    ( copy_partial t ix_to_interp loc s).1.size = s.1.size ∧
    ( copy_partial t ix_to_interp loc s).1.grid_set = s.1.grid_set := by
  unfold copy_partial
  refine foldl_inv (fun r : tensor_grid × List Nat =>
      r.1.rk = s.1.rk ∧ r.1.size = s.1.size ∧ r.1.grid_set = s.1.grid_set) _
    ?_ _ s ⟨rfl, rfl, rfl⟩
  intro r i hr
  exact hr

/-- The copy loop of `interp_linear` changes the data buffer of the hypercube only. -/
theorem copy_corner_shape (t tnew : tensor_grid) (loc : List Nat) :
    (copy_corner t tnew loc).rk = tnew.rk ∧ (copy_corner t tnew loc).size = tnew.size ∧
    (copy_corner t tnew loc).grid = tnew.grid ∧
    (copy_corner t tnew loc).grid_set = tnew.grid_set := by
  unfold copy_corner
  refine foldl_inv (fun r : tensor_grid =>
      r.rk = tnew.rk ∧ r.size = tnew.size ∧ r.grid = tnew.grid ∧ r.grid_set = tnew.grid_set) _
    ?_ _ tnew ⟨rfl, rfl, rfl, rfl⟩
  intro r i hr
  exact hr

/-- On a tensor of rank at least 1 `interp_linear` raises nothing, whether the grid is
set or not: it reads the packed grid directly and hands a hypercube with its own grid
to `interp_linear_power_two`. -/
theorem interp_linear_ok (ext : externals) (t : tensor_grid) (v : List ℚ) (hrk : 0 < t.rk) :
    ∃ x, interp_linear ext t v = .ok x := by
  unfold interp_linear
  obtain ⟨d, hc, _, _⟩ := tensor_grid_rank_dim_twos t.rk t.rk (by omega) (le_refl _)
  simp only
  rw [hc]
  simp only
  obtain ⟨s1, s2, s3, _, s5, _, _⟩ := set_grid_packed_ok
    { rk := t.rk, size := List.replicate t.rk 2, data := d, grid := [],
      grid_set := false, itype := itp_linear }
    ((List.range t.rk).foldl (corner_step ext t v) (0, List.replicate t.rk 0, [])).2.2
    (by simp; omega)
  rw [s1]
  simp only
  unfold interp_linear_power_two
  obtain ⟨c1, c2, _, c4⟩ := copy_corner_shape t (set_grid_packed
    { rk := t.rk, size := List.replicate t.rk 2, data := d, grid := [],
      grid_set := false, itype := itp_linear }
    ((List.range t.rk).foldl (corner_step ext t v) (0, List.replicate t.rk 0, [])).2.2).st
    ((List.range t.rk).foldl (corner_step ext t v) (0, List.replicate t.rk 0, [])).2.1
  obtain ⟨n, hn⟩ : ∃ n, t.rk = n + 1 := ⟨t.rk - 1, by omega⟩
  apply power_two_loop_ok v n _ _ (by rw [c1, s2]; simp only; omega)
  exact ⟨by rw [c1, s2]; exact hn, by rw [c2, s3]; simp only; rw [hn], by rw [c4, s5]⟩

/-- The corner search of `interp_linear_partial` raises invalid-argument when the grid
is not set and the axes have points. -/
theorem partial_corner_unset (ext : externals) (t : tensor_grid) (ix_to_interp : List Nat)
    (val : List ℚ) (hsz : ∀ i, i < t.rk → 0 < t.size.getD i 0)
    (hset : t.grid_set = false) (hk : ix_to_interp.length ≠ 0)
    (s : List Nat × List ℚ) :
    for_loop (partial_corner_step ext t ix_to_interp val) (List.range ix_to_interp.length) s =
      .error .exc_einval := by
  apply for_loop_error _ _ _ (partial_corner_step_error ext t ix_to_interp val)
  refine ⟨0, List.mem_range.mpr (by omega), fun s => ?_⟩
  unfold partial_corner_step
  simp only
  by_cases h1 : get_rank t ≤ ix_to_interp.getD 0 0
  · rw [if_pos h1]
    exact ⟨_, rfl⟩
  · rw [if_neg h1]
    have hlt : ix_to_interp.getD 0 0 < t.rk := by
      unfold get_rank at h1
      omega
    rw [(grid_one_loop_error t _ _).2 hset (by
      intro h
      have := hsz _ hlt
      have h2 := congrArg List.length h
      rw [List.length_range, List.length_nil] at h2
      omega)]
    exact ⟨_, rfl⟩

/-- C13 (what the code does): on a tensor of rank at least 1 whose grid has not been
set, `interp_linear_partial` raises invalid-argument, through `get_grid`, but
`interp_linear` raises nothing and returns a value: it has no test of `grid_set` and
reads the packed grid directly. -/
theorem interp_unset_grid (ext : externals) (t : tensor_grid) (v : List ℚ)
    (ix_to_interp ix : List Nat) (val : List ℚ) (hrk : 0 < t.rk)
    (hsz : ∀ i, i < t.rk → 0 < t.size.getD i 0) (hset : is_grid_set t = false) :
    (∃ x, interp_linear ext t v = .ok x) ∧
    interp_linear_partial ext t ix_to_interp ix val = .error .exc_einval := by
  refine ⟨interp_linear_ok ext t v hrk, ?_⟩
  unfold interp_linear_partial
  split_ifs with h1 h2
  · rfl
  · rfl
  · rw [partial_corner_unset ext t ix_to_interp val hsz hset (by tauto)]

/-- Witness for C13: the rank-1 sample without a grid, at the point `[1/2]`. -/
theorem interp_unset_grid_witness :
    (∃ x, interp_linear sample_ext sample_nogrid [1 / 2] = .ok x) ∧
    interp_linear_partial sample_ext sample_nogrid [0] [0] [1 / 2] = .error .exc_einval :=
  interp_unset_grid sample_ext sample_nogrid [1 / 2] [0] [0] [1 / 2] (by decide) (by decide)
    (by decide)

/-- C14: `interp_linear_partial(ix_to_interp,ix,val)` raises invalid-argument whenever
`val` and `ix_to_interp` differ in length, `ix_to_interp` is empty or longer than the
rank, or one of its entries is not below the rank; when none of these holds, the grid is
set, every axis has at least 2 points and the fixed entries of `ix` are in range, it
raises nothing. -/
theorem interp_linear_partial_failures (ext : externals) (t : tensor_grid)
    (ix_to_interp ix : List Nat) (val : List ℚ) :
    ((val.length ≠ ix_to_interp.length ∨ ix_to_interp.length = 0 ∨
        t.rk < ix_to_interp.length ∨
        (∃ i, i < ix_to_interp.length ∧ t.rk ≤ ix_to_interp.getD i 0)) →
      interp_linear_partial ext t ix_to_interp ix val = .error .exc_einval) ∧
    (is_grid_set t = true → (∀ a, a < t.rk → 2 ≤ t.size.getD a 0) →
      (ix.length = t.rk ∧ ∀ a, a < t.rk → a ∉ ix_to_interp → ix.getD a 0 < t.size.getD a 0) →
      val.length = ix_to_interp.length → ix_to_interp.length ≠ 0 →
      ix_to_interp.length ≤ t.rk → (∀ i, i < ix_to_interp.length → ix_to_interp.getD i 0 < t.rk) →
      ∃ x, interp_linear_partial ext t ix_to_interp ix val = .ok x) := by
  constructor
  · intro h
    unfold interp_linear_partial
    split_ifs with h1 h2
    · rfl
    · rfl
    · have hbad : ∃ i, i < ix_to_interp.length ∧ t.rk ≤ ix_to_interp.getD i 0 := by
        unfold get_rank at h2
        rcases h with h | h | h | h
        · exact absurd h h1
        · exact absurd (Or.inr h) h2
        · exact absurd (Or.inl h) h2
        · exact h
      obtain ⟨i, hi, hge⟩ := hbad
      rw [for_loop_error _ .exc_einval _ (partial_corner_step_error ext t ix_to_interp val)
        ⟨i, List.mem_range.mpr hi, fun s => ?_⟩]
      unfold partial_corner_step
      simp only
      rw [if_pos (by unfold get_rank; exact hge)]
      exact ⟨_, rfl⟩
  · intro hset _ _ hval h0 hle hlt
    unfold interp_linear_partial
    rw [if_neg (by simpa using hval), if_neg (by unfold get_rank; omega)]
    obtain ⟨c, hc⟩ := for_loop_ok (partial_corner_step ext t ix_to_interp val)
      (List.range ix_to_interp.length) (fun s i hi => by
        unfold partial_corner_step
        simp only
        have h1 := hlt i (List.mem_range.mp hi)
        rw [if_neg (by unfold get_rank; omega),
          grid_one_loop_ok t _ (by simpa [is_grid_set] using hset) h1]
        exact ⟨_, rfl⟩) (List.replicate ix_to_interp.length 0, [])
    rw [hc]
    simp only
    obtain ⟨d, hd, _, _⟩ := tensor_grid_rank_dim_twos ix_to_interp.length ix_to_interp.length
      h0 (le_refl _)
    rw [hd]
    simp only
    obtain ⟨s1, s2, s3, _, s5, _, _⟩ := set_grid_packed_ok
      { rk := ix_to_interp.length, size := List.replicate ix_to_interp.length 2, data := d,
        grid := [], grid_set := false, itype := itp_linear } c.2 (by simpa using h0)
    rw [s1]
    simp only
    unfold interp_linear_power_two
    obtain ⟨c1, c2, c4⟩ := copy_partial_shape t ix_to_interp c.1 ((set_grid_packed
      { rk := ix_to_interp.length, size := List.replicate ix_to_interp.length 2, data := d,
        grid := [], grid_set := false, itype := itp_linear } c.2).st, ix)
    obtain ⟨n, hn⟩ : ∃ n, ix_to_interp.length = n + 1 := ⟨ix_to_interp.length - 1, by omega⟩
    apply power_two_loop_ok val n _ _ (by rw [c1]; simp only; rw [s2]; simp only; omega)
    refine ⟨?_, ?_, ?_⟩
    · rw [c1]; simp only; rw [s2]; exact hn
    · rw [c2]; simp only; rw [s3]; simp only; rw [hn]
    · rw [c4]; exact s5

/-- Witness for C14: on the `(3,3)` sample, interpolating axis 1 with axis 0 fixed at
index 2 raises nothing, and a value list of the wrong length is refused. -/
theorem interp_linear_partial_failures_witness :
    (∃ x, interp_linear_partial sample_ext sample33 [1] [2, 0] [1 / 2] = .ok x) ∧
    interp_linear_partial sample_ext sample33 [1] [2, 0] [1 / 2, 3] = .error .exc_einval :=
  ⟨(interp_linear_partial_failures sample_ext sample33 [1] [2, 0] [1 / 2]).2 (by decide)
      (by decide) (by decide) (by decide) (by decide) (by decide) (by decide),
   (interp_linear_partial_failures sample_ext sample33 [1] [2, 0] [1 / 2, 3]).1
      (Or.inl (by decide))⟩

/-! ## Interpolation: exactness on affine data -/

/-- In a hypercube the grid of axis `k` starts at position `2k` of the packed grid. -/
theorem istart_of_twos (m k : Nat) (h : k ≤ m) : istart_of (List.replicate m 2) k = 2 * k := by
  unfold istart_of
  induction k with
  | zero => simp [offset_of]
  | succ k ih =>
    rw [offset_of_succ, ih (by omega), getD_replicate_two m k (by omega)]
    omega

/-- The product of `n` sizes equal to 2. -/
theorem prod_replicate_two (n : Nat) : (List.replicate n 2).prod = 2 ^ n := by
  simp [List.prod_replicate]

/-- Overwriting the last entry of an index vector. -/
theorem snoc_set (u : List Nat) (m : Nat) (hu : u.length = m) (y z : Nat) :
    (u ++ [y]).set m z = u ++ [z] := by
  rw [List.set_append_right _ _ (by omega), hu]
  simp

/-- The index vector of `interp_linear_power_two` after unpacking a cell of the smaller
tensor and setting the entry of the last axis: the unpacked indices followed by that
entry. -/
theorem write_front_set (u : List Nat) (m : Nat) (hu : u.length = m) (x : Nat) :
    (write_front (List.replicate (m + 1) 0) u).set m x = u ++ [x] := by
  unfold write_front
  have hd : List.drop u.length (List.replicate (m + 1) 0) = [0] := by
    rw [hu, List.drop_replicate]
    simp
  rw [hd, snoc_set u m hu]

/-- Reading an index vector with one more entry. -/
theorem getD_snoc (u : List Nat) (x k : Nat) :
    (u ++ [x]).getD k 0 = if k < u.length then u.getD k 0 else if k = u.length then x else 0 := by
  by_cases h : k < u.length
  · rw [if_pos h, List.getD_append _ _ _ _ h]
  · rw [if_neg h, List.getD_append_right _ _ _ _ (by omega)]
    by_cases h2 : k = u.length
    · rw [if_pos h2, h2]
      simp
    · rw [if_neg h2]
      have : k - u.length = (k - u.length - 1) + 1 := by omega
      rw [this]
      simp

/-- The cells of the smaller tensor built by one level of `interp_linear_power_two`:
the blend of the two cells of `t` that differ in the last index. -/
theorem collapse_last_get (t tg : tensor_grid) (frac : ℚ) (n : Nat) (ht : t.rk = n + 2)
    (hrk : tg.rk = n + 1) (hsize : tg.size = List.replicate (n + 1) 2)
    (hlen : tg.data.length = 2 ^ (n + 1)) (idx : List Nat) (hidx : idx.length = n + 1)
    (hlt : ∀ k, k < n + 1 → idx.getD k 0 < 2) :
    get (collapse_last t tg frac) idx =
      get t (idx ++ [0]) + frac * (get t (idx ++ [1]) - get t (idx ++ [0])) := by
  have hin := row_major_in_range (List.replicate (n + 1) 2) idx (by simpa using hidx)
    (fun k hk => by
      rw [List.length_replicate] at hk
      rw [getD_replicate_two _ _ hk]
      exact hlt k hk)
  rw [prod_replicate_two] at hin
  unfold collapse_last
  rw [fold_set_data
    (fun sz i => ((write_front (List.replicate t.rk 0) (unpack_index sz i)).set
      (t.rk - 1) 0).set (t.rk - 1) 1)
    (fun sz i => get t ((write_front (List.replicate t.rk 0) (unpack_index sz i)).set
        (t.rk - 1) 0) + frac *
      (get t (((write_front (List.replicate t.rk 0) (unpack_index sz i)).set
        (t.rk - 1) 0).set (t.rk - 1) 1) -
       get t ((write_front (List.replicate t.rk 0) (unpack_index sz i)).set (t.rk - 1) 0)))]
  have htot : total_size tg = 2 ^ (n + 1) := by
    unfold total_size
    rw [if_neg (by omega), hsize, prod_replicate_two]
  have hform : ∀ i x, ((write_front (List.replicate t.rk 0)
      (unpack_index tg.size i)).set (t.rk - 1) x) = unpack_index tg.size i ++ [x] := by
    intro i x
    have h1 : t.rk - 1 = n + 1 := by omega
    rw [h1, ht]
    exact write_front_set _ (n + 1) (by rw [unpack_index_length, hsize]; simp) x
  simp only [hform]
  have hpos : ∀ i, i < total_size tg →
      row_major tg.size ((unpack_index tg.size i ++ [0]).set (t.rk - 1) 1) = i := by
    intro i hi
    have h1 : t.rk - 1 = n + 1 := by omega
    rw [h1, snoc_set _ (n + 1) (by rw [unpack_index_length, hsize]; simp),
      row_major_append _ _ _ (unpack_index_length _ _)]
    apply row_major_unpack_index
    rw [hsize, prod_replicate_two, ← htot]
    exact hi
  obtain ⟨_, c2⟩ := fold_set_cells
    (fun i => row_major tg.size ((unpack_index tg.size i ++ [0]).set (t.rk - 1) 1))
    (fun i => get t (unpack_index tg.size i ++ [0]) + frac *
      (get t ((unpack_index tg.size i ++ [0]).set (t.rk - 1) 1) -
        get t (unpack_index tg.size i ++ [0])))
    (total_size tg) tg.data hpos
  unfold get at c2 ⊢
  simp only at c2 ⊢
  rw [hsize] at c2 ⊢
  rw [c2, htot, hlen, if_pos ⟨hin.1, hin.1⟩, hin.2]
  have h1 : t.rk - 1 = n + 1 := by omega
  rw [h1, snoc_set idx (n + 1) hidx]

/-- The value of an affine function of the grid coordinates at a cell of a hypercube
with one more axis. -/
theorem affine_snoc (a : Nat → ℚ) (g : Nat → Nat → ℚ) (idx : List Nat) (n j : Nat)
    (hidx : idx.length = n) :
    ∑ k in Finset.range (n + 1), a k * g k ((idx ++ [j]).getD k 0) =
      ∑ k in Finset.range n, a k * g k (idx.getD k 0) + a n * g n j := by
  rw [Finset.sum_range_succ]
  congr 1
  · apply Finset.sum_congr rfl
    intro k hk
    rw [getD_snoc, if_pos (by rw [hidx]; exact Finset.mem_range.mp hk)]
  · rw [getD_snoc, if_neg (by omega), if_pos hidx.symm]

/-- On a hypercube whose cells are an affine function of its grid coordinates, with two
different grid values on every axis, `interp_linear_power_two(v)` returns that affine
function at `v`. -/
theorem power_two_affine (v : List ℚ) (a : Nat → ℚ) (n : Nat) :
    ∀ (c : ℚ) (t : tensor_grid) (fuel : Nat), n + 1 ≤ fuel → hypercube (n + 1) t →
      (∀ k, k < n + 1 → grid_at t k 0 ≠ grid_at t k 1) →
      (∀ idx : List Nat, idx.length = n + 1 → (∀ k, k < n + 1 → idx.getD k 0 < 2) →
        get t idx = c + ∑ k in Finset.range (n + 1), a k * grid_at t k (idx.getD k 0)) →
      power_two_loop fuel t v = .ok (c + ∑ k in Finset.range (n + 1), a k * v.getD k 0) := by
  induction n with
  | zero =>
    intro c t fuel hf ⟨h1, h2, _⟩ hne haff
    obtain ⟨f, rfl⟩ : ∃ f, fuel = f + 1 := ⟨fuel - 1, by omega⟩
    unfold power_two_loop
    rw [if_pos h1]
    have e0 := haff [0] rfl (fun k hk => by
      have : k = 0 := by omega
      subst this; simp)
    have e1 := haff [1] rfl (fun k hk => by
      have : k = 0 := by omega
      subst this; simp)
    have hn := hne 0 (by omega)
    simp only [get, h2, grid_at, istart_of, offset_of, row_major, List.replicate,
      Finset.sum_range_one, List.getD_cons_zero, List.range_zero, List.foldl_nil,
      List.prod_nil, Nat.zero_add, Nat.mul_one, Nat.add_zero, Nat.one_mul, zero_add] at e0 e1 hn
    simp only [Finset.sum_range_one, zero_add]
    rw [e0, e1]
    have hd : t.grid.getD 1 0 - t.grid.getD 0 0 ≠ 0 := by
      intro h
      exact hn (by linarith)
    generalize t.grid.getD 1 0 = g1 at hd ⊢
    generalize t.grid.getD 0 0 = g0 at hd ⊢
    generalize v.getD 0 0 = vv
    congr 1
    field_simp
    ring
  | succ n ih =>
    intro c t fuel hf ⟨h1, h2, h3⟩ hne haff
    obtain ⟨f, rfl⟩ : ∃ f, fuel = f + 1 := ⟨fuel - 1, by omega⟩
    unfold power_two_loop
    rw [if_neg (by omega)]
    have hg : ∀ j, get_grid t (t.rk - 1) j = .ok (grid_at t (t.rk - 1) j) := by
      intro j
      unfold get_grid
      rw [if_neg (by simp [h3]), if_neg (by omega)]
    simp only [hg]
    obtain ⟨d, hc, hdlen, _⟩ :=
      tensor_grid_rank_dim_twos (n + 1) (n + 2) (by omega) (by omega)
    rw [h1, h2]
    simp only [Nat.add_sub_cancel]
    rw [hc]
    simp only
    obtain ⟨s1, s2, s3, s4, s5, s6, s7⟩ := set_grid_packed_ok
      { rk := n + 1, size := List.replicate (n + 1) 2, data := d, grid := [],
        grid_set := false, itype := itp_linear } t.grid (by simp)
    rw [s1]
    simp only
    generalize hfrac : (v.getD (n + 1) 0 - grid_at t (n + 1) 0) /
      (grid_at t (n + 1) 1 - grid_at t (n + 1) 0) = frac
    generalize htg : (set_grid_packed
      { rk := n + 1, size := List.replicate (n + 1) 2, data := d, grid := [],
        grid_set := false, itype := itp_linear } t.grid).st = tg at s2 s3 s4 s5 s6 s7
    simp only at s2 s3 s4 s6 s7
    obtain ⟨c1, c2, c3, c4⟩ := collapse_last_shape t tg frac
    have hgrid : ∀ k j, k < n + 1 → j < 2 →
        grid_at (collapse_last t tg frac) k j = grid_at t k j := by
      intro k j hk hj
      unfold grid_at
      rw [c2, c3, s3, h2, istart_of_twos _ _ (by omega), istart_of_twos _ _ (by omega)]
      apply s7
      rw [istart_of_twos _ _ (le_refl _)]
      omega
    have hget := collapse_last_get t tg frac n h1 s2 s3 (by rw [s4]; exact hdlen)
    have hd : grid_at t (n + 1) 1 - grid_at t (n + 1) 0 ≠ 0 := by
      intro h
      exact hne (n + 1) (by omega) (by linarith)
    have hres := ih (c + a (n + 1) * v.getD (n + 1) 0) (collapse_last t tg frac) f (by omega)
      ⟨by rw [c1, s2], by rw [c2, s3], by rw [c4, s5]⟩
      (fun k hk => by
        rw [hgrid k 0 hk (by omega), hgrid k 1 hk (by omega)]
        exact hne k (by omega))
      (fun idx hidx hlt => by
        rw [hget idx hidx hlt,
          haff (idx ++ [0]) (by simp [hidx]) (fun k hk => by
            rw [getD_snoc]
            split_ifs with h4 h5
            · exact hlt k (by omega)
            · omega
            · omega),
          haff (idx ++ [1]) (by simp [hidx]) (fun k hk => by
            rw [getD_snoc]
            split_ifs with h4 h5
            · exact hlt k (by omega)
            · omega
            · omega),
          affine_snoc a (grid_at t) idx (n + 1) 0 hidx,
          affine_snoc a (grid_at t) idx (n + 1) 1 hidx]
        have hs : ∑ k in Finset.range (n + 1),
            a k * grid_at (collapse_last t tg frac) k (idx.getD k 0) =
            ∑ k in Finset.range (n + 1), a k * grid_at t k (idx.getD k 0) := by
          apply Finset.sum_congr rfl
          intro k hk
          have hk2 := Finset.mem_range.mp hk
          rw [hgrid k _ hk2 (hlt k hk2)]
        rw [hs, ← hfrac]
        field_simp
        ring)
    rw [hres, Finset.sum_range_succ (fun k => a k * v.getD k 0) (n + 1)]
    congr 1
    ring

/-- Reading a vector built entry by entry from a function of the position. -/
theorem getD_map_range (f : Nat → Nat) (n k : Nat) (h : k < n) :
    ((List.range n).map f).getD k 0 = f k := by
  simp [List.getD_eq_getElem?_getD, h]

/-- A loop that writes `f j` at every position `j` of a zeroed vector of length `n`. -/
theorem fold_set_replicate (f : Nat → Nat) (n : Nat) :
    (List.range n).foldl (fun io j => io.set j (f j)) (List.replicate n 0) =
      (List.range n).map f := by
  have h : ∀ m, m ≤ n → (List.range m).foldl (fun io j => io.set j (f j))
      (List.replicate n 0) = (List.range m).map f ++ List.replicate (n - m) 0 := by
    intro m
    induction m with
    | zero => intro _; simp
    | succ m ih =>
      intro hm
      rw [List.range_succ, List.foldl_append, ih (by omega)]
      simp only [List.foldl_cons, List.foldl_nil, List.map_append, List.map_cons, List.map_nil]
      rw [List.set_append_right _ _ (by simp)]
      obtain ⟨r, hr⟩ : ∃ r, n - m = r + 1 := ⟨n - m - 1, by omega⟩
      have hr2 : n - (m + 1) = r := by omega
      rw [hr, hr2]
      simp [List.replicate_succ]
  have := h n (le_refl _)
  simpa using this

/-- The unpacked grid of an axis holds the grid values of the axis. -/
theorem unpack_grid_getD (t : tensor_grid) (i m : Nat) (h : m < t.size.getD i 0) :
    (unpack_grid t i (istart_of t.size i)).getD m 0 = grid_at t i m := by
  unfold unpack_grid grid_at
  rw [List.getD_eq_getElem?_getD, List.getElem?_map, List.getElem?_range h]
  simp [Nat.add_comm]

/-- Loop invariant of the corner search of `interp_linear` after `m` axes: `rgs` is the
start of axis `m`, `loc` holds the indices found and `gnew` the two grid values that
bracket each coordinate. -/
theorem corner_loop_spec (ext : externals) (t : tensor_grid) (v : List ℚ) (m : Nat)
    (hm : m ≤ t.rk) :
    ((List.range m).foldl (corner_step ext t v) (0, List.replicate t.rk 0, [])).1 =
      istart_of t.size m ∧
    ((List.range m).foldl (corner_step ext t v) (0, List.replicate t.rk 0, [])).2.1.length =
      t.rk ∧
    (∀ i, i < m →
      ((List.range m).foldl (corner_step ext t v) (0, List.replicate t.rk 0, [])).2.1.getD i 0 =
        ext.find (unpack_grid t i (istart_of t.size i)) (v.getD i 0)) ∧
    ((List.range m).foldl (corner_step ext t v) (0, List.replicate t.rk 0, [])).2.2.length =
      2 * m ∧
    (∀ i j, i < m → j < 2 →
      ((List.range m).foldl (corner_step ext t v) (0, List.replicate t.rk 0, [])).2.2.getD
          (2 * i + j) 0 =
        (unpack_grid t i (istart_of t.size i)).getD
          (ext.find (unpack_grid t i (istart_of t.size i)) (v.getD i 0) + j) 0) := by
  induction m with
  | zero =>
    refine ⟨by simp [istart_of, offset_of], by simp, fun i hi => by omega, by simp,
      fun i j hi => by omega⟩
  | succ m ih =>
    obtain ⟨h1, h2, h3, h4, h5⟩ := ih (by omega)
    rw [List.range_succ, List.foldl_append]
    simp only [List.foldl_cons, List.foldl_nil]
    generalize (List.range m).foldl (corner_step ext t v) (0, List.replicate t.rk 0, []) = s
      at h1 h2 h3 h4 h5 ⊢
    unfold corner_step
    simp only
    rw [h1]
    refine ⟨?_, by simp [h2], ?_, by simp [h4]; omega, ?_⟩
    · unfold istart_of
      rw [offset_of_succ]
    · intro i hi
      rw [getD_set]
      by_cases h : m = i
      · rw [if_pos ⟨h, by omega⟩, h]
      · rw [if_neg (by tauto)]
        exact h3 i (by omega)
    · intro i j hi hj
      by_cases h : i < m
      · rw [List.getD_append _ _ _ _ (by omega)]
        exact h5 i j h hj
      · have him : i = m := by omega
        subst him
        rw [List.getD_append_right _ _ _ _ (by omega), h4]
        have hj2 : 2 * i + j - 2 * i = j := by omega
        rw [hj2]
        interval_cases j
        · simp
        · simp

/-- The cells of the hypercube filled by the copy loop of `interp_linear`: the cell
`idx` receives the cell `idx[j]+loc[j]` of `t`. -/
theorem copy_corner_get (t tg : tensor_grid) (loc : List Nat) (n : Nat) (ht : t.rk = n + 1)
    (hrk : tg.rk = n + 1) (hsize : tg.size = List.replicate (n + 1) 2)
    (hlen : tg.data.length = 2 ^ (n + 1)) (idx : List Nat) (hidx : idx.length = n + 1)
    (hlt : ∀ k, k < n + 1 → idx.getD k 0 < 2) :
    get (copy_corner t tg loc) idx =
      get t ((List.range (n + 1)).map (fun j => idx.getD j 0 + loc.getD j 0)) := by
  have hin := row_major_in_range (List.replicate (n + 1) 2) idx (by simpa using hidx)
    (fun k hk => by
      rw [List.length_replicate] at hk
      rw [getD_replicate_two _ _ hk]
      exact hlt k hk)
  rw [prod_replicate_two] at hin
  have htot : total_size tg = 2 ^ (n + 1) := by
    unfold total_size
    rw [if_neg (by omega), hsize, prod_replicate_two]
  unfold copy_corner
  rw [fold_set_data
    (fun sz i => write_front (List.replicate t.rk 0) (unpack_index sz i))
    (fun sz i => get t ((List.range t.rk).foldl
      (fun io j => io.set j ((write_front (List.replicate t.rk 0) (unpack_index sz i)).getD j 0 +
        loc.getD j 0)) (List.replicate t.rk 0)))]
  have hform : ∀ i, write_front (List.replicate t.rk 0) (unpack_index tg.size i) =
      unpack_index tg.size i := by
    intro i
    unfold write_front
    rw [List.drop_replicate, unpack_index_length, hsize, ht]
    simp
  simp only [hform, fold_set_replicate]
  obtain ⟨_, c2⟩ := fold_set_cells
    (fun i => row_major tg.size (unpack_index tg.size i))
    (fun i => get t ((List.range t.rk).map
      (fun j => (unpack_index tg.size i).getD j 0 + loc.getD j 0)))
    (total_size tg) tg.data (fun i hi => by
      apply row_major_unpack_index
      rw [hsize, prod_replicate_two, ← htot]
      exact hi)
  unfold get at c2 ⊢
  simp only at c2 ⊢
  rw [hsize] at c2 ⊢
  rw [c2, htot, hlen, if_pos ⟨hin.1, hin.1⟩, hin.2, ht]

/-- C12: on a tensor of rank at least 1 (in particular 1, 2 and 3) whose grids increase
strictly and whose cells are an affine function of the grid coordinates, with a
bracketing search that returns an index `l` with `l+1` below the size of the axis,
`interp_linear(p)` is that affine function at `p`, in exact arithmetic; on the `(3,3)`
sample with `v(i,j)=i+j`, `interp_linear([0.5,0.5])` is 1. -/
theorem interp_linear_affine :
    (∀ (ext : externals) (t : tensor_grid) (p : List ℚ) (a : Nat → ℚ) (c : ℚ),
      0 < t.rk →
      (∀ i, i < t.rk →
        ext.find (unpack_grid t i (istart_of t.size i)) (p.getD i 0) + 1 < t.size.getD i 0) →
      (∀ i, i < t.rk → ∀ j k, j < k → k < t.size.getD i 0 → grid_at t i j < grid_at t i k) →
      (∀ idx : List Nat, idx.length = t.rk → (∀ k, k < t.rk → idx.getD k 0 < t.size.getD k 0) →
        get t idx = c + ∑ k in Finset.range t.rk, a k * grid_at t k (idx.getD k 0)) →
      interp_linear ext t p = .ok (c + ∑ k in Finset.range t.rk, a k * p.getD k 0)) ∧
    interp_linear sample_ext sample33 [1 / 2, 1 / 2] = .ok 1 := by
  constructor
  · intro ext t p a c hrk hfind hinc haff
    obtain ⟨n, hn⟩ : ∃ n, t.rk = n + 1 := ⟨t.rk - 1, by omega⟩
    unfold interp_linear
    obtain ⟨d, hc, hdlen, _⟩ := tensor_grid_rank_dim_twos t.rk t.rk (by omega) (le_refl _)
    simp only
    rw [hc]
    simp only
    obtain ⟨l1, l2, l3, l4, l5⟩ := corner_loop_spec ext t p t.rk (le_refl _)
    generalize (List.range t.rk).foldl (corner_step ext t p) (0, List.replicate t.rk 0, []) = cs
      at l1 l2 l3 l4 l5 ⊢
    obtain ⟨s1, s2, s3, s4, s5, s6, s7⟩ := set_grid_packed_ok
      { rk := t.rk, size := List.replicate t.rk 2, data := d, grid := [],
        grid_set := false, itype := itp_linear } cs.2.2 (by simp; omega)
    rw [s1]
    simp only
    generalize htg : (set_grid_packed
      { rk := t.rk, size := List.replicate t.rk 2, data := d, grid := [],
        grid_set := false, itype := itp_linear } cs.2.2).st = tg at s2 s3 s4 s5 s6 s7
    simp only at s2 s3 s4 s6 s7
    obtain ⟨c1, c2, c3, c4⟩ := copy_corner_shape t tg cs.2.1
    unfold interp_linear_power_two
    rw [c1, s2]
    have hgrid : ∀ k j, k < t.rk → j < 2 →
        grid_at (copy_corner t tg cs.2.1) k j = grid_at t k (cs.2.1.getD k 0 + j) := by
      intro k j hk hj
      unfold grid_at
      rw [c2, c3, s3, istart_of_twos _ _ (by omega),
        s7 _ (by rw [istart_of_twos _ _ (le_refl _)]; omega), l5 k j hk hj, ← l3 k hk]
      have hf := hfind k hk
      rw [← l3 k hk] at hf
      rw [unpack_grid_getD t k _ (by omega)]
      rfl
    have hget := copy_corner_get t tg cs.2.1 n hn (by rw [s2, hn]) (by rw [s3, hn])
      (by rw [s4, hdlen, hn])
    have hres := power_two_affine p a n c (copy_corner t tg cs.2.1) (t.rk + 1) (by omega)
      ⟨by rw [c1, s2, hn], by rw [c2, s3, hn], by rw [c4, s5]⟩
      (fun k hk => by
        have hk2 : k < t.rk := by omega
        rw [hgrid k 0 hk2 (by omega), hgrid k 1 hk2 (by omega)]
        have hf := hfind k hk2
        rw [← l3 k hk2] at hf
        exact ne_of_lt (hinc k hk2 _ _ (by omega) (by omega)))
      (fun idx hidx hlt => by
        rw [hget idx hidx hlt, ← hn]
        rw [haff _ (by simp) (fun k hk => by
          rw [getD_map_range _ _ _ hk, l3 k hk]
          have hf := hfind k hk
          have := hlt k (by omega)
          omega)]
        congr 1
        rw [hn]
        apply Finset.sum_congr rfl
        intro k hk
        have hk2 : k < t.rk := by
          rw [hn]
          exact Finset.mem_range.mp hk
        rw [hgrid k _ hk2 (hlt k (by omega)), ← hn, getD_map_range _ _ _ hk2, Nat.add_comm])
    rw [hres, hn]
  · simp [interp_linear, interp_linear_power_two, power_two_loop, corner_step, unpack_grid,
      copy_corner, collapse_last, sample_ext, search_below, sample33, tensor_grid_rank_dim,
      tensor_rank_dim, tensor_default, set_grid_packed, get_grid, grid_at, istart_of,
      offset_of, vec_resize, total_size, unpack_index, write_front, set, get, row_major,
      List.range, List.range.loop, itp_linear]
    norm_num

/-- The grids of the `(3,3)` sample increase strictly. -/
theorem sample33_increasing :
    ∀ i, i < sample33.rk → ∀ j k, j < k → k < sample33.size.getD i 0 →
      grid_at sample33 i j < grid_at sample33 i k := by
  intro i hi j k hjk hk
  have hi2 : i < 2 := hi
  interval_cases i
  · have hk3 : k < 3 := hk
    interval_cases k <;> interval_cases j <;>
      norm_num [grid_at, sample33, istart_of, offset_of]
  · have hk3 : k < 3 := hk
    interval_cases k <;> interval_cases j <;>
      norm_num [grid_at, sample33, istart_of, offset_of, List.range, List.range.loop]

/-- The cells of the `(3,3)` sample are the sum of their two grid coordinates. -/
theorem sample33_affine :
    ∀ idx : List Nat, idx.length = sample33.rk →
      (∀ k, k < sample33.rk → idx.getD k 0 < sample33.size.getD k 0) →
      get sample33 idx =
        0 + ∑ k in Finset.range sample33.rk, (fun _ => (1 : ℚ)) k * grid_at sample33 k (idx.getD k 0) := by
  intro idx hlen hlt
  match idx, hlen with
  | [x, y], _ =>
    have hx : x < 3 := hlt 0 (by decide)
    have hy : y < 3 := hlt 1 (by decide)
    interval_cases x <;> interval_cases y <;>
      norm_num [get, grid_at, sample33, istart_of, offset_of, row_major, Finset.sum_range_succ,
        List.range, List.range.loop]

/-- Witness for C12: the `(3,3)` sample with the nearest-below search at `[1/2,1/2]`. -/
theorem interp_linear_affine_witness :
    interp_linear sample_ext sample33 [1 / 2, 1 / 2] =
      .ok (0 + ∑ k in Finset.range sample33.rk,
        (fun _ => (1 : ℚ)) k * ([1 / 2, 1 / 2] : List ℚ).getD k 0) :=
  interp_linear_affine.1 sample_ext sample33 [1 / 2, 1 / 2] (fun _ => 1) 0 (by decide)
    (by
      intro i hi
      have hi2 : i < 2 := hi
      interval_cases i <;>
        norm_num [sample_ext, search_below, unpack_grid, sample33, istart_of, offset_of,
          List.range, List.range.loop])
    sample33_increasing sample33_affine

/-! ## Grid of one axis: `set_grid_i_vec` -/

/-- C28 (what the code does): `set_grid_i_vec` raises invalid-argument when the grid is
not set or the rank is 0; on the `(3,3)` sample with grids `[0,1,2]` and `[0,1,2]` the call
`set_grid_i_vec(0,[5,6,7])` leaves the packed grid `[5,1,2,5,1,2]`: the test `j==ix`
selects the point number `ix` of every axis, so `get_grid(0,1)` is 1 and not 6, and the
grid of axis 1 has changed at point 0. -/
theorem set_grid_i_vec_writes_point :
    (∀ (t : tensor_grid) (ix : Nat) (v : List ℚ), t.grid_set = false ∨ t.rk = 0 →
      set_grid_i_vec t ix v = ⟨t, some .exc_einval⟩) ∧
    set_grid_i_vec sample33 0 [5, 6, 7] = ⟨{ sample33 with grid := [5, 1, 2, 5, 1, 2] }, none⟩ ∧
    get_grid (set_grid_i_vec sample33 0 [5, 6, 7]).st 0 1 = .ok 1 ∧
    get_grid sample33 1 0 = .ok 0 ∧
    get_grid (set_grid_i_vec sample33 0 [5, 6, 7]).st 1 0 = .ok 5 := by
  refine ⟨?_, ?_, ?_, ?_, ?_⟩
  · intro t ix v h
    unfold set_grid_i_vec
    rcases h with h | h
    · rw [if_pos h]
    · by_cases hg : t.grid_set = false
      · rw [if_pos hg]
      · rw [if_neg hg, if_pos h]
  · simp [set_grid_i_vec, sample33, List.range, List.range.loop]
  · simp [set_grid_i_vec, sample33, List.range, List.range.loop, get_grid, grid_at,
      istart_of, offset_of]
  · simp [sample33, get_grid, grid_at, istart_of, offset_of, List.range, List.range.loop]
  · simp [set_grid_i_vec, sample33, List.range, List.range.loop, get_grid, grid_at,
      istart_of, offset_of]

/-! ## Rearrangement: interpolated axes and several sums -/

/-- C23 (what the code does): on every rank-2 tensor, with or without a grid, the spec
list `[index(0), interp(1,x)]` makes `rearrange_and_copy` raise invalid-argument in the
first cell: `interp_vals` is created with `n_interps` entries and the value `x` is then
appended with `push_back`, so `interp_linear_partial` receives two values for one axis and
refuses them. -/
theorem rearrange_interp_raises (ext : externals) (n0 n1 : Nat) (d g : List ℚ) (gs : Bool)
    (it : Nat) (x : ℚ) :
    rearrange_and_copy ext ⟨2, [n0 + 1, n1 + 1], d, g, gs, it⟩ [ix_index 0, ix_interp 1 x]
      true = .error .exc_einval := by
  unfold rearrange_and_copy
  have hcheck : rearrange_check ext ⟨2, [n0 + 1, n1 + 1], d, g, gs, it⟩
      [ix_index 0, ix_interp 1 x] true = .ok
        { rank_new := 1, size_new := [n0 + 1],
          spec_old := [⟨.index, 0, 0, 0, 0, 0, 0⟩, ⟨.interp, 1, 0, 0, x, 0, 0⟩],
          spec_new := [⟨.index, 0, 0, 0, 0, 0, 0⟩],
          n_sum_loop := 1, n_interps := 1, sum_sizes := [], ix_to_interp := [1] } := by
    simp [rearrange_check, classify_loop, classify_step, rearr_init, validate_loop, ix_index,
      ix_interp, index_spec_empty, List.range, List.range.loop]
  rw [hcheck]
  simp only
  have hnew : tensor_grid_rank_dim 1 [n0 + 1] = .ok
      { rk := 1, size := [n0 + 1], data := List.replicate (n0 + 1) 0, grid := [],
        grid_set := false, itype := itp_linear } := by
    simp [tensor_grid_rank_dim, tensor_rank_dim, tensor_default, List.range, List.range.loop]
  rw [hnew]
  simp only
  have htot : total_size
      { rk := 1, size := [n0 + 1], data := List.replicate (n0 + 1) 0, grid := [],
        grid_set := false, itype := itp_linear } = n0 + 1 := by
    simp [total_size]
  rw [htot, List.range_succ_eq_map]
  simp [for_loop, cell_step, sum_step, remap_step, old_index_step, unpack_sum_step,
    unpack_index, write_front, index_spec_empty, interp_linear_partial, List.range,
    List.range.loop]

/-- C21 (what the code does): on the `(3,2,1)` sample with values 1 to 6 the spec list
`[sum(1), sum(0), index(2)]` gives the single cell 18 and not 21, the sum of all cells:
`sum_sizes` is `[2,3]`, in the order of the list, while the summed indices are handed out
in the order of the old axes, so axis 0 (size 3) runs over `0..1` and axis 1 (size 2) over
`0..2`; with the sums listed as `[sum(0), sum(1), index(2)]` the cell is 21. -/
theorem rearrange_sum_order :
    rearrange_and_copy sample_ext sample321 [ix_sum 1, ix_sum 0, ix_index 2] true =
      .ok { rk := 1, size := [1], data := [18], grid := [], grid_set := false,
            itype := itp_linear } ∧
    rearrange_and_copy sample_ext sample321 [ix_sum 0, ix_sum 1, ix_index 2] true =
      .ok { rk := 1, size := [1], data := [21], grid := [], grid_set := false,
            itype := itp_linear } ∧
    sample321.data.sum = 21 := by
  refine ⟨?_, ?_, ?_⟩
  · simp [rearrange_and_copy, rearrange_check, classify_loop, classify_step, rearr_init,
      validate_loop, ix_index, ix_sum, sample321, index_spec_empty, tensor_grid_rank_dim,
      tensor_rank_dim, tensor_default, total_size, for_loop, cell_step, sum_step,
      remap_step, old_index_step, unpack_sum_step, unpack_index, write_front, set, get,
      row_major, List.range, List.range.loop, List.range', itp_linear, exit_at]
    norm_num
  · simp [rearrange_and_copy, rearrange_check, classify_loop, classify_step, rearr_init,
      validate_loop, ix_index, ix_sum, sample321, index_spec_empty, tensor_grid_rank_dim,
      tensor_rank_dim, tensor_default, total_size, for_loop, cell_step, sum_step,
      remap_step, old_index_step, unpack_sum_step, unpack_index, write_front, set, get,
      row_major, List.range, List.range.loop, List.range', itp_linear, exit_at]
    norm_num
  · simp [sample321]
    norm_num

/-! ## Interpolation over some axes: the entries of `ix` that are ignored -/

/-- Two lists of the same length with the same entry at every position are equal. -/
theorem list_ext_getD (a b : List Nat) (hlen : a.length = b.length)
    (h : ∀ k, k < a.length → a.getD k 0 = b.getD k 0) : a = b := by
  apply List.ext_getElem hlen
  intro k h1 h2
  have := h k h1
  rw [List.getD_eq_getElem _ _ h1, List.getD_eq_getElem _ _ h2] at this
  exact this

/-- A relation kept by the body of a loop, run on two states, is kept by the loop. -/
theorem foldl_rel {σ : Type} (R : σ → σ → Prop) (f : σ → Nat → σ)
    (h : ∀ s s1 i, R s s1 → R (f s i) (f s1 i)) :
    ∀ (l : List Nat) (s s1 : σ), R s s1 → R (l.foldl f s) (l.foldl f s1) := by
  intro l
  induction l with
  | nil => intro s s1 hs; exact hs
  | cons i rest ih => intro s s1 hs; exact ih _ _ (h s s1 i hs)

/-- The loop `for(j...) ix[ix_to_interp[j]]=w(j)` over the first `m` interpolated axes, run
on two index vectors of the same length: positions where they agreed still agree, and
they agree at the axes written. -/
theorem overwrite_loop_agree (l : List Nat) (w : Nat → Nat) (m : Nat) (a b : List Nat)
    (hlen : a.length = b.length) (agree : Nat → Prop)
    (hag : ∀ k, agree k → a.getD k 0 = b.getD k 0) :
    ((List.range m).foldl (fun ix j => ix.set (l.getD j 0) (w j)) a).length =
      ((List.range m).foldl (fun ix j => ix.set (l.getD j 0) (w j)) b).length ∧
    ∀ k, (agree k ∨ ∃ j, j < m ∧ l.getD j 0 = k) →
      ((List.range m).foldl (fun ix j => ix.set (l.getD j 0) (w j)) a).getD k 0 =
        ((List.range m).foldl (fun ix j => ix.set (l.getD j 0) (w j)) b).getD k 0 := by
  induction m with
  | zero =>
    refine ⟨hlen, fun k hk => ?_⟩
    rcases hk with hk | ⟨j, hj, _⟩
    · exact hag k hk
    · omega
  | succ m ih =>
    obtain ⟨h1, h2⟩ := ih
    rw [List.range_succ, List.foldl_append, List.foldl_append]
    simp only [List.foldl_cons, List.foldl_nil]
    generalize (List.range m).foldl (fun ix j => ix.set (l.getD j 0) (w j)) a = a1 at h1 h2 ⊢
    generalize (List.range m).foldl (fun ix j => ix.set (l.getD j 0) (w j)) b = b1 at h1 h2 ⊢
    refine ⟨by simp [h1], fun k hk => ?_⟩
    rw [getD_set, getD_set, h1]
    by_cases hc : l.getD m 0 = k ∧ k < b1.length
    · rw [if_pos hc, if_pos hc]
    · rw [if_neg hc, if_neg hc]
      rcases hk with hk | ⟨j, hj, hjk⟩
      · exact h2 k (Or.inl hk)
      · rcases Nat.lt_or_ge j m with hlt | hge
        · exact h2 k (Or.inr ⟨j, hlt, hjk⟩)
        · have hjm : j = m := by omega
          rw [hjm] at hjk
          have hout : ¬ k < b1.length := fun hlt => hc ⟨hjk, hlt⟩
          rw [List.getD_eq_default _ _ (by omega), List.getD_eq_default _ _ (by omega)]

/-- C29: `interp_linear_partial(ix_to_interp,ix,val)` does not depend on the entries of
`ix` at the positions listed in `ix_to_interp`: two index vectors of the same length that
agree at every other position give the same result, the same value or the same error. -/
theorem interp_linear_partial_ignores (ext : externals) (t : tensor_grid)
    (ix_to_interp ix ix2 : List Nat) (val : List ℚ) (hlen : ix.length = ix2.length)
    (hag : ∀ k, k ∉ ix_to_interp → ix.getD k 0 = ix2.getD k 0) :
    interp_linear_partial ext t ix_to_interp ix val =
      interp_linear_partial ext t ix_to_interp ix2 val := by
  have hcopy : ∀ (tn : tensor_grid) (loc : List Nat),
      ( copy_partial t ix_to_interp loc (tn, ix)).1 =
        ( copy_partial t ix_to_interp loc (tn, ix2)).1 := by
    intro tn loc
    unfold copy_partial
    have hR := foldl_rel
      (fun (s s1 : tensor_grid × List Nat) => s.1 = s1.1 ∧ s.2.length = s1.2.length ∧
        ∀ k, k ∉ ix_to_interp → s.2.getD k 0 = s1.2.getD k 0)
      (fun (s : tensor_grid × List Nat) i =>
        (set s.1 (write_front (List.replicate ix_to_interp.length 0) (unpack_index s.1.size i))
          (get t ((List.range ix_to_interp.length).foldl
            (fun ix j => ix.set (ix_to_interp.getD j 0)
              ((write_front (List.replicate ix_to_interp.length 0)
                (unpack_index s.1.size i)).getD j 0 + loc.getD j 0)) s.2)),
         (List.range ix_to_interp.length).foldl
            (fun ix j => ix.set (ix_to_interp.getD j 0)
              ((write_front (List.replicate ix_to_interp.length 0)
                (unpack_index s.1.size i)).getD j 0 + loc.getD j 0)) s.2))
      (by
        intro s s1 i ⟨e1, e2, e3⟩
        obtain ⟨o1, o2⟩ := overwrite_loop_agree ix_to_interp
          (fun j => (write_front (List.replicate ix_to_interp.length 0)
            (unpack_index s.1.size i)).getD j 0 + loc.getD j 0) ix_to_interp.length
          s.2 s1.2 e2 (fun k => k ∉ ix_to_interp) e3
        have heq : (List.range ix_to_interp.length).foldl
            (fun ix j => ix.set (ix_to_interp.getD j 0)
              ((write_front (List.replicate ix_to_interp.length 0)
                (unpack_index s.1.size i)).getD j 0 + loc.getD j 0)) s.2 =
            (List.range ix_to_interp.length).foldl
            (fun ix j => ix.set (ix_to_interp.getD j 0)
              ((write_front (List.replicate ix_to_interp.length 0)
                (unpack_index s.1.size i)).getD j 0 + loc.getD j 0)) s1.2 := by
          apply list_ext_getD _ _ o1
          intro k _
          apply o2
          by_cases hk : k ∈ ix_to_interp
          · obtain ⟨j, hj, hjk⟩ := List.getElem_of_mem hk
            exact Or.inr ⟨j, hj, by rw [List.getD_eq_getElem _ _ hj]; exact hjk⟩
          · exact Or.inl hk
        simp only
        rw [← e1, heq]
        exact ⟨rfl, rfl, fun _ _ => rfl⟩)
      (List.range (total_size tn)) (tn, ix) (tn, ix2) ⟨rfl, hlen, hag⟩
    exact hR.1
  unfold interp_linear_partial
  split_ifs with h1 h2
  · rfl
  · rfl
  · cases for_loop (partial_corner_step ext t ix_to_interp val)
        (List.range ix_to_interp.length) (List.replicate ix_to_interp.length 0, []) with
    | error e => rfl
    | ok c =>
      simp only
      cases tensor_grid_rank_dim ix_to_interp.length (List.replicate ix_to_interp.length 2) with
      | error e => rfl
      | ok tnew0 =>
        simp only
        cases (set_grid_packed tnew0 c.2).raised with
        | some e => rfl
        | none =>
          simp only
          rw [hcopy]

/-- Witness for C29: on the `(3,3)` sample, interpolating axis 1, the index vectors
`[2,0]` and `[2,7]` differ at position 1 only. -/
theorem interp_linear_partial_ignores_witness :
    interp_linear_partial sample_ext sample33 [1] [2, 0] [1 / 2] =
      interp_linear_partial sample_ext sample33 [1] [2, 7] [1 / 2] :=
  interp_linear_partial_ignores sample_ext sample33 [1] [2, 0] [2, 7] [1 / 2] rfl
    (by
      intro k hk
      match k with
      | 0 => rfl
      | 1 => simp at hk
      | k + 2 => rfl)

/-! ## The 2D table: reads after writes -/

/-- Reading a list of rows after one entry has been overwritten. -/
theorem mat_get_set (m : List (List ℚ)) (i j a b : Nat) (v : ℚ) :
    ((mat_set m i j v).getD a []).getD b 0 =
      if i = a ∧ a < m.length ∧ j = b ∧ b < (m.getD i []).length then v
      else (m.getD a []).getD b 0 := by
  unfold mat_set
  rw [getD_set]
  by_cases h1 : i = a ∧ a < m.length
  · rw [if_pos h1, getD_set]
    obtain ⟨h1a, h1b⟩ := h1
    subst h1a
    by_cases h2 : j = b ∧ b < (m.getD i []).length
    · rw [if_pos h2, if_pos ⟨rfl, h1b, h2.1, h2.2⟩]
    · rw [if_neg h2, if_neg (by tauto)]
  · rw [if_neg h1, if_neg (by tauto)]

/-- Overwriting one entry keeps the number of rows and their lengths. -/
theorem mat_set_shape (m : List (List ℚ)) (i j : Nat) (v : ℚ) (nx ny : Nat)
    (h : m.length = nx ∧ ∀ row, row ∈ m → row.length = ny) :
    (mat_set m i j v).length = nx ∧ ∀ row, row ∈ mat_set m i j v → row.length = ny := by
  unfold mat_set
  refine ⟨by rw [List.length_set]; exact h.1, fun row hrow => ?_⟩
  rcases List.mem_or_eq_of_mem_set hrow with h1 | h1
  · exact h.2 row h1
  · by_cases hi : i < m.length
    · rw [h1, List.length_set, List.getD_eq_getElem _ _ hi]
      exact h.2 _ (List.getElem_mem _)
    · rw [List.set_eq_of_length_le (by omega)] at hrow
      exact h.2 row hrow

/-- Looking a slice up by name after the slices of that name have been rewritten. -/
theorem find_slice_map (l : List (String × List (List ℚ))) (name : String)
    (g : List (List ℚ) → List (List ℚ)) :
    (l.map (fun p => if p.1 = name then (p.1, g p.2) else p)).find? (fun p => p.1 == name) =
      (l.find? (fun p => p.1 == name)).map (fun p => (p.1, g p.2)) := by
  induction l with
  | nil => rfl
  | cons p rest ih =>
    by_cases hp : p.1 = name
    · simp [List.find?, hp]
    · have hb : (p.1 == name) = false := by simpa using hp
      simp only [List.map_cons, if_neg hp, List.find?, hb]
      exact ih

/-- Looking a slice up by name after a slice of that name has been added at the end. -/
theorem find_slice_append (l : List (String × List (List ℚ))) (name : String)
    (m : List (List ℚ)) (h : l.find? (fun p => p.1 == name) = none) :
    (l ++ [(name, m)]).find? (fun p => p.1 == name) = some (name, m) := by
  induction l with
  | nil => simp [List.find?]
  | cons p rest ih =>
    by_cases hp : p.1 = name
    · simp [List.find?, hp] at h
    · have hb : (p.1 == name) = false := by simpa using hp
      simp only [List.cons_append, List.find?, hb]
      simp only [List.find?, hb] at h
      exact ih h

/-- The rows of a slice after `set` on that slice. -/
theorem slice_set (tab : table3d) (i j : Nat) (name : String) (v : ℚ) :
    (tab.set i j name v).slice name = mat_set (tab.slice name) i j v := by
  unfold table3d.set table3d.slice
  simp only
  rw [find_slice_map tab.slices name (fun m => mat_set m i j v)]
  cases tab.slices.find? (fun p => p.1 == name) with
  | none => simp [mat_set]
  | some p => rfl

/-- The rows of a slice after `set_slice_all` on that slice. -/
theorem slice_set_slice_all (tab : table3d) (name : String) (v : ℚ)
    (h : tab.is_slice name = true) :
    (tab.set_slice_all name v).slice name =
      List.replicate tab.numx (List.replicate tab.numy v) := by
  unfold table3d.set_slice_all table3d.slice
  unfold table3d.is_slice at h
  simp only
  rw [find_slice_map tab.slices name
    (fun _ => List.replicate tab.numx (List.replicate tab.numy v))]
  cases hf : tab.slices.find? (fun p => p.1 == name) with
  | none => rw [hf] at h; simp at h
  | some p => rfl

/-- The rows of a slice created by `new_slice`. -/
theorem slice_new_slice (tab : table3d) (name : String) (h : tab.is_slice name = false) :
    (tab.new_slice name).slice name =
      List.replicate tab.numx (List.replicate tab.numy 0) := by
  unfold table3d.new_slice table3d.slice
  unfold table3d.is_slice at h
  simp only
  rw [find_slice_append tab.slices name _ (by
    cases hf : tab.slices.find? (fun p => p.1 == name) with
    | none => rfl
    | some p => rw [hf] at h; simp at h)]

/-- In a well-shaped table a slice that is present has `numx` rows of `numy` values. -/
theorem slice_shape (tab : table3d) (name : String) (hwf : tab.wf)
    (h : tab.is_slice name = true) :
    (tab.slice name).length = tab.numx ∧
      ∀ row, row ∈ tab.slice name → row.length = tab.numy := by
  unfold table3d.is_slice at h
  unfold table3d.slice
  cases hf : tab.slices.find? (fun p => p.1 == name) with
  | none => rw [hf] at h; simp at h
  | some p => exact hwf p (List.mem_of_find?_eq_some hf)

/-- A block of equal values has the shape of its two counts. -/
theorem replicate_shape (nx ny : Nat) (v : ℚ) :
    (List.replicate nx (List.replicate ny v)).length = nx ∧
      ∀ row, row ∈ List.replicate nx (List.replicate ny v) → row.length = ny := by
  refine ⟨by simp, fun row hrow => ?_⟩
  rw [(List.mem_replicate.mp hrow).2]
  simp

/-- Reading a block of equal values. -/
theorem replicate_get (nx ny a b : Nat) (v : ℚ) :
    ((List.replicate nx (List.replicate ny v)).getD a []).getD b 0 =
      if a < nx ∧ b < ny then v else 0 := by
  by_cases ha : a < nx <;> by_cases hb : b < ny <;>
    simp [List.getD_eq_getElem?_getD, List.getElem?_replicate, ha, hb]

/-! ## Projection to a 2D table -/

/-- A relation between the states of two loops that their bodies keep is kept by the
loops. -/
theorem foldl_sim {σ τ : Type} (R : σ → τ → Prop) (f : σ → Nat → σ) (g : τ → Nat → τ)
    (h : ∀ s m i, R s m → R (f s i) (g m i)) :
    ∀ (l : List Nat) (s : σ) (m : τ), R s m → R (l.foldl f s) (l.foldl g m) := by
  intro l
  induction l with
  | nil => intro s m hs; exact hs
  | cons i rest ih => intro s m hs; exact ih _ _ (h s m i hs)

/-- The loop over the points `j` of row `i` that stores `f j` at `(i,j)`. -/
theorem mat_fill_row (f : Nat → ℚ) (i nx ny : Nat) (hi : i < nx) (m : List (List ℚ))
    (hm : m.length = nx ∧ ∀ row, row ∈ m → row.length = ny) (n : Nat) (hn : n ≤ ny) :
    (((List.range n).foldl (fun M j => mat_set M i j (f j)) m).length = nx ∧
      ∀ row, row ∈ (List.range n).foldl (fun M j => mat_set M i j (f j)) m →
        row.length = ny) ∧
    ∀ a b, (((List.range n).foldl (fun M j => mat_set M i j (f j)) m).getD a []).getD b 0 =
      if a = i ∧ b < n then f b else (m.getD a []).getD b 0 := by
  induction n with
  | zero =>
    refine ⟨hm, fun a b => ?_⟩
    rw [if_neg (by omega)]
    rfl
  | succ n ih =>
    obtain ⟨h1, h2⟩ := ih (by omega)
    rw [List.range_succ, List.foldl_append]
    simp only [List.foldl_cons, List.foldl_nil]
    generalize (List.range n).foldl (fun M j => mat_set M i j (f j)) m = R at h1 h2 ⊢
    refine ⟨mat_set_shape R i n (f n) nx ny h1, fun a b => ?_⟩
    rw [mat_get_set, h2]
    have hrow : (R.getD i []).length = ny := by
      rw [List.getD_eq_getElem _ _ (by omega)]
      exact h1.2 _ (List.getElem_mem _)
    by_cases hc : i = a ∧ a < R.length ∧ n = b ∧ b < (R.getD i []).length
    · obtain ⟨c1, _, c3, _⟩ := hc
      rw [if_pos ⟨c1, by omega, c3, by omega⟩, if_pos ⟨c1.symm, by omega⟩, c3]
    · rw [if_neg hc]
      by_cases hd : a = i ∧ b < n
      · rw [if_pos hd, if_pos ⟨hd.1, by omega⟩]
      · rw [if_neg hd, if_neg]
        intro ⟨e1, e2⟩
        apply hc
        refine ⟨e1.symm, by omega, by omega, by omega⟩

/-- The double loop over the points `(i,j)` that stores `f i j` at `(i,j)`. -/
theorem mat_fill (f : Nat → Nat → ℚ) (nx ny : Nat) (m : List (List ℚ))
    (hm : m.length = nx ∧ ∀ row, row ∈ m → row.length = ny) (n : Nat) (hn : n ≤ nx) :
    (((List.range n).foldl (fun M i =>
        (List.range ny).foldl (fun M j => mat_set M i j (f i j)) M) m).length = nx ∧
      ∀ row, row ∈ (List.range n).foldl (fun M i =>
        (List.range ny).foldl (fun M j => mat_set M i j (f i j)) M) m → row.length = ny) ∧
    ∀ a b, (((List.range n).foldl (fun M i =>
        (List.range ny).foldl (fun M j => mat_set M i j (f i j)) M) m).getD a []).getD b 0 =
      if a < n ∧ b < ny then f a b else (m.getD a []).getD b 0 := by
  induction n with
  | zero =>
    refine ⟨hm, fun a b => ?_⟩
    rw [if_neg (by omega)]
    rfl
  | succ n ih =>
    obtain ⟨h1, h2⟩ := ih (by omega)
    rw [List.range_succ, List.foldl_append]
    simp only [List.foldl_cons, List.foldl_nil]
    generalize (List.range n).foldl (fun M i =>
      (List.range ny).foldl (fun M j => mat_set M i j (f i j)) M) m = R at h1 h2 ⊢
    obtain ⟨r1, r2⟩ := mat_fill_row (f n) n nx ny (by omega) R h1 ny (le_refl _)
    refine ⟨r1, fun a b => ?_⟩
    rw [r2, h2]
    by_cases hc : a = n ∧ b < ny
    · rw [if_pos hc, if_pos ⟨by omega, hc.2⟩, hc.1]
    · rw [if_neg hc]
      by_cases hd : a < n ∧ b < ny
      · rw [if_pos hd, if_pos ⟨by omega, hd.2⟩]
      · rw [if_neg hd, if_neg]
        intro ⟨e1, e2⟩
        rcases Nat.lt_or_ge a n with h | h
        · exact hd ⟨h, e2⟩
        · exact hc ⟨by omega, e2⟩

/-- Two index vectors that agree away from `ix_x` and `ix_y` are equal once these two
entries have been overwritten. -/
theorem set_two_agree (a b : List Nat) (ix_x ix_y i j : Nat) (hlen : a.length = b.length)
    (h : ∀ k, k ≠ ix_x → k ≠ ix_y → a.getD k 0 = b.getD k 0) :
    (a.set ix_x i).set ix_y j = (b.set ix_x i).set ix_y j := by
  apply list_ext_getD
  · simp [hlen]
  · intro k _
    rw [getD_set, getD_set, getD_set, getD_set]
    simp only [List.length_set, hlen]
    by_cases h1 : ix_y = k ∧ k < b.length
    · rw [if_pos h1, if_pos h1]
    · rw [if_neg h1, if_neg h1]
      by_cases h2 : ix_x = k ∧ k < b.length
      · rw [if_pos h2, if_pos h2]
      · rw [if_neg h2, if_neg h2]
        by_cases hk : k < b.length
        · exact h k (fun e => h2 ⟨e.symm, hk⟩) (fun e => h1 ⟨e.symm, hk⟩)
        · rw [List.getD_eq_default _ _ (by omega), List.getD_eq_default _ _ (by omega)]

/-- C25: `copy_table3d_align(ix_x,ix_y,index,tab,slice_name)` raises when `ix_x` or `ix_y`
is not below the rank or the two are equal (`exc_efailed`), and when the sizes of the
table differ from the sizes of the two axes (invalid-argument); otherwise it raises
nothing and leaves in the slice, at every point `(i,j)` of the table, the value
`get(index)` of the tensor with `index[ix_x]=i` and `index[ix_y]=j`, the sizes and grids
of the table as they were. The tensor itself is not written by the method. -/
theorem copy_table3d_align_spec (t : tensor_grid) (ix_x ix_y : Nat) (index : List Nat)
    (tab : table3d) (name : String) :
    ((t.rk ≤ ix_x ∨ t.rk ≤ ix_y ∨ ix_x = ix_y) →
      copy_table3d_align t ix_x ix_y index tab name = .error .exc_efailed) ∧
    (ix_x < t.rk → ix_y < t.rk → ix_x ≠ ix_y →
      (tab.numx ≠ t.size.getD ix_x 0 ∨ tab.numy ≠ t.size.getD ix_y 0) →
      copy_table3d_align t ix_x ix_y index tab name = .error .exc_einval) ∧
    (ix_x < t.rk → ix_y < t.rk → ix_x ≠ ix_y → tab.numx = t.size.getD ix_x 0 →
      tab.numy = t.size.getD ix_y 0 → tab.wf →
      ∃ r, copy_table3d_align t ix_x ix_y index tab name = .ok r ∧
        (∀ i j, i < tab.numx → j < tab.numy →
          r.1.get i j name = get t ((index.set ix_x i).set ix_y j)) ∧
        r.1.numx = tab.numx ∧ r.1.numy = tab.numy ∧ r.1.xval = tab.xval ∧
        r.1.yval = tab.yval) := by
  refine ⟨fun h => ?_, fun hx hy hxy hsz => ?_, fun hx hy hxy hnx hny hwf => ?_⟩
  · unfold copy_table3d_align
    rw [if_pos h]
  · unfold copy_table3d_align
    rw [if_neg (by omega)]
    simp only [table3d.get_size]
    rw [if_pos hsz]
  · unfold copy_table3d_align
    rw [if_neg (by omega)]
    simp only [table3d.get_size]
    rw [if_neg (by omega)]
    refine ⟨_, rfl, ?_⟩
    generalize htab1 : (if tab.is_slice name = true then tab else tab.new_slice name) = tab1
    have hshape : ((tab1.slice name).length = tab.numx ∧
        ∀ row, row ∈ tab1.slice name → row.length = tab.numy) ∧
        tab1.numx = tab.numx ∧ tab1.numy = tab.numy ∧ tab1.xval = tab.xval ∧
        tab1.yval = tab.yval := by
      rw [← htab1]
      by_cases hs : tab.is_slice name = true
      · rw [if_pos hs]
        exact ⟨slice_shape tab name hwf hs, rfl, rfl, rfl, rfl⟩
      · rw [if_neg hs, slice_new_slice tab name (by simpa using hs)]
        exact ⟨replicate_shape _ _ _, rfl, rfl, rfl, rfl⟩
    have hsim := foldl_sim
      (fun (s : table3d × List Nat) (M : List (List ℚ)) =>
        (s.2.length = index.length ∧
          ∀ k, k ≠ ix_x → k ≠ ix_y → s.2.getD k 0 = index.getD k 0) ∧
        s.1.slice name = M ∧ s.1.numx = tab.numx ∧ s.1.numy = tab.numy ∧
        s.1.xval = tab.xval ∧ s.1.yval = tab.yval)
      (fun (s : table3d × List Nat) i =>
        (List.range tab.numy).foldl (fun (s : table3d × List Nat) j =>
          (s.1.set i j name (get t ((s.2.set ix_x i).set ix_y j)),
            (s.2.set ix_x i).set ix_y j)) s)
      (fun M i => (List.range tab.numy).foldl (fun M j =>
          mat_set M i j (get t ((index.set ix_x i).set ix_y j))) M)
      (by
        intro s M i hrel
        refine foldl_sim
          (fun (s : table3d × List Nat) (M : List (List ℚ)) =>
            (s.2.length = index.length ∧
              ∀ k, k ≠ ix_x → k ≠ ix_y → s.2.getD k 0 = index.getD k 0) ∧
            s.1.slice name = M ∧ s.1.numx = tab.numx ∧ s.1.numy = tab.numy ∧
            s.1.xval = tab.xval ∧ s.1.yval = tab.yval) _ _ ?_ _ s M hrel
        intro s M j ⟨⟨e1, e2⟩, e3, e4, e5, e6, e7⟩
        have heq := set_two_agree s.2 index ix_x ix_y i j e1 e2
        refine ⟨⟨by simp [e1], fun k k1 k2 => ?_⟩, ?_, e4, e5, e6, e7⟩
        · rw [getD_set, getD_set, if_neg (fun e => k2 e.1.symm), if_neg (fun e => k1 e.1.symm)]
          exact e2 k k1 k2
        · simp only
          rw [slice_set, e3, heq])
      (List.range tab.numx) (tab1, index) (tab1.slice name)
      ⟨⟨rfl, fun _ _ _ => rfl⟩, rfl, hshape.2⟩
    obtain ⟨_, s2, s3, s4, s5, s6⟩ := hsim
    refine ⟨fun i j hi hj => ?_, s3, s4, s5, s6⟩
    unfold table3d.get
    rw [s2, (mat_fill (fun i j => get t ((index.set ix_x i).set ix_y j)) tab.numx tab.numy
      (tab1.slice name) hshape.1 tab.numx (le_refl _)).2, if_pos ⟨hi, hj⟩]

/-- Witness for C25: on the `(3,3)` sample with values `i+j` and the 3 by 3 table, axes 0
and 1: the point `(2,1)` of the slice receives the cell `(2,1)`; with `ix_x = ix_y` the
call raises. -/
theorem copy_table3d_align_spec_witness :
    copy_table3d_align sample33 0 0 [0, 0] sample_tab33 "z" = .error .exc_efailed ∧
    ∃ r, copy_table3d_align sample33 0 1 [0, 0] sample_tab33 "z" = .ok r ∧
      (∀ i j, i < sample_tab33.numx → j < sample_tab33.numy →
        r.1.get i j "z" = get sample33 (([0, 0].set 0 i).set 1 j)) ∧
      r.1.numx = sample_tab33.numx ∧ r.1.numy = sample_tab33.numy ∧
      r.1.xval = sample_tab33.xval ∧ r.1.yval = sample_tab33.yval :=
  ⟨(copy_table3d_align_spec sample33 0 0 [0, 0] sample_tab33 "z").1 (by decide),
   (copy_table3d_align_spec sample33 0 1 [0, 0] sample_tab33 "z").2.2 (by decide) (by decide)
      (by decide) (by decide) (by decide) (by decide)⟩

/-- C26 (what the code does): when the table has no points (`nx == 0` and `ny == 0`) and
one of the two axes of the tensor has points, `copy_table3d_align` raises
invalid-argument at its test of the sizes, and so does `copy_table3d_interp`, which hands
the call over to it: neither sets the grid of the table (`copy_table3d_align_setxy` is the
method that does). -/
theorem copy_table3d_no_grid_raises (ext : externals) (t : tensor_grid) (ix_x ix_y : Nat)
    (index : List Nat) (tab : table3d) (name : String)
    (hx : ix_x < t.rk) (hy : ix_y < t.rk) (hxy : ix_x ≠ ix_y)
    (h0 : tab.numx = 0 ∧ tab.numy = 0)
    (hsz : t.size.getD ix_x 0 ≠ 0 ∨ t.size.getD ix_y 0 ≠ 0) :
    copy_table3d_align t ix_x ix_y index tab name = .error .exc_einval ∧
    copy_table3d_interp ext t ix_x ix_y index tab name = .error .exc_einval := by
  have ha : copy_table3d_align t ix_x ix_y index tab name = .error .exc_einval := by
    unfold copy_table3d_align
    rw [if_neg (by omega)]
    simp only [table3d.get_size]
    rw [if_pos (by omega)]
  refine ⟨ha, ?_⟩
  unfold copy_table3d_interp
  rw [if_neg (by omega)]
  simp only [table3d.get_size]
  rw [if_pos h0, ha]

/-- Witness for C26: the `(3,3)` sample, axes 0 and 1, and a table without points. -/
theorem copy_table3d_no_grid_raises_witness :
    copy_table3d_align sample33 0 1 [0, 0] table3d_empty "z" = .error .exc_einval ∧
    copy_table3d_interp sample_ext sample33 0 1 [0, 0] table3d_empty "z" =
      .error .exc_einval :=
  copy_table3d_no_grid_raises sample_ext sample33 0 1 [0, 0] table3d_empty "z" (by decide)
    (by decide) (by decide) (by decide) (by decide)

/-- The loop that adds `d i` to the entry `(ux i, uy i)` for `i < n`. -/
theorem mat_accumulate (ux uy : Nat → Nat) (d : Nat → ℚ) (nx ny : Nat) (m : List (List ℚ))
    (hm : m.length = nx ∧ ∀ row, row ∈ m → row.length = ny) (n : Nat)
    (hu : ∀ i, i < n → ux i < nx ∧ uy i < ny) :
    (((List.range n).foldl (fun M i =>
        mat_set M (ux i) (uy i) ((M.getD (ux i) []).getD (uy i) 0 + d i)) m).length = nx ∧
      ∀ row, row ∈ (List.range n).foldl (fun M i =>
        mat_set M (ux i) (uy i) ((M.getD (ux i) []).getD (uy i) 0 + d i)) m →
          row.length = ny) ∧
    ∀ a b, (((List.range n).foldl (fun M i =>
        mat_set M (ux i) (uy i) ((M.getD (ux i) []).getD (uy i) 0 + d i)) m).getD a []).getD b 0 =
      (m.getD a []).getD b 0 +
        ∑ i in Finset.range n, if ux i = a ∧ uy i = b then d i else 0 := by
  induction n with
  | zero =>
    refine ⟨hm, fun a b => ?_⟩
    simp
  | succ n ih =>
    obtain ⟨h1, h2⟩ := ih (fun i hi => hu i (by omega))
    rw [List.range_succ, List.foldl_append]
    simp only [List.foldl_cons, List.foldl_nil]
    generalize (List.range n).foldl (fun M i =>
      mat_set M (ux i) (uy i) ((M.getD (ux i) []).getD (uy i) 0 + d i)) m = R at h1 h2 ⊢
    refine ⟨mat_set_shape R _ _ _ nx ny h1, fun a b => ?_⟩
    obtain ⟨u1, u2⟩ := hu n (by omega)
    have hrow : (R.getD (ux n) []).length = ny := by
      rw [List.getD_eq_getElem _ _ (by omega)]
      exact h1.2 _ (List.getElem_mem _)
    rw [mat_get_set, Finset.sum_range_succ]
    by_cases hc : ux n = a ∧ uy n = b
    · rw [if_pos ⟨hc.1, by omega, hc.2, by omega⟩, if_pos hc, h2, hc.1, hc.2]
      ring
    · rw [if_neg (by tauto), if_neg hc, h2]
      ring

/-- Each cell is counted at exactly one point of the table. -/
theorem sum_points (ux uy : Nat → Nat) (d : Nat → ℚ) (nx ny n : Nat)
    (hu : ∀ i, i < n → ux i < nx ∧ uy i < ny) :
    ∑ a in Finset.range nx, ∑ b in Finset.range ny,
      ∑ i in Finset.range n, (if ux i = a ∧ uy i = b then d i else 0) =
    ∑ i in Finset.range n, d i := by
  have h1 : ∀ a, ∑ b in Finset.range ny,
      ∑ i in Finset.range n, (if ux i = a ∧ uy i = b then d i else 0) =
      ∑ i in Finset.range n, (if ux i = a then d i else 0) := by
    intro a
    rw [Finset.sum_comm]
    apply Finset.sum_congr rfl
    intro i hi
    have := (hu i (Finset.mem_range.mp hi)).2
    by_cases ha : ux i = a
    · simp [ha, Finset.sum_ite_eq, this]
    · simp [ha]
  rw [Finset.sum_congr rfl (fun a _ => h1 a), Finset.sum_comm]
  apply Finset.sum_congr rfl
  intro i hi
  have := (hu i (Finset.mem_range.mp hi)).1
  simp [Finset.sum_ite_eq, this]

/-- An index vector that is not longer than the unpacked indices is replaced by them. -/
theorem write_front_short (dst src : List Nat) (h : dst.length ≤ src.length) :
    write_front dst src = src := by
  unfold write_front
  rw [List.drop_eq_nil_of_le h, List.append_nil]

/-- Writing by index into an empty vector leaves it empty. -/
theorem write_index_nil (src : List Nat) : write_index [] src = [] := by
  unfold write_index
  exact foldl_inv (fun d : List Nat => d = []) _
    (fun d k hd => by rw [hd]; rfl) _ [] rfl

/-- C24 (what the code does): on a table that has the slice and whose sizes are the
sizes of the axes `ix_x` and `ix_y`, both with points, `convert_table3d_sum` raises
nothing, but the index vector `ix` of its loop is empty and is not resized by
`unpack_index`: with the writes beyond its end dropped and the reads beyond its end
giving 0, every cell of the tensor is added to the point `(0,0)`, which ends with the
sum of all cells, and every other point of the slice is left at 0, whatever the indices
of the cells on the axes `ix_x` and `ix_y`. -/
theorem convert_table3d_sum_at_origin (t : tensor_grid) (ix_x ix_y : Nat) (tab : table3d)
    (name : String)
    (hnx : tab.numx = t.size.getD ix_x 0) (hny : tab.numy = t.size.getD ix_y 0)
    (hpx : 0 < tab.numx) (hpy : 0 < tab.numy) (hs : tab.is_slice name = true) :
    ∃ r, convert_table3d_sum t ix_x ix_y tab name = .ok r ∧
      ∀ a b, r.get a b name =
        if a = 0 ∧ b = 0 then ∑ i in Finset.range (total_size t), t.data.getD i 0 else 0 := by
  unfold convert_table3d_sum
  simp only [table3d.get_size]
  rw [if_neg (show ¬ (tab.numx = 0 ∧ tab.numy = 0) by omega), if_neg (by omega)]
  refine ⟨_, rfl, ?_⟩
  have hsim := foldl_sim
    (fun (s : table3d × List Nat) (M : List (List ℚ)) => s.2 = [] ∧ s.1.slice name = M)
    (fun (s : table3d × List Nat) i =>
      ((s.1.set ((write_index s.2 (unpack_index t.size i)).getD ix_x 0)
          ((write_index s.2 (unpack_index t.size i)).getD ix_y 0) name
          (s.1.get ((write_index s.2 (unpack_index t.size i)).getD ix_x 0)
            ((write_index s.2 (unpack_index t.size i)).getD ix_y 0) name + t.data.getD i 0)),
        write_index s.2 (unpack_index t.size i)))
    (fun M i => mat_set M 0 0 ((M.getD 0 []).getD 0 0 + t.data.getD i 0))
    (by
      intro s M i ⟨e1, e2⟩
      have hw : write_index s.2 (unpack_index t.size i) = [] := by
        rw [e1]
        exact write_index_nil _
      simp only
      rw [hw]
      refine ⟨rfl, ?_⟩
      rw [slice_set]
      unfold table3d.get
      rw [e2]
      rfl)
    (List.range (total_size t)) (tab.set_slice_all name 0, [])
    ((tab.set_slice_all name 0).slice name) ⟨rfl, rfl⟩
  obtain ⟨_, s2⟩ := hsim
  rw [slice_set_slice_all tab name 0 hs] at s2
  obtain ⟨_, a2⟩ := mat_accumulate (fun _ => 0) (fun _ => 0) (fun i => t.data.getD i 0)
    tab.numx tab.numy _ (replicate_shape tab.numx tab.numy 0) (total_size t)
    (fun _ _ => ⟨hpx, hpy⟩)
  intro a b
  show ((table3d.slice _ name).getD a []).getD b 0 = _
  rw [s2, a2, replicate_get]
  by_cases hab : a = 0 ∧ b = 0
  · obtain ⟨ha, hb⟩ := hab
    subst ha
    subst hb
    simp
  · have hab2 : ¬ (0 = a ∧ 0 = b) := fun h => hab ⟨h.1.symm, h.2.symm⟩
    simp [hab, hab2]

/-- Witness for C24 (what the code does): the `(3,3)` sample with values `i+j` on the
3 by 3 table, axes 0 and 1: the point `(0,0)` ends with 18, the sum of all cells, and
the point `(1,1)` with 0, while the only cell with the indices `(1,1)` holds 2. -/
theorem convert_table3d_sum_at_origin_witness :
    (∃ r, convert_table3d_sum sample33 0 1 sample_tab33 "z" = .ok r ∧
      ∀ a b, r.get a b "z" =
        if a = 0 ∧ b = 0 then ∑ i in Finset.range (total_size sample33),
          sample33.data.getD i 0 else 0) ∧
    (∑ i in Finset.range (total_size sample33), sample33.data.getD i 0) = 18 ∧
    get sample33 [1, 1] = 2 ∧
    (∑ i in Finset.range (total_size sample33),
      if (unpack_index sample33.size i).getD 0 0 = 1 ∧
        (unpack_index sample33.size i).getD 1 0 = 1
      then sample33.data.getD i 0 else 0) = 2 :=
  ⟨convert_table3d_sum_at_origin sample33 0 1 sample_tab33 "z" (by decide) (by decide)
      (by decide) (by decide) (by decide),
    by
      simp [total_size, sample33, Finset.sum_range_succ]
      norm_num,
    by simp [get, sample33, row_major],
    by
      simp [total_size, sample33, Finset.sum_range_succ, unpack_index]⟩

/-! ## Slices by interpolation: `copy_slice_interp` -/

/-- C27 (what the code does): `copy_slice_interp` raises invalid-argument when the rank
is below `1+|ifix|` or `ifix` and `vals` differ in length; on the `(3,3)` sample with
values `i+j`, fixing axis 0 at the value 1 gives a rank-1 tensor with the grid `[0,1,2]`
of axis 1 whose three cells all hold 1: the point of the old axis `j` is taken at
`ix_new[j]`, the position `j` of a vector that has one entry per new axis, and not at the
index of the new axis that comes from `j`; the interpolated values at `(1,0)`, `(1,1)`,
`(1,2)` are 1, 2, 3. -/
theorem copy_slice_interp_old_axis :
    (∀ (ext : externals) (t : tensor_grid) (ifix : List Nat) (vals : List ℚ),
      t.rk < 1 + ifix.length ∨ ifix.length ≠ vals.length →
      copy_slice_interp ext t ifix vals = .error .exc_einval) ∧
    copy_slice_interp sample_ext sample33 [0] [1] =
      .ok { rk := 1, size := [3], data := [1, 1, 1], grid := [0, 1, 2], grid_set := true,
            itype := itp_linear } ∧
    interp_linear sample_ext sample33 [1, 0] = .ok 1 ∧
    interp_linear sample_ext sample33 [1, 1] = .ok 2 ∧
    interp_linear sample_ext sample33 [1, 2] = .ok 3 := by
  refine ⟨?_, ?_, ?_, ?_, ?_⟩
  · intro ext t ifix vals h
    unfold copy_slice_interp
    by_cases h1 : t.rk < 1 + ifix.length
    · rw [if_pos h1]
    · rw [if_neg h1, if_pos (by tauto)]
  · simp [copy_slice_interp, sample33, sample_ext, for_loop, slice_shape_step, find_fixed,
      grid_one_loop, get_size, get_grid, grid_at, istart_of, offset_of, tensor_grid_rank_dim,
      tensor_rank_dim, tensor_default, set_grid, fill_grid, fill_axis, vec_resize,
      total_size, write_front, unpack_index, point_old_step, interp_linear, corner_step,
      unpack_grid, search_below, set_grid_packed, copy_corner, set, get, row_major,
      interp_linear_power_two, power_two_loop, collapse_last, List.range, List.range.loop,
      itp_linear]
    norm_num
  · simp [sample33, sample_ext, get_grid, grid_at, istart_of, offset_of,
      tensor_grid_rank_dim, tensor_rank_dim, tensor_default, vec_resize,
      total_size, write_front, unpack_index, interp_linear, corner_step,
      unpack_grid, search_below, set_grid_packed, copy_corner, set, get, row_major,
      interp_linear_power_two, power_two_loop, collapse_last, List.range, List.range.loop,
      itp_linear]
    norm_num
  · simp [sample33, sample_ext, get_grid, grid_at, istart_of, offset_of,
      tensor_grid_rank_dim, tensor_rank_dim, tensor_default, vec_resize,
      total_size, write_front, unpack_index, interp_linear, corner_step,
      unpack_grid, search_below, set_grid_packed, copy_corner, set, get, row_major,
      interp_linear_power_two, power_two_loop, collapse_last, List.range, List.range.loop,
      itp_linear]
  · simp [sample33, sample_ext, get_grid, grid_at, istart_of, offset_of,
      tensor_grid_rank_dim, tensor_rank_dim, tensor_default, vec_resize,
      total_size, write_front, unpack_index, interp_linear, corner_step,
      unpack_grid, search_below, set_grid_packed, copy_corner, set, get, row_major,
      interp_linear_power_two, power_two_loop, collapse_last, List.range, List.range.loop,
      itp_linear]
    norm_num

/-! ## Rearrangement: the loops over the cells -/

/-- A raising loop over two lists of rounds in a row. -/
theorem for_loop_append {σ : Type} (f : σ → Nat → Except exc σ) (l1 l2 : List Nat) :
    ∀ s, for_loop f (l1 ++ l2) s =
      match for_loop f l1 s with
      | .error e => .error e
      | .ok s1 => for_loop f l2 s1 := by
  induction l1 with
  | nil => intro s; rfl
  | cons i rest ih =>
    intro s
    simp only [List.cons_append, for_loop]
    cases f s i with
    | error e => rfl
    | ok s1 => exact ih s1

/-- The rounds `0..n-1` split at the round `k`. -/
theorem range_split (n k : Nat) (h : k < n) :
    List.range n = List.range k ++ k :: List.range' (k + 1) (n - k - 1) := by
  obtain ⟨d, rfl⟩ : ∃ d, n = d + 1 + k := ⟨n - k - 1, by omega⟩
  have hd : d + 1 + k - k - 1 = d := by omega
  rw [hd, List.range_eq_range', List.range_eq_range', ← List.range'_append 0 k (d + 1) 1]
  simp [List.range'_succ]

/-- The loop over the old axes that locates a cell: it fills the entries of `ix_old` of
the kept and reversed axes and leaves the others and `interp_vals` alone. -/
theorem old_index_loop (t : tensor_grid) (st : rearr) (i : Nat) (u : List Nat)
    (hty : ∀ j, j < t.rk →
      (st.spec_old.getD j index_spec_empty).type = .index ∨
      (st.spec_old.getD j index_spec_empty).type = .reverse ∨
      (st.spec_old.getD j index_spec_empty).type = .sum ∨
      (st.spec_old.getD j index_spec_empty).type = .trace)
    (x : List Nat) (iv : List ℚ) (m : Nat) (hm : m ≤ t.rk) :
    ((List.range m).foldl (old_index_step t st i u) (x, iv)).2 = iv ∧
    ((List.range m).foldl (old_index_step t st i u) (x, iv)).1.length = x.length ∧
    ∀ j, ((List.range m).foldl (old_index_step t st i u) (x, iv)).1.getD j 0 =
      if j < m ∧ j < x.length ∧
        ((st.spec_old.getD j index_spec_empty).type = .index ∨
          (st.spec_old.getD j index_spec_empty).type = .reverse)
      then old_ix t st.spec_old u 0 j else x.getD j 0 := by
  induction m with
  | zero =>
    refine ⟨rfl, rfl, fun j => ?_⟩
    rw [if_neg (by omega)]
    rfl
  | succ m ih =>
    obtain ⟨h1, h2, h3⟩ := ih (by omega)
    rw [List.range_succ, List.foldl_append]
    simp only [List.foldl_cons, List.foldl_nil]
    generalize (List.range m).foldl (old_index_step t st i u) (x, iv) = r at h1 h2 h3 ⊢
    rcases hty m (by omega) with ht | ht | ht | ht
    · have hs : old_index_step t st i u r m =
          (r.1.set m (u.getD (st.spec_old.getD m index_spec_empty).ix1 0), r.2) := by
        unfold old_index_step
        simp only [ht]
      rw [hs]
      refine ⟨h1, by simp [h2], fun j => ?_⟩
      simp only
      rw [getD_set, h2, h3]
      by_cases hj : m = j ∧ j < x.length
      · rw [if_pos hj, if_pos ⟨by omega, hj.2, Or.inl (hj.1 ▸ ht)⟩]
        unfold old_ix
        rw [← hj.1]
        simp only [ht]
      · rw [if_neg hj]
        by_cases hc : j < m ∧ j < x.length ∧
            ((st.spec_old.getD j index_spec_empty).type = .index ∨
              (st.spec_old.getD j index_spec_empty).type = .reverse)
        · rw [if_pos hc, if_pos ⟨by omega, hc.2⟩]
        · rw [if_neg hc, if_neg]
          intro ⟨c1, c2, c3⟩
          rcases Nat.lt_or_ge j m with hlt | hge
          · exact hc ⟨hlt, c2, c3⟩
          · exact hj ⟨by omega, c2⟩
    · have hs : old_index_step t st i u r m =
          (r.1.set m (get_size t m - 1 -
            u.getD (st.spec_old.getD m index_spec_empty).ix1 0), r.2) := by
        unfold old_index_step
        simp only [ht]
      rw [hs]
      refine ⟨h1, by simp [h2], fun j => ?_⟩
      simp only
      rw [getD_set, h2, h3]
      by_cases hj : m = j ∧ j < x.length
      · rw [if_pos hj, if_pos ⟨by omega, hj.2, Or.inr (hj.1 ▸ ht)⟩]
        unfold old_ix get_size
        rw [← hj.1]
        simp only [ht]
      · rw [if_neg hj]
        by_cases hc : j < m ∧ j < x.length ∧
            ((st.spec_old.getD j index_spec_empty).type = .index ∨
              (st.spec_old.getD j index_spec_empty).type = .reverse)
        · rw [if_pos hc, if_pos ⟨by omega, hc.2⟩]
        · rw [if_neg hc, if_neg]
          intro ⟨c1, c2, c3⟩
          rcases Nat.lt_or_ge j m with hlt | hge
          · exact hc ⟨hlt, c2, c3⟩
          · exact hj ⟨by omega, c2⟩
    all_goals
      have hs : old_index_step t st i u r m = r := by
        unfold old_index_step
        simp only [ht]
      rw [hs]
      refine ⟨h1, h2, fun j => ?_⟩
      rw [h3]
      by_cases hc : j < m ∧ j < x.length ∧
          ((st.spec_old.getD j index_spec_empty).type = .index ∨
            (st.spec_old.getD j index_spec_empty).type = .reverse)
      · rw [if_pos hc, if_pos ⟨by omega, hc.2⟩]
      · rw [if_neg hc, if_neg]
        intro ⟨c1, c2, c3⟩
        rcases Nat.lt_or_ge j m with hlt | hge
        · exact hc ⟨hlt, c2, c3⟩
        · have hjm : j = m := by omega
          rw [hjm, ht] at c3
          rcases c3 with c3 | c3 <;> cases c3

/-- The remap loop over rounds whose table entry is neither a sum nor the first axis of
a trace changes nothing. -/
theorem remap_skip (spec_old : List index_spec) (su : List Nat) (l : List Nat)
    (h : ∀ k, k ∈ l → ¬ ((spec_old.getD k index_spec_empty).type = .sum ∨
      ((spec_old.getD k index_spec_empty).type = .trace ∧
        (spec_old.getD k index_spec_empty).ix1 < (spec_old.getD k index_spec_empty).ix2))) :
    ∀ s, for_loop (remap_step spec_old su) l s = .ok s := by
  induction l with
  | nil => intro s; rfl
  | cons k rest ih =>
    intro s
    have hk := h k (List.mem_cons_self _ _)
    unfold for_loop
    have hs : remap_step spec_old su s k = .ok s := by
      unfold remap_step
      simp only
      rw [if_neg (fun e => hk (Or.inl e)), if_neg (fun e => hk (Or.inr e))]
    rw [hs]
    exact ih (fun k hk => h k (List.mem_cons_of_mem _ hk)) s

/-- The remap loop when one round `k0` only has a table entry that is a sum or the first
axis of a trace: it is that round alone. -/
theorem remap_one (spec_old : List index_spec) (su : List Nat) (n k0 : Nat) (hk0 : k0 < n)
    (h : ∀ k, k < n → k ≠ k0 → ¬ ((spec_old.getD k index_spec_empty).type = .sum ∨
      ((spec_old.getD k index_spec_empty).type = .trace ∧
        (spec_old.getD k index_spec_empty).ix1 < (spec_old.getD k index_spec_empty).ix2)))
    (s : List Nat × Nat) :
    for_loop (remap_step spec_old su) (List.range n) s = remap_step spec_old su s k0 := by
  rw [range_split n k0 hk0, for_loop_append,
    remap_skip spec_old su (List.range k0) (fun k hk => h k (by
      have := List.mem_range.mp hk
      omega) (by
      have := List.mem_range.mp hk
      omega))]
  simp only [for_loop]
  cases remap_step spec_old su s k0 with
  | error e => rfl
  | ok s1 =>
    simp only
    exact remap_skip spec_old su _ (fun k hk => h k (by
      have := List.mem_range'.mp hk
      omega) (by
      have := List.mem_range'.mp hk
      omega)) s1

/-- The sum loop of one cell: when every round of the remap loop leaves the entries of
the kept and reversed axes alone and writes the round number on the others, the loop adds
up the old cells of the rounds. -/
theorem sum_loop_spec (ext : externals) (t : tensor_grid) (st : rearr) (u : List Nat)
    (hint : st.n_interps = 0)
    (hred : ∀ jj su x, jj < st.n_sum_loop → su.length = st.sum_sizes.length →
      x.length = t.rk →
      ∃ x1 c, for_loop (remap_step st.spec_old
          ((List.range st.sum_sizes.length).foldl
            (unpack_sum_step st.sum_sizes st.sum_sizes.length) (jj, su)).2)
          (List.range t.rk) (x, 0) = .ok (x1, c) ∧
        x1.length = t.rk ∧
        ((List.range st.sum_sizes.length).foldl
            (unpack_sum_step st.sum_sizes st.sum_sizes.length) (jj, su)).2.length =
          st.sum_sizes.length ∧
        ∀ j, j < t.rk → x1.getD j 0 =
          if (st.spec_old.getD j index_spec_empty).type = .index ∨
            (st.spec_old.getD j index_spec_empty).type = .reverse
          then x.getD j 0 else jj)
    (iv : List ℚ) (n : Nat) (hn : n ≤ st.n_sum_loop) (v0 : ℚ) (x0 su0 : List Nat)
    (hx0 : x0.length = t.rk) (hsu0 : su0.length = st.sum_sizes.length)
    (hkept : ∀ j, j < t.rk →
      ((st.spec_old.getD j index_spec_empty).type = .index ∨
        (st.spec_old.getD j index_spec_empty).type = .reverse) →
      x0.getD j 0 = old_ix t st.spec_old u 0 j) :
    ∃ x1 su1, for_loop (sum_step ext t st iv) (List.range n) (v0, x0, su0) =
        .ok (v0 + ∑ jj in Finset.range n, get t (old_cell t st.spec_old u jj), x1, su1) ∧
      x1.length = t.rk ∧ su1.length = st.sum_sizes.length ∧
      ∀ j, j < t.rk →
        ((st.spec_old.getD j index_spec_empty).type = .index ∨
          (st.spec_old.getD j index_spec_empty).type = .reverse) →
        x1.getD j 0 = old_ix t st.spec_old u 0 j := by
  induction n with
  | zero =>
    refine ⟨x0, su0, ?_, hx0, hsu0, hkept⟩
    simp [for_loop]
  | succ n ih =>
    obtain ⟨x1, su1, h1, h2, h3, h4⟩ := ih (by omega)
    rw [List.range_succ, for_loop_append, h1]
    simp only [for_loop]
    obtain ⟨x2, c, r1, r2, r3, r4⟩ := hred n su1 x1 (by omega) h3 h2
    have hcell : x2 = old_cell t st.spec_old u n := by
      apply list_ext_getD
      · rw [r2]
        simp [old_cell]
      · intro j hj
        rw [r2] at hj
        unfold old_cell
        rw [getD_map_range _ _ _ hj, r4 j hj]
        by_cases hk : (st.spec_old.getD j index_spec_empty).type = .index ∨
            (st.spec_old.getD j index_spec_empty).type = .reverse
        · rw [if_pos hk, h4 j hj hk]
          unfold old_ix
          rcases hk with hk | hk <;> simp only [hk]
        · rw [if_neg hk]
          unfold old_ix
          cases hty : (st.spec_old.getD j index_spec_empty).type <;> simp only <;>
            exact absurd hty (by tauto)
    have hstep : sum_step ext t st iv
        (v0 + ∑ jj in Finset.range n, get t (old_cell t st.spec_old u jj), x1, su1) n =
        .ok (v0 + ∑ jj in Finset.range (n + 1), get t (old_cell t st.spec_old u jj), x2,
          ((List.range st.sum_sizes.length).foldl
            (unpack_sum_step st.sum_sizes st.sum_sizes.length) (n, su1)).2) := by
      unfold sum_step
      simp only
      rw [r1]
      simp only
      rw [if_neg (by omega), Finset.sum_range_succ, hcell, add_assoc]
    rw [hstep]
    refine ⟨x2, _, rfl, r2, r3, fun j hj hk => ?_⟩
    rw [r4 j hj, if_pos hk]
    exact h4 j hj hk

/-- One round of the cell loop under the same conditions: the cell with number `i`
receives the sum of the old cells of the rounds. -/
theorem cell_step_spec (ext : externals) (t : tensor_grid) (st : rearr)
    (hint : st.n_interps = 0)
    (hty : ∀ j, j < t.rk →
      (st.spec_old.getD j index_spec_empty).type = .index ∨
      (st.spec_old.getD j index_spec_empty).type = .reverse ∨
      (st.spec_old.getD j index_spec_empty).type = .sum ∨
      (st.spec_old.getD j index_spec_empty).type = .trace)
    (hred : ∀ jj su x, jj < st.n_sum_loop → su.length = st.sum_sizes.length →
      x.length = t.rk →
      ∃ x1 c, for_loop (remap_step st.spec_old
          ((List.range st.sum_sizes.length).foldl
            (unpack_sum_step st.sum_sizes st.sum_sizes.length) (jj, su)).2)
          (List.range t.rk) (x, 0) = .ok (x1, c) ∧
        x1.length = t.rk ∧
        ((List.range st.sum_sizes.length).foldl
            (unpack_sum_step st.sum_sizes st.sum_sizes.length) (jj, su)).2.length =
          st.sum_sizes.length ∧
        ∀ j, j < t.rk → x1.getD j 0 =
          if (st.spec_old.getD j index_spec_empty).type = .index ∨
            (st.spec_old.getD j index_spec_empty).type = .reverse
          then x.getD j 0 else jj)
    (s : cell_state) (i : Nat) (h1 : s.ix_new.length = s.t_new.size.length)
    (h2 : s.ix_old.length = t.rk) (h3 : s.sum_ix.length = st.sum_sizes.length) :
    ∃ x1 su1, cell_step ext t st s i =
        .ok ⟨set s.t_new (unpack_index s.t_new.size i)
            (∑ jj in Finset.range st.n_sum_loop,
              get t (old_cell t st.spec_old (unpack_index s.t_new.size i) jj)),
          unpack_index s.t_new.size i, x1, su1⟩ ∧
      x1.length = t.rk ∧ su1.length = st.sum_sizes.length := by
  unfold cell_step
  simp only
  rw [write_front_short _ _ (by rw [unpack_index_length]; omega)]
  obtain ⟨o1, o2, o3⟩ := old_index_loop t st i (unpack_index s.t_new.size i) hty s.ix_old
    (List.replicate st.n_interps 0) t.rk (le_refl _)
  generalize (List.range t.rk).foldl (old_index_step t st i (unpack_index s.t_new.size i))
    (s.ix_old, List.replicate st.n_interps 0) = o at o1 o2 o3 ⊢
  obtain ⟨x1, su1, r1, r2, r3, _⟩ := sum_loop_spec ext t st (unpack_index s.t_new.size i)
    hint hred o.2 st.n_sum_loop (le_refl _) 0 o.1 s.sum_ix (by rw [o2, h2]) h3
    (fun j hj hk => by rw [o3 j, if_pos ⟨hj, by omega, hk⟩])
  rw [r1]
  simp only [zero_add]
  exact ⟨x1, su1, rfl, r2, r3⟩

/-- The cell loop under the same conditions: after `n` rounds the cells `0..n-1` of the
new tensor hold the sums of their old cells and nothing else has changed. -/
theorem cell_loop_spec (ext : externals) (t : tensor_grid) (st : rearr)
    (hint : st.n_interps = 0)
    (hty : ∀ j, j < t.rk →
      (st.spec_old.getD j index_spec_empty).type = .index ∨
      (st.spec_old.getD j index_spec_empty).type = .reverse ∨
      (st.spec_old.getD j index_spec_empty).type = .sum ∨
      (st.spec_old.getD j index_spec_empty).type = .trace)
    (hred : ∀ jj su x, jj < st.n_sum_loop → su.length = st.sum_sizes.length →
      x.length = t.rk →
      ∃ x1 c, for_loop (remap_step st.spec_old
          ((List.range st.sum_sizes.length).foldl
            (unpack_sum_step st.sum_sizes st.sum_sizes.length) (jj, su)).2)
          (List.range t.rk) (x, 0) = .ok (x1, c) ∧
        x1.length = t.rk ∧
        ((List.range st.sum_sizes.length).foldl
            (unpack_sum_step st.sum_sizes st.sum_sizes.length) (jj, su)).2.length =
          st.sum_sizes.length ∧
        ∀ j, j < t.rk → x1.getD j 0 =
          if (st.spec_old.getD j index_spec_empty).type = .index ∨
            (st.spec_old.getD j index_spec_empty).type = .reverse
          then x.getD j 0 else jj)
    (s0 : cell_state) (h1 : s0.ix_new.length = s0.t_new.size.length)
    (h2 : s0.ix_old.length = t.rk) (h3 : s0.sum_ix.length = st.sum_sizes.length)
    (n : Nat) (hn : n ≤ s0.t_new.size.prod) :
    ∃ s, for_loop (cell_step ext t st) (List.range n) s0 = .ok s ∧
      s.t_new.rk = s0.t_new.rk ∧ s.t_new.size = s0.t_new.size ∧
      s.t_new.grid = s0.t_new.grid ∧ s.t_new.grid_set = s0.t_new.grid_set ∧
      s.t_new.itype = s0.t_new.itype ∧ s.t_new.data.length = s0.t_new.data.length ∧
      (∀ p, s.t_new.data.getD p 0 =
        if p < n ∧ p < s0.t_new.data.length then
          ∑ jj in Finset.range st.n_sum_loop,
            get t (old_cell t st.spec_old (unpack_index s0.t_new.size p) jj)
        else s0.t_new.data.getD p 0) ∧
      s.ix_new.length = s0.t_new.size.length ∧ s.ix_old.length = t.rk ∧
      s.sum_ix.length = st.sum_sizes.length := by
  induction n with
  | zero =>
    refine ⟨s0, rfl, rfl, rfl, rfl, rfl, rfl, rfl, fun p => ?_, h1, h2, h3⟩
    rw [if_neg (by omega)]
  | succ n ih =>
    obtain ⟨s, e0, e1, e2, e3, e4, e5, e6, e7, e8, e9, e10⟩ := ih (by omega)
    rw [List.range_succ, for_loop_append, e0]
    simp only [for_loop]
    obtain ⟨x1, su1, c1, c2, c3⟩ := cell_step_spec ext t st hint hty hred s n
      (by rw [e8, e2]) e9 e10
    rw [c1]
    simp only
    refine ⟨_, rfl, e1, e2, e3, e4, e5, ?_, fun p => ?_, ?_, c2, c3⟩
    · simp [set, e6]
    · simp only [set]
      rw [e2, row_major_unpack_index _ n (by omega), getD_set, e6, e7]
      by_cases hp : n = p ∧ p < s0.t_new.data.length
      · rw [if_pos hp, if_pos ⟨by omega, hp.2⟩, hp.1]
      · rw [if_neg hp]
        by_cases hc : p < n ∧ p < s0.t_new.data.length
        · rw [if_pos hc, if_pos ⟨by omega, hc.2⟩]
        · rw [if_neg hc, if_neg]
          intro ⟨c1, c2⟩
          rcases Nat.lt_or_ge p n with hlt | hge
          · exact hc ⟨hlt, c2⟩
          · exact hp ⟨by omega, c2⟩
    · rw [unpack_index_length, e2]

/-- Two lists of values of the same length with the same entry at every position are
equal. -/
theorem list_ext_getD_rat (a b : List ℚ) (hlen : a.length = b.length)
    (h : ∀ k, k < a.length → a.getD k 0 = b.getD k 0) : a = b := by
  apply List.ext_getElem hlen
  intro k h1 h2
  have := h k h1
  rw [List.getD_eq_getElem _ _ h1, List.getD_eq_getElem _ _ h2] at this
  exact this

/-- The product computed by the constructor is the product of the sizes. -/
theorem foldl_prod_range (dim : List Nat) (n : Nat) :
    (List.range n).foldl (fun tot i => tot * dim.getD i 0) 1 =
      ((List.range n).map (fun i => dim.getD i 0)).prod := by
  induction n with
  | zero => rfl
  | succ n ih =>
    rw [List.range_succ, List.foldl_append, List.map_append, List.prod_append, ih]
    simp

/-- The remap loop of a round when no axis is summed or traced. -/
theorem reduce_none (t : tensor_grid) (st : rearr) (hlen : st.sum_sizes.length = 0)
    (hty : ∀ j, j < t.rk →
      (st.spec_old.getD j index_spec_empty).type = .index ∨
      (st.spec_old.getD j index_spec_empty).type = .reverse) :
    ∀ jj su x, jj < st.n_sum_loop → su.length = st.sum_sizes.length → x.length = t.rk →
      ∃ x1 c, for_loop (remap_step st.spec_old
          ((List.range st.sum_sizes.length).foldl
            (unpack_sum_step st.sum_sizes st.sum_sizes.length) (jj, su)).2)
          (List.range t.rk) (x, 0) = .ok (x1, c) ∧
        x1.length = t.rk ∧
        ((List.range st.sum_sizes.length).foldl
            (unpack_sum_step st.sum_sizes st.sum_sizes.length) (jj, su)).2.length =
          st.sum_sizes.length ∧
        ∀ j, j < t.rk → x1.getD j 0 =
          if (st.spec_old.getD j index_spec_empty).type = .index ∨
            (st.spec_old.getD j index_spec_empty).type = .reverse
          then x.getD j 0 else jj := by
  intro jj su x _ hsu hx
  refine ⟨x, 0, ?_, hx, ?_, fun j hj => ?_⟩
  · apply remap_skip
    intro k hk
    have hk2 := hty k (List.mem_range.mp hk)
    rcases hk2 with h | h <;> rw [h] <;> simp
  · rw [hlen]
    simpa [hlen] using hsu
  · rw [if_pos (hty j hj)]

/-- The remap loop of a round when exactly one axis `a` is summed. -/
theorem reduce_sum (t : tensor_grid) (st : rearr) (a : Nat) (ha : a < t.rk)
    (hlen : st.sum_sizes.length = 1)
    (hta : (st.spec_old.getD a index_spec_empty).type = .sum)
    (hty : ∀ j, j < t.rk → j ≠ a →
      (st.spec_old.getD j index_spec_empty).type = .index ∨
      (st.spec_old.getD j index_spec_empty).type = .reverse) :
    ∀ jj su x, jj < st.n_sum_loop → su.length = st.sum_sizes.length → x.length = t.rk →
      ∃ x1 c, for_loop (remap_step st.spec_old
          ((List.range st.sum_sizes.length).foldl
            (unpack_sum_step st.sum_sizes st.sum_sizes.length) (jj, su)).2)
          (List.range t.rk) (x, 0) = .ok (x1, c) ∧
        x1.length = t.rk ∧
        ((List.range st.sum_sizes.length).foldl
            (unpack_sum_step st.sum_sizes st.sum_sizes.length) (jj, su)).2.length =
          st.sum_sizes.length ∧
        ∀ j, j < t.rk → x1.getD j 0 =
          if (st.spec_old.getD j index_spec_empty).type = .index ∨
            (st.spec_old.getD j index_spec_empty).type = .reverse
          then x.getD j 0 else jj := by
  intro jj su x _ hsu hx
  have hun : ((List.range st.sum_sizes.length).foldl
      (unpack_sum_step st.sum_sizes st.sum_sizes.length) (jj, su)).2 = su.set 0 jj := by
    rw [hlen]
    simp [List.range, List.range.loop, unpack_sum_step]
  rw [hun]
  rw [remap_one st.spec_old (su.set 0 jj) t.rk a ha (fun k hk hka => by
    rcases hty k hk hka with h | h <;> rw [h] <;> simp)]
  have hstep : remap_step st.spec_old (su.set 0 jj) (x, 0) a = .ok (x.set a jj, 1) := by
    unfold remap_step
    simp only
    rw [if_pos hta, if_neg (by rw [List.length_set]; omega), getD_set,
      if_pos ⟨rfl, by omega⟩]
  rw [hstep]
  refine ⟨_, _, rfl, by simp [hx], by simp [hsu], fun j hj => ?_⟩
  rw [getD_set]
  by_cases hja : a = j
  · rw [if_pos ⟨hja, by omega⟩, if_neg]
    rw [← hja, hta]
    simp
  · rw [if_neg (by tauto), if_pos (hty j hj (fun e => hja e.symm))]

/-- The remap loop of a round when exactly one pair of axes `lo < hi` is traced. -/
theorem reduce_trace (t : tensor_grid) (st : rearr) (lo hi : Nat) (hlo : lo < hi)
    (hhi : hi < t.rk) (hlen : st.sum_sizes.length = 1)
    (htlo : (st.spec_old.getD lo index_spec_empty).type = .trace ∧
      (st.spec_old.getD lo index_spec_empty).ix1 = lo ∧
      (st.spec_old.getD lo index_spec_empty).ix2 = hi)
    (hthi : (st.spec_old.getD hi index_spec_empty).type = .trace ∧
      (st.spec_old.getD hi index_spec_empty).ix1 = hi ∧
      (st.spec_old.getD hi index_spec_empty).ix2 = lo)
    (hty : ∀ j, j < t.rk → j ≠ lo → j ≠ hi →
      (st.spec_old.getD j index_spec_empty).type = .index ∨
      (st.spec_old.getD j index_spec_empty).type = .reverse) :
    ∀ jj su x, jj < st.n_sum_loop → su.length = st.sum_sizes.length → x.length = t.rk →
      ∃ x1 c, for_loop (remap_step st.spec_old
          ((List.range st.sum_sizes.length).foldl
            (unpack_sum_step st.sum_sizes st.sum_sizes.length) (jj, su)).2)
          (List.range t.rk) (x, 0) = .ok (x1, c) ∧
        x1.length = t.rk ∧
        ((List.range st.sum_sizes.length).foldl
            (unpack_sum_step st.sum_sizes st.sum_sizes.length) (jj, su)).2.length =
          st.sum_sizes.length ∧
        ∀ j, j < t.rk → x1.getD j 0 =
          if (st.spec_old.getD j index_spec_empty).type = .index ∨
            (st.spec_old.getD j index_spec_empty).type = .reverse
          then x.getD j 0 else jj := by
  intro jj su x _ hsu hx
  have hun : ((List.range st.sum_sizes.length).foldl
      (unpack_sum_step st.sum_sizes st.sum_sizes.length) (jj, su)).2 = su.set 0 jj := by
    rw [hlen]
    simp [List.range, List.range.loop, unpack_sum_step]
  rw [hun]
  rw [remap_one st.spec_old (su.set 0 jj) t.rk lo (by omega) (fun k hk hka => by
    by_cases hkh : k = hi
    · rw [hkh, hthi.1, hthi.2.1, hthi.2.2]
      simp
      omega
    · rcases hty k hk hka hkh with h | h <;> rw [h] <;> simp)]
  have hstep : remap_step st.spec_old (su.set 0 jj) (x, 0) lo =
      .ok ((x.set lo jj).set hi jj, 1) := by
    unfold remap_step
    simp only
    rw [if_neg (by rw [htlo.1]; simp), if_pos ⟨htlo.1, by rw [htlo.2.1, htlo.2.2]; exact hlo⟩,
      if_neg (by rw [List.length_set]; omega), getD_set, if_pos ⟨rfl, by omega⟩,
      htlo.2.1, htlo.2.2]
  rw [hstep]
  refine ⟨_, _, rfl, by simp [hx], by simp [hsu], fun j hj => ?_⟩
  rw [getD_set, getD_set, List.length_set]
  by_cases hjh : hi = j
  · rw [if_pos ⟨hjh, by omega⟩, if_neg]
    rw [← hjh, hthi.1]
    simp
  · rw [if_neg (by tauto)]
    by_cases hjl : lo = j
    · rw [if_pos ⟨hjl, by omega⟩, if_neg]
      rw [← hjl, htlo.1]
      simp
    · rw [if_neg (by tauto),
        if_pos (hty j hj (fun e => hjl e.symm) (fun e => hjh e.symm))]

/-- The checks of `rearrange_and_copy` pass when the first loop ends with a positive new
rank and a table entry for every old axis. -/
theorem rearrange_check_ok (ext : externals) (t : tensor_grid) (spec : List index_spec)
    (st : rearr) (hc : classify_loop ext t true spec (rearr_init t.rk) = .ok st)
    (hr : st.rank_new ≠ 0)
    (hne : ∀ j, j < t.rk → (st.spec_old.getD j index_spec_empty).type ≠ .empty) :
    rearrange_check ext t spec true = .ok st := by
  unfold rearrange_check
  rw [hc]
  simp only
  rw [if_neg hr, ((validate_loop_true st.spec_old (List.range t.rk)).1).mpr
    (fun a ha => hne a (List.mem_range.mp ha))]

/-- The tensor returned by `rearrange_and_copy` once the checks have passed, when no axis
is interpolated and the remap loop writes the round number on the summed and traced
axes: each cell is the sum of its old cells over the rounds of the sum loop. -/
theorem rearrange_of_check (ext : externals) (t : tensor_grid) (spec : List index_spec)
    (st : rearr) (hcheck : rearrange_check ext t spec true = .ok st)
    (hint : st.n_interps = 0)
    (hty : ∀ j, j < t.rk →
      (st.spec_old.getD j index_spec_empty).type = .index ∨
      (st.spec_old.getD j index_spec_empty).type = .reverse ∨
      (st.spec_old.getD j index_spec_empty).type = .sum ∨
      (st.spec_old.getD j index_spec_empty).type = .trace)
    (hred : ∀ jj su x, jj < st.n_sum_loop → su.length = st.sum_sizes.length →
      x.length = t.rk →
      ∃ x1 c, for_loop (remap_step st.spec_old
          ((List.range st.sum_sizes.length).foldl
            (unpack_sum_step st.sum_sizes st.sum_sizes.length) (jj, su)).2)
          (List.range t.rk) (x, 0) = .ok (x1, c) ∧
        x1.length = t.rk ∧
        ((List.range st.sum_sizes.length).foldl
            (unpack_sum_step st.sum_sizes st.sum_sizes.length) (jj, su)).2.length =
          st.sum_sizes.length ∧
        ∀ j, j < t.rk → x1.getD j 0 =
          if (st.spec_old.getD j index_spec_empty).type = .index ∨
            (st.spec_old.getD j index_spec_empty).type = .reverse
          then x.getD j 0 else jj)
    (hrank : st.rank_new ≠ 0) (hlen : st.size_new.length = st.rank_new)
    (hpos : ∀ i, i < st.rank_new → 0 < st.size_new.getD i 0) :
    rearrange_and_copy ext t spec true = .ok
      { rk := st.rank_new, size := st.size_new,
        data := (List.range st.size_new.prod).map (fun p =>
          ∑ jj in Finset.range st.n_sum_loop,
            get t (old_cell t st.spec_old (unpack_index st.size_new p) jj)),
        grid := [], grid_set := false, itype := itp_linear } := by
  unfold rearrange_and_copy
  rw [hcheck]
  simp only
  rw [tensor_grid_rank_dim_ok st.rank_new st.size_new hrank hpos, foldl_prod_range,
    map_getD_range st.size_new st.rank_new hlen]
  simp only
  have htot : total_size
      { rk := st.rank_new, size := st.size_new, data := List.replicate st.size_new.prod 0,
        grid := [], grid_set := false, itype := itp_linear } = st.size_new.prod := by
    unfold total_size
    rw [if_neg hrank]
  rw [htot]
  obtain ⟨s, e0, e1, e2, e3, e4, e5, e6, e7, _⟩ := cell_loop_spec ext t st hint hty hred
    ⟨{ rk := st.rank_new, size := st.size_new, data := List.replicate st.size_new.prod 0,
       grid := [], grid_set := false, itype := itp_linear },
      List.replicate st.rank_new 0, List.replicate t.rk 0,
      List.replicate st.sum_sizes.length 0⟩ (by simp [hlen]) (by simp) (by simp)
    st.size_new.prod (le_refl _)
  rw [e0]
  simp only
  simp only at e1 e2 e3 e4 e5 e6 e7
  rcases hs : s.t_new with ⟨rk1, size1, data1, grid1, gs1, it1⟩
  rw [hs] at e1 e2 e3 e4 e5 e6 e7
  simp only at e1 e2 e3 e4 e5 e6 e7
  subst e1 e2 e3 e4 e5
  have hdata : data1 = (List.range st.size_new.prod).map (fun p =>
      ∑ jj in Finset.range st.n_sum_loop,
        get t (old_cell t st.spec_old (unpack_index st.size_new p) jj)) := by
    apply list_ext_getD_rat
    · rw [e6]
      simp
    · intro k hk
      rw [e6, List.length_replicate] at hk
      rw [e7 k, if_pos ⟨hk, by simpa using hk⟩]
      simp [List.getD_eq_getElem?_getD, hk]
  rw [hdata]

/-! ## Rearrangement: spec lists that keep, reverse or sum axes -/

/-- The first loop over two lists of entries in a row. -/
theorem classify_loop_append (ext : externals) (t : tensor_grid) (e : Bool)
    (l1 l2 : List index_spec) :
    ∀ st, classify_loop ext t e (l1 ++ l2) st =
      match classify_loop ext t e l1 st with
      | .error x => .error x
      | .ok st1 => classify_loop ext t e l2 st1 := by
  induction l1 with
  | nil => intro st; rfl
  | cons s rest ih =>
    intro st
    simp only [List.cons_append, classify_loop]
    cases classify_step ext t e st s with
    | error x => rfl
    | ok st1 => exact ih st1

/-- One more position in the count of kept entries. -/
theorem kept_before_succ (ty : Nat → spec_type) (m : Nat) :
    kept_before ty (m + 1) = kept_before ty m + (if ty m = .sum then 0 else 1) := by
  unfold kept_before
  rw [List.range_succ, List.filter_append, List.length_append]
  by_cases h : ty m = .sum
  · simp [h]
  · simp [h]

/-- The count of kept entries grows with the position. -/
theorem kept_before_mono (ty : Nat → spec_type) {m n : Nat} (h : m ≤ n) :
    kept_before ty m ≤ kept_before ty n := by
  induction n with
  | zero =>
    have : m = 0 := by omega
    rw [this]
  | succ n ih =>
    rcases Nat.lt_or_ge m (n + 1) with hlt | hge
    · have := ih (by omega)
      rw [kept_before_succ]
      omega
    · have : m = n + 1 := by omega
      rw [this]

/-- The locals after the first loop has gone, from the locals `st0`, through the first
`m` entries of a spec list that keeps, reverses or sums the distinct axes `pi 0, pi 1,
...`; `rho j` is the position of the entry on axis `j`, not below `n` when there is
none. -/
theorem classify_axis_spec (ext : externals) (t : tensor_grid) (e : Bool)
    (ty : Nat → spec_type) (pi rho : Nat → Nat) (r n : Nat) (st0 : rearr)
    (hlen0 : st0.spec_old.length = r)
    (hpi : ∀ m, m < n → pi m < r ∧ rho (pi m) = m)
    (hrho : ∀ j, j < r → rho j < n → pi (rho j) = j)
    (hty : ∀ m, m < n → ty m = .index ∨ ty m = .reverse ∨ ty m = .sum)
    (m : Nat) (hm : m ≤ n) :
    ∃ st, classify_loop ext t e (axis_spec ty pi m) st0 = .ok st ∧
      st.rank_new = st0.rank_new + kept_before ty m ∧
      st.size_new = st0.size_new ++
        ((List.range m).filter (fun k => decide (ty k ≠ .sum))).map
          (fun k => t.size.getD (pi k) 0) ∧
      st.sum_sizes = st0.sum_sizes ++
        ((List.range m).filter (fun k => decide (ty k = .sum))).map
          (fun k => t.size.getD (pi k) 0) ∧
      st.n_sum_loop = st0.n_sum_loop *
        (((List.range m).filter (fun k => decide (ty k = .sum))).map
          (fun k => t.size.getD (pi k) 0)).prod ∧
      st.n_interps = st0.n_interps ∧
      st.spec_old.length = r ∧
      ∀ j, j < r → st.spec_old.getD j index_spec_empty =
        if rho j < m then
          ⟨ty (rho j),
            if ty (rho j) = .sum then j else st0.rank_new + kept_before ty (rho j),
            0, 0, 0, 0, 0⟩
        else st0.spec_old.getD j index_spec_empty := by
  induction m with
  | zero =>
    refine ⟨st0, rfl, rfl, by simp, by simp, by simp, rfl, hlen0, fun j hj => ?_⟩
    rw [if_neg (by omega)]
  | succ m ih =>
    obtain ⟨st, h1, h2, h3, h4, h5, h6, h7, h8⟩ := ih (by omega)
    have hspec : axis_spec ty pi (m + 1) =
        axis_spec ty pi m ++ [⟨ty m, pi m, 0, 0, 0, 0, 0⟩] := by
      unfold axis_spec
      rw [List.range_succ, List.map_append]
      rfl
    rw [hspec, classify_loop_append, h1]
    simp only [classify_loop]
    have hpm := hpi m (by omega)
    have hget : ∀ (x : index_spec) (j : Nat), j < r →
        ((st.spec_old.set (pi m) x).getD j index_spec_empty =
          if rho j < m + 1 then
            (if rho j = m then x else
              ⟨ty (rho j),
                if ty (rho j) = .sum then j else st0.rank_new + kept_before ty (rho j),
                0, 0, 0, 0, 0⟩)
          else st0.spec_old.getD j index_spec_empty) := by
      intro x j hj
      rw [getD_set, h7]
      by_cases hjm : pi m = j
      · rw [if_pos ⟨hjm, hj⟩]
        have : rho j = m := by rw [← hjm]; exact hpm.2
        rw [if_pos (show rho j < m + 1 by omega), if_pos this]
      · rw [if_neg (by tauto), h8 j hj]
        have hne : rho j ≠ m := by
          intro h
          apply hjm
          rw [← h]
          exact hrho j hj (by omega)
        by_cases hlt : rho j < m
        · rw [if_pos hlt, if_pos (show rho j < m + 1 by omega), if_neg hne]
        · rw [if_neg hlt, if_neg (show ¬ rho j < m + 1 by omega)]
    have hfin : ∀ (x : index_spec) (j : Nat), j < r →
        x = ⟨ty m, if ty m = .sum then pi m else st0.rank_new + kept_before ty m,
          0, 0, 0, 0, 0⟩ →
        ((st.spec_old.set (pi m) x).getD j index_spec_empty =
          if rho j < m + 1 then
            ⟨ty (rho j),
              if ty (rho j) = .sum then j else st0.rank_new + kept_before ty (rho j),
              0, 0, 0, 0, 0⟩
          else st0.spec_old.getD j index_spec_empty) := by
      intro x j hj hx
      rw [hget x j hj]
      by_cases hlt : rho j < m + 1
      · rw [if_pos hlt, if_pos hlt]
        by_cases heq : rho j = m
        · rw [if_pos heq, hx, heq]
          have : pi m = j := by rw [← heq]; exact hrho j hj (by omega)
          rw [this]
        · rw [if_neg heq]
      · rw [if_neg hlt, if_neg hlt]
    rcases hty m (by omega) with ht | ht | ht
    · have hs : classify_step ext t e st ⟨ty m, pi m, 0, 0, 0, 0, 0⟩ = .ok
          { st with
            size_new := st.size_new ++ [t.size.getD (pi m) 0]
            spec_old := st.spec_old.set (pi m) ⟨ty m, st.rank_new, 0, 0, 0, 0, 0⟩
            spec_new := st.spec_new ++ [⟨ty m, pi m, 0, 0, 0, 0, 0⟩]
            rank_new := st.rank_new + 1 } := by
        unfold classify_step
        simp only [ht]
      rw [hs]
      refine ⟨_, rfl, ?_, ?_, ?_, ?_, h6, by simp [h7], fun j hj => ?_⟩
      · simp only [h2, kept_before_succ, ht]
        simp
        omega
      · simp only [h3]
        rw [List.range_succ, List.filter_append, List.map_append]
        simp [ht]
      · simp only [h4]
        rw [List.range_succ, List.filter_append, List.map_append]
        simp [ht]
      · simp only [h5]
        rw [List.range_succ, List.filter_append, List.map_append]
        simp [ht]
      · simp only
        exact hfin _ j hj (by simp [ht, h2])
    · have hs : classify_step ext t e st ⟨ty m, pi m, 0, 0, 0, 0, 0⟩ = .ok
          { st with
            size_new := st.size_new ++ [t.size.getD (pi m) 0]
            spec_old := st.spec_old.set (pi m) ⟨ty m, st.rank_new, 0, 0, 0, 0, 0⟩
            spec_new := st.spec_new ++ [⟨ty m, pi m, 0, 0, 0, 0, 0⟩]
            rank_new := st.rank_new + 1 } := by
        unfold classify_step
        simp only [ht]
      rw [hs]
      refine ⟨_, rfl, ?_, ?_, ?_, ?_, h6, by simp [h7], fun j hj => ?_⟩
      · simp only [h2, kept_before_succ, ht]
        simp
        omega
      · simp only [h3]
        rw [List.range_succ, List.filter_append, List.map_append]
        simp [ht]
      · simp only [h4]
        rw [List.range_succ, List.filter_append, List.map_append]
        simp [ht]
      · simp only [h5]
        rw [List.range_succ, List.filter_append, List.map_append]
        simp [ht]
      · simp only
        exact hfin _ j hj (by simp [ht, h2])
    · have hs : classify_step ext t e st ⟨ty m, pi m, 0, 0, 0, 0, 0⟩ = .ok
          { st with
            n_sum_loop := st.n_sum_loop * t.size.getD (pi m) 0
            sum_sizes := st.sum_sizes ++ [t.size.getD (pi m) 0]
            spec_old := st.spec_old.set (pi m) ⟨ty m, pi m, 0, 0, 0, 0, 0⟩ } := by
        unfold classify_step
        simp only [ht]
      rw [hs]
      refine ⟨_, rfl, ?_, ?_, ?_, ?_, h6, by simp [h7], fun j hj => ?_⟩
      · simp only [h2, kept_before_succ, ht]
        simp
      · simp only [h3]
        rw [List.range_succ, List.filter_append, List.map_append]
        simp [ht]
      · simp only [h4]
        rw [List.range_succ, List.filter_append, List.map_append]
        simp [ht]
      · simp only [h5]
        rw [List.range_succ, List.filter_append, List.map_append, List.prod_append]
        simp [ht, Nat.mul_assoc]
      · simp only
        exact hfin _ j hj (by simp [ht])

/-- A test that holds at one position below `r` only selects that position. -/
theorem filter_range_single (r m0 : Nat) (hm0 : m0 < r) (p : Nat → Bool) (hp : p m0 = true)
    (hothers : ∀ m, m < r → m ≠ m0 → p m = false) : (List.range r).filter p = [m0] := by
  rw [range_split r m0 hm0, List.filter_append, List.filter_cons, if_pos hp]
  have h1 : (List.range m0).filter p = [] := by
    rw [List.filter_eq_nil_iff]
    intro k hk
    have := List.mem_range.mp hk
    rw [hothers k (by omega) (by omega)]
    simp
  have h2 : (List.range' (m0 + 1) (r - m0 - 1)).filter p = [] := by
    rw [List.filter_eq_nil_iff]
    intro k hk
    have := List.mem_range'.mp hk
    rw [hothers k (by omega) (by omega)]
    simp
  rw [h1, h2]
  rfl

/-- A test that fails at every position below `r` selects nothing. -/
theorem filter_range_none (r : Nat) (p : Nat → Bool) (h : ∀ m, m < r → p m = false) :
    (List.range r).filter p = [] := by
  rw [List.filter_eq_nil_iff]
  intro k hk
  rw [h k (List.mem_range.mp hk)]
  simp

/-- A test that holds at every position below `r` selects them all. -/
theorem filter_range_all (r : Nat) (p : Nat → Bool) (h : ∀ m, m < r → p m = true) :
    (List.range r).filter p = List.range r := by
  rw [List.filter_eq_self]
  intro k hk
  exact h k (List.mem_range.mp hk)

/-- The entries of kept sizes are sizes of the old tensor. -/
theorem kept_sizes_pos (t : tensor_grid) (ty : Nat → spec_type) (pi : Nat → Nat) (n : Nat)
    (hpos : ∀ m, m < n → 0 < t.size.getD (pi m) 0) :
    ∀ i, i < (kept_sizes t ty pi n).length → 0 < (kept_sizes t ty pi n).getD i 0 := by
  intro i hi
  rw [List.getD_eq_getElem _ _ hi]
  have hmem := List.getElem_mem hi
  unfold kept_sizes at hmem
  obtain ⟨k, hk, hkeq⟩ := List.mem_map.mp hmem
  have h := hpos k (List.mem_range.mp (List.mem_filter.mp hk).1)
  rw [hkeq] at h
  exact h

/-- The number of kept sizes is the count of kept entries. -/
theorem kept_sizes_length (t : tensor_grid) (ty : Nat → spec_type) (pi : Nat → Nat) (n : Nat) :
    (kept_sizes t ty pi n).length = kept_before ty n := by
  simp [kept_sizes, kept_before]

/-- What `rearrange_and_copy` returns for a spec list that keeps or reverses every axis
but at most one, which it sums: `pi` lists the axes in the order of the entries, `rho` is
its inverse. -/
theorem rearrange_axis_spec (ext : externals) (t : tensor_grid) (ty : Nat → spec_type)
    (pi rho : Nat → Nat)
    (hpos : ∀ k, k < t.rk → 0 < t.size.getD k 0)
    (hpi : ∀ m, m < t.rk → pi m < t.rk ∧ rho (pi m) = m)
    (hrho : ∀ j, j < t.rk → rho j < t.rk ∧ pi (rho j) = j)
    (hty : ∀ m, m < t.rk → ty m = .index ∨ ty m = .reverse ∨ ty m = .sum)
    (hone : (∀ m, m < t.rk → ty m ≠ .sum) ∨
      ∃ m0, m0 < t.rk ∧ ty m0 = .sum ∧ ∀ m, m < t.rk → m ≠ m0 → ty m ≠ .sum)
    (hrank : kept_before ty t.rk ≠ 0) :
    rearrange_and_copy ext t (axis_spec ty pi t.rk) true = .ok
      { rk := kept_before ty t.rk, size := kept_sizes t ty pi t.rk,
        data := (List.range (kept_sizes t ty pi t.rk).prod).map (fun p =>
          ∑ jj in Finset.range (sum_extent t ty pi t.rk),
            get t (axis_cell t ty rho (unpack_index (kept_sizes t ty pi t.rk) p) jj)),
        grid := [], grid_set := false, itype := itp_linear } := by
  obtain ⟨st, h1, h2, h3, h4, h5, h6, h7, h8⟩ := classify_axis_spec ext t true ty pi rho
    t.rk t.rk (rearr_init t.rk) (by simp [rearr_init]) hpi (fun j hj _ => (hrho j hj).2) hty
    t.rk (le_refl _)
  have hentry : ∀ j, j < t.rk → st.spec_old.getD j index_spec_empty =
      ⟨ty (rho j), if ty (rho j) = .sum then j else kept_before ty (rho j),
        0, 0, 0, 0, 0⟩ := by
    intro j hj
    rw [h8 j hj, if_pos (hrho j hj).1]
    simp [rearr_init]
  have hrk : st.rank_new = kept_before ty t.rk := by
    rw [h2]
    simp [rearr_init]
  have hsz : st.size_new = kept_sizes t ty pi t.rk := by
    rw [h3]
    simp [rearr_init, kept_sizes]
  have hnl : st.n_sum_loop = sum_extent t ty pi t.rk := by
    rw [h5]
    simp [rearr_init, sum_extent]
  have hint : st.n_interps = 0 := by
    rw [h6]
    rfl
  have htypes : ∀ j, j < t.rk →
      (st.spec_old.getD j index_spec_empty).type = .index ∨
      (st.spec_old.getD j index_spec_empty).type = .reverse ∨
      (st.spec_old.getD j index_spec_empty).type = .sum ∨
      (st.spec_old.getD j index_spec_empty).type = .trace := by
    intro j hj
    rw [hentry j hj]
    rcases hty (rho j) (hrho j hj).1 with h | h | h
    · exact Or.inl h
    · exact Or.inr (Or.inl h)
    · exact Or.inr (Or.inr (Or.inl h))
  have hcheck : rearrange_check ext t (axis_spec ty pi t.rk) true = .ok st := by
    apply rearrange_check_ok ext t _ st h1 (by rw [hrk]; exact hrank)
    intro j hj
    rcases htypes j hj with h | h | h | h <;> rw [h] <;> simp
  have hred : ∀ jj su x, jj < st.n_sum_loop → su.length = st.sum_sizes.length →
      x.length = t.rk →
      ∃ x1 c, for_loop (remap_step st.spec_old
          ((List.range st.sum_sizes.length).foldl
            (unpack_sum_step st.sum_sizes st.sum_sizes.length) (jj, su)).2)
          (List.range t.rk) (x, 0) = .ok (x1, c) ∧
        x1.length = t.rk ∧
        ((List.range st.sum_sizes.length).foldl
            (unpack_sum_step st.sum_sizes st.sum_sizes.length) (jj, su)).2.length =
          st.sum_sizes.length ∧
        ∀ j, j < t.rk → x1.getD j 0 =
          if (st.spec_old.getD j index_spec_empty).type = .index ∨
            (st.spec_old.getD j index_spec_empty).type = .reverse
          then x.getD j 0 else jj := by
    rcases hone with hno | ⟨m0, hm0, hs0, hothers⟩
    · apply reduce_none t st
      · rw [h4, filter_range_none t.rk _ (fun m hm => by simpa using hno m hm)]
        simp [rearr_init]
      · intro j hj
        rw [hentry j hj]
        rcases hty (rho j) (hrho j hj).1 with h | h | h
        · exact Or.inl h
        · exact Or.inr h
        · exact absurd h (hno _ (hrho j hj).1)
    · apply reduce_sum t st (pi m0) (hpi m0 hm0).1
      · rw [h4, filter_range_single t.rk m0 hm0 _ (by simpa using hs0)
          (fun m hm hne => by simpa using hothers m hm hne)]
        simp [rearr_init]
      · rw [hentry _ (hpi m0 hm0).1, (hpi m0 hm0).2]
        exact hs0
      · intro j hj hne
        rw [hentry j hj]
        have hrj : rho j ≠ m0 := by
          intro h
          apply hne
          rw [← h]
          exact ((hrho j hj).2).symm
        rcases hty (rho j) (hrho j hj).1 with h | h | h
        · exact Or.inl h
        · exact Or.inr h
        · exact absurd h (hothers _ (hrho j hj).1 hrj)
  rw [rearrange_of_check ext t _ st hcheck hint htypes hred (by rw [hrk]; exact hrank)
    (by rw [hsz, hrk]; exact kept_sizes_length t ty pi t.rk)
    (by
      intro i hi
      rw [hsz]
      apply kept_sizes_pos t ty pi t.rk (fun m hm => hpos _ (hpi m hm).1)
      rw [kept_sizes_length, ← hrk]
      exact hi)]
  rw [hrk, hsz, hnl]
  have hcell : ∀ u jj, old_cell t st.spec_old u jj = axis_cell t ty rho u jj := by
    intro u jj
    unfold old_cell axis_cell
    apply List.map_congr_left
    intro j hj
    have hj2 := List.mem_range.mp hj
    unfold old_ix
    rw [hentry j hj2]
    rcases hty (rho j) (hrho j hj2).1 with h | h | h <;> simp [h]
  simp only [hcell]

/-! ## Rearrangement: permutations and reversals -/

/-- Without sums before position `m` every entry before it is kept. -/
theorem kept_before_all (ty : Nat → spec_type) (m : Nat) (h : ∀ k, k < m → ty k ≠ .sum) :
    kept_before ty m = m := by
  unfold kept_before
  rw [filter_range_all m _ (fun k hk => by simpa using h k hk)]
  simp

/-- Reading a cell of a tensor whose buffer lists a function of the unpacked cell
numbers. -/
theorem get_map_cell (S : List Nat) (F : List Nat → ℚ) (t1 : tensor_grid) (hsz : t1.size = S)
    (hdata : t1.data = (List.range S.prod).map (fun i => F (unpack_index S i)))
    (u : List Nat) (hlen : u.length = S.length)
    (hlt : ∀ k, k < S.length → u.getD k 0 < S.getD k 0) : get t1 u = F u := by
  obtain ⟨h1, h2⟩ := row_major_in_range S u hlen hlt
  unfold get
  rw [hsz, hdata, List.getD_eq_getElem?_getD, List.getElem?_map,
    List.getElem?_range h1]
  simp [h2]

/-- What `rearrange_and_copy` returns for a spec list that keeps or reverses every axis:
the new axis `m` is the old axis `p m`. -/
theorem rearrange_permute (ext : externals) (t : tensor_grid) (ty : Nat → spec_type)
    (p q : Nat → Nat) (hr : t.rk ≠ 0)
    (hpos : ∀ k, k < t.rk → 0 < t.size.getD k 0)
    (hp : ∀ m, m < t.rk → p m < t.rk ∧ q (p m) = m)
    (hq : ∀ j, j < t.rk → q j < t.rk ∧ p (q j) = j)
    (hty : ∀ m, m < t.rk → ty m = .index ∨ ty m = .reverse) :
    rearrange_and_copy ext t (axis_spec ty p t.rk) true = .ok
      { rk := t.rk, size := (List.range t.rk).map (fun m => t.size.getD (p m) 0),
        data := (List.range ((List.range t.rk).map (fun m => t.size.getD (p m) 0)).prod).map
          (fun i => get t ((List.range t.rk).map (fun j =>
            if ty (q j) = .reverse then
              t.size.getD j 0 - 1 -
                (unpack_index ((List.range t.rk).map (fun m => t.size.getD (p m) 0)) i).getD
                  (q j) 0
            else (unpack_index ((List.range t.rk).map (fun m => t.size.getD (p m) 0)) i).getD
              (q j) 0))),
        grid := [], grid_set := false, itype := itp_linear } := by
  have hns : ∀ m, m < t.rk → ty m ≠ .sum := by
    intro m hm
    rcases hty m hm with h | h <;> rw [h] <;> simp
  have hkb : ∀ m, m ≤ t.rk → kept_before ty m = m :=
    fun m hm => kept_before_all ty m (fun k hk => hns k (by omega))
  rw [rearrange_axis_spec ext t ty p q hpos hp hq
    (fun m hm => by rcases hty m hm with h | h <;> simp [h]) (Or.inl hns)
    (by rw [hkb t.rk (le_refl _)]; exact hr)]
  have hks : kept_sizes t ty p t.rk = (List.range t.rk).map (fun m => t.size.getD (p m) 0) := by
    unfold kept_sizes
    rw [filter_range_all t.rk _ (fun k hk => by simpa using hns k hk)]
  have hse : sum_extent t ty p t.rk = 1 := by
    unfold sum_extent
    rw [filter_range_none t.rk _ (fun k hk => by simpa using hns k hk)]
    rfl
  rw [hkb t.rk (le_refl _), hks, hse]
  simp only [Finset.sum_range_one]
  have hcell : ∀ u, axis_cell t ty q u 0 = (List.range t.rk).map (fun j =>
      if ty (q j) = .reverse then t.size.getD j 0 - 1 - u.getD (q j) 0
      else u.getD (q j) 0) := by
    intro u
    unfold axis_cell
    apply List.map_congr_left
    intro j hj
    have hj2 := List.mem_range.mp hj
    rw [hkb (q j) (by have := (hq j hj2).1; omega)]
    rcases hty (q j) (hq j hj2).1 with h | h <;> simp [h]
  simp only [hcell]

/-- The same in terms of cells: the result has the sizes of the old axes in the order of
the list, one value per cell, and its cell `u` holds the old cell whose index on axis `j`
is the index of `u` on the new axis `q j`, counted from the end when the entry
reverses. -/
theorem rearrange_permute_get (ext : externals) (t : tensor_grid) (ty : Nat → spec_type)
    (p q : Nat → Nat) (hr : t.rk ≠ 0)
    (hpos : ∀ k, k < t.rk → 0 < t.size.getD k 0)
    (hp : ∀ m, m < t.rk → p m < t.rk ∧ q (p m) = m)
    (hq : ∀ j, j < t.rk → q j < t.rk ∧ p (q j) = j)
    (hty : ∀ m, m < t.rk → ty m = .index ∨ ty m = .reverse) :
    ∃ t1, rearrange_and_copy ext t (axis_spec ty p t.rk) true = .ok t1 ∧
      t1.rk = t.rk ∧ t1.size = (List.range t.rk).map (fun m => t.size.getD (p m) 0) ∧
      t1.data.length = t1.size.prod ∧
      ∀ u : List Nat, u.length = t.rk → (∀ k, k < t.rk → u.getD k 0 < t.size.getD (p k) 0) →
        get t1 u = get t ((List.range t.rk).map (fun j =>
          if ty (q j) = .reverse then t.size.getD j 0 - 1 - u.getD (q j) 0
          else u.getD (q j) 0)) := by
  refine ⟨_, rearrange_permute ext t ty p q hr hpos hp hq hty, rfl, rfl, by simp,
    fun u hu hlt => ?_⟩
  exact get_map_cell ((List.range t.rk).map (fun m => t.size.getD (p m) 0))
    (fun u => get t ((List.range t.rk).map (fun j =>
      if ty (q j) = .reverse then t.size.getD j 0 - 1 - u.getD (q j) 0
      else u.getD (q j) 0))) _ rfl rfl u (by simp [hu])
    (fun k hk => by
      have hk2 : k < t.rk := by simpa using hk
      rw [getD_map_range _ _ _ hk2]
      exact hlt k hk2)

/-- A buffer with one value per cell is determined by the values of the cells. -/
theorem data_eq_of_get (t1 t2 : tensor_grid) (hsz : t1.size = t2.size)
    (h1 : t1.data.length = t1.size.prod) (h2 : t2.data.length = t2.size.prod)
    (h : ∀ i, i < t2.size.prod →
      get t1 (unpack_index t2.size i) = get t2 (unpack_index t2.size i)) :
    t1.data = t2.data := by
  apply list_ext_getD_rat
  · rw [h1, h2, hsz]
  · intro i hi
    rw [h1, hsz] at hi
    have := h i hi
    unfold get at this
    rw [hsz, row_major_unpack_index t2.size i hi] at this
    exact this

/-- C15 (amended): for every tensor of rank at least 1 and every permutation `p` of its
axes with inverse `q`, `rearrange_and_copy` with the spec list `[index(p 0), ...,
index(p (rank-1))]` followed by `rearrange_and_copy` of the result with the spec list
`[index(q 0), ..., index(q (rank-1))]` gives a tensor with the rank, the sizes and the
values of the original. -/
theorem rearrange_index_round_trip (ext : externals) (t : tensor_grid) (p q : Nat → Nat)
    (hv : valid t) (hr : t.rk ≠ 0)
    (hp : ∀ m, m < t.rk → p m < t.rk ∧ q (p m) = m)
    (hq : ∀ j, j < t.rk → q j < t.rk ∧ p (q j) = j) :
    ∃ t1 t2,
      rearrange_and_copy ext t ((List.range t.rk).map (fun m => ix_index (p m))) true =
        .ok t1 ∧
      rearrange_and_copy ext t1 ((List.range t1.rk).map (fun j => ix_index (q j))) true =
        .ok t2 ∧
      t2.rk = t.rk ∧ t2.size = t.size ∧ t2.data = t.data := by
  obtain ⟨hlen, hpos, hdata⟩ := hv
  obtain ⟨t1, a1, a2, a3, a4, a5⟩ := rearrange_permute_get ext t (fun _ => .index) p q hr
    hpos hp hq (fun _ _ => Or.inl rfl)
  have hS1 : ∀ k, k < t.rk → t1.size.getD k 0 = t.size.getD (p k) 0 := by
    intro k hk
    rw [a3]
    exact getD_map_range _ _ _ hk
  obtain ⟨t2, b1, b2, b3, b4, b5⟩ := rearrange_permute_get ext t1 (fun _ => .index) q p
    (by rw [a2]; exact hr)
    (fun k hk => by
      rw [a2] at hk
      rw [hS1 k hk]
      exact hpos _ (hp k hk).1)
    (by rw [a2]; exact hq) (by rw [a2]; exact hp) (fun _ _ => Or.inl rfl)
  rw [a2] at b2 b3 b5
  have hS2 : t2.size = t.size := by
    rw [b3]
    apply list_ext_getD
    · simp [hlen]
    · intro k hk
      have hk2 : k < t.rk := by simpa using hk
      rw [getD_map_range _ _ _ hk2, hS1 _ (hq k hk2).1, (hq k hk2).2]
  refine ⟨t1, t2, a1, b1, b2, hS2, ?_⟩
  apply data_eq_of_get t2 t hS2 b4 hdata
  intro i hi
  have hu := unpack_index_lt t.size i hi
  have hul := unpack_index_length t.size i
  rw [b5 _ (by rw [hul, hlen]) (fun k hk => by
    rw [hS1 _ (hq k hk).1, (hq k hk).2]
    exact hu k (by omega))]
  simp only [if_neg (show ¬ spec_type.index = .reverse by simp)]
  rw [a5 _ (by simp) (fun k hk => by
    rw [getD_map_range _ _ _ hk]
    exact hu _ (by rw [hlen]; exact (hp k hk).1))]
  simp only [if_neg (show ¬ spec_type.index = .reverse by simp)]
  have hback : (List.range t.rk).map (fun j =>
      ((List.range t.rk).map (fun j => (unpack_index t.size i).getD (p j) 0)).getD (q j) 0) =
      unpack_index t.size i := by
    apply list_ext_getD
    · simp [hul, hlen]
    · intro k hk
      have hk2 : k < t.rk := by simpa using hk
      rw [getD_map_range _ _ _ hk2, getD_map_range _ _ _ (hq k hk2).1, (hq k hk2).2]
  rw [hback]

/-- Witness for C15 (amended): the `(3,2)` sample with the transposition of its two
axes. -/
theorem rearrange_index_round_trip_witness :
    ∃ t1 t2,
      rearrange_and_copy sample_ext sample32
        ((List.range sample32.rk).map (fun m => ix_index (1 - m))) true = .ok t1 ∧
      rearrange_and_copy sample_ext t1
        ((List.range t1.rk).map (fun j => ix_index (1 - j))) true = .ok t2 ∧
      t2.rk = sample32.rk ∧ t2.size = sample32.size ∧ t2.data = sample32.data :=
  rearrange_index_round_trip sample_ext sample32 (fun m => 1 - m) (fun j => 1 - j)
    (by decide) (by decide) (by decide) (by decide)

/-- C15 (counterexample): the tensor of rank 0 has no axis, the only permutation gives
the empty spec list, and `rearrange_and_copy` raises invalid-argument at its test of the
new rank instead of returning a tensor. -/
theorem rearrange_rank0_counterexample :
    rearrange_and_copy sample_ext tensor_grid_default
      ((List.range tensor_grid_default.rk).map (fun m => ix_index m)) true =
      .error .exc_einval := by
  simp [rearrange_and_copy, rearrange_check, classify_loop, rearr_init, tensor_grid_default,
    tensor_default, exit_at, exit_result]

/-- The spec list that reverses axis `a` and keeps the others in place. -/
theorem reverse_spec_eq (a r : Nat) :
    (List.range r).map (fun k => if k = a then ix_reverse k else ix_index k) =
      axis_spec (fun k => if k = a then .reverse else .index) (fun k => k) r := by
  unfold axis_spec
  apply List.map_congr_left
  intro k _
  by_cases h : k = a
  · simp [h, ix_reverse]
  · simp [h, ix_index]

/-- The cell read for the cell `u` when axis `a` is reversed and the others are kept in
place: `u` with its index on axis `a` counted from the end. -/
theorem reverse_cell_eq (size u : List Nat) (a r : Nat) (hu : u.length = r) :
    (List.range r).map (fun j =>
      if (if j = a then spec_type.reverse else spec_type.index) = .reverse then
        size.getD j 0 - 1 - u.getD j 0
      else u.getD j 0) = u.set a (size.getD a 0 - 1 - u.getD a 0) := by
  apply list_ext_getD
  · simp [hu]
  · intro k hk
    have hk2 : k < r := by simpa using hk
    rw [getD_map_range _ _ _ hk2, getD_set]
    by_cases h : k = a
    · rw [if_pos (by simp [h]), if_pos ⟨h.symm, by omega⟩, h]
    · rw [if_neg (by simp [h]), if_neg (fun e => h e.1.symm)]

/-- C16: for every tensor and every axis `a`, `rearrange_and_copy` with the spec list that
has `reverse(a)` at position `a` and `index(k)` at every other position `k` gives a
tensor of the same sizes whose cell `u` holds the old cell with the index
`size[a]-1-u[a]` on axis `a`; applied to that result once more it gives a tensor with
the rank, the sizes and the values of the original. -/
theorem rearrange_reverse_twice (ext : externals) (t : tensor_grid) (a : Nat)
    (hv : valid t) (ha : a < t.rk) :
    ∃ t1 t2,
      rearrange_and_copy ext t
        ((List.range t.rk).map (fun k => if k = a then ix_reverse k else ix_index k)) true =
        .ok t1 ∧
      t1.rk = t.rk ∧ t1.size = t.size ∧
      (∀ u : List Nat, u.length = t.rk → (∀ k, k < t.rk → u.getD k 0 < t.size.getD k 0) →
        get t1 u = get t (u.set a (t.size.getD a 0 - 1 - u.getD a 0))) ∧
      rearrange_and_copy ext t1
        ((List.range t1.rk).map (fun k => if k = a then ix_reverse k else ix_index k)) true =
        .ok t2 ∧
      t2.rk = t.rk ∧ t2.size = t.size ∧ t2.data = t.data := by
  obtain ⟨hlen, hpos, hdata⟩ := hv
  have hid : ∀ (r : Nat) (m : Nat), m < r → (fun k : Nat => k) m < r ∧
      (fun k : Nat => k) ((fun k : Nat => k) m) = m := fun _ _ hm => ⟨hm, rfl⟩
  have htyp : ∀ (r : Nat) (m : Nat), m < r →
      (fun k => if k = a then spec_type.reverse else spec_type.index) m = .index ∨
      (fun k => if k = a then spec_type.reverse else spec_type.index) m = .reverse := by
    intro _ m _
    by_cases h : m = a
    · exact Or.inr (by simp [h])
    · exact Or.inl (by simp [h])
  obtain ⟨t1, a1, a2, a3, a4, a5⟩ := rearrange_permute_get ext t
    (fun k => if k = a then .reverse else .index) (fun k => k) (fun k => k) (by omega)
    hpos (hid t.rk) (hid t.rk) (htyp t.rk)
  have hS1 : t1.size = t.size := by
    rw [a3]
    exact map_getD_range t.size t.rk hlen
  obtain ⟨t2, b1, b2, b3, b4, b5⟩ := rearrange_permute_get ext t1
    (fun k => if k = a then .reverse else .index) (fun k => k) (fun k => k)
    (by rw [a2]; omega)
    (fun k hk => by
      rw [a2] at hk
      rw [hS1]
      exact hpos k hk)
    (hid t1.rk) (hid t1.rk) (htyp t1.rk)
  rw [a2] at b2 b3 b5
  have hS2 : t2.size = t.size := by
    rw [b3, hS1]
    exact map_getD_range t.size t.rk hlen
  have hget1 : ∀ u : List Nat, u.length = t.rk →
      (∀ k, k < t.rk → u.getD k 0 < t.size.getD k 0) →
      get t1 u = get t (u.set a (t.size.getD a 0 - 1 - u.getD a 0)) := by
    intro u hu hlt
    rw [a5 u hu hlt, reverse_cell_eq t.size u a t.rk hu]
  refine ⟨t1, t2, ?_, a2, hS1, hget1, ?_, b2, hS2, ?_⟩
  · rw [reverse_spec_eq]
    exact a1
  · rw [reverse_spec_eq]
    exact b1
  · apply data_eq_of_get t2 t hS2 b4 hdata
    intro i hi
    have hu := unpack_index_lt t.size i hi
    have hul := unpack_index_length t.size i
    rw [b5 _ (by rw [hul, hlen]) (fun k hk => by
      rw [hS1]
      exact hu k (by omega))]
    rw [reverse_cell_eq t1.size _ a t.rk (by rw [hul, hlen]), hS1]
    rw [hget1 _ (by simp [hul, hlen]) (fun k hk => by
      rw [getD_set]
      by_cases h : a = k ∧ k < (unpack_index t.size i).length
      · rw [if_pos h, ← h.1]
        have := hu a (by omega)
        omega
      · rw [if_neg h]
        exact hu k (by omega))]
    have hback : ((unpack_index t.size i).set a
        (t.size.getD a 0 - 1 - (unpack_index t.size i).getD a 0)).set a
        (t.size.getD a 0 - 1 - ((unpack_index t.size i).set a
          (t.size.getD a 0 - 1 - (unpack_index t.size i).getD a 0)).getD a 0) =
        unpack_index t.size i := by
      apply list_ext_getD
      · simp
      · intro k hk
        have hk2 : k < (unpack_index t.size i).length := by simpa using hk
        rw [getD_set, getD_set, List.length_set]
        by_cases h : a = k
        · rw [if_pos ⟨h, hk2⟩, if_pos ⟨rfl, by omega⟩, ← h]
          have := hu a (by omega)
          omega
        · rw [if_neg (fun e => h e.1), getD_set, if_neg (fun e => h e.1)]
    rw [hback]

/-- Witness for C16: the `(3,2)` sample with axis 0 reversed. -/
theorem rearrange_reverse_twice_witness :
    ∃ t1 t2,
      rearrange_and_copy sample_ext sample32
        ((List.range sample32.rk).map (fun k => if k = 0 then ix_reverse k else ix_index k))
        true = .ok t1 ∧
      t1.rk = sample32.rk ∧ t1.size = sample32.size ∧
      (∀ u : List Nat, u.length = sample32.rk →
        (∀ k, k < sample32.rk → u.getD k 0 < sample32.size.getD k 0) →
        get t1 u = get sample32 (u.set 0 (sample32.size.getD 0 0 - 1 - u.getD 0 0))) ∧
      rearrange_and_copy sample_ext t1
        ((List.range t1.rk).map (fun k => if k = 0 then ix_reverse k else ix_index k))
        true = .ok t2 ∧
      t2.rk = sample32.rk ∧ t2.size = sample32.size ∧ t2.data = sample32.data :=
  rearrange_reverse_twice sample_ext sample32 0 (by decide) (by decide)

/-! ## Rearrangement: one summed axis -/

/-- With one sum, at position `m0`, the entries before position `m` are all kept except
that one. -/
theorem kept_before_one (ty : Nat → spec_type) (m0 : Nat) (hs0 : ty m0 = .sum)
    (hothers : ∀ m, m ≠ m0 → ty m ≠ .sum) (m : Nat) :
    kept_before ty m = if m ≤ m0 then m else m - 1 := by
  induction m with
  | zero => simp [kept_before]
  | succ m ih =>
    rw [kept_before_succ, ih]
    by_cases h : m = m0
    · rw [h, hs0]
      simp
    · rw [if_neg (hothers m h)]
      by_cases h2 : m ≤ m0
      · rw [if_pos h2, if_pos (by omega)]
      · rw [if_neg h2, if_neg (by omega)]
        omega

/-- The positions below `r` without the position `m0`. -/
theorem filter_range_but_one (r m0 : Nat) (hm0 : m0 < r) (p : Nat → Bool) (hp : p m0 = false)
    (hothers : ∀ m, m < r → m ≠ m0 → p m = true) :
    (List.range r).filter p =
      (List.range (r - 1)).map (fun k => if k < m0 then k else k + 1) := by
  rw [range_split r m0 hm0, List.filter_append, List.filter_cons, if_neg (by simp [hp])]
  have h1 : (List.range m0).filter p = List.range m0 := by
    rw [List.filter_eq_self]
    intro k hk
    have := List.mem_range.mp hk
    exact hothers k (by omega) (by omega)
  have h2 : (List.range' (m0 + 1) (r - m0 - 1)).filter p = List.range' (m0 + 1) (r - m0 - 1) := by
    rw [List.filter_eq_self]
    intro k hk
    have := List.mem_range'.mp hk
    exact hothers k (by omega) (by omega)
  rw [h1, h2]
  apply List.ext_getElem
  · simp
    omega
  · intro k hk1 hk2
    simp only [List.length_map, List.length_range] at hk2
    rw [List.getElem_map, List.getElem_range]
    by_cases h : k < m0
    · rw [if_pos h, List.getElem_append_left (by simpa using h)]
      simp
    · rw [if_neg h, List.getElem_append_right (by simpa using h)]
      simp
      omega

/-- The sum of a list of values is the sum of its entries over the positions. -/
theorem list_sum_eq_finset (l : List ℚ) :
    l.sum = ∑ i in Finset.range l.length, l.getD i 0 := by
  induction l using List.reverseRecOn with
  | nil => simp
  | append_singleton l x ih =>
    rw [List.sum_append, List.length_append, List.length_singleton, Finset.sum_range_succ, ih]
    congr 1
    · apply Finset.sum_congr rfl
      intro i hi
      have := Finset.mem_range.mp hi
      rw [List.getD_append _ _ _ _ this]
    · simp [List.getD_eq_getElem?_getD]

/-- The sum of the values of a function over the cell numbers, as a list. -/
theorem map_sum_eq_finset (f : Nat → ℚ) (n : Nat) :
    ((List.range n).map f).sum = ∑ i in Finset.range n, f i := by
  induction n with
  | zero => simp
  | succ n ih =>
    rw [List.range_succ, List.map_append, List.sum_append, ih, Finset.sum_range_succ]
    simp

/-- C17: for every tensor of rank at least 2 and every spec list that sums one axis and
keeps the others (the entry at position `m0` is `sum(p m0)`, the entry at any other
position `m` is `index(p m)`, `p` a permutation of the axes with inverse `q`),
`rearrange_and_copy` gives a tensor of rank `rank-1` with the sizes of the kept axes,
whose cell `u` is the sum over `jj < size[p m0]` of the old cells with index `jj` on the
summed axis and the indices of `u` on the kept axes; the sum of its values is the sum of
the values of the original. -/
theorem rearrange_sum_conserves (ext : externals) (t : tensor_grid) (p q : Nat → Nat)
    (m0 : Nat) (hv : valid t) (hr : 2 ≤ t.rk)
    (hp : ∀ m, m < t.rk → p m < t.rk ∧ q (p m) = m)
    (hq : ∀ j, j < t.rk → q j < t.rk ∧ p (q j) = j) (hm0 : m0 < t.rk) :
    ∃ t1, rearrange_and_copy ext t
        ((List.range t.rk).map (fun m => if m = m0 then ix_sum (p m) else ix_index (p m)))
        true = .ok t1 ∧
      t1.rk = t.rk - 1 ∧
      t1.size = (List.range (t.rk - 1)).map
        (fun k => t.size.getD (p (if k < m0 then k else k + 1)) 0) ∧
      (∀ u : List Nat, u.length = t.rk - 1 →
        (∀ k, k < t.rk - 1 → u.getD k 0 < t.size.getD (p (if k < m0 then k else k + 1)) 0) →
        get t1 u = ∑ jj in Finset.range (t.size.getD (p m0) 0),
          get t ((List.range t.rk).map (fun j =>
            if q j = m0 then jj else u.getD (if q j ≤ m0 then q j else q j - 1) 0))) ∧
      t1.data.sum = t.data.sum := by
  obtain ⟨hlen, hpos, hdata⟩ := hv
  have hspec : (List.range t.rk).map
      (fun m => if m = m0 then ix_sum (p m) else ix_index (p m)) =
      axis_spec (fun m => if m = m0 then .sum else .index) p t.rk := by
    unfold axis_spec
    apply List.map_congr_left
    intro k _
    by_cases h : k = m0
    · simp [h, ix_sum]
    · simp [h, ix_index]
  have hs0 : (fun m => if m = m0 then spec_type.sum else spec_type.index) m0 = .sum := by
    simp
  have hoth : ∀ m, m ≠ m0 →
      (fun m => if m = m0 then spec_type.sum else spec_type.index) m ≠ .sum := by
    intro m hm
    simp [hm]
  have hkb := kept_before_one _ m0 hs0 hoth
  have hR := rearrange_axis_spec ext t (fun m => if m = m0 then .sum else .index) p q hpos
    hp hq (fun m _ => by
      by_cases h : m = m0
      · exact Or.inr (Or.inr (by simp [h]))
      · exact Or.inl (by simp [h]))
    (Or.inr ⟨m0, hm0, hs0, fun m _ h => hoth m h⟩)
    (by rw [hkb, if_neg (by omega)]; omega)
  have hS : kept_sizes t (fun m => if m = m0 then .sum else .index) p t.rk =
      (List.range (t.rk - 1)).map
        (fun k => t.size.getD (p (if k < m0 then k else k + 1)) 0) := by
    unfold kept_sizes
    rw [filter_range_but_one t.rk m0 hm0 _ (by simp)
      (fun m _ h => by simpa using hoth m h), List.map_map]
    rfl
  have hn : sum_extent t (fun m => if m = m0 then .sum else .index) p t.rk =
      t.size.getD (p m0) 0 := by
    unfold sum_extent
    rw [filter_range_single t.rk m0 hm0 _ (by simp) (fun m _ h => by simpa using hoth m h)]
    simp
  have hcell : ∀ u jj, axis_cell t (fun m => if m = m0 then .sum else .index) q u jj =
      (List.range t.rk).map (fun j =>
        if q j = m0 then jj else u.getD (if q j ≤ m0 then q j else q j - 1) 0) := by
    intro u jj
    unfold axis_cell
    apply List.map_congr_left
    intro j _
    rw [hkb]
    by_cases h : q j = m0
    · simp [h]
    · simp [h]
  rw [hkb, if_neg (by omega), hS, hn] at hR
  simp only [hcell] at hR
  rw [← hspec] at hR
  refine ⟨_, hR, rfl, rfl, fun u hu hlt => ?_, ?_⟩
  · exact get_map_cell _ (fun u => ∑ jj in Finset.range (t.size.getD (p m0) 0),
      get t ((List.range t.rk).map (fun j =>
        if q j = m0 then jj else u.getD (if q j ≤ m0 then q j else q j - 1) 0)))
      _ rfl rfl u (by simp [hu])
      (fun k hk => by
        have hk2 : k < t.rk - 1 := by simpa using hk
        rw [getD_map_range _ _ _ hk2]
        exact hlt k hk2)
  · simp only
    rw [map_sum_eq_finset, list_sum_eq_finset, hdata, ← Finset.sum_product']
    have hSlen : ((List.range (t.rk - 1)).map
        (fun k => t.size.getD (p (if k < m0 then k else k + 1)) 0)).length = t.rk - 1 := by
      simp
    have hSget : ∀ k, k < t.rk - 1 → ((List.range (t.rk - 1)).map
        (fun k => t.size.getD (p (if k < m0 then k else k + 1)) 0)).getD k 0 =
        t.size.getD (p (if k < m0 then k else k + 1)) 0 :=
      fun k hk => getD_map_range _ _ _ hk
    have hkinv : ∀ k, k < t.rk - 1 → (if k < m0 then k else k + 1) < t.rk ∧
        (if k < m0 then k else k + 1) ≠ m0 := by
      intro k hk
      by_cases h : k < m0
      · rw [if_pos h]; omega
      · rw [if_neg h]; omega
    -- the old cell of an in-range new cell is in range
    have hF1 : ∀ (u : List Nat) (jj : Nat), u.length = t.rk - 1 →
        (∀ k, k < t.rk - 1 → u.getD k 0 < t.size.getD (p (if k < m0 then k else k + 1)) 0) →
        jj < t.size.getD (p m0) 0 →
        ∀ j, j < t.size.length → ((List.range t.rk).map (fun j =>
          if q j = m0 then jj else u.getD (if q j ≤ m0 then q j else q j - 1) 0)).getD j 0 <
          t.size.getD j 0 := by
      intro u jj hu hlt hjj j hj
      rw [hlen] at hj
      rw [getD_map_range _ _ _ hj]
      by_cases h : q j = m0
      · rw [if_pos h]
        rw [← h, (hq j hj).2] at hjj
        exact hjj
      · rw [if_neg h]
        have hqj := (hq j hj).1
        have := hlt (if q j ≤ m0 then q j else q j - 1) (by
          by_cases h2 : q j ≤ m0
          · rw [if_pos h2]; omega
          · rw [if_neg h2]; omega)
        have hk : (if (if q j ≤ m0 then q j else q j - 1) < m0
            then (if q j ≤ m0 then q j else q j - 1)
            else (if q j ≤ m0 then q j else q j - 1) + 1) = q j := by
          by_cases h2 : q j ≤ m0
          · rw [if_pos h2, if_pos (by omega)]
          · rw [if_neg h2, if_neg (by omega)]
            omega
        rw [hk, (hq j hj).2] at this
        exact this
    -- the new cell of an in-range old cell is in range
    have hF2 : ∀ (v : List Nat), (∀ j, j < t.rk → v.getD j 0 < t.size.getD j 0) →
        ∀ k, k < t.rk - 1 → ((List.range (t.rk - 1)).map (fun k =>
          v.getD (p (if k < m0 then k else k + 1)) 0)).getD k 0 <
          t.size.getD (p (if k < m0 then k else k + 1)) 0 := by
      intro v hv k hk
      rw [getD_map_range _ _ _ hk]
      exact hv _ (hp _ (hkinv k hk).1).1
    have hF3 : ∀ (u : List Nat) (jj : Nat), u.length = t.rk - 1 →
        (List.range (t.rk - 1)).map (fun k => ((List.range t.rk).map (fun j =>
          if q j = m0 then jj else u.getD (if q j ≤ m0 then q j else q j - 1) 0)).getD
            (p (if k < m0 then k else k + 1)) 0) = u := by
      intro u jj hu
      apply list_ext_getD
      · simp [hu]
      · intro k hk
        have hk2 : k < t.rk - 1 := by simpa using hk
        obtain ⟨c1, c2⟩ := hkinv k hk2
        rw [getD_map_range _ _ _ hk2, getD_map_range _ _ _ (hp _ c1).1, (hp _ c1).2,
          if_neg c2]
        by_cases h : k < m0
        · rw [if_pos h, if_pos (by omega)]
        · rw [if_neg h, if_neg (by omega)]
          rfl
    have hF4 : ∀ (v : List Nat), v.length = t.rk →
        (List.range t.rk).map (fun j =>
          if q j = m0 then v.getD (p m0) 0
          else ((List.range (t.rk - 1)).map (fun k =>
            v.getD (p (if k < m0 then k else k + 1)) 0)).getD
              (if q j ≤ m0 then q j else q j - 1) 0) = v := by
      intro v hv
      apply list_ext_getD
      · simp [hv]
      · intro j hj
        have hj2 : j < t.rk := by simpa using hj
        have hqj := hq j hj2
        rw [getD_map_range _ _ _ hj2]
        by_cases h : q j = m0
        · rw [if_pos h, ← h, hqj.2]
        · rw [if_neg h]
          by_cases h2 : q j ≤ m0
          · rw [if_pos h2, getD_map_range _ _ _ (by omega), if_pos (by omega), hqj.2]
          · rw [if_neg h2, getD_map_range _ _ _ (by omega), if_neg (by omega)]
            have : q j - 1 + 1 = q j := by omega
            rw [this, hqj.2]
    apply Finset.sum_nbij'
      (fun x : Nat × Nat => row_major t.size ((List.range t.rk).map (fun j =>
        if q j = m0 then x.2
        else (unpack_index ((List.range (t.rk - 1)).map
          (fun k => t.size.getD (p (if k < m0 then k else k + 1)) 0)) x.1).getD
            (if q j ≤ m0 then q j else q j - 1) 0)))
      (fun y : Nat => (row_major ((List.range (t.rk - 1)).map
          (fun k => t.size.getD (p (if k < m0 then k else k + 1)) 0))
          ((List.range (t.rk - 1)).map (fun k =>
            (unpack_index t.size y).getD (p (if k < m0 then k else k + 1)) 0)),
        (unpack_index t.size y).getD (p m0) 0))
    · intro x hx
      obtain ⟨hx1, hx2⟩ := Finset.mem_product.mp hx
      have hx1 := Finset.mem_range.mp hx1
      have hx2 := Finset.mem_range.mp hx2
      rw [Finset.mem_range]
      exact (row_major_in_range t.size _ (by simp [hlen])
        (hF1 _ x.2 (by rw [unpack_index_length, hSlen])
          (fun k hk => by
            have := unpack_index_lt _ x.1 hx1 k (by rw [hSlen]; exact hk)
            rw [hSget k hk] at this
            exact this) hx2)).1
    · intro y hy
      have hy := Finset.mem_range.mp hy
      rw [Finset.mem_product, Finset.mem_range, Finset.mem_range]
      refine ⟨(row_major_in_range _ _ (by simp) (fun k hk => ?_)).1, ?_⟩
      · rw [hSlen] at hk
        rw [hSget k hk]
        exact hF2 _ (fun j hj => unpack_index_lt t.size y hy j (by omega)) k hk
      · exact unpack_index_lt t.size y hy _ (by rw [hlen]; exact (hp m0 hm0).1)
    · intro x hx
      obtain ⟨hx1, hx2⟩ := Finset.mem_product.mp hx
      have hx1 := Finset.mem_range.mp hx1
      have hx2 := Finset.mem_range.mp hx2
      have hul : (unpack_index ((List.range (t.rk - 1)).map
          (fun k => t.size.getD (p (if k < m0 then k else k + 1)) 0)) x.1).length =
          t.rk - 1 := by rw [unpack_index_length, hSlen]
      rw [(row_major_in_range t.size _ (by simp [hlen])
        (hF1 _ x.2 hul
          (fun k hk => by
            have := unpack_index_lt _ x.1 hx1 k (by rw [hSlen]; exact hk)
            rw [hSget k hk] at this
            exact this) hx2)).2]
      rw [hF3 _ x.2 hul, row_major_unpack_index _ _ hx1,
        getD_map_range _ _ _ (hp m0 hm0).1, if_pos (hp m0 hm0).2]
    · intro y hy
      have hy := Finset.mem_range.mp hy
      simp only
      rw [(row_major_in_range _ _ (by simp) (fun k hk => by
        rw [hSlen] at hk
        rw [hSget k hk]
        exact hF2 _ (fun j hj => unpack_index_lt t.size y hy j (by omega)) k hk)).2]
      rw [hF4 _ (by rw [unpack_index_length, hlen]), row_major_unpack_index _ _ hy]
    · intro x _
      rfl

/-- Witness for C17: on the `(2,2,2)` sample, zero except the cell `(1,0,1)` that holds 5,
the spec list `[index(0), sum(1), index(2)]` gives the rank-2 tensor that is zero except
the cell `(1,1)`, which holds 5. -/
theorem rearrange_sum_conserves_witness :
    (∃ t1, rearrange_and_copy sample_ext sample222
        ((List.range sample222.rk).map
          (fun m => if m = 1 then ix_sum ((fun m => m) m) else ix_index ((fun m => m) m)))
        true = .ok t1 ∧
      t1.rk = sample222.rk - 1 ∧
      t1.size = (List.range (sample222.rk - 1)).map
        (fun k => sample222.size.getD ((fun m => m) (if k < 1 then k else k + 1)) 0) ∧
      (∀ u : List Nat, u.length = sample222.rk - 1 →
        (∀ k, k < sample222.rk - 1 →
          u.getD k 0 < sample222.size.getD ((fun m => m) (if k < 1 then k else k + 1)) 0) →
        get t1 u = ∑ jj in Finset.range (sample222.size.getD ((fun m => m) 1) 0),
          get sample222 ((List.range sample222.rk).map (fun j =>
            if (fun j => j) j = 1 then jj
            else u.getD (if (fun j => j) j ≤ 1 then (fun j => j) j
              else (fun j => j) j - 1) 0))) ∧
      t1.data.sum = sample222.data.sum) ∧
    rearrange_and_copy sample_ext sample222 [ix_index 0, ix_sum 1, ix_index 2] true =
      .ok { rk := 2, size := [2, 2], data := [0, 0, 0, 5], grid := [], grid_set := false,
            itype := itp_linear } :=
  ⟨rearrange_sum_conserves sample_ext sample222 (fun m => m) (fun j => j) 1 (by decide)
      (by decide) (by decide) (by decide) (by decide),
   by
    simp [rearrange_and_copy, rearrange_check, classify_loop, classify_step, rearr_init,
      validate_loop, ix_index, ix_sum, sample222, index_spec_empty, tensor_grid_rank_dim,
      tensor_rank_dim, tensor_default, total_size, for_loop, cell_step, sum_step,
      remap_step, old_index_step, unpack_sum_step, unpack_index, write_front, set, get,
      row_major, List.range, List.range.loop, List.range', itp_linear, exit_at]⟩

/-! ## Rearrangement: one traced pair of axes -/

/-- The entries of a list taken in two runs. -/
theorem map_range_split (f : Nat → Nat) (n1 n : Nat) (h : n1 ≤ n) :
    (List.range n1).map f ++ (List.range (n - n1)).map (fun m => f (n1 + m)) =
      (List.range n).map f := by
  have hn : n = n1 + (n - n1) := by omega
  conv_rhs => rw [hn, List.range_add, List.map_append, List.map_map]
  rfl

/-- C22: for every tensor of rank at least 3, every pair of distinct axes `a`, `b`, every
list `p 0, ..., p (rank-3)` of the other axes (`q` gives the position of an axis in it)
and every position `n1` in that list, `rearrange_and_copy` with the spec list
`[index(p 0), ..., index(p (n1-1)), trace(a,b), index(p n1), ..., index(p (rank-3))]`,
the Trace entry at any place among the Index entries, gives a tensor of rank `rank-2`
with the sizes of the kept axes whose cell `u` is the sum, over `d` from 0 to
`min(size[a],size[b])-1`, of the old cells with index `d` on both `a` and `b` and the
indices of `u` on the kept axes. -/
theorem rearrange_trace (ext : externals) (t : tensor_grid) (a b : Nat) (p q : Nat → Nat)
    (n1 : Nat)
    (hv : valid t) (hr : 3 ≤ t.rk) (ha : a < t.rk) (hb : b < t.rk) (hab : a ≠ b)
    (hn : n1 ≤ t.rk - 2)
    (hp : ∀ m, m < t.rk - 2 → p m < t.rk ∧ p m ≠ a ∧ p m ≠ b ∧ q (p m) = m)
    (hq : ∀ j, j < t.rk → j ≠ a → j ≠ b → q j < t.rk - 2 ∧ p (q j) = j) :
    ∃ t1, rearrange_and_copy ext t
        ((List.range n1).map (fun m => ix_index (p m)) ++
          ix_trace a b ::
            (List.range (t.rk - 2 - n1)).map (fun m => ix_index (p (n1 + m)))) true =
        .ok t1 ∧
      t1.rk = t.rk - 2 ∧
      t1.size = (List.range (t.rk - 2)).map (fun m => t.size.getD (p m) 0) ∧
      ∀ u : List Nat, u.length = t.rk - 2 →
        (∀ k, k < t.rk - 2 → u.getD k 0 < t.size.getD (p k) 0) →
        get t1 u = ∑ d in Finset.range (min (t.size.getD a 0) (t.size.getD b 0)),
          get t ((List.range t.rk).map (fun j =>
            if j = a ∨ j = b then d else u.getD (q j) 0)) := by
  obtain ⟨hlen, hpos, hdata⟩ := hv
  have hns : ∀ k : Nat, (fun _ : Nat => spec_type.index) k ≠ .sum := by
    intro k
    simp
  have hkb : ∀ m, kept_before (fun _ => spec_type.index) m = m :=
    fun m => kept_before_all _ m (fun k _ => hns k)
  -- the entries before the Trace entry
  obtain ⟨s1, g1, g2, g3, g4, g5, g6, g7, g8⟩ := classify_axis_spec ext t true
    (fun _ => .index) p (fun j => if j = a ∨ j = b then t.rk else q j) t.rk (t.rk - 2)
    (rearr_init t.rk) (by simp [rearr_init])
    (fun m hm => by
      obtain ⟨c1, c2, c3, c4⟩ := hp m hm
      exact ⟨c1, by simp only; rw [if_neg (by tauto)]; exact c4⟩)
    (fun j hj hlt => by
      simp only at hlt ⊢
      by_cases h : j = a ∨ j = b
      · rw [if_pos h] at hlt
        omega
      · rw [if_neg h]
        exact (hq j hj (by tauto) (by tauto)).2)
    (fun _ _ => Or.inl rfl) n1 hn
  try simp only at g3
  try simp only at g4
  try simp only at g5
  try simp only at g8
  rw [hkb] at g2
  rw [filter_range_all n1 _ (fun k _ => by simp)] at g3
  rw [filter_range_none n1 _ (fun k _ => by simp)] at g4 g5
  have g2a : s1.rank_new = n1 := by
    rw [g2]
    simp [rearr_init]
  have g3a : s1.size_new = (List.range n1).map (fun m => t.size.getD (p m) 0) := by
    rw [g3]
    simp [rearr_init]
  have g4a : s1.sum_sizes = [] := by
    rw [g4]
    simp [rearr_init]
  have g5a : s1.n_sum_loop = 1 := by
    rw [g5]
    simp [rearr_init]
  have g6a : s1.n_interps = 0 := by
    rw [g6]
    simp [rearr_init]
  -- the Trace entry
  have hstep : classify_step ext t true s1 (ix_trace a b) = .ok
      { s1 with
        n_sum_loop := s1.n_sum_loop * (if t.size.getD a 0 < t.size.getD b 0 then
          t.size.getD a 0 else t.size.getD b 0)
        sum_sizes := s1.sum_sizes ++ [if t.size.getD a 0 < t.size.getD b 0 then
          t.size.getD a 0 else t.size.getD b 0]
        spec_old := (s1.spec_old.set a ⟨.trace, a, b, 0, 0, 0, 0⟩).set b
          ⟨.trace, b, a, 0, 0, 0, 0⟩ } := by
    unfold classify_step
    simp [ix_trace]
  -- the entries after the Trace entry
  obtain ⟨st, h1, h2, h3, h4, h5, h6, h7, h8⟩ := classify_axis_spec ext t true
    (fun _ => .index) (fun m => p (n1 + m))
    (fun j => if j = a ∨ j = b ∨ q j < n1 then t.rk else q j - n1) t.rk (t.rk - 2 - n1)
    { s1 with
        n_sum_loop := s1.n_sum_loop * (if t.size.getD a 0 < t.size.getD b 0 then
          t.size.getD a 0 else t.size.getD b 0)
        sum_sizes := s1.sum_sizes ++ [if t.size.getD a 0 < t.size.getD b 0 then
          t.size.getD a 0 else t.size.getD b 0]
        spec_old := (s1.spec_old.set a ⟨.trace, a, b, 0, 0, 0, 0⟩).set b
          ⟨.trace, b, a, 0, 0, 0, 0⟩ }
    (by simp [g7])
    (fun m hm => by
      obtain ⟨c1, c2, c3, c4⟩ := hp (n1 + m) (by omega)
      refine ⟨c1, ?_⟩
      simp only
      rw [c4, if_neg (by intro h; rcases h with h | h | h <;> [exact c2 h; exact c3 h; omega])]
      omega)
    (fun j hj hlt => by
      simp only at hlt ⊢
      by_cases h : j = a ∨ j = b ∨ q j < n1
      · rw [if_pos h] at hlt
        omega
      · rw [if_neg h] at hlt ⊢
        have hge : n1 + (q j - n1) = q j := by
          have : ¬ q j < n1 := fun e => h (Or.inr (Or.inr e))
          omega
        rw [hge]
        exact (hq j hj (by tauto) (by tauto)).2)
    (fun _ _ => Or.inl rfl) (t.rk - 2 - n1) (le_refl _)
  simp only at h2 h3 h4 h5 h6 h8
  rw [hkb] at h2
  rw [filter_range_all (t.rk - 2 - n1) _ (fun k _ => by simp)] at h3
  rw [filter_range_none (t.rk - 2 - n1) _ (fun k _ => by simp)] at h4 h5
  have hrk : st.rank_new = t.rk - 2 := by
    rw [h2, g2a]
    omega
  have hsz : st.size_new = (List.range (t.rk - 2)).map (fun m => t.size.getD (p m) 0) := by
    rw [h3, g3a]
    exact map_range_split (fun m => t.size.getD (p m) 0) n1 (t.rk - 2) hn
  have hnl : st.n_sum_loop = min (t.size.getD a 0) (t.size.getD b 0) := by
    rw [h5, g5a]
    simp only [List.map_nil, List.prod_nil, Nat.mul_one, Nat.one_mul]
    rw [Nat.min_def]
    by_cases h : t.size.getD a 0 < t.size.getD b 0
    · rw [if_pos h, if_pos (by omega)]
    · rw [if_neg h]
      by_cases h2 : t.size.getD a 0 ≤ t.size.getD b 0
      · rw [if_pos h2]; omega
      · rw [if_neg h2]
  have hss : st.sum_sizes.length = 1 := by
    rw [h4, g4a]
    simp
  have hint : st.n_interps = 0 := by
    rw [h6, g6a]
  have hea : st.spec_old.getD a index_spec_empty = ⟨.trace, a, b, 0, 0, 0, 0⟩ := by
    rw [h8 a ha, if_pos (Or.inl rfl), if_neg (by omega), getD_set,
      if_neg (fun e => hab e.1.symm), getD_set, if_pos ⟨rfl, by rw [g7]; exact ha⟩]
  have heb : st.spec_old.getD b index_spec_empty = ⟨.trace, b, a, 0, 0, 0, 0⟩ := by
    rw [h8 b hb, if_pos (Or.inr (Or.inl rfl)), if_neg (by omega), getD_set,
      if_pos ⟨rfl, by simp [g7]; exact hb⟩]
  have heo : ∀ j, j < t.rk → j ≠ a → j ≠ b →
      st.spec_old.getD j index_spec_empty = ⟨.index, q j, 0, 0, 0, 0, 0⟩ := by
    intro j hj hja hjb
    have hqj := (hq j hj hja hjb).1
    rw [h8 j hj]
    by_cases hlt : q j < n1
    · rw [if_pos (Or.inr (Or.inr hlt)), if_neg (by omega), getD_set,
        if_neg (fun e => hjb e.1.symm), getD_set, if_neg (fun e => hja e.1.symm),
        g8 j hj, if_neg (show ¬ (j = a ∨ j = b) by tauto), if_pos hlt, hkb]
      simp [rearr_init]
    · have hc : ¬ (j = a ∨ j = b ∨ q j < n1) := by tauto
      rw [if_neg hc, if_pos (show q j - n1 < t.rk - 2 - n1 by omega), hkb, g2a]
      have hge : n1 + (q j - n1) = q j := by omega
      simp [hge]
  have htypes : ∀ j, j < t.rk →
      (st.spec_old.getD j index_spec_empty).type = .index ∨
      (st.spec_old.getD j index_spec_empty).type = .reverse ∨
      (st.spec_old.getD j index_spec_empty).type = .sum ∨
      (st.spec_old.getD j index_spec_empty).type = .trace := by
    intro j hj
    by_cases hja : j = a
    · rw [hja, hea]
      exact Or.inr (Or.inr (Or.inr rfl))
    · by_cases hjb : j = b
      · rw [hjb, heb]
        exact Or.inr (Or.inr (Or.inr rfl))
      · rw [heo j hj hja hjb]
        exact Or.inl rfl
  have hL1 : (List.range n1).map (fun m => ix_index (p m)) =
      axis_spec (fun _ => .index) p n1 := rfl
  have hL2 : (List.range (t.rk - 2 - n1)).map (fun m => ix_index (p (n1 + m))) =
      axis_spec (fun _ => .index) (fun m => p (n1 + m)) (t.rk - 2 - n1) := rfl
  have hcheck : rearrange_check ext t
      ((List.range n1).map (fun m => ix_index (p m)) ++
        ix_trace a b ::
          (List.range (t.rk - 2 - n1)).map (fun m => ix_index (p (n1 + m)))) true =
      .ok st := by
    apply rearrange_check_ok ext t _ st _ (by rw [hrk]; omega)
    · intro j hj
      rcases htypes j hj with h | h | h | h <;> rw [h] <;> simp
    · rw [hL1, hL2, classify_loop_append, g1]
      simp only [classify_loop]
      rw [hstep]
      exact h1
  have hred : ∀ jj su x, jj < st.n_sum_loop → su.length = st.sum_sizes.length →
      x.length = t.rk →
      ∃ x1 c, for_loop (remap_step st.spec_old
          ((List.range st.sum_sizes.length).foldl
            (unpack_sum_step st.sum_sizes st.sum_sizes.length) (jj, su)).2)
          (List.range t.rk) (x, 0) = .ok (x1, c) ∧
        x1.length = t.rk ∧
        ((List.range st.sum_sizes.length).foldl
            (unpack_sum_step st.sum_sizes st.sum_sizes.length) (jj, su)).2.length =
          st.sum_sizes.length ∧
        ∀ j, j < t.rk → x1.getD j 0 =
          if (st.spec_old.getD j index_spec_empty).type = .index ∨
            (st.spec_old.getD j index_spec_empty).type = .reverse
          then x.getD j 0 else jj := by
    rcases Nat.lt_or_gt_of_ne hab with hlt | hgt
    · apply reduce_trace t st a b hlt hb hss
      · rw [hea]; exact ⟨rfl, rfl, rfl⟩
      · rw [heb]; exact ⟨rfl, rfl, rfl⟩
      · intro j hj hja hjb
        rw [heo j hj hja hjb]
        exact Or.inl rfl
    · apply reduce_trace t st b a hgt ha hss
      · rw [heb]; exact ⟨rfl, rfl, rfl⟩
      · rw [hea]; exact ⟨rfl, rfl, rfl⟩
      · intro j hj hjb hja
        rw [heo j hj hja hjb]
        exact Or.inl rfl
  have hR := rearrange_of_check ext t _ st hcheck hint htypes hred (by rw [hrk]; omega)
    (by rw [hsz, hrk]; simp)
    (fun i hi => by
      rw [hrk] at hi
      rw [hsz, getD_map_range _ _ _ hi]
      exact hpos _ (hp i hi).1)
  have hcell : ∀ u jj, old_cell t st.spec_old u jj = (List.range t.rk).map (fun j =>
      if j = a ∨ j = b then jj else u.getD (q j) 0) := by
    intro u jj
    unfold old_cell
    apply List.map_congr_left
    intro j hj
    have hj2 := List.mem_range.mp hj
    unfold old_ix
    by_cases hja : j = a
    · rw [hja, hea]
      simp
    · by_cases hjb : j = b
      · rw [hjb, heb]
        simp
      · rw [heo j hj2 hja hjb, if_neg (by tauto)]
  rw [hrk, hsz, hnl] at hR
  simp only [hcell] at hR
  refine ⟨_, hR, rfl, rfl, fun u hu hlt => ?_⟩
  exact get_map_cell _ (fun u => ∑ d in Finset.range (min (t.size.getD a 0) (t.size.getD b 0)),
      get t ((List.range t.rk).map (fun j => if j = a ∨ j = b then d else u.getD (q j) 0)))
    _ rfl rfl u (by simp [hu])
    (fun k hk => by
      have hk2 : k < t.rk - 2 := by simpa using hk
      rw [getD_map_range _ _ _ hk2]
      exact hlt k hk2)

/-- Witness for C22: on the `(2,2,2)` sample, zero except the cell `(1,0,1)` that holds 5,
the trace over the axes 0 and 2 with axis 1 kept gives the rank-1 tensor `[5, 0]`, with
the Trace entry after the Index entry and with the Trace entry first. -/
theorem rearrange_trace_witness :
    (∃ t1, rearrange_and_copy sample_ext sample222
        ((List.range 1).map (fun m => ix_index ((fun _ => 1) m)) ++
          ix_trace 0 2 :: (List.range (sample222.rk - 2 - 1)).map
            (fun m => ix_index ((fun _ => 1) (1 + m)))) true = .ok t1 ∧
      t1.rk = sample222.rk - 2 ∧
      t1.size = (List.range (sample222.rk - 2)).map
        (fun m => sample222.size.getD ((fun _ => 1) m) 0) ∧
      ∀ u : List Nat, u.length = sample222.rk - 2 →
        (∀ k, k < sample222.rk - 2 →
          u.getD k 0 < sample222.size.getD ((fun _ => 1) k) 0) →
        get t1 u = ∑ d in Finset.range
            (min (sample222.size.getD 0 0) (sample222.size.getD 2 0)),
          get sample222 ((List.range sample222.rk).map (fun j =>
            if j = 0 ∨ j = 2 then d else u.getD ((fun _ => 0) j) 0))) ∧
    rearrange_and_copy sample_ext sample222 [ix_index 1, ix_trace 0 2] true =
      .ok { rk := 1, size := [2], data := [5, 0], grid := [], grid_set := false,
            itype := itp_linear } ∧
    rearrange_and_copy sample_ext sample222 [ix_trace 0 2, ix_index 1] true =
      .ok { rk := 1, size := [2], data := [5, 0], grid := [], grid_set := false,
            itype := itp_linear } :=
  ⟨rearrange_trace sample_ext sample222 0 2 (fun _ => 1) (fun _ => 0) 1 (by decide)
      (by decide) (by decide) (by decide) (by decide) (by decide) (by decide) (by decide),
   by
    simp [rearrange_and_copy, rearrange_check, classify_loop, classify_step, rearr_init,
      validate_loop, ix_index, ix_trace, sample222, index_spec_empty, tensor_grid_rank_dim,
      tensor_rank_dim, tensor_default, total_size, for_loop, cell_step, sum_step,
      remap_step, old_index_step, unpack_sum_step, unpack_index, write_front, set, get,
      row_major, List.range, List.range.loop, List.range', itp_linear, exit_at],
   by
    simp [rearrange_and_copy, rearrange_check, classify_loop, classify_step, rearr_init,
      validate_loop, ix_index, ix_trace, sample222, index_spec_empty, tensor_grid_rank_dim,
      tensor_rank_dim, tensor_default, total_size, for_loop, cell_step, sum_step,
      remap_step, old_index_step, unpack_sum_step, unpack_index, write_front, set, get,
      row_major, List.range, List.range.loop, List.range', itp_linear, exit_at]⟩

/-! ## Interpolation with one free axis: the levels of the recursion -/

/-- The cells of the smaller tensor built by one level of the recursion, for any sizes of
the axes that stay: the blend of the two cells of `t` that differ in the last index. -/
theorem collapse_last_cell (t tg : tensor_grid) (frac : ℚ) (S : List Nat)
    (ht : t.rk = S.length + 1) (hrk : tg.rk ≠ 0) (hsize : tg.size = S)
    (hlen : tg.data.length = S.prod) (idx : List Nat) (hidx : idx.length = S.length)
    (hlt : ∀ k, k < S.length → idx.getD k 0 < S.getD k 0) :
    get (collapse_last t tg frac) idx =
      get t (idx ++ [0]) + frac * (get t (idx ++ [1]) - get t (idx ++ [0])) := by
  have hin := row_major_in_range S idx hidx hlt
  unfold collapse_last
  rw [fold_set_data
    (fun sz i => ((write_front (List.replicate t.rk 0) (unpack_index sz i)).set
      (t.rk - 1) 0).set (t.rk - 1) 1)
    (fun sz i => get t ((write_front (List.replicate t.rk 0) (unpack_index sz i)).set
        (t.rk - 1) 0) + frac *
      (get t (((write_front (List.replicate t.rk 0) (unpack_index sz i)).set
        (t.rk - 1) 0).set (t.rk - 1) 1) -
       get t ((write_front (List.replicate t.rk 0) (unpack_index sz i)).set (t.rk - 1) 0)))]
  have htot : total_size tg = S.prod := by
    unfold total_size
    rw [if_neg hrk, hsize]
  have hform : ∀ i x, ((write_front (List.replicate t.rk 0)
      (unpack_index tg.size i)).set (t.rk - 1) x) = unpack_index tg.size i ++ [x] := by
    intro i x
    have h1 : t.rk - 1 = S.length := by omega
    rw [h1, ht]
    exact write_front_set _ S.length (by rw [unpack_index_length, hsize]) x
  simp only [hform]
  have hpos : ∀ i, i < total_size tg →
      row_major tg.size ((unpack_index tg.size i ++ [0]).set (t.rk - 1) 1) = i := by
    intro i hi
    have h1 : t.rk - 1 = S.length := by omega
    rw [h1, snoc_set _ S.length (by rw [unpack_index_length, hsize]),
      row_major_append _ _ _ (unpack_index_length _ _)]
    apply row_major_unpack_index
    rw [hsize, ← htot]
    exact hi
  obtain ⟨_, c2⟩ := fold_set_cells
    (fun i => row_major tg.size ((unpack_index tg.size i ++ [0]).set (t.rk - 1) 1))
    (fun i => get t (unpack_index tg.size i ++ [0]) + frac *
      (get t ((unpack_index tg.size i ++ [0]).set (t.rk - 1) 1) -
        get t (unpack_index tg.size i ++ [0])))
    (total_size tg) tg.data hpos
  unfold get at c2 ⊢
  simp only at c2 ⊢
  rw [hsize] at c2 ⊢
  rw [c2, htot, hlen, if_pos ⟨hin.1, hin.1⟩, hin.2]
  have h1 : t.rk - 1 = S.length := by omega
  rw [h1, snoc_set idx S.length hidx]

/-- The start of an axis in the packed grid when one axis is put in front. -/
theorem istart_of_cons (n : Nat) (S : List Nat) (j : Nat) :
    istart_of (n :: S) (j + 1) = n + istart_of S j := by
  unfold istart_of
  rw [offset_of_eq_sum, offset_of_eq_sum, Finset.sum_range_succ']
  simp
  ring

/-- The first `r` entries of a vector read one by one. -/
theorem map_getD_take (l : List Nat) (r : Nat) (h : r ≤ l.length) :
    (List.range r).map (fun i => l.getD i 0) = l.take r := by
  apply List.ext_getElem
  · simp [h]
  · intro i h1 h2
    simp only [List.length_map, List.length_range] at h1
    simp [List.getD_eq_getElem?_getD, List.getElem?_eq_getElem (show i < l.length by omega)]

/-- The rank-2 case of `interp_linear_power_two_vec0`: the entry `i` of the result is the
interpolation between the cells `(i,0)` and `(i,1)`. -/
theorem vec0_base_loop_spec (t : tensor_grid) (v : List ℚ) (m : Nat)
    (res : List ℚ) (a b : Nat) :
    (vec0_base_loop t v m (res, [a, 0], [b, 1])).1.length = res.length ∧
    ∀ i, (vec0_base_loop t v m (res, [a, 0], [b, 1])).1.getD i 0 =
      if i < m ∧ i < res.length then
        get t [i, 0] + (get t [i, 1] - get t [i, 0]) /
          (t.grid.getD (m + 1) 0 - t.grid.getD m 0) * (v.getD 1 0 - t.grid.getD m 0)
      else res.getD i 0 := by
  unfold vec0_base_loop
  have h : ∀ k, k ≤ m →
      ∃ a1 b1, (List.range k).foldl (fun (s : List ℚ × List Nat × List Nat) i =>
        (s.1.set i (get t (s.2.1.set 0 i) + (get t (s.2.2.set 0 i) - get t (s.2.1.set 0 i)) /
          (t.grid.getD (m + 1) 0 - t.grid.getD m 0) * (v.getD 1 0 - t.grid.getD m 0)),
        s.2.1.set 0 i, s.2.2.set 0 i)) (res, [a, 0], [b, 1]) =
        ((List.range k).foldl (fun g i => g.set i (get t [i, 0] + (get t [i, 1] - get t [i, 0]) /
          (t.grid.getD (m + 1) 0 - t.grid.getD m 0) * (v.getD 1 0 - t.grid.getD m 0))) res,
          [a1, 0], [b1, 1]) := by
    intro k
    induction k with
    | zero => intro _; exact ⟨a, b, rfl⟩
    | succ k ih =>
      intro hk
      obtain ⟨a1, b1, e⟩ := ih (by omega)
      rw [List.range_succ, List.foldl_append, List.foldl_append, e]
      exact ⟨k, k, rfl⟩
  obtain ⟨a1, b1, e⟩ := h m (le_refl _)
  simp only at e ⊢
  rw [e]
  simp only
  exact copy_loop_spec (fun i => get t [i, 0] + (get t [i, 1] - get t [i, 0]) /
    (t.grid.getD (m + 1) 0 - t.grid.getD m 0) * (v.getD 1 0 - t.grid.getD m 0)) m res

/-- The sizes of a tensor with `n` points on the first axis and two on the others, cut
to the first axes. -/
theorem sizes_free_take (n m r : Nat) (hr : r ≤ m) :
    (List.range (r + 1)).map (fun i => (n :: List.replicate m 2).getD i 0) =
      n :: List.replicate r 2 := by
  rw [map_getD_take _ _ (by simp; omega)]
  simp [List.take_replicate, Nat.min_eq_left hr]

/-- The product of the sizes `n, 2, ..., 2`. -/
theorem prod_free (n m : Nat) : (n :: List.replicate m 2).prod = n * 2 ^ m := by
  rw [List.prod_cons, prod_replicate_two]

/-- The levels of `interp_linear_power_two_vec0` on a tensor with `n` points on the first
axis and two on the others, next to the levels of `interp_linear_power_two` on the
hypercubes that are its slices at the points of the first axis: the entry `i` of the
vector is the value of the slice `i`. -/
theorem vec0_levels (n : Nat) (hn : 0 < n) (val vnew : List ℚ) (m : Nat) :
    ∀ (T : tensor_grid) (H : Nat → tensor_grid) (f1 f2 : Nat) (res : List ℚ),
      m + 1 ≤ f1 → m + 1 ≤ f2 → T.rk = m + 2 → T.size = n :: List.replicate (m + 1) 2 →
      T.grid_set = true →
      (∀ j, j < m + 1 → vnew.getD (j + 1) 0 = val.getD j 0) →
      (∀ i, i < n → hypercube (m + 1) (H i) ∧
        (∀ j, j < 2 * (m + 1) → T.grid.getD (n + j) 0 = (H i).grid.getD j 0) ∧
        ∀ c : List Nat, c.length = m + 1 → (∀ k, k < m + 1 → c.getD k 0 < 2) →
          get T (i :: c) = get (H i) c) →
      ∃ R, power_two_vec0_loop f1 T vnew res = .ok R ∧ R.length = n ∧
        ∀ i, i < n → power_two_loop f2 (H i) val = .ok (R.getD i 0) := by
  induction m with
  | zero =>
    intro T H f1 f2 res hf1 hf2 hrk hsz hgs hv hH
    obtain ⟨f, rfl⟩ : ∃ f, f1 = f + 1 := ⟨f1 - 1, by omega⟩
    obtain ⟨g, rfl⟩ : ∃ g, f2 = g + 1 := ⟨f2 - 1, by omega⟩
    unfold power_two_vec0_loop
    rw [if_pos hrk]
    simp only
    have hn0 : T.size.getD 0 0 = n := by rw [hsz]; rfl
    have e0 : (List.replicate 2 0).set 1 0 = [0, 0] := rfl
    have e1 : (List.replicate 2 0).set 1 1 = [0, 1] := rfl
    rw [hn0, e0, e1]
    obtain ⟨b1, b2⟩ := vec0_base_loop_spec T vnew n (vec_resize 0 res n) 0 0
    refine ⟨_, rfl, by rw [b1, vec_resize_length], fun i hi => ?_⟩
    obtain ⟨⟨h1, h2, h3⟩, hg, hc⟩ := hH i hi
    unfold power_two_loop
    rw [if_pos h1, b2 i, if_pos ⟨hi, by rw [vec_resize_length]; exact hi⟩]
    have c0 := hc [0] rfl (fun k hk => by
      have : k = 0 := by omega
      subst this; simp)
    have c1 := hc [1] rfl (fun k hk => by
      have : k = 0 := by omega
      subst this; simp)
    have g0 := hg 0 (by omega)
    have g1 := hg 1 (by omega)
    have d0 : get (H i) [0] = (H i).data.getD 0 0 := by
      simp [get, h2, row_major]
    have d1 : get (H i) [1] = (H i).data.getD 1 0 := by
      simp [get, h2, row_major]
    rw [c0, c1, d0, d1, g1, ← hv 0 (by omega)]
    simp only [Nat.add_zero] at g0
    rw [g0]
  | succ m ih =>
    intro T H f1 f2 res hf1 hf2 hrk hsz hgs hv hH
    obtain ⟨f, rfl⟩ : ∃ f, f1 = f + 1 := ⟨f1 - 1, by omega⟩
    obtain ⟨g, rfl⟩ : ∃ g, f2 = g + 1 := ⟨f2 - 1, by omega⟩
    unfold power_two_vec0_loop
    rw [if_neg (by omega)]
    have hgT : ∀ j, get_grid T (T.rk - 1) j = .ok (grid_at T (T.rk - 1) j) := by
      intro j
      unfold get_grid
      rw [if_neg (by simp [hgs]), if_neg (by omega)]
    simp only [hgT]
    have hdim : tensor_grid_rank_dim (T.rk - 1) T.size = .ok
        { rk := m + 2, size := n :: List.replicate (m + 1) 2,
          data := List.replicate (n * 2 ^ (m + 1)) 0, grid := [], grid_set := false,
          itype := itp_linear } := by
      have h1 : T.rk - 1 = m + 2 := by omega
      rw [h1, hsz, tensor_grid_rank_dim_ok (m + 2) _ (by omega) (fun i hi => by
        cases i with
        | zero => simpa using hn
        | succ i =>
          rw [List.getD_cons_succ, getD_replicate_two _ _ (by omega)]
          omega), foldl_prod_range, sizes_free_take n (m + 2) (m + 1) (by omega), prod_free]
    rw [hdim]
    simp only
    obtain ⟨s1, s2, s3, s4, s5, s6, s7⟩ := set_grid_packed_ok
      { rk := m + 2, size := n :: List.replicate (m + 1) 2,
        data := List.replicate (n * 2 ^ (m + 1)) 0, grid := [], grid_set := false,
        itype := itp_linear } T.grid (by simp)
    rw [s1]
    simp only
    have hlast : T.rk - 1 = m + 2 := by omega
    rw [hlast]
    generalize hfrac : (vnew.getD (m + 2) 0 - grid_at T (m + 2) 0) /
      (grid_at T (m + 2) 1 - grid_at T (m + 2) 0) = frac
    generalize htg : (set_grid_packed
      { rk := m + 2, size := n :: List.replicate (m + 1) 2,
        data := List.replicate (n * 2 ^ (m + 1)) 0, grid := [], grid_set := false,
        itype := itp_linear } T.grid).st = tg at s2 s3 s4 s5 s6 s7
    simp only at s2 s3 s4 s6 s7
    obtain ⟨c1, c2, c3, c4⟩ := collapse_last_shape T tg frac
    have hstartT : istart_of T.size (m + 2) = n + 2 * (m + 1) := by
      rw [hsz, istart_of_cons, istart_of_twos _ _ (by omega)]
    have hstartg : istart_of (n :: List.replicate (m + 1) 2) (m + 2) = n + 2 * (m + 1) := by
      rw [istart_of_cons, istart_of_twos _ _ (le_refl _)]
    -- the hypercubes of the next level
    obtain ⟨d, hc, hdlen, _⟩ :=
      tensor_grid_rank_dim_twos (m + 1) (m + 2) (by omega) (by omega)
    have hHstep : ∀ i, i < n →
        power_two_loop (g + 1) (H i) val =
          power_two_loop g (collapse_last (H i) (set_grid_packed
            { rk := m + 1, size := List.replicate (m + 1) 2, data := d, grid := [],
              grid_set := false, itype := itp_linear } (H i).grid).st frac) val := by
      intro i hi
      obtain ⟨⟨h1, h2, h3⟩, hg, _⟩ := hH i hi
      conv_lhs => unfold power_two_loop
      rw [if_neg (by omega)]
      have hgH : ∀ j, get_grid (H i) ((H i).rk - 1) j = .ok (grid_at (H i) ((H i).rk - 1) j) := by
        intro j
        unfold get_grid
        rw [if_neg (by simp [h3]), if_neg (by omega)]
      simp only [hgH]
      rw [h1, h2]
      simp only [Nat.add_sub_cancel]
      rw [hc]
      simp only
      rw [(set_grid_packed_ok
        { rk := m + 1, size := List.replicate (m + 1) 2, data := d, grid := [],
          grid_set := false, itype := itp_linear } (H i).grid (by simp)).1]
      simp only
      have hfr : (val.getD (m + 1) 0 - grid_at (H i) (m + 1) 0) /
          (grid_at (H i) (m + 1) 1 - grid_at (H i) (m + 1) 0) = frac := by
        rw [← hfrac, ← hv (m + 1) (by omega)]
        unfold grid_at
        rw [hstartT, h2, istart_of_twos _ _ (by omega)]
        have g0 := hg (2 * (m + 1) + 0) (by omega)
        have g1 := hg (2 * (m + 1) + 1) (by omega)
        rw [show n + 2 * (m + 1) + 0 = n + (2 * (m + 1) + 0) by omega,
          show n + 2 * (m + 1) + 1 = n + (2 * (m + 1) + 1) by omega, g0, g1]
      rw [hfr]
    obtain ⟨R, r1, r2, r3⟩ := ih (collapse_last T tg frac)
      (fun i => collapse_last (H i) (set_grid_packed
        { rk := m + 1, size := List.replicate (m + 1) 2, data := d, grid := [],
          grid_set := false, itype := itp_linear } (H i).grid).st frac)
      f g res (by omega) (by omega) (by rw [c1, s2]) (by rw [c2, s3]) (by rw [c4, s5])
      (fun j hj => hv j (by omega))
      (fun i hi => by
        beta_reduce
        obtain ⟨⟨h1, h2, h3⟩, hg, hcell⟩ := hH i hi
        obtain ⟨t1, t2, t3, t4, t5, t6, t7⟩ := set_grid_packed_ok
          { rk := m + 1, size := List.replicate (m + 1) 2, data := d, grid := [],
            grid_set := false, itype := itp_linear } (H i).grid (by simp)
        generalize (set_grid_packed
          { rk := m + 1, size := List.replicate (m + 1) 2, data := d, grid := [],
            grid_set := false, itype := itp_linear } (H i).grid).st = hg1 at t2 t3 t4 t5 t6 t7
        simp only at t2 t3 t4 t6 t7
        obtain ⟨k1, k2, k3, k4⟩ := collapse_last_shape (H i) hg1 frac
        refine ⟨⟨by rw [k1, t2], by rw [k2, t3], by rw [k4, t5]⟩, fun j hj => ?_,
          fun c hclen hclt => ?_⟩
        · rw [c3, k3, s7 (n + j) (by rw [hstartg]; omega),
            t7 j (by rw [istart_of_twos _ _ (le_refl _)]; omega)]
          exact hg j (by omega)
        · rw [collapse_last_cell T tg frac (n :: List.replicate (m + 1) 2)
            (by simp [hrk]) (by rw [s2]; omega) s3 (by rw [s4]; simp [prod_free])
            (i :: c) (by simp [hclen])
            (fun k hk => by
              cases k with
              | zero => simpa using hi
              | succ k =>
                simp only [List.length_cons, List.length_replicate] at hk
                rw [List.getD_cons_succ, List.getD_cons_succ,
                  getD_replicate_two _ _ (by omega)]
                exact hclt k (by omega)),
            collapse_last_get (H i) hg1 frac m h1 t2 t3 (by rw [t4]; exact hdlen) c hclen hclt]
          have hsn : ∀ x, x < 2 → ∀ k, k < m + 1 + 1 → (c ++ [x]).getD k 0 < 2 := by
            intro x hx k hk
            rw [getD_snoc]
            split_ifs with h4 h5
            · exact hclt k (by omega)
            · exact hx
            · omega
          rw [← hcell (c ++ [0]) (by simp [hclen]) (hsn 0 (by omega)),
            ← hcell (c ++ [1]) (by simp [hclen]) (hsn 1 (by omega))]
          rfl)
    refine ⟨R, r1, r2, fun i hi => ?_⟩
    rw [hHstep i hi]
    exact r3 i hi

/-! ## Interpolation with one free axis: the loops that build the smaller tensor -/

/-- A raising loop whose rounds all leave the state alone leaves the state alone. -/
theorem for_loop_skip {σ : Type} (f : σ → Nat → Except exc σ) (l : List Nat)
    (h : ∀ i, i ∈ l → ∀ s, f s i = .ok s) : ∀ s, for_loop f l s = .ok s := by
  induction l with
  | nil => intro s; rfl
  | cons i rest ih =>
    intro s
    unfold for_loop
    rw [h i (List.mem_cons_self _ _) s]
    exact ih (fun j hj => h j (List.mem_cons_of_mem _ hj)) s

/-- A raising loop over `0..n-1` whose rounds other than `a` leave the state alone is the
round `a`. -/
theorem for_loop_single {σ : Type} (f : σ → Nat → Except exc σ) (n a : Nat) (ha : a < n)
    (h : ∀ i, i < n → i ≠ a → ∀ s, f s i = .ok s) (s : σ) :
    for_loop f (List.range n) s = f s a := by
  rw [range_split n a ha, for_loop_append,
    for_loop_skip f (List.range a) (fun i hi => h i (by
      have := List.mem_range.mp hi
      omega) (by
      have := List.mem_range.mp hi
      omega))]
  simp only [for_loop]
  cases f s a with
  | error e => rfl
  | ok s1 =>
    simp only
    exact for_loop_skip f _ (fun i hi => h i (by
      have := List.mem_range'.mp hi
      omega) (by
      have := List.mem_range'.mp hi
      omega)) s1

/-- A raising loop over rounds that are renamed. -/
theorem for_loop_map {σ : Type} (f : σ → Nat → Except exc σ) (g : Nat → Nat) (l : List Nat) :
    ∀ s, for_loop f (l.map g) s = for_loop (fun s i => f s (g i)) l s := by
  induction l with
  | nil => intro s; rfl
  | cons i rest ih =>
    intro s
    simp only [List.map_cons, for_loop]
    cases f s (g i) with
    | error e => rfl
    | ok s1 => exact ih s1

/-- The loop `for(j...) x[M[j]]=w(j)` over the first `m` entries of a list `M` of distinct
positions: the positions listed hold their values, the others are untouched. -/
theorem scatter_spec (M : List Nat) (hnd : M.Nodup) (w : Nat → Nat) (x0 : List Nat)
    (hM : ∀ j, j < M.length → M.getD j 0 < x0.length) (m : Nat) (hm : m ≤ M.length) :
    ((List.range m).foldl (fun io j => io.set (M.getD j 0) (w j)) x0).length = x0.length ∧
    (∀ j, j < m →
      ((List.range m).foldl (fun io j => io.set (M.getD j 0) (w j)) x0).getD (M.getD j 0) 0 =
        w j) ∧
    ∀ a, (∀ j, j < m → M.getD j 0 ≠ a) →
      ((List.range m).foldl (fun io j => io.set (M.getD j 0) (w j)) x0).getD a 0 =
        x0.getD a 0 := by
  induction m with
  | zero => exact ⟨rfl, fun j hj => by omega, fun a _ => rfl⟩
  | succ m ih =>
    obtain ⟨h1, h2, h3⟩ := ih (by omega)
    rw [List.range_succ, List.foldl_append]
    simp only [List.foldl_cons, List.foldl_nil]
    generalize (List.range m).foldl (fun io j => io.set (M.getD j 0) (w j)) x0 = R at h1 h2 h3 ⊢
    refine ⟨by simp [h1], fun j hj => ?_, fun a ha => ?_⟩
    · rw [getD_set, h1]
      by_cases hjm : j = m
      · rw [hjm, if_pos ⟨rfl, hM m (by omega)⟩]
      · have hne : M.getD m 0 ≠ M.getD j 0 := by
          intro e
          rw [List.getD_eq_getElem _ _ (show m < M.length by omega),
            List.getD_eq_getElem _ _ (show j < M.length by omega)] at e
          have := (List.Nodup.getElem_inj_iff hnd).mp e
          omega
        rw [if_neg (fun e => hne e.1)]
        exact h2 j (by omega)
    · rw [getD_set, if_neg (fun e => ha m (by omega) e.1)]
      exact h3 a (fun j hj => ha j (by omega))

/-- A loop over the cells of a tensor that stores in each cell a value computed from its
indices leaves that value in the cell. -/
theorem fill_cells_get (tn : tensor_grid) (S : List Nat) (hsize : tn.size = S)
    (hrk : tn.rk ≠ 0) (hlen : tn.data.length = S.prod) (r : Nat) (hr : r = S.length)
    (W : List Nat → ℚ) (c : List Nat) (hc : c.length = S.length)
    (hlt : ∀ k, k < S.length → c.getD k 0 < S.getD k 0) :
    get ((List.range (total_size tn)).foldl (fun tn i =>
      set tn (write_front (List.replicate r 0) (unpack_index tn.size i))
        (W (write_front (List.replicate r 0) (unpack_index tn.size i)))) tn) c = W c := by
  have hin := row_major_in_range S c hc hlt
  have htot : total_size tn = S.prod := by
    unfold total_size
    rw [if_neg hrk, hsize]
  rw [fold_set_data
    (fun sz i => write_front (List.replicate r 0) (unpack_index sz i))
    (fun sz i => W (write_front (List.replicate r 0) (unpack_index sz i)))]
  have hform : ∀ i, write_front (List.replicate r 0) (unpack_index tn.size i) =
      unpack_index tn.size i := by
    intro i
    apply write_front_short
    rw [unpack_index_length, hsize, hr]
    simp
  simp only [hform]
  obtain ⟨_, c2⟩ := fold_set_cells
    (fun i => row_major tn.size (unpack_index tn.size i))
    (fun i => W (unpack_index tn.size i))
    (total_size tn) tn.data (fun i hi => by
      apply row_major_unpack_index
      rw [hsize, ← htot]
      exact hi)
  unfold get
  simp only
  rw [hsize] at c2 ⊢
  rw [c2, htot, hlen, if_pos ⟨hin.1, hin.1⟩, hin.2]

/-- The sample search stays below the last point. -/
theorem search_below_lt (x : List ℚ) (x0 : ℚ) (h : 2 ≤ x.length) :
    search_below x x0 + 1 < x.length := by
  unfold search_below
  have hinv : ∀ m, m ≤ x.length - 1 →
      (List.range m).foldl (fun r i => if x.getD i 0 ≤ x0 then i else r) 0 + 1 < x.length := by
    intro m
    induction m with
    | zero => intro _; simp; omega
    | succ m ih =>
      intro hm
      rw [List.range_succ, List.foldl_append]
      simp only [List.foldl_cons, List.foldl_nil]
      split_ifs
      · omega
      · exact ih (by omega)
  exact hinv _ (le_refl _)

/-- The axes other than `ifree`, in increasing order. -/
theorem others_eq (r ifree : Nat) (h : ifree < r) :
    (List.range r).filter (fun a => decide (a ≠ ifree)) =
      (List.range (r - 1)).map (fun k => if k < ifree then k else k + 1) :=
  filter_range_but_one r ifree h _ (by simp) (fun m _ hm => by simpa using hm)

/-- The vector `map` of `interp_linear_vec` is the free axis followed by the others. -/
theorem free_map_eq (r ifree : Nat) :
    free_map r ifree = ifree :: (List.range r).filter (fun a => decide (a ≠ ifree)) := by
  unfold free_map
  induction r with
  | zero => rfl
  | succ r ih =>
    rw [List.range_succ, List.foldl_append, ih, List.filter_append]
    by_cases h : r = ifree
    · simp [h]
    · simp [h]

/-- The sizes `snew` of `interp_linear_vec`: the size of the free axis, then 2 for each
other axis. -/
theorem free_sizes_eq (r ifree n : Nat) (h : ifree < r) :
    (List.range r).foldl (fun s i => if i ≠ ifree then s ++ [2] else s) [n] =
      n :: List.replicate (r - 1) 2 := by
  have hgen : ∀ m, m ≤ r →
      (List.range m).foldl (fun s i => if i ≠ ifree then s ++ [2] else s) [n] =
        n :: List.replicate (if m ≤ ifree then m else m - 1) 2 := by
    intro m
    induction m with
    | zero => intro _; simp
    | succ m ih =>
      intro hm
      rw [List.range_succ, List.foldl_append, ih (by omega)]
      simp only [List.foldl_cons, List.foldl_nil]
      by_cases h1 : m = ifree
      · rw [if_neg (by simp [h1]), h1, if_pos (le_refl _), if_neg (by omega)]
        simp
      · rw [if_pos h1]
        by_cases h2 : m ≤ ifree
        · rw [if_pos h2, if_pos (by omega)]
          simp [List.replicate_succ']
        · rw [if_neg h2, if_neg (by omega)]
          have : m + 1 - 1 = (m - 1) + 1 := by omega
          rw [this]
          simp [List.replicate_succ']
  rw [hgen r (le_refl _), if_neg (by omega)]

/-- The running update of `vector_mean` keeps `mean * i` equal to the sum so far. -/
theorem vector_mean_loop (data : List ℚ) (n : Nat) :
    (List.range n).foldl (fun mean i => mean + (data.getD i 0 - mean) / ((i : ℚ) + 1)) 0 *
      (n : ℚ) = ∑ i in Finset.range n, data.getD i 0 := by
  induction n with
  | zero => simp
  | succ n ih =>
    rw [List.range_succ, List.foldl_append, Finset.sum_range_succ, ← ih]
    simp only [List.foldl_cons, List.foldl_nil]
    have h : ((n : ℚ) + 1) ≠ 0 := by positivity
    push_cast
    field_simp
    ring

/-- C33: the running update `vector_mean(n,data)` is the sum of the first `n` entries
divided by `n`, in exact arithmetic, and 0 when `n` is 0. -/
theorem vector_mean_spec (n : Nat) (data : List ℚ) :
    vector_mean n data = (∑ i in Finset.range n, data.getD i 0) / (n : ℚ) ∧
    vector_mean 0 data = 0 := by
  refine ⟨?_, rfl⟩
  unfold vector_mean
  rw [← vector_mean_loop data n]
  by_cases hn : n = 0
  · subst hn
    simp
  · have h : (n : ℚ) ≠ 0 := by exact_mod_cast hn
    field_simp

/-- The loop of `vector_absdev` adds up the distances to `mean`. -/
theorem absdev_loop (data : List ℚ) (mean : ℚ) (n : Nat) :
    (List.range n).foldl (fun sum i => sum + |data.getD i 0 - mean|) 0 =
      ∑ i in Finset.range n, |data.getD i 0 - mean| := by
  induction n with
  | zero => simp
  | succ n ih =>
    rw [List.range_succ, List.foldl_append, Finset.sum_range_succ, ← ih]
    rfl

/-- C34 as stated fails: for the entries 1 and 3 and the mean 0 the sum of the distances
is 4, and `vector_absdev` returns 2. -/
theorem vector_absdev_counterexample :
    vector_absdev 2 [1, 3] 0 = 2 ∧
    ∑ i in Finset.range 2, |([1, 3] : List ℚ).getD i 0 - 0| = 4 := by
  constructor
  · simp [vector_absdev, List.range, List.range.loop]
    norm_num
  · simp [Finset.sum_range_succ]
    norm_num

/-- C34, amended: `vector_absdev(n,data,mean)` returns the sum of the distances
`|data[i]-mean|` over `i < n` divided by `n`, and 0 when `n` is 0. -/
theorem vector_absdev_spec (n : Nat) (data : List ℚ) (mean : ℚ) :
    vector_absdev n data mean = (∑ i in Finset.range n, |data.getD i 0 - mean|) / (n : ℚ) ∧
    vector_absdev 0 data mean = 0 := by
  refine ⟨?_, rfl⟩
  unfold vector_absdev
  by_cases hn : n = 0
  · subst hn
    simp
  · rw [if_neg hn, absdev_loop]

/-- C31: `eval(x0)` adds the sum of `covar(x0,x[i])*Kinvf[i]` over the training points to
the start value of its local `ret`, which the code leaves without initialiser: the
result is the sum only when that value happens to be 0. After the constructor,
`set_covar_noise` raises invalid-argument for 0 and for 1 training pairs. -/
theorem krige_eval_start_value (ext : krige_externals) (st : interp_krige) (ret x0 : ℚ)
    (x y : List ℚ) (fcovar : ℚ → ℚ → ℚ) (noise_var : ℚ) :
    st.eval ret x0 =
      ret + ∑ i in Finset.range st.sz, st.f x0 (st.px.getD i 0) * st.Kinvf.getD i 0 ∧
    st.eval 1 x0 ≠ ∑ i in Finset.range st.sz, st.f x0 (st.px.getD i 0) * st.Kinvf.getD i 0 ∧
    ((interp_krige_new st).set_covar_noise ext 0 x y fcovar noise_var).raised =
      some .exc_einval ∧
    ((interp_krige_new st).set_covar_noise ext 1 x y fcovar noise_var).raised =
      some .exc_einval := by
  have h : ∀ (n : Nat) (r : ℚ),
      (List.range n).foldl
        (fun ret i => ret + st.f x0 (st.px.getD i 0) * st.Kinvf.getD i 0) r =
      r + ∑ i in Finset.range n, st.f x0 (st.px.getD i 0) * st.Kinvf.getD i 0 := by
    intro n r
    induction n with
    | zero => simp
    | succ n ih =>
      rw [List.range_succ, List.foldl_append, Finset.sum_range_succ, ih]
      simp only [List.foldl_cons, List.foldl_nil]
      ring
  refine ⟨h _ _, ?_, by simp [interp_krige.set_covar_noise, interp_krige_new],
    by simp [interp_krige.set_covar_noise, interp_krige_new]⟩
  unfold interp_krige.eval
  rw [h]
  intro e
  linarith

/-- A loop whose rounds raise nothing on the states of an invariant raises nothing and
keeps the invariant. -/
theorem for_loop_inv {σ : Type} (f : σ → Nat → Except exc σ) (Q : σ → Prop) (l : List Nat)
    (h : ∀ s i, i ∈ l → Q s → ∃ s1, f s i = .ok s1 ∧ Q s1) :
    ∀ s, Q s → ∃ s1, for_loop f l s = .ok s1 ∧ Q s1 := by
  induction l with
  | nil => exact fun s hs => ⟨s, rfl, hs⟩
  | cons i rest ih =>
    intro s hs
    obtain ⟨s1, h1, h2⟩ := h s i (List.mem_cons_self _ _) hs
    simp only [for_loop, h1]
    exact ih (fun s i hi => h s i (List.mem_cons_of_mem _ hi)) s1 h2

/-- The first round of a loop. -/
theorem for_loop_cons {σ : Type} (f : σ → Nat → Except exc σ) (i : Nat) (rest : List Nat)
    (s : σ) :
    for_loop f (i :: rest) s =
      match f s i with
      | .error e => .error e
      | .ok s1 => for_loop f rest s1 := rfl

/-- The leave-one-out loop of `set_noise` raises nothing when the matrix of the pair can
be inverted. -/
theorem jackknife_loop_ok (ext : krige_externals) (var len : ℚ) (size : Nat) (x y : List ℚ)
    (hinv : ext.invert (size - 1) (optim_KXX ext var len (size - 1) x) ≠ none)
    (l : List Nat) (s : ℚ × List ℚ) :
    ∃ q, for_loop (jackknife_step ext var len size x y) l s = .ok q := by
  obtain ⟨m, hm⟩ := Option.ne_none_iff_exists'.mp hinv
  refine for_loop_ok _ l (fun s i _ => ?_) s
  simp only [jackknife_step, hm]
  exact ⟨_, rfl⟩

/-- The error `qual` is not negative when squares are not. -/
theorem jackknife_nonneg (ext : krige_externals) (hpow : ∀ z, 0 ≤ ext.pow z 2) (var len : ℚ)
    (size : Nat) (x y : List ℚ) (l : List Nat) :
    ∀ s q, 0 ≤ s.1 → for_loop (jackknife_step ext var len size x y) l s = .ok q →
      0 ≤ q.1 := by
  induction l with
  | nil =>
    intro s q hs h
    simp only [for_loop, Except.ok.injEq] at h
    rw [← h]
    exact hs
  | cons k rest ih =>
    intro s q hs h
    simp only [for_loop] at h
    cases hm : ext.invert (size - 1) (optim_KXX ext var len (size - 1) x) with
    | none => simp [jackknife_step, hm] at h
    | some m =>
      simp only [jackknife_step, hm] at h
      exact ih _ q (add_nonneg hs (hpow _)) h

/-- One round of the inner loop of the search, when the start value of `min_qual` is
not positive: the pair is stored in round `(0,0)` and in no other round. -/
theorem search_len_step_spec (ext : krige_externals) (hpow : ∀ z, 0 ≤ ext.pow z 2)
    (size : Nat) (x y : List ℚ) (min_qual len_min len_ratio : ℚ) (hmq : min_qual ≤ 0)
    (hinv : ∀ var len, ext.invert (size - 1) (optim_KXX ext var len (size - 1) x) ≠ none)
    (i : Nat) (s : search_state) (j : Nat) :
    ∃ s1, search_len_step ext size x y min_qual len_min len_ratio i s j = .ok s1 ∧
      s1.var = s.var ∧
      (s1.var_opt = if i = 0 ∧ j = 0 then s.var else s.var_opt) ∧
      (s1.len_opt = if i = 0 ∧ j = 0
        then len_min * ext.pow len_ratio ((j : ℚ) / ((nlen : ℚ) - 1)) else s.len_opt) := by
  obtain ⟨q, hq⟩ := jackknife_loop_ok ext s.var
    (len_min * ext.pow len_ratio ((j : ℚ) / ((nlen : ℚ) - 1))) size x y (hinv _ _)
    (List.range size) (0, s.Kinvf)
  have hq0 := jackknife_nonneg ext hpow _ _ size x y _ _ q (le_refl _) hq
  simp only [search_len_step, hq]
  by_cases hij : i = 0 ∧ j = 0
  · rw [if_pos (Or.inl hij)]
    exact ⟨_, rfl, rfl, by rw [if_pos hij], by rw [if_pos hij]⟩
  · rw [if_neg (fun h => h.elim hij (fun h => absurd h (not_lt.mpr (le_trans hmq hq0))))]
    exact ⟨_, rfl, rfl, by rw [if_neg hij], by rw [if_neg hij]⟩

/-- The rounds of the inner loop other than `(0,0)` leave `var_opt` and `len_opt` as
they are. -/
theorem search_len_rest (ext : krige_externals) (hpow : ∀ z, 0 ≤ ext.pow z 2)
    (size : Nat) (x y : List ℚ) (min_qual len_min len_ratio : ℚ) (hmq : min_qual ≤ 0)
    (hinv : ∀ var len, ext.invert (size - 1) (optim_KXX ext var len (size - 1) x) ≠ none)
    (i : Nat) (l : List Nat) (hl : ∀ j, j ∈ l → ¬ (i = 0 ∧ j = 0)) (s : search_state) :
    ∃ s1, for_loop (search_len_step ext size x y min_qual len_min len_ratio i) l s = .ok s1 ∧
      s1.var = s.var ∧ s1.var_opt = s.var_opt ∧ s1.len_opt = s.len_opt := by
  refine for_loop_inv _
    (fun s1 => s1.var = s.var ∧ s1.var_opt = s.var_opt ∧ s1.len_opt = s.len_opt) l
    (fun s0 j hj h0 => ?_) s ⟨rfl, rfl, rfl⟩
  obtain ⟨s1, h1, h2, h3, h4⟩ := search_len_step_spec ext hpow size x y min_qual len_min
    len_ratio hmq hinv i s0 j
  rw [if_neg (hl j hj)] at h3 h4
  exact ⟨s1, h1, h2.trans h0.1, h3.trans h0.2.1, h4.trans h0.2.2⟩

/-- One round of the outer loop of the search, when the start value of `min_qual` is
not positive: round 0 stores the first pair, the other rounds store nothing. -/
theorem search_var_step_spec (ext : krige_externals) (hpow : ∀ z, 0 ≤ ext.pow z 2)
    (size : Nat) (x y : List ℚ) (min_qual var_min var_ratio len_min len_ratio : ℚ)
    (hmq : min_qual ≤ 0)
    (hinv : ∀ var len, ext.invert (size - 1) (optim_KXX ext var len (size - 1) x) ≠ none)
    (s : search_state) (i : Nat) :
    ∃ s1, search_var_step ext size x y min_qual var_min var_ratio len_min len_ratio s i =
        .ok s1 ∧
      (s1.var_opt = if i = 0 then var_min * ext.pow var_ratio 0 else s.var_opt) ∧
      (s1.len_opt = if i = 0 then len_min * ext.pow len_ratio 0 else s.len_opt) := by
  unfold search_var_step
  by_cases hi : i = 0
  · subst hi
    have hr : List.range nlen = 0 :: (List.range 9).map Nat.succ := by
      show List.range (9 + 1) = _
      rw [List.range_succ_eq_map]
    rw [hr, for_loop_cons]
    obtain ⟨s1, h1, h2, h3, h4⟩ := search_len_step_spec ext hpow size x y min_qual len_min
      len_ratio hmq hinv 0
      { s with var := var_min * ext.pow var_ratio (((0 : Nat) : ℚ) / ((nvar : ℚ) - 1)) } 0
    rw [h1]
    simp only
    obtain ⟨s2, k1, k2, k3, k4⟩ := search_len_rest ext hpow size x y min_qual len_min
      len_ratio hmq hinv 0 ((List.range 9).map Nat.succ) (by
        intro j hj
        simp only [List.mem_map] at hj
        obtain ⟨a, _, ha⟩ := hj
        omega) s1
    refine ⟨s2, k1, ?_, ?_⟩
    · rw [k3, h3]
      simp
    · rw [k4, h4]
      simp
  · obtain ⟨s2, k1, k2, k3, k4⟩ := search_len_rest ext hpow size x y min_qual len_min
      len_ratio hmq hinv i (List.range nlen) (fun j _ h => hi h.1)
      { s with var := var_min * ext.pow var_ratio ((i : ℚ) / ((nvar : ℚ) - 1)) }
    exact ⟨s2, k1, by rw [k3, if_neg hi], by rw [k4, if_neg hi]⟩

/-- C32: the local `min_qual` of `set_noise` has no initialiser and nothing is stored in
it, so the test `qual<min_qual` compares every pair with the same start value. When that
value is not positive (and squares are not negative) no pair passes the test: the search
ends with the first of the 100 pairs, whatever the errors of the other pairs are, and
the fit on the full data is done with it. -/
theorem set_noise_keeps_first_pair (ext : krige_externals) (o : interp_krige_optim)
    (min_qual var_opt len_opt : ℚ) (size : Nat) (x y : List ℚ) (noise_var var_min : ℚ)
    (hpow : ∀ z, 0 ≤ ext.pow z 2) (hmq : min_qual ≤ 0)
    (hvar : vector_variance size y = .ok var_min)
    (hmin : o.base.min_size ≤ size)
    (hinv : ∀ var len, ext.invert (size - 1) (optim_KXX ext var len (size - 1) x) ≠ none)
    (hfit : ext.invert size (covar_KXX (fun x1 x2 =>
        var_min * ext.pow 100 0 * ext.exp (-(ext.pow
          ((x1 - x2) / (optim_len_min size x * ext.pow (optim_len_ratio size x) 0)) 2)))
        noise_var size x) ≠ none) :
    ∃ o1, o.set_noise ext min_qual var_opt len_opt size x y noise_var = .ok o1 ∧
      o1.var = var_min * ext.pow 100 0 ∧
      o1.len = optim_len_min size x * ext.pow (optim_len_ratio size x) 0 ∧
      o1.base.sz = size := by
  have hr : List.range nvar = 0 :: (List.range 9).map Nat.succ := by
    show List.range (9 + 1) = _
    rw [List.range_succ_eq_map]
  obtain ⟨s1, h1, h2, h3⟩ := search_var_step_spec ext hpow size x y min_qual var_min 100
    (optim_len_min size x) (optim_len_ratio size x) hmq hinv
    { var := o.var, len := o.len, Kinvf := o.base.Kinvf, var_opt := var_opt,
      len_opt := len_opt } 0
  rw [if_pos rfl] at h2 h3
  obtain ⟨s2, k1, k2, k3⟩ := for_loop_inv
    (search_var_step ext size x y min_qual var_min 100 (optim_len_min size x)
      (optim_len_ratio size x))
    (fun s => s.var_opt = var_min * ext.pow 100 0 ∧
      s.len_opt = optim_len_min size x * ext.pow (optim_len_ratio size x) 0)
    ((List.range 9).map Nat.succ) (fun s i hi hs => by
      obtain ⟨s3, g1, g2, g3⟩ := search_var_step_spec ext hpow size x y min_qual var_min 100
        (optim_len_min size x) (optim_len_ratio size x) hmq hinv s i
      have hi0 : i ≠ 0 := by
        simp only [List.mem_map] at hi
        obtain ⟨a, _, ha⟩ := hi
        omega
      rw [if_neg hi0] at g2 g3
      exact ⟨s3, g1, g2.trans hs.1, g3.trans hs.2⟩) s1 ⟨h2, h3⟩
  obtain ⟨m, hm⟩ := Option.ne_none_iff_exists'.mp hfit
  unfold interp_krige_optim.set_noise
  rw [hvar]
  simp only
  rw [hr, for_loop_cons, h1]
  simp only
  rw [k1]
  simp only
  have hc : interp_krige_optim.covar ext
      { base := { o.base with Kinvf := s2.Kinvf }, len := s2.len_opt, var := s2.var_opt } =
      fun x1 x2 => var_min * ext.pow 100 0 * ext.exp (-(ext.pow
        ((x1 - x2) / (optim_len_min size x * ext.pow (optim_len_ratio size x) 0)) 2)) := by
    funext x1 x2
    simp only [interp_krige_optim.covar, k2, k3]
  simp only [interp_krige.set_covar_noise, hc, hm, if_neg (not_lt.mpr hmin)]
  exact ⟨_, rfl, k2, k3, rfl⟩

/-- Witness for C32, on two training pairs: with the start value
0 in `min_qual` the search on `x = [0,1]`, `y = [0,1]` ends with the first pair. -/
theorem set_noise_keeps_first_pair_witness :
    ∃ o1, sample_optim.set_noise sample_krige_ext 0 0 0 2 [0, 1] [0, 1] 0 = .ok o1 ∧
      o1.var = 1 / 2 * sample_krige_ext.pow 100 0 ∧
      o1.len = optim_len_min 2 [0, 1] *
        sample_krige_ext.pow (optim_len_ratio 2 [0, 1]) 0 ∧
      o1.base.sz = 2 :=
  set_noise_keeps_first_pair sample_krige_ext sample_optim 0 0 0 2 [0, 1] [0, 1] 0 (1 / 2)
    (fun z => by
      simp only [sample_krige_ext, if_pos]
      exact mul_self_nonneg z)
    (le_refl _)
    (by
      simp [vector_variance, vector_mean, vector_variance_fmean, List.range, List.range.loop]
      norm_num)
    (by decide)
    (fun var len => by
      simp [sample_krige_ext, sample_invert, optim_KXX, mat_set, List.range, List.range.loop])
    (by
      simp [sample_krige_ext, sample_invert, covar_KXX, mat_set, List.range, List.range.loop,
        optim_len_min, optim_len_ratio, vector_min_value]
      norm_num)

/-- C39: on a tensor of rank at least 1, `set_grid(ugs)` raises nothing and sets
`grid_set`, but the packed grid gets one entry per point of the uniform grids, not per
point of the axes: its length is the sum of `ugs[i].get_npoints()` and the point `j` of
`ugs[i]` is stored behind the points of `ugs[0..i-1]`. The grid invariant and
`get_grid(i,j) == ugs[i][j]` follow when every `ugs[i]` has `size[i]` points. -/
theorem set_grid_ugs_spec (t : tensor_grid) (ugs : List uniform_grid) (hr : 0 < t.rk) :
    (set_grid_ugs t ugs).raised = none ∧ is_grid_set (set_grid_ugs t ugs).st = true ∧
    (set_grid_ugs t ugs).st.grid.length =
      offset_of (fun i => (ugs_at ugs i).get_npoints) t.rk ∧
    (∀ i j, i < t.rk → j < (ugs_at ugs i).get_npoints →
      (set_grid_ugs t ugs).st.grid.getD
        (offset_of (fun i => (ugs_at ugs i).get_npoints) i + j) 0 = (ugs_at ugs i).point j) ∧
    ((∀ i, i < t.rk → (ugs_at ugs i).get_npoints = t.size.getD i 0) →
      grid_inv (set_grid_ugs t ugs).st ∧
      ∀ i j, i < t.rk → j < t.size.getD i 0 →
        get_grid (set_grid_ugs t ugs).st i j = .ok ((ugs_at ugs i).point j)) := by
  have hr0 : t.rk ≠ 0 := by omega
  obtain ⟨f1, f2, f3, f4⟩ := fill_grid_spec (fun i j => (ugs_at ugs i).point j)
    (fun i => (ugs_at ugs i).get_npoints) t.rk
    (vec_resize 0 t.grid (offset_of (fun i => (ugs_at ugs i).get_npoints) t.rk))
  have hlen : (set_grid_ugs t ugs).st.grid.length =
      offset_of (fun i => (ugs_at ugs i).get_npoints) t.rk := by
    simp only [set_grid_ugs, if_neg hr0]
    rw [f2, vec_resize_length]
  have hpt : ∀ i j, i < t.rk → j < (ugs_at ugs i).get_npoints →
      (set_grid_ugs t ugs).st.grid.getD
        (offset_of (fun i => (ugs_at ugs i).get_npoints) i + j) 0 =
        (ugs_at ugs i).point j := by
    intro i j hi hj
    simp only [set_grid_ugs, if_neg hr0]
    refine f3 i j hi hj ?_
    rw [vec_resize_length]
    exact offset_of_lt _ hi hj
  have hsize : (set_grid_ugs t ugs).st.size = t.size := by
    simp only [set_grid_ugs, if_neg hr0]
  have hrk : (set_grid_ugs t ugs).st.rk = t.rk := by
    simp only [set_grid_ugs, if_neg hr0]
  have hgs : (set_grid_ugs t ugs).st.grid_set = true := by
    simp only [set_grid_ugs, if_neg hr0]
  refine ⟨by simp only [set_grid_ugs, if_neg hr0], hgs, hlen, hpt, fun hm => ?_⟩
  have hoff : ∀ i, i ≤ t.rk →
      offset_of (fun i => (ugs_at ugs i).get_npoints) i = istart_of t.size i := by
    intro i hi
    induction i with
    | zero => rfl
    | succ i ih =>
      unfold istart_of at ih ⊢
      rw [offset_of_succ, offset_of_succ, ih (by omega), hm i (by omega)]
  refine ⟨⟨fun h => ?_, fun _ => ?_⟩, fun i j hi hj => ?_⟩
  · rw [hgs] at h
    exact absurd h (by decide)
  · rw [hlen, hsize, hrk, hoff t.rk (le_refl _)]
  · unfold get_grid
    rw [if_neg (by simp [hgs]), if_neg (by rw [hrk]; omega)]
    unfold grid_at
    rw [hsize, ← hoff i (by omega), hpt i j hi (by rw [hm i hi]; exact hj)]

/-- Witness for C39, on the `(3,3)` sample with uniform grids of 4 and of 3
points: the call succeeds, the packed grid has 7 entries for 6 points, which breaks the
grid invariant, and `get_grid(1,0)` reads the last point of the first uniform grid
where its own first point, 5, is expected. -/
theorem set_grid_ugs_spec_witness :
    ((set_grid_ugs sample33 sample_ugs).raised = none ∧
      is_grid_set (set_grid_ugs sample33 sample_ugs).st = true ∧
      (set_grid_ugs sample33 sample_ugs).st.grid.length =
        offset_of (fun i => (ugs_at sample_ugs i).get_npoints) sample33.rk ∧
      (∀ i j, i < sample33.rk → j < (ugs_at sample_ugs i).get_npoints →
        (set_grid_ugs sample33 sample_ugs).st.grid.getD
          (offset_of (fun i => (ugs_at sample_ugs i).get_npoints) i + j) 0 =
          (ugs_at sample_ugs i).point j) ∧
      ((∀ i, i < sample33.rk → (ugs_at sample_ugs i).get_npoints = sample33.size.getD i 0) →
        grid_inv (set_grid_ugs sample33 sample_ugs).st ∧
        ∀ i j, i < sample33.rk → j < sample33.size.getD i 0 →
          get_grid (set_grid_ugs sample33 sample_ugs).st i j =
            .ok ((ugs_at sample_ugs i).point j))) ∧
    (set_grid_ugs sample33 sample_ugs).st.grid = [0, 1, 2, 3, 5, 6, 7] ∧
    ¬ grid_inv (set_grid_ugs sample33 sample_ugs).st ∧
    get_grid (set_grid_ugs sample33 sample_ugs).st 1 0 = .ok 3 ∧
    (ugs_at sample_ugs 1).point 0 = 5 := by
  have hg : (set_grid_ugs sample33 sample_ugs).st.grid = [0, 1, 2, 3, 5, 6, 7] := by
    simp [set_grid_ugs, sample33, sample_ugs, ugs_at, uniform_grid.get_npoints, fill_grid,
      fill_axis, offset_of, vec_resize, List.range, List.range.loop]
    norm_num
  have hs : (set_grid_ugs sample33 sample_ugs).st.size = [3, 3] := by
    simp [set_grid_ugs, sample33]
  have hk : (set_grid_ugs sample33 sample_ugs).st.rk = 2 := by
    simp [set_grid_ugs, sample33]
  have hgs : (set_grid_ugs sample33 sample_ugs).st.grid_set = true := by
    simp [set_grid_ugs, sample33]
  refine ⟨set_grid_ugs_spec sample33 sample_ugs (by decide), hg, ?_, ?_, ?_⟩
  · intro h
    have h2 := h.2 hgs
    rw [hg, hs, hk] at h2
    revert h2
    decide
  · unfold get_grid grid_at
    rw [hgs, hk, hg, hs]
    simp [istart_of, offset_of, List.range, List.range.loop]
  · simp [sample_ugs, ugs_at]

/-- C37: on a tensor that satisfies the constructor invariants and has its grid set,
`set_val(p,x)` raises nothing, the following `get_val(p)` returns `x`, the data buffer
differs from the old one in the cell of the nearest grid point of `p` at most (the index
`idx[i]` is a point of axis `i` of least distance to `p[i]`, the distances being the
absolute values of the differences as rounded by `fl`, the exact ones when `fl` is the
identity), and rank, sizes, grid and `grid_set` are as before. -/
theorem set_val_then_get_val (fl : ℚ → ℚ) (t : tensor_grid) (p : List ℚ) (x : ℚ) (hv : valid t)
    (hgs : t.grid_set = true) :
    ∃ idx, lookup_indices fl t p (List.range t.rk) = .ok idx ∧
      (∀ i, i < t.rk → idx.getD i 0 < t.size.getD i 0 ∧
        ∀ k, k < t.size.getD i 0 →
          |fl (grid_at t i (idx.getD i 0) - p.getD i 0)| ≤ |fl (grid_at t i k - p.getD i 0)|) ∧
      (set_val fl t p x).raised = none ∧
      get_val fl (set_val fl t p x).st p = .ok x ∧
      (set_val fl t p x).st.data = t.data.set (row_major t.size idx) x ∧
      row_major t.size idx < t.data.length ∧
      (set_val fl t p x).st.rk = t.rk ∧ (set_val fl t p x).st.size = t.size ∧
      (set_val fl t p x).st.grid = t.grid ∧ (set_val fl t p x).st.grid_set = t.grid_set := by
  obtain ⟨hsl, hpos, hdl⟩ := hv
  have hex : ∀ i, i < t.rk → ∃ j, lookup_grid fl t i (p.getD i 0) = .ok j ∧
      j < t.size.getD i 0 ∧ ∀ k, k < t.size.getD i 0 →
        |fl (grid_at t i j - p.getD i 0)| ≤ |fl (grid_at t i k - p.getD i 0)| := by
    intro i hi
    obtain ⟨j, h1, h2, h3, _⟩ := lookup_grid_val_spec fl t i (p.getD i 0) hgs hi (hpos i hi)
    exact ⟨j, lookup_grid_of_val h1, h2, h3⟩
  let f : Nat → Nat := fun i =>
    match lookup_grid fl t i (p.getD i 0) with
    | .ok j => j
    | .error _ => 0
  have hf : ∀ i, i < t.rk → lookup_grid fl t i (p.getD i 0) = .ok (f i) ∧
      f i < t.size.getD i 0 ∧ ∀ k, k < t.size.getD i 0 →
        |fl (grid_at t i (f i) - p.getD i 0)| ≤ |fl (grid_at t i k - p.getD i 0)| := by
    intro i hi
    obtain ⟨j, h1, h2, h3⟩ := hex i hi
    have hfj : f i = j := by
      show (match lookup_grid fl t i (p.getD i 0) with
        | .ok j => j
        | .error _ => 0) = j
      rw [h1]
    rw [hfj]
    exact ⟨h1, h2, h3⟩
  have hidx : lookup_indices fl t p (List.range t.rk) = .ok ((List.range t.rk).map f) :=
    lookup_indices_ok fl t p f _ (fun i hi => (hf i (List.mem_range.mp hi)).1)
  have hget : ∀ i, i < t.rk → ((List.range t.rk).map f).getD i 0 = f i := by
    intro i hi
    rw [List.getD_eq_getElem?_getD, List.getElem?_map, List.getElem?_range hi]
    rfl
  have hpack : pack_index t.size ((List.range t.rk).map f) t.rk =
      row_major t.size ((List.range t.rk).map f) :=
    pack_index_eq_row_major _ _ _ hsl (by simp)
  have hin : row_major t.size ((List.range t.rk).map f) < t.data.length := by
    rw [hdl]
    refine (row_major_in_range t.size _ (by simp [hsl]) (fun k hk => ?_)).1
    rw [hsl] at hk
    rw [hget k hk]
    exact (hf k hk).2.1
  have hset : set_val fl t p x =
      ⟨{ t with data := t.data.set (row_major t.size ((List.range t.rk).map f)) x },
        none⟩ := by
    unfold set_val
    rw [hidx]
    simp only [hpack]
  refine ⟨_, hidx, fun i hi => ?_, ?_, ?_, ?_, hin, ?_, ?_, ?_, ?_⟩
  · rw [hget i hi]
    exact (hf i hi).2
  · rw [hset]
  · rw [hset]
    simp only
    rw [get_val_of_lookups fl
      { t with data := t.data.set (row_major t.size ((List.range t.rk).map f)) x } p f
      (fun i hi => (hf i hi).1)]
    show Except.ok ((t.data.set _ x).getD (pack_index t.size _ t.rk) 0) = _
    rw [hpack, getD_set, if_pos ⟨rfl, hin⟩]
  · rw [hset]
  · rw [hset]
  · rw [hset]
  · rw [hset]
  · rw [hset]

/-- Witness for C37: the `(3,3)` sample, the point `(0.4, 1.7)` and the value 9, in exact
arithmetic. -/
theorem set_val_then_get_val_witness :
    ∃ idx, lookup_indices id sample33 [2 / 5, 17 / 10] (List.range sample33.rk) = .ok idx ∧
      (∀ i, i < sample33.rk → idx.getD i 0 < sample33.size.getD i 0 ∧
        ∀ k, k < sample33.size.getD i 0 →
          |grid_at sample33 i (idx.getD i 0) - ([2 / 5, 17 / 10] : List ℚ).getD i 0| ≤
            |grid_at sample33 i k - ([2 / 5, 17 / 10] : List ℚ).getD i 0|) ∧
      (set_val id sample33 [2 / 5, 17 / 10] 9).raised = none ∧
      get_val id (set_val id sample33 [2 / 5, 17 / 10] 9).st [2 / 5, 17 / 10] = .ok 9 ∧
      (set_val id sample33 [2 / 5, 17 / 10] 9).st.data =
        sample33.data.set (row_major sample33.size idx) 9 ∧
      row_major sample33.size idx < sample33.data.length ∧
      (set_val id sample33 [2 / 5, 17 / 10] 9).st.rk = sample33.rk ∧
      (set_val id sample33 [2 / 5, 17 / 10] 9).st.size = sample33.size ∧
      (set_val id sample33 [2 / 5, 17 / 10] 9).st.grid = sample33.grid ∧
      (set_val id sample33 [2 / 5, 17 / 10] 9).st.grid_set = sample33.grid_set :=
  set_val_then_get_val id sample33 [2 / 5, 17 / 10] 9 (by decide) (by decide)

/-- A loop keeps what each of its rounds keeps. -/
theorem for_loop_keeps {σ : Type} (f : σ → Nat → Except exc σ) (Q : σ → Prop)
    (h : ∀ s i s1, Q s → f s i = .ok s1 → Q s1) :
    ∀ (l : List Nat) (s s1 : σ), Q s → for_loop f l s = .ok s1 → Q s1 := by
  intro l
  induction l with
  | nil =>
    intro s s1 hs hl
    simp only [for_loop, Except.ok.injEq] at hl
    rw [← hl]
    exact hs
  | cons i rest ih =>
    intro s s1 hs hl
    rw [for_loop_cons] at hl
    cases hf : f s i with
    | error e => simp [hf] at hl
    | ok s2 =>
      simp only [hf] at hl
      exact ih s2 s1 (h s i s2 hs hf) hl

/-- The constructor `tensor_grid(rank,dim)` leaves the grid empty and unset. -/
theorem tensor_grid_rank_dim_no_grid (rank : Nat) (dim : List Nat) (t : tensor_grid)
    (h : tensor_grid_rank_dim rank dim = .ok t) : t.grid_set = false ∧ t.grid = [] := by
  unfold tensor_grid_rank_dim at h
  cases h0 : tensor_rank_dim rank dim with
  | error e => simp [h0] at h
  | ok t0 =>
    have hg : t0.grid = [] := by
      unfold tensor_rank_dim at h0
      split at h0
      · simp only [Except.ok.injEq] at h0
        rw [← h0]
        rfl
      · split at h0
        · exact absurd h0 (by simp)
        · simp only [Except.ok.injEq] at h0
          rw [← h0]
          rfl
    simp only [h0] at h
    split at h
    · exact absurd h (by simp)
    · simp only [Except.ok.injEq] at h
      rw [← h]
      exact ⟨rfl, hg⟩

/-- C38: every tensor returned by `rearrange_and_copy` has `is_grid_set()` false and an
empty grid, whatever the source tensor and the spec list are. -/
theorem rearrange_result_no_grid (ext : externals) (t : tensor_grid)
    (spec : List index_spec) (err_on_fail : Bool) (r : tensor_grid)
    (h : rearrange_and_copy ext t spec err_on_fail = .ok r) :
    is_grid_set r = false ∧ r.grid = [] := by
  unfold rearrange_and_copy at h
  cases hc : rearrange_check ext t spec err_on_fail with
  | error x =>
    simp only [hc] at h
    cases x with
    | raised site => simp [exit_result] at h
    | returned_empty =>
      simp only [exit_result, Except.ok.injEq] at h
      rw [← h]
      exact ⟨rfl, rfl⟩
  | ok st =>
    simp only [hc] at h
    cases hn : tensor_grid_rank_dim st.rank_new st.size_new with
    | error e => simp [hn] at h
    | ok t_new =>
      simp only [hn] at h
      have h0 := tensor_grid_rank_dim_no_grid _ _ _ hn
      cases hl : for_loop (cell_step ext t st) (List.range (total_size t_new))
          ⟨t_new, List.replicate st.rank_new 0, List.replicate t.rk 0,
            List.replicate st.sum_sizes.length 0⟩ with
      | error e => simp [hl] at h
      | ok s =>
        simp only [hl, Except.ok.injEq] at h
        rw [← h]
        exact for_loop_keeps (cell_step ext t st)
          (fun s => is_grid_set s.t_new = false ∧ s.t_new.grid = [])
          (fun s i s1 hs hstep => by
            unfold cell_step at hstep
            simp only at hstep
            split at hstep
            · exact absurd hstep (by simp)
            · simp only [Except.ok.injEq] at hstep
              rw [← hstep]
              exact hs) _
          ⟨t_new, List.replicate st.rank_new 0, List.replicate t.rk 0,
            List.replicate st.sum_sizes.length 0⟩ s h0 hl

/-- Witness for C38: the `(3,3)` sample, whose grid is set, with its two axes
exchanged. -/
theorem rearrange_result_no_grid_witness :
    ∃ r, rearrange_and_copy sample_ext sample33
        (axis_spec (fun _ => spec_type.index) (fun m => 1 - m) sample33.rk) true = .ok r ∧
      is_grid_set sample33 = true ∧ is_grid_set r = false ∧ r.grid = [] :=
  ⟨_, rearrange_permute sample_ext sample33 (fun _ => spec_type.index) (fun m => 1 - m)
      (fun j => 1 - j) (by decide) (by decide) (by decide) (by decide) (by simp),
    by decide,
    rearrange_result_no_grid sample_ext sample33 _ true _
      (rearrange_permute sample_ext sample33 (fun _ => spec_type.index) (fun m => 1 - m)
        (fun j => 1 - j) (by decide) (by decide) (by decide) (by decide) (by simp))⟩

/-- A corner has one entry per axis, each 0 or 1. -/
theorem corners_mem (n : Nat) :
    ∀ c, c ∈ corners n → c.length = n ∧ ∀ k, c.getD k 0 < 2 := by
  induction n with
  | zero =>
    intro c hc
    simp only [corners, List.mem_singleton] at hc
    subst hc
    exact ⟨rfl, fun k => by simp⟩
  | succ n ih =>
    intro c hc
    simp only [corners, List.mem_flatMap, List.mem_cons, List.mem_singleton,
      List.not_mem_nil, or_false] at hc
    obtain ⟨c0, h0, h1⟩ := hc
    obtain ⟨l0, k0⟩ := ih c0 h0
    rcases h1 with h1 | h1
    · subst h1
      refine ⟨by simp [l0], fun k => ?_⟩
      rw [getD_snoc]
      split_ifs
      · exact k0 k
      · omega
      · omega
    · subst h1
      refine ⟨by simp [l0], fun k => ?_⟩
      rw [getD_snoc]
      split_ifs
      · exact k0 k
      · omega
      · omega

/-- Every index vector with entries 0 and 1 is a corner. -/
theorem mem_corners (n : Nat) :
    ∀ c : List Nat, c.length = n → (∀ k, k < n → c.getD k 0 < 2) → c ∈ corners n := by
  induction n with
  | zero =>
    intro c hc _
    simp only [corners, List.mem_singleton]
    exact List.length_eq_zero.mp hc
  | succ n ih =>
    intro c hc hlt
    have hne : c ≠ [] := by
      intro h
      rw [h] at hc
      simp at hc
    have hsplit := List.dropLast_append_getLast hne
    have hdl : c.dropLast.length = n := by simp [hc]
    have hlast : c.getLast hne = c.getD n 0 := by
      conv_rhs => rw [← hsplit]
      rw [getD_snoc, if_neg (by omega), if_pos hdl.symm]
    have hin := ih c.dropLast hdl (fun k hk => by
      have := hlt k (by omega)
      rw [← hsplit, getD_snoc, if_pos (by omega)] at this
      exact this)
    simp only [corners, List.mem_flatMap, List.mem_cons, List.mem_singleton,
      List.not_mem_nil, or_false]
    refine ⟨c.dropLast, hin, ?_⟩
    have h2 := hlt n (by omega)
    have h01 : c.getD n 0 = 0 ∨ c.getD n 0 = 1 := by omega
    rcases h01 with h | h
    · left
      rw [← h, ← hlast, hsplit]
    · right
      rw [← h, ← hlast, hsplit]

/-- A sum over the index vectors with one more axis, two at a time. -/
theorem sum_bind_two (G : List Nat → ℚ) (L : List (List Nat)) :
    ((L.flatMap (fun c => [c ++ [0], c ++ [1]])).map G).sum =
      (L.map (fun c => G (c ++ [0]) + G (c ++ [1]))).sum := by
  induction L with
  | nil => rfl
  | cons a L ih =>
    simp only [List.flatMap_cons, List.map_append, List.sum_append, List.map_cons, List.map_nil,
      List.sum_cons, List.sum_nil, ih]
    ring

/-- The product of the weights of an index vector with one more axis. -/
theorem prod_weights_snoc (w : Nat → Nat → ℚ) (c : List Nat) (n b : Nat) (hc : c.length = n) :
    ((List.range (n + 1)).map (fun i => w i ((c ++ [b]).getD i 0))).prod =
      ((List.range n).map (fun i => w i (c.getD i 0))).prod * w n b := by
  rw [List.range_succ, List.map_append, List.prod_append]
  congr 1
  · congr 1
    apply List.map_congr_left
    intro i hi
    rw [getD_snoc, if_pos (by rw [hc]; exact List.mem_range.mp hi)]
  · simp only [List.map_cons, List.map_nil, List.prod_cons, List.prod_nil, mul_one]
    rw [getD_snoc, if_neg (by omega), if_pos hc.symm]

/-- The multilinear sum over one more axis: the last axis is blended first. -/
theorem multilinear_sum_succ (n : Nat) (F : List Nat → ℚ) (w : Nat → Nat → ℚ) :
    multilinear_sum (n + 1) F w =
      multilinear_sum n (fun c => F (c ++ [0]) * w n 0 + F (c ++ [1]) * w n 1) w := by
  unfold multilinear_sum
  rw [show corners (n + 1) = (corners n).flatMap (fun c => [c ++ [0], c ++ [1]]) from rfl,
    sum_bind_two]
  congr 1
  apply List.map_congr_left
  intro c hc
  rw [prod_weights_snoc w c n 0 (corners_mem n c hc).1,
    prod_weights_snoc w c n 1 (corners_mem n c hc).1]
  ring

/-- The multilinear sum reads `F` at the corners and the weights at the indices 0 and 1
only. -/
theorem multilinear_sum_congr (n : Nat) (F G : List Nat → ℚ) (w u : Nat → Nat → ℚ)
    (hF : ∀ c, c ∈ corners n → F c = G c)
    (hw : ∀ i b, i < n → b < 2 → w i b = u i b) :
    multilinear_sum n F w = multilinear_sum n G u := by
  unfold multilinear_sum
  congr 1
  apply List.map_congr_left
  intro c hc
  rw [hF c hc]
  congr 2
  apply List.map_congr_left
  intro i hi
  exact hw i _ (List.mem_range.mp hi) ((corners_mem n c hc).2 i)

/-- With weights that are 1 at the indices of the corner `c` and 0 at the others, the
multilinear sum is the term of `c`. -/
theorem multilinear_sum_corner (n : Nat) :
    ∀ (F : List Nat → ℚ) (w : Nat → Nat → ℚ) (c : List Nat), c.length = n →
      (∀ k, k < n → c.getD k 0 < 2) →
      (∀ i b, i < n → b < 2 → w i b = if b = c.getD i 0 then 1 else 0) →
      multilinear_sum n F w = F c := by
  induction n with
  | zero =>
    intro F w c hc _ _
    rw [List.length_eq_zero.mp hc]
    simp [multilinear_sum, corners]
  | succ n ih =>
    intro F w c hc hlt hw
    have hne : c ≠ [] := by
      intro h
      rw [h] at hc
      simp at hc
    have hsplit := List.dropLast_append_getLast hne
    have hdl : c.dropLast.length = n := by simp [hc]
    have hlast : c.getLast hne = c.getD n 0 := by
      conv_rhs => rw [← hsplit]
      rw [getD_snoc, if_neg (by omega), if_pos hdl.symm]
    have hpre : ∀ k, k < n → c.dropLast.getD k 0 = c.getD k 0 := by
      intro k hk
      conv_rhs => rw [← hsplit]
      rw [getD_snoc, if_pos (by omega)]
    rw [multilinear_sum_succ, ih _ w c.dropLast hdl
      (fun k hk => by rw [hpre k hk]; exact hlt k (by omega))
      (fun i b hi hb => by rw [hpre i hi]; exact hw i b (by omega) hb)]
    rw [hw n 0 (by omega) (by omega), hw n 1 (by omega) (by omega)]
    have h2 := hlt n (by omega)
    have h01 : c.getD n 0 = 0 ∨ c.getD n 0 = 1 := by omega
    rcases h01 with h | h
    · rw [h]
      simp only [if_true, if_neg (show ¬ (1 = 0) by omega), mul_one, mul_zero, add_zero]
      rw [← h, ← hlast, hsplit]
    · rw [h]
      simp only [if_true, if_neg (show ¬ (0 = 1) by omega), mul_one, mul_zero, zero_add]
      rw [← h, ← hlast, hsplit]

/-- The levels of `interp_linear_power_two` on a hypercube return the multilinear form. -/
theorem power_two_levels (v : List ℚ) (n : Nat) :
    ∀ (t : tensor_grid) (fuel : Nat), n + 1 ≤ fuel → hypercube (n + 1) t →
      power_two_loop fuel t v = .ok (multilinear (n + 1) t v) := by
  induction n with
  | zero =>
    intro t fuel hf ⟨h1, h2, _⟩
    obtain ⟨f, rfl⟩ : ∃ f, fuel = f + 1 := ⟨fuel - 1, by omega⟩
    unfold power_two_loop
    rw [if_pos h1]
    congr 1
    simp [multilinear, multilinear_sum, corners, corner_weight, get, h2, row_major, grid_at,
      istart_of, offset_of, List.range, List.range.loop]
    ring
  | succ n ih =>
    intro t fuel hf ⟨h1, h2, h3⟩
    obtain ⟨f, rfl⟩ : ∃ f, fuel = f + 1 := ⟨fuel - 1, by omega⟩
    unfold power_two_loop
    rw [if_neg (by omega)]
    have hg : ∀ j, get_grid t (t.rk - 1) j = .ok (grid_at t (t.rk - 1) j) := by
      intro j
      unfold get_grid
      rw [if_neg (by simp [h3]), if_neg (by omega)]
    simp only [hg]
    obtain ⟨d, hc, hdlen, _⟩ :=
      tensor_grid_rank_dim_twos (n + 1) (n + 2) (by omega) (by omega)
    rw [h1, h2]
    simp only [Nat.add_sub_cancel]
    rw [hc]
    simp only
    obtain ⟨s1, s2, s3, s4, s5, s6, s7⟩ := set_grid_packed_ok
      { rk := n + 1, size := List.replicate (n + 1) 2, data := d, grid := [],
        grid_set := false, itype := itp_linear } t.grid (by simp)
    rw [s1]
    simp only
    generalize hfrac : (v.getD (n + 1) 0 - grid_at t (n + 1) 0) /
      (grid_at t (n + 1) 1 - grid_at t (n + 1) 0) = frac
    generalize htg : (set_grid_packed
      { rk := n + 1, size := List.replicate (n + 1) 2, data := d, grid := [],
        grid_set := false, itype := itp_linear } t.grid).st = tg at s2 s3 s4 s5 s6 s7
    simp only at s2 s3 s4 s6 s7
    obtain ⟨c1, c2, c3, c4⟩ := collapse_last_shape t tg frac
    have hgrid : ∀ k j, k < n + 1 → j < 2 →
        grid_at (collapse_last t tg frac) k j = grid_at t k j := by
      intro k j hk hj
      unfold grid_at
      rw [c2, c3, s3, h2, istart_of_twos _ _ (by omega), istart_of_twos _ _ (by omega)]
      apply s7
      rw [istart_of_twos _ _ (le_refl _)]
      omega
    have hget := collapse_last_get t tg frac n h1 s2 s3 (by rw [s4]; exact hdlen)
    rw [ih (collapse_last t tg frac) f (by omega)
      ⟨by rw [c1, s2], by rw [c2, s3], by rw [c4, s5]⟩]
    congr 1
    unfold multilinear
    rw [multilinear_sum_succ (n + 1)]
    apply multilinear_sum_congr
    · intro c hc
      rw [hget c (corners_mem _ c hc).1 (fun k _ => (corners_mem _ c hc).2 k)]
      simp only [corner_weight, if_true, if_neg (show ¬ (1 = 0) by omega), hfrac]
      ring
    · intro i b hi hb
      unfold corner_weight
      rw [hgrid i 0 hi (by omega), hgrid i 1 hi (by omega)]

/-- C35: on a hypercube of rank `r >= 1` whose two grid values differ on every axis,
`interp_linear_power_two(v)` returns the multilinear form, the sum over the corners `c`
of the value at `c` times the product of the weights `1 - t_i` or `t_i` of its indices;
at a corner of the hypercube it returns the value stored there. -/
theorem power_two_multilinear (r : Nat) (t : tensor_grid) (v : List ℚ) (hr : 1 ≤ r)
    (hc : hypercube r t) (hne : ∀ i, i < r → grid_at t i 0 ≠ grid_at t i 1) :
    interp_linear_power_two t v = .ok (multilinear r t v) ∧
    ∀ c : List Nat, c.length = r → (∀ k, k < r → c.getD k 0 < 2) →
      (∀ i, i < r → v.getD i 0 = grid_at t i (c.getD i 0)) →
      interp_linear_power_two t v = .ok (get t c) := by
  obtain ⟨n, rfl⟩ : ∃ n, r = n + 1 := ⟨r - 1, by omega⟩
  have hm : interp_linear_power_two t v = .ok (multilinear (n + 1) t v) := by
    unfold interp_linear_power_two
    exact power_two_levels v n t _ (by rw [hc.1]; omega) hc
  refine ⟨hm, fun c hlen hlt hv => ?_⟩
  rw [hm]
  congr 1
  unfold multilinear
  apply multilinear_sum_corner (n + 1) (get t) (corner_weight t v) c hlen hlt
  intro i b hi hb
  unfold corner_weight
  rw [hv i hi]
  have hd := hne i hi
  have hd1 : grid_at t i 1 - grid_at t i 0 ≠ 0 := fun h => hd (by linarith)
  have h2 := hlt i hi
  have hb01 : b = 0 ∨ b = 1 := by omega
  have hc01 : c.getD i 0 = 0 ∨ c.getD i 0 = 1 := by omega
  rcases hb01 with hb | hb <;> rcases hc01 with hci | hci <;> rw [hb, hci] <;> simp [hd1]

/-- Witness for C35: the rank-2 hypercube with the values 1, 2, 3, 5 at the point
`(1, 0)`, the corner that holds 3. -/
theorem power_two_multilinear_witness :
    interp_linear_power_two sample_cube2 [1, 0] = .ok (multilinear 2 sample_cube2 [1, 0]) ∧
    ∀ c : List Nat, c.length = 2 → (∀ k, k < 2 → c.getD k 0 < 2) →
      (∀ i, i < 2 → ([1, 0] : List ℚ).getD i 0 = grid_at sample_cube2 i (c.getD i 0)) →
      interp_linear_power_two sample_cube2 [1, 0] = .ok (get sample_cube2 c) :=
  power_two_multilinear 2 sample_cube2 [1, 0] (by decide) ⟨rfl, rfl, rfl⟩ (fun i hi => by
    have h : i = 0 ∨ i = 1 := by omega
    rcases h with h | h <;> subst h <;>
      simp [grid_at, sample_cube2, istart_of, offset_of, List.range, List.range.loop])

/-- The grid of an axis unpacked from its start is the grid of the axis. -/
theorem unpack_grid_eq (t : tensor_grid) (a : Nat) :
    unpack_grid t a (istart_of t.size a) = axis_grid t a := by
  unfold unpack_grid axis_grid grid_at
  apply List.map_congr_left
  intro j _
  rw [Nat.add_comm]

/-- Reading the grid of an axis inside the axis. -/
theorem axis_grid_getD (t : tensor_grid) (a p : Nat) (h : p < t.size.getD a 0) :
    (axis_grid t a).getD p 0 = grid_at t a p := by
  unfold axis_grid
  rw [List.getD_eq_getElem?_getD, List.getElem?_map, List.getElem?_range h]
  rfl

/-- The corner search of `interp_linear_partial` after `m` rounds, with the grid set and
the axes below the rank: it raises nothing, `loc` holds the indices found and `gnew` the
two grid values that follow each of them. -/
theorem partial_corner_loop (ext : externals) (t : tensor_grid) (L : List Nat) (val : List ℚ)
    (hgs : t.grid_set = true) (hL : ∀ j, j < L.length → L.getD j 0 < t.rk)
    (loc0 : List Nat) (hloc0 : loc0.length = L.length) (m : Nat) (hm : m ≤ L.length) :
    ∃ loc gnew, for_loop (partial_corner_step ext t L val) (List.range m) (loc0, []) =
        .ok (loc, gnew) ∧
      loc.length = L.length ∧
      (∀ j, j < m → loc.getD j 0 = ext.find (axis_grid t (L.getD j 0)) (val.getD j 0)) ∧
      gnew.length = 2 * m ∧
      ∀ j e, j < m → e < 2 → gnew.getD (2 * j + e) 0 =
        (axis_grid t (L.getD j 0)).getD
          (ext.find (axis_grid t (L.getD j 0)) (val.getD j 0) + e) 0 := by
  induction m with
  | zero =>
    exact ⟨loc0, [], rfl, hloc0, fun j hj => by omega, rfl, fun j e hj => by omega⟩
  | succ m ih =>
    obtain ⟨loc, gnew, h0, h1, h2, h3, h4⟩ := ih (by omega)
    rw [List.range_succ, for_loop_append, h0]
    simp only [for_loop]
    have hstep : partial_corner_step ext t L val (loc, gnew) m = .ok
        (loc.set m (ext.find (axis_grid t (L.getD m 0)) (val.getD m 0)),
          gnew ++ [(axis_grid t (L.getD m 0)).getD
              (ext.find (axis_grid t (L.getD m 0)) (val.getD m 0)) 0,
            (axis_grid t (L.getD m 0)).getD
              (ext.find (axis_grid t (L.getD m 0)) (val.getD m 0) + 1) 0]) := by
      unfold partial_corner_step
      simp only
      rw [if_neg (by unfold get_rank; have := hL m (by omega); omega),
        grid_one_loop_ok t _ hgs (hL m (by omega))]
      rfl
    rw [hstep]
    refine ⟨_, _, rfl, by simp [h1], fun j hj => ?_, by simp [h3]; omega, fun j e hj he => ?_⟩
    · rw [getD_set]
      by_cases hjm : m = j
      · rw [if_pos ⟨hjm, by omega⟩, hjm]
      · rw [if_neg (fun e => hjm e.1)]
        exact h2 j (by omega)
    · by_cases hjm : j = m
      · rw [List.getD_append_right _ _ _ _ (by omega), h3, hjm]
        have he2 : e = 0 ∨ e = 1 := by omega
        rcases he2 with he2 | he2
        · rw [he2]
          simp
        · rw [he2]
          simp
      · rw [List.getD_append _ _ _ _ (by omega)]
        exact h4 j e (by omega) he

/-- The corner search of `interp_linear_vec` after `m` axes: `rgs` is the start of axis
`m` and `loc` holds the index found on every axis but the free one. -/
theorem free_corner_loop (ext : externals) (t : tensor_grid) (v : List ℚ) (ifree : Nat)
    (loc0 : List Nat) (hloc0 : loc0.length = t.rk) (m : Nat) (hm : m ≤ t.rk) :
    ((List.range m).foldl (free_corner_step ext t v ifree) (0, loc0)).1 = istart_of t.size m ∧
    ((List.range m).foldl (free_corner_step ext t v ifree) (0, loc0)).2.length = t.rk ∧
    ∀ a, ((List.range m).foldl (free_corner_step ext t v ifree) (0, loc0)).2.getD a 0 =
      if a < m ∧ a ≠ ifree then ext.find (axis_grid t a) (v.getD a 0) else loc0.getD a 0 := by
  induction m with
  | zero =>
    refine ⟨by simp [istart_of, offset_of], hloc0, fun a => ?_⟩
    rw [if_neg (by omega)]
    rfl
  | succ m ih =>
    obtain ⟨h1, h2, h3⟩ := ih (by omega)
    rw [List.range_succ, List.foldl_append]
    simp only [List.foldl_cons, List.foldl_nil]
    generalize (List.range m).foldl (free_corner_step ext t v ifree) (0, loc0) = r at h1 h2 h3 ⊢
    unfold free_corner_step
    simp only
    refine ⟨?_, ?_, fun a => ?_⟩
    · rw [h1]
      unfold istart_of
      rw [offset_of_succ]
    · by_cases hmf : m = ifree
      · rw [if_neg (by simp [hmf])]
        exact h2
      · rw [if_pos hmf]
        simp [h2]
    · by_cases hmf : m = ifree
      · rw [if_neg (by simp [hmf]), h3 a]
        by_cases hc : a < m ∧ a ≠ ifree
        · rw [if_pos hc, if_pos ⟨by omega, hc.2⟩]
        · rw [if_neg hc, if_neg]
          intro ⟨c1, c2⟩
          exact hc ⟨by omega, c2⟩
      · rw [if_pos hmf, getD_set, h2]
        by_cases ham : m = a
        · rw [if_pos ⟨ham, by omega⟩, if_pos ⟨by omega, by omega⟩, h1, ← ham, unpack_grid_eq]
        · rw [if_neg (fun e => ham e.1), h3 a]
          by_cases hc : a < m ∧ a ≠ ifree
          · rw [if_pos hc, if_pos ⟨by omega, hc.2⟩]
          · rw [if_neg hc, if_neg]
            intro ⟨c1, c2⟩
            exact hc ⟨by omega, c2⟩

/-- One round of the outer loop of `interp_linear_vec` that fills the remapped grid: the
inner loop finds the old axis `a` of the new axis and appends its grid, whole for the
free axis, the two values that follow `loc[a]` otherwise. -/
theorem remap_grid_round (t : tensor_grid) (v : List ℚ) (ifree : Nat) (map loc : List Nat)
    (new_ix a : Nat) (hgs : t.grid_set = true) (ha : a < t.rk) (hmap : map.getD new_ix 0 = a)
    (s : List ℚ × List ℚ) :
    for_loop (remap_grid_step t v ifree map loc new_ix) (List.range t.rk) s = .ok
      (s.1 ++ (if a = ifree then axis_grid t a
        else [grid_at t a (loc.getD a 0), grid_at t a (loc.getD a 0 + 1)]),
       s.2 ++ [v.getD a 0]) := by
  rw [for_loop_single _ t.rk a ha (fun i _ hia s => by
    unfold remap_grid_step
    rw [if_neg (by rw [hmap]; exact fun e => hia e.symm)])]
  unfold remap_grid_step
  rw [if_pos hmap]
  by_cases haf : a = ifree
  · rw [if_pos haf, if_pos haf, grid_one_loop_ok t a hgs ha]
    rfl
  · rw [if_neg haf, if_neg haf]
    have hg : ∀ j, get_grid t a j = .ok (grid_at t a j) := by
      intro j
      unfold get_grid
      rw [if_neg (by simp [hgs]), if_neg (by omega)]
    simp only [hg]

/-- The corner search of `interp_linear_partial` over all the axes in their order is the
corner search of `interp_linear`, when the grid is set. -/
theorem partial_corner_all (ext : externals) (t : tensor_grid) (v : List ℚ)
    (hgs : t.grid_set = true) (loc0 : List Nat) (m : Nat) (hm : m ≤ t.rk) :
    for_loop (partial_corner_step ext t (List.range t.rk) v) (List.range m) (loc0, []) =
      .ok (((List.range m).foldl (corner_step ext t v) (0, loc0, [])).2.1,
        ((List.range m).foldl (corner_step ext t v) (0, loc0, [])).2.2) ∧
    ((List.range m).foldl (corner_step ext t v) (0, loc0, [])).1 = istart_of t.size m := by
  induction m with
  | zero => exact ⟨rfl, by simp [istart_of, offset_of]⟩
  | succ m ih =>
    obtain ⟨h1, h2⟩ := ih (by omega)
    rw [List.range_succ, for_loop_append, h1, List.foldl_append]
    simp only [List.foldl_cons, List.foldl_nil, for_loop]
    generalize (List.range m).foldl (corner_step ext t v) (0, loc0, []) = c at h2 ⊢
    have hm2 : (List.range t.rk).getD m 0 = m := by
      rw [List.getD_eq_getElem?_getD, List.getElem?_range (by omega)]
      rfl
    have hstep : partial_corner_step ext t (List.range t.rk) v (c.2.1, c.2.2) m =
        .ok ((corner_step ext t v c m).2.1, (corner_step ext t v c m).2.2) := by
      unfold partial_corner_step corner_step
      simp only [hm2]
      rw [if_neg (by unfold get_rank; omega), grid_one_loop_ok t m hgs (by omega), h2,
        unpack_grid_eq]
      rfl
    rw [hstep]
    refine ⟨rfl, ?_⟩
    unfold corner_step
    simp only
    rw [h2]
    unfold istart_of
    rw [offset_of_succ]

/-- Writing every position of a vector in turn gives the vector of the values written. -/
theorem scatter_all (n : Nat) (w : Nat → Nat) (a : List Nat) (ha : a.length = n) :
    (List.range n).foldl (fun io j => io.set ((List.range n).getD j 0) (w j)) a =
      (List.range n).map w := by
  obtain ⟨s1, s2, _⟩ := scatter_spec (List.range n) (List.nodup_range n) w a
    (fun j hj => by
      rw [List.length_range] at hj
      rw [List.getD_eq_getElem?_getD, List.getElem?_range hj, ha]
      exact hj) n (by simp)
  apply list_ext_getD
  · rw [s1, ha]
    simp
  · intro k hk
    rw [s1, ha] at hk
    have hk2 : (List.range n).getD k 0 = k := by
      rw [List.getD_eq_getElem?_getD, List.getElem?_range hk]
      rfl
    have := s2 k hk
    rw [hk2] at this
    rw [this, getD_map_range w n k hk]

/-- The copy loop of `interp_linear_partial` over all the axes in their order fills the
hypercube as the copy loop of `interp_linear` does, whatever the index vector holds. -/
theorem copy_partial_all (t tn : tensor_grid) (loc ix : List Nat) (hix : ix.length = t.rk) :
    ( copy_partial t (List.range t.rk) loc (tn, ix)).1 = copy_corner t tn loc := by
  unfold copy_partial copy_corner
  simp only [List.length_range]
  refine (foldl_sim (fun (s : tensor_grid × List Nat) (m : tensor_grid) =>
    s.1 = m ∧ s.2.length = t.rk) _ _ (fun s m i hsm => ?_) _ (tn, ix) tn ⟨rfl, hix⟩).1
  obtain ⟨e1, e2⟩ := hsm
  simp only
  rw [scatter_all t.rk _ s.2 e2, fold_set_replicate, e1]
  exact ⟨rfl, by simp⟩

/-- C36: when the grid is set, `interp_linear_partial` with `ix_to_interp = [0, ...,
rank-1]`, an index vector of length `rank` and the values `v` returns what
`interp_linear(v)` returns, for every point `v` with `rank` coordinates. -/
theorem partial_all_axes_eq_interp_linear (ext : externals) (t : tensor_grid) (v : List ℚ)
    (ix : List Nat) (hgs : t.grid_set = true) (hv : v.length = t.rk)
    (hix : ix.length = t.rk) :
    interp_linear_partial ext t (List.range t.rk) ix v = interp_linear ext t v := by
  by_cases hr : t.rk = 0
  · unfold interp_linear_partial interp_linear
    rw [if_neg (by simp [hv]), if_pos (Or.inr (by simp [hr]))]
    simp [hr, tensor_grid_rank_dim, tensor_rank_dim, set_grid_packed, tensor_default]
  · unfold interp_linear_partial interp_linear
    rw [if_neg (by simp [hv]), if_neg (by unfold get_rank; simp; omega)]
    simp only [List.length_range]
    rw [(partial_corner_all ext t v hgs (List.replicate t.rk 0) t.rk (le_refl _)).1]
    simp only
    cases hc : tensor_grid_rank_dim t.rk (List.replicate t.rk 2) with
    | error e => rfl
    | ok tnew0 =>
      simp only
      cases hs : (set_grid_packed tnew0 ((List.range t.rk).foldl (corner_step ext t v)
          (0, List.replicate t.rk 0, [])).2.2).raised with
      | some e => rfl
      | none =>
        simp only
        rw [copy_partial_all t _ _ ix hix]

/-- Witness for C36: the `(3,3)` sample at the point `(0.5, 1.5)` with the index vector
`(2, 0)`. -/
theorem partial_all_axes_eq_interp_linear_witness :
    interp_linear_partial sample_ext sample33 (List.range sample33.rk) [2, 0] [1 / 2, 3 / 2] =
      interp_linear sample_ext sample33 [1 / 2, 3 / 2] :=
  partial_all_axes_eq_interp_linear sample_ext sample33 [1 / 2, 3 / 2] [2, 0] (by decide)
    (by decide) (by decide)

/-- The axes other than `ifree`: the `k`th of them is `k` before `ifree` and `k+1` from
`ifree` on. -/
theorem other_axes_spec (rk ifree : Nat) (h : ifree < rk) :
    (other_axes rk ifree).length = rk - 1 ∧
    (∀ k, k < rk - 1 →
      (other_axes rk ifree).getD k 0 = if k < ifree then k else k + 1) ∧
    (∀ k, k < rk - 1 → (other_axes rk ifree).getD k 0 < rk ∧
      (other_axes rk ifree).getD k 0 ≠ ifree) ∧
    (∀ a, a < rk → a ≠ ifree → ∃ k, k < rk - 1 ∧ (other_axes rk ifree).getD k 0 = a) ∧
    (other_axes rk ifree).Nodup ∧
    free_map rk ifree = ifree :: other_axes rk ifree := by
  have hg : ∀ k, k < rk - 1 →
      (other_axes rk ifree).getD k 0 = if k < ifree then k else k + 1 := by
    intro k hk
    unfold other_axes
    rw [others_eq rk ifree h, List.getD_eq_getElem?_getD, List.getElem?_map,
      List.getElem?_range hk]
    rfl
  refine ⟨by unfold other_axes; rw [others_eq rk ifree h]; simp, hg, fun k hk => ?_,
    fun a ha hne => ?_, ?_, ?_⟩
  · rw [hg k hk]
    split_ifs <;> constructor <;> omega
  · by_cases hlt : a < ifree
    · exact ⟨a, by omega, by rw [hg a (by omega), if_pos hlt]⟩
    · exact ⟨a - 1, by omega, by rw [hg (a - 1) (by omega), if_neg (by omega)]; omega⟩
  · unfold other_axes
    exact (List.nodup_range rk).filter _
  · unfold other_axes
    exact free_map_eq rk ifree

/-- The double loop of `interp_linear_vec` that fills the remapped grid and point: the
grid of the free axis comes first, then the two grid values that follow `loc` on each
other axis; the point holds the coordinates in the same order. -/
theorem remap_grid_loop (t : tensor_grid) (v : List ℚ) (ifree : Nat) (loc : List Nat)
    (hgs : t.grid_set = true) (hif : ifree < t.rk) :
    ∃ gnew vnew,
      for_loop (fun s new_ix =>
        for_loop (remap_grid_step t v ifree (free_map t.rk ifree) loc new_ix)
          (List.range t.rk) s) (List.range t.rk) ([], []) = .ok (gnew, vnew) ∧
      gnew.length = t.size.getD ifree 0 + 2 * (t.rk - 1) ∧
      (∀ p, p < t.size.getD ifree 0 → gnew.getD p 0 = grid_at t ifree p) ∧
      (∀ k e, k < t.rk - 1 → e < 2 →
        gnew.getD (t.size.getD ifree 0 + (2 * k + e)) 0 =
          grid_at t ((other_axes t.rk ifree).getD k 0)
            (loc.getD ((other_axes t.rk ifree).getD k 0) 0 + e)) ∧
      (∀ k, k < t.rk - 1 → vnew.getD (k + 1) 0 = v.getD ((other_axes t.rk ifree).getD k 0) 0) := by
  obtain ⟨o1, o2, o3, o4, o5, o6⟩ := other_axes_spec t.rk ifree hif
  have hmap0 : (free_map t.rk ifree).getD 0 0 = ifree := by rw [o6]; rfl
  have hmapk : ∀ k, (free_map t.rk ifree).getD (k + 1) 0 = (other_axes t.rk ifree).getD k 0 := by
    intro k
    rw [o6]
    rfl
  have hrange : List.range t.rk = 0 :: (List.range (t.rk - 1)).map Nat.succ := by
    obtain ⟨d, hd⟩ : ∃ d, t.rk = d + 1 := ⟨t.rk - 1, by omega⟩
    rw [hd, List.range_succ_eq_map]
    rfl
  have hrest : ∀ m, m ≤ t.rk - 1 → ∀ (g0 : List ℚ) (w0 : List ℚ), w0.length = 1 →
      ∃ g w, for_loop (fun s k =>
          for_loop (remap_grid_step t v ifree (free_map t.rk ifree) loc (Nat.succ k))
            (List.range t.rk) s) (List.range m) (g0, w0) = .ok (g, w) ∧
        g.length = g0.length + 2 * m ∧ (∀ p, p < g0.length → g.getD p 0 = g0.getD p 0) ∧
        (∀ k e, k < m → e < 2 → g.getD (g0.length + (2 * k + e)) 0 =
          grid_at t ((other_axes t.rk ifree).getD k 0)
            (loc.getD ((other_axes t.rk ifree).getD k 0) 0 + e)) ∧
        w.length = 1 + m ∧
        (∀ k, k < m → w.getD (k + 1) 0 = v.getD ((other_axes t.rk ifree).getD k 0) 0) := by
    intro m
    induction m with
    | zero =>
      intro _ g0 w0 hw0
      exact ⟨g0, w0, rfl, rfl, fun p _ => rfl, fun k e hk => by omega, by rw [hw0],
        fun k hk => by omega⟩
    | succ m ih =>
      intro hm g0 w0 hw0
      obtain ⟨g, w, h0, h1, h2, h3, h4, h5⟩ := ih (by omega) g0 w0 hw0
      rw [List.range_succ, for_loop_append, h0]
      simp only
      rw [for_loop_cons, remap_grid_round t v ifree (free_map t.rk ifree) loc (Nat.succ m)
        ((other_axes t.rk ifree).getD m 0) hgs (o3 m (by omega)).1 (hmapk m) (g, w)]
      simp only [for_loop]
      rw [if_neg (o3 m (by omega)).2]
      refine ⟨_, _, rfl, by simp [h1]; omega, fun p hp => ?_, fun k e hk he => ?_,
        by rw [List.length_append, h4]; rfl, fun k hk => ?_⟩
      · rw [List.getD_append _ _ _ _ (by omega)]
        exact h2 p hp
      · by_cases hkm : k = m
        · rw [List.getD_append_right _ _ _ _ (by omega)]
          have hidx : g0.length + (2 * k + e) - g.length = e := by omega
          rw [hidx, hkm]
          have he2 : e = 0 ∨ e = 1 := by omega
          rcases he2 with he2 | he2
          · rw [he2]
            rfl
          · rw [he2]
            rfl
        · rw [List.getD_append _ _ _ _ (by omega)]
          exact h3 k e (by omega) he
      · by_cases hkm : k = m
        · rw [List.getD_append_right _ _ _ _ (by omega)]
          have hidx : k + 1 - w.length = 0 := by omega
          rw [hidx, hkm]
          rfl
        · rw [List.getD_append _ _ _ _ (by omega)]
          exact h5 k (by omega)
  have hlen0 : (axis_grid t ifree).length = t.size.getD ifree 0 := by
    unfold axis_grid
    simp
  obtain ⟨g, w, h0, h1, h2, h3, h4, h5⟩ := hrest (t.rk - 1) (le_refl _)
    (axis_grid t ifree) [v.getD ifree 0] rfl
  refine ⟨g, w, ?_, by rw [h1, hlen0], fun p hp => ?_, fun k e hk he => ?_, h5⟩
  · have hloop : ∀ (F : List ℚ × List ℚ → Nat → Except exc (List ℚ × List ℚ)),
        for_loop F (List.range t.rk) ([], []) =
          for_loop F (0 :: (List.range (t.rk - 1)).map Nat.succ) ([], []) := by
      intro F
      rw [hrange]
    rw [hloop (fun s new_ix =>
        for_loop (remap_grid_step t v ifree (free_map t.rk ifree) loc new_ix)
          (List.range t.rk) s), for_loop_cons,
      remap_grid_round t v ifree (free_map t.rk ifree) loc 0 ifree hgs hif hmap0 ([], [])]
    simp only [if_true, List.nil_append]
    rw [for_loop_map]
    exact h0
  · rw [h2 p (by rw [hlen0]; exact hp), axis_grid_getD t ifree p hp]
  · rw [← hlen0]
    exact h3 k e hk he

/-- The copy loop of `interp_linear_vec` changes the data buffer of the new tensor only,
and keeps its length. -/
theorem copy_free_shape (t tnew : tensor_grid) (map loc : List Nat) :
    (copy_free t tnew map loc).rk = tnew.rk ∧ (copy_free t tnew map loc).size = tnew.size ∧
    (copy_free t tnew map loc).grid = tnew.grid ∧
    (copy_free t tnew map loc).grid_set = tnew.grid_set := by
  unfold copy_free
  refine foldl_inv (fun tn => tn.rk = tnew.rk ∧ tn.size = tnew.size ∧ tn.grid = tnew.grid ∧
    tn.grid_set = tnew.grid_set) _ (fun s i hs => ?_) _ tnew ⟨rfl, rfl, rfl, rfl⟩
  exact hs

/-- The cell `c` of the tensor filled by the copy loop of `interp_linear_vec`. -/
theorem copy_free_get (t tn : tensor_grid) (map loc : List Nat) (S : List Nat)
    (hsize : tn.size = S) (hrk : tn.rk ≠ 0) (hlen : tn.data.length = S.prod)
    (hr : t.rk = S.length) (c : List Nat) (hc : c.length = S.length)
    (hlt : ∀ k, k < S.length → c.getD k 0 < S.getD k 0) :
    get (copy_free t tn map loc) c =
      get t ((List.range t.rk).foldl
        (fun io j => io.set (map.getD j 0) (c.getD j 0 + loc.getD (map.getD j 0) 0))
        (List.replicate t.rk 0)) :=
  fill_cells_get tn S hsize hrk hlen t.rk hr
    (fun idx => get t ((List.range t.rk).foldl
      (fun io j => io.set (map.getD j 0) (idx.getD j 0 + loc.getD (map.getD j 0) 0))
      (List.replicate t.rk 0))) c hc hlt

/-- Overwriting the entries listed leaves the other entries and the length as they
are. -/
theorem overwrite_loop_miss (l : List Nat) (w : Nat → Nat) (m : Nat) (a : List Nat) :
    ((List.range m).foldl (fun ix j => ix.set (l.getD j 0) (w j)) a).length = a.length ∧
    ∀ k, (∀ j, j < m → l.getD j 0 ≠ k) →
      ((List.range m).foldl (fun ix j => ix.set (l.getD j 0) (w j)) a).getD k 0 =
        a.getD k 0 := by
  induction m with
  | zero => exact ⟨rfl, fun k _ => rfl⟩
  | succ m ih =>
    rw [List.range_succ, List.foldl_append]
    simp only [List.foldl_cons, List.foldl_nil]
    refine ⟨by rw [List.length_set]; exact ih.1, fun k hk => ?_⟩
    rw [getD_set, if_neg (fun h => hk m (by omega) h.1)]
    exact ih.2 k (fun j hj => hk j (by omega))

/-- The cell `c` of the hypercube filled by the copy loop of `interp_linear_partial`: the
cell of `t` whose indices are those of `ix`, overwritten at the interpolated axes. -/
theorem copy_partial_get (t tn : tensor_grid) (L loc ix : List Nat)
    (hsize : tn.size = List.replicate L.length 2) (hrk : tn.rk ≠ 0)
    (hlen : tn.data.length = (List.replicate L.length 2).prod) (c : List Nat)
    (hc : c.length = L.length) (hlt : ∀ k, k < L.length → c.getD k 0 < 2) :
    get ( copy_partial t L loc (tn, ix)).1 c =
      get t ((List.range L.length).foldl
        (fun ix j => ix.set (L.getD j 0) (c.getD j 0 + loc.getD j 0)) ix) := by
  have hsim := foldl_sim
    (fun (s : tensor_grid × List Nat) (m : tensor_grid) => s.1 = m ∧
      s.2.length = ix.length ∧
      ∀ k, (∀ j, j < L.length → L.getD j 0 ≠ k) → s.2.getD k 0 = ix.getD k 0)
    (fun (s : tensor_grid × List Nat) i =>
      (set s.1 (write_front (List.replicate L.length 0) (unpack_index s.1.size i))
        (get t ((List.range L.length).foldl (fun ix j => ix.set (L.getD j 0)
          ((write_front (List.replicate L.length 0) (unpack_index s.1.size i)).getD j 0 +
            loc.getD j 0)) s.2)),
       (List.range L.length).foldl (fun ix j => ix.set (L.getD j 0)
          ((write_front (List.replicate L.length 0) (unpack_index s.1.size i)).getD j 0 +
            loc.getD j 0)) s.2))
    (fun (tn : tensor_grid) i =>
      set tn (write_front (List.replicate L.length 0) (unpack_index tn.size i))
        ((fun idx => get t ((List.range L.length).foldl
          (fun ix j => ix.set (L.getD j 0) (idx.getD j 0 + loc.getD j 0)) ix))
          (write_front (List.replicate L.length 0) (unpack_index tn.size i))))
    (fun s m i hsm => by
      obtain ⟨e1, e2, e3⟩ := hsm
      obtain ⟨m1, m2⟩ := overwrite_loop_miss L
        (fun j => (write_front (List.replicate L.length 0) (unpack_index s.1.size i)).getD j 0 +
          loc.getD j 0) L.length s.2
      obtain ⟨a1, a2⟩ := overwrite_loop_agree L
        (fun j => (write_front (List.replicate L.length 0) (unpack_index s.1.size i)).getD j 0 +
          loc.getD j 0) L.length s.2 ix e2
        (fun k => ∀ j, j < L.length → L.getD j 0 ≠ k) e3
      have heq : (List.range L.length).foldl (fun ix j => ix.set (L.getD j 0)
          ((write_front (List.replicate L.length 0) (unpack_index s.1.size i)).getD j 0 +
            loc.getD j 0)) s.2 =
          (List.range L.length).foldl (fun ix j => ix.set (L.getD j 0)
          ((write_front (List.replicate L.length 0) (unpack_index s.1.size i)).getD j 0 +
            loc.getD j 0)) ix := by
        apply list_ext_getD _ _ a1
        intro k _
        apply a2
        by_cases h : ∃ j, j < L.length ∧ L.getD j 0 = k
        · exact Or.inr h
        · left
          intro j hj hjk
          exact h ⟨j, hj, hjk⟩
      refine ⟨?_, by rw [m1, e2], fun k hk => by rw [m2 k hk]; exact e3 k hk⟩
      simp only
      rw [heq, e1])
    (List.range (total_size tn)) (tn, ix) tn ⟨rfl, rfl, fun _ _ => rfl⟩
  have hfill := fill_cells_get tn (List.replicate L.length 2) hsize hrk hlen L.length
    (by simp) (fun idx => get t ((List.range L.length).foldl
      (fun ix j => ix.set (L.getD j 0) (idx.getD j 0 + loc.getD j 0)) ix)) c
    (by simpa using hc) (fun k hk => by
      rw [List.length_replicate] at hk
      have h2 : (List.replicate L.length 2).getD k 0 = 2 := by
        simp [List.getD_eq_getElem?_getD, List.getElem?_replicate, hk]
      rw [h2]
      exact hlt k hk)
  unfold copy_partial
  exact hsim.1 ▸ hfill

/-- The cell of `t` read by the copy loop of `interp_linear_vec` for the new cell
`i :: c` is the cell read by the copy loop of `interp_linear_partial` over the other
axes for the cell `c`, with the free axis at `i`. -/
theorem free_index_eq (rk ifree i : Nat) (c loc locP ix : List Nat) (hif : ifree < rk)
    (hix : ix.length = rk) (hloc0 : loc.getD ifree 0 = 0)
    (hloc : ∀ k, k < rk - 1 →
      loc.getD ((other_axes rk ifree).getD k 0) 0 = locP.getD k 0) :
    (List.range rk).foldl
      (fun io j => io.set ((free_map rk ifree).getD j 0)
        ((i :: c).getD j 0 + loc.getD ((free_map rk ifree).getD j 0) 0))
      (List.replicate rk 0) =
    (List.range (other_axes rk ifree).length).foldl
      (fun ix j => ix.set ((other_axes rk ifree).getD j 0) (c.getD j 0 + locP.getD j 0))
      (ix.set ifree i) := by
  obtain ⟨o1, o2, o3, o4, o5, o6⟩ := other_axes_spec rk ifree hif
  have hnd : (free_map rk ifree).Nodup := by
    rw [o6, List.nodup_cons]
    refine ⟨fun h => ?_, o5⟩
    unfold other_axes at h
    simp at h
  have hml : (free_map rk ifree).length = rk := by
    rw [o6, List.length_cons, o1]
    omega
  have hmk : ∀ k, (free_map rk ifree).getD (k + 1) 0 = (other_axes rk ifree).getD k 0 := by
    intro k
    rw [o6]
    rfl
  have hm0 : (free_map rk ifree).getD 0 0 = ifree := by rw [o6]; rfl
  obtain ⟨f1, f2, _⟩ := scatter_spec (free_map rk ifree) hnd
    (fun j => (i :: c).getD j 0 + loc.getD ((free_map rk ifree).getD j 0) 0)
    (List.replicate rk 0) (fun j hj => by
      rw [hml] at hj
      rw [List.length_replicate]
      cases j with
      | zero => rw [hm0]; exact hif
      | succ k => rw [hmk k]; exact (o3 k (by omega)).1) rk (by rw [hml])
  obtain ⟨p1, p2, p3⟩ := scatter_spec (other_axes rk ifree) o5
    (fun j => c.getD j 0 + locP.getD j 0) (ix.set ifree i) (fun j hj => by
      rw [o1] at hj
      rw [List.length_set, hix]
      exact (o3 j hj).1) (other_axes rk ifree).length (le_refl _)
  apply list_ext_getD
  · rw [f1, p1, List.length_replicate, List.length_set, hix]
  · intro a ha
    rw [f1, List.length_replicate] at ha
    by_cases haf : a = ifree
    · rw [haf]
      have e1 := f2 0 (by omega)
      rw [hm0] at e1
      rw [e1, p3 ifree (fun j hj => by
        rw [o1] at hj
        exact (o3 j hj).2), getD_set, if_pos ⟨rfl, by rw [hix]; exact hif⟩, hloc0]
      rfl
    · obtain ⟨k, hk, hka⟩ := o4 a ha haf
      have e1 := f2 (k + 1) (by omega)
      rw [hmk k, hka] at e1
      have e2 := p2 k (by rw [o1]; exact hk)
      rw [hka] at e2
      rw [e1, e2, ← hka, hloc k hk]
      rfl

/-- Reading a vector of values taken at the entries of a list. -/
theorem map_getD_rat (L : List Nat) (f : Nat → ℚ) (k : Nat) (hk : k < L.length) :
    (L.map f).getD k 0 = f (L.getD k 0) := by
  rw [List.getD_eq_getElem?_getD, List.getD_eq_getElem?_getD, List.getElem?_map,
    List.getElem?_eq_getElem hk]
  rfl

/-- The copy loop of `interp_linear_partial` leaves the grid of the hypercube as it
is. -/
theorem copy_partial_grid (t : tensor_grid) (ix_to_interp loc : List Nat)
    (s : tensor_grid × List Nat) :
    ( copy_partial t ix_to_interp loc s).1.grid = s.1.grid := by
  unfold copy_partial
  refine foldl_inv (fun (s1 : tensor_grid × List Nat) => s1.1.grid = s.1.grid) _
    (fun s1 i hs => ?_) _ s rfl
  exact hs

/-- What `interp_linear_partial` over the axes other than `ifree` computes, when the grid
is set: the levels of `interp_linear_power_two` on a hypercube whose grid holds the two
values that follow the index found on each axis and whose cell `c` is the cell of `t` with
the indices of `ix`, overwritten on the other axes by `c[k]` plus the index found. -/
theorem partial_others_spec (ext : externals) (t : tensor_grid) (v : List ℚ) (ifree : Nat)
    (hr : 2 ≤ t.rk) (hif : ifree < t.rk) (hgs : t.grid_set = true) :
    ∃ locP : List Nat,
      (∀ k, k < t.rk - 1 → locP.getD k 0 =
        ext.find (axis_grid t ((other_axes t.rk ifree).getD k 0))
          (v.getD ((other_axes t.rk ifree).getD k 0) 0)) ∧
      ∀ ix : List Nat, ∃ H : tensor_grid,
        interp_linear_partial ext t (other_axes t.rk ifree) ix
          ((other_axes t.rk ifree).map (fun a => v.getD a 0)) =
          interp_linear_power_two H ((other_axes t.rk ifree).map (fun a => v.getD a 0)) ∧
        hypercube (t.rk - 1) H ∧
        (∀ k e, k < t.rk - 1 → e < 2 → H.grid.getD (2 * k + e) 0 =
          (axis_grid t ((other_axes t.rk ifree).getD k 0)).getD (locP.getD k 0 + e) 0) ∧
        ∀ c : List Nat, c.length = t.rk - 1 → (∀ k, k < t.rk - 1 → c.getD k 0 < 2) →
          get H c = get t ((List.range (other_axes t.rk ifree).length).foldl
            (fun ix j => ix.set ((other_axes t.rk ifree).getD j 0)
              (c.getD j 0 + locP.getD j 0)) ix) := by
  obtain ⟨o1, o2, o3, o4, o5, o6⟩ := other_axes_spec t.rk ifree hif
  obtain ⟨locP, gnewP, hloop, l1, l2, l3, l4⟩ := partial_corner_loop ext t
    (other_axes t.rk ifree) ((other_axes t.rk ifree).map (fun a => v.getD a 0)) hgs
    (fun j hj => (o3 j (by rw [o1] at hj; exact hj)).1)
    (List.replicate (other_axes t.rk ifree).length 0) (by simp)
    (other_axes t.rk ifree).length (le_refl _)
  have hval : ∀ k, k < t.rk - 1 →
      ((other_axes t.rk ifree).map (fun a => v.getD a 0)).getD k 0 =
        v.getD ((other_axes t.rk ifree).getD k 0) 0 :=
    fun k hk => map_getD_rat _ _ k (by rw [o1]; exact hk)
  have hlocP : ∀ k, k < t.rk - 1 → locP.getD k 0 =
      ext.find (axis_grid t ((other_axes t.rk ifree).getD k 0))
        (v.getD ((other_axes t.rk ifree).getD k 0) 0) := by
    intro k hk
    rw [l2 k (by rw [o1]; exact hk), hval k hk]
  refine ⟨locP, hlocP, fun ix => ?_⟩
  obtain ⟨d, hc, hdlen, _⟩ := tensor_grid_rank_dim_twos (other_axes t.rk ifree).length
    (other_axes t.rk ifree).length (by rw [o1]; omega) (le_refl _)
  obtain ⟨s1, s2, s3, s4, s5, s6, s7⟩ := set_grid_packed_ok
    { rk := (other_axes t.rk ifree).length,
      size := List.replicate (other_axes t.rk ifree).length 2, data := d, grid := [],
      grid_set := false, itype := itp_linear } gnewP (by simp only; rw [o1]; omega)
  simp only at s2 s3 s4 s6 s7
  obtain ⟨c1, c2, c3⟩ := copy_partial_shape t (other_axes t.rk ifree) locP
    ((set_grid_packed
      { rk := (other_axes t.rk ifree).length,
        size := List.replicate (other_axes t.rk ifree).length 2, data := d, grid := [],
        grid_set := false, itype := itp_linear } gnewP).st, ix)
  have c4 := copy_partial_grid t (other_axes t.rk ifree) locP
    ((set_grid_packed
      { rk := (other_axes t.rk ifree).length,
        size := List.replicate (other_axes t.rk ifree).length 2, data := d, grid := [],
        grid_set := false, itype := itp_linear } gnewP).st, ix)
  simp only at c1 c2 c3 c4
  refine ⟨( copy_partial t (other_axes t.rk ifree) locP
    ((set_grid_packed
      { rk := (other_axes t.rk ifree).length,
        size := List.replicate (other_axes t.rk ifree).length 2, data := d, grid := [],
        grid_set := false, itype := itp_linear } gnewP).st, ix)).1, ?_, ?_, ?_, ?_⟩
  · unfold interp_linear_partial
    rw [if_neg (by simp), if_neg (by unfold get_rank; rw [o1]; omega), hloop]
    simp only
    rw [hc]
    simp only
    rw [s1]
  · exact ⟨by rw [c1, s2, o1], by rw [c2, s3, o1], by rw [c3, s5]⟩
  · intro k e hk he
    rw [c4, s7 (2 * k + e) (by
      rw [istart_of_twos _ _ (le_refl _), o1]
      omega), l4 k e (by rw [o1]; exact hk) he, ← l2 k (by rw [o1]; exact hk)]
  · intro c hcl hclt
    exact copy_partial_get t _ (other_axes t.rk ifree) locP ix s3
      (by rw [s2, o1]; omega) (by rw [s4, hdlen, prod_replicate_two]) c
      (by rw [hcl, o1]) (fun k hk => hclt k (by rw [o1] at hk; exact hk))

/-- What `interp_linear_vec` computes, when the grid is set: the levels of
`interp_linear_power_two_vec0` on a tensor with the free axis in front and two points on
the other axes, whose grid holds the two grid values that follow the index found on each
of them and whose cell `i :: c` is the cell of `t` with `i` on the free axis and `c[k]`
plus the index found on the others. -/
theorem vec_free_spec (ext : externals) (t : tensor_grid) (v : List ℚ) (ifree : Nat)
    (res : List ℚ) (hr : 2 ≤ t.rk) (hif : ifree < t.rk) (hgs : t.grid_set = true)
    (hpos : 0 < t.size.getD ifree 0) :
    ∃ (T : tensor_grid) (vnew : List ℚ) (loc : List Nat),
      interp_linear_vec ext t v ifree res = interp_linear_power_two_vec0 T vnew res ∧
      T.rk = t.rk ∧ T.size = t.size.getD ifree 0 :: List.replicate (t.rk - 1) 2 ∧
      T.grid_set = true ∧ loc.getD ifree 0 = 0 ∧
      (∀ a, a < t.rk → a ≠ ifree →
        loc.getD a 0 = ext.find (axis_grid t a) (v.getD a 0)) ∧
      (∀ k e, k < t.rk - 1 → e < 2 →
        T.grid.getD (t.size.getD ifree 0 + (2 * k + e)) 0 =
          grid_at t ((other_axes t.rk ifree).getD k 0)
            (loc.getD ((other_axes t.rk ifree).getD k 0) 0 + e)) ∧
      (∀ k, k < t.rk - 1 →
        vnew.getD (k + 1) 0 = v.getD ((other_axes t.rk ifree).getD k 0) 0) ∧
      ∀ (i : Nat) (c : List Nat), i < t.size.getD ifree 0 → c.length = t.rk - 1 →
        (∀ k, k < t.rk - 1 → c.getD k 0 < 2) →
        get T (i :: c) = get t ((List.range t.rk).foldl
          (fun io j => io.set ((free_map t.rk ifree).getD j 0)
            ((i :: c).getD j 0 + loc.getD ((free_map t.rk ifree).getD j 0) 0))
          (List.replicate t.rk 0)) := by
  obtain ⟨m, hm⟩ : ∃ m, t.rk = m + 1 := ⟨t.rk - 1, by omega⟩
  obtain ⟨f1, f2, f3⟩ := free_corner_loop ext t v ifree
    ((List.replicate t.rk 0).set ifree 0) (by simp) t.rk (le_refl _)
  generalize hloc : ((List.range t.rk).foldl (free_corner_step ext t v ifree)
    (0, (List.replicate t.rk 0).set ifree 0)).2 = loc at f2 f3
  obtain ⟨gnew, vnew, g0, g1, g2, g3, g4⟩ := remap_grid_loop t v ifree loc hgs hif
  have hsn : (List.range t.rk).foldl (fun s i => if i ≠ ifree then s ++ [2] else s)
      [t.size.getD ifree 0] = t.size.getD ifree 0 :: List.replicate (t.rk - 1) 2 :=
    free_sizes_eq t.rk ifree _ hif
  have hdim : tensor_grid_rank_dim t.rk
      (t.size.getD ifree 0 :: List.replicate (t.rk - 1) 2) = .ok
      { rk := t.rk, size := t.size.getD ifree 0 :: List.replicate (t.rk - 1) 2,
        data := List.replicate (t.size.getD ifree 0 * 2 ^ (t.rk - 1)) 0, grid := [],
        grid_set := false, itype := itp_linear } := by
    rw [tensor_grid_rank_dim_ok t.rk _ (by omega) (fun i hi => by
      cases i with
      | zero => exact hpos
      | succ k =>
        show 0 < (List.replicate (t.rk - 1) 2).getD k 0
        rw [getD_replicate_two _ _ (by omega)]
        omega), foldl_prod_range]
    have h1 : (List.range t.rk).map
        (fun i => (t.size.getD ifree 0 :: List.replicate (t.rk - 1) 2).getD i 0) =
        t.size.getD ifree 0 :: List.replicate (t.rk - 1) 2 := by
      have := sizes_free_take (t.size.getD ifree 0) (t.rk - 1) (t.rk - 1) (le_refl _)
      rw [show t.rk - 1 + 1 = t.rk by omega] at this
      exact this
    rw [h1, prod_free]
  obtain ⟨s1, s2, s3, s4, s5, s6, s7⟩ := set_grid_packed_ok
    { rk := t.rk, size := t.size.getD ifree 0 :: List.replicate (t.rk - 1) 2,
      data := List.replicate (t.size.getD ifree 0 * 2 ^ (t.rk - 1)) 0, grid := [],
      grid_set := false, itype := itp_linear } gnew (by simp only; omega)
  simp only at s2 s3 s4 s6 s7
  obtain ⟨c1, c2, c3, c4⟩ := copy_free_shape t (set_grid_packed
    { rk := t.rk, size := t.size.getD ifree 0 :: List.replicate (t.rk - 1) 2,
      data := List.replicate (t.size.getD ifree 0 * 2 ^ (t.rk - 1)) 0, grid := [],
      grid_set := false, itype := itp_linear } gnew).st (free_map t.rk ifree) loc
  have hist : istart_of (t.size.getD ifree 0 :: List.replicate (t.rk - 1) 2) t.rk =
      t.size.getD ifree 0 + 2 * (t.rk - 1) := by
    rw [hm, istart_of_cons, Nat.add_sub_cancel, istart_of_twos _ _ (le_refl _)]
  refine ⟨copy_free t (set_grid_packed
    { rk := t.rk, size := t.size.getD ifree 0 :: List.replicate (t.rk - 1) 2,
      data := List.replicate (t.size.getD ifree 0 * 2 ^ (t.rk - 1)) 0, grid := [],
      grid_set := false, itype := itp_linear } gnew).st (free_map t.rk ifree) loc,
    vnew, loc, ?_, by rw [c1, s2], by rw [c2, s3], by rw [c4, s5], ?_, ?_, ?_, g4, ?_⟩
  · unfold interp_linear_vec
    simp only
    rw [hloc, g0]
    simp only
    rw [hsn, hdim]
    simp only
    rw [s1]
  · rw [f3 ifree, if_neg (fun h => h.2 rfl), getD_set,
      if_pos ⟨rfl, by rw [List.length_replicate]; exact hif⟩]
  · intro a ha hne
    rw [f3 a, if_pos ⟨ha, hne⟩]
  · intro k e hk he
    rw [c3, s7 _ (by rw [hist]; omega), g3 k e hk he]
  · intro i c hi hcl hclt
    exact copy_free_get t _ (free_map t.rk ifree) loc
      (t.size.getD ifree 0 :: List.replicate (t.rk - 1) 2) s3 (by rw [s2]; omega)
      (by rw [s4, List.length_replicate, prod_free])
      (by rw [List.length_cons, List.length_replicate]; omega) (i :: c)
      (by rw [List.length_cons, List.length_cons, hcl, List.length_replicate])
      (fun k hk => by
        rw [List.length_cons, List.length_replicate] at hk
        cases k with
        | zero => exact hi
        | succ j =>
          show c.getD j 0 < (List.replicate (t.rk - 1) 2).getD j 0
          rw [getD_replicate_two _ _ (by omega)]
          exact hclt j (by omega))

/-- The hypercube of `interp_linear_partial` over the axes other than `ifree`, in terms
of the indices found. -/
theorem partial_others_cells (ext : externals) (t : tensor_grid) (v : List ℚ) (ifree : Nat)
    (hr : 2 ≤ t.rk) (hif : ifree < t.rk) (hgs : t.grid_set = true) (ix : List Nat) :
    ∃ H : tensor_grid,
      interp_linear_partial ext t (other_axes t.rk ifree) ix
        ((other_axes t.rk ifree).map (fun a => v.getD a 0)) =
        interp_linear_power_two H ((other_axes t.rk ifree).map (fun a => v.getD a 0)) ∧
      hypercube (t.rk - 1) H ∧
      (∀ k e, k < t.rk - 1 → e < 2 → H.grid.getD (2 * k + e) 0 =
        (axis_grid t ((other_axes t.rk ifree).getD k 0)).getD
          (found ext t v ((other_axes t.rk ifree).getD k 0) + e) 0) ∧
      ∀ c : List Nat, c.length = t.rk - 1 → (∀ k, k < t.rk - 1 → c.getD k 0 < 2) →
        get H c = get t (partial_cell ext t v ifree c ix) := by
  obtain ⟨o1, _⟩ := other_axes_spec t.rk ifree hif
  obtain ⟨locP, hloc, hP⟩ := partial_others_spec ext t v ifree hr hif hgs
  obtain ⟨H, h1, h2, h3, h4⟩ := hP ix
  refine ⟨H, h1, h2, fun k e hk he => ?_, fun c hc hlt => ?_⟩
  · rw [h3 k e hk he, hloc k hk]
    rfl
  · rw [h4 c hc hlt]
    unfold partial_cell
    congr 1
    apply List.foldl_ext
    intro a j hj
    rw [List.mem_range, o1] at hj
    rw [hloc j hj]
    rfl

/-- The levels of `interp_linear_power_two_vec0` on a tensor with the free axis in front
whose grid and cells are those of the hypercubes of `interp_linear_partial` over the
other axes: the entry `i` of the result is what `interp_linear_partial` returns with the
free axis at `i`. -/
theorem levels_to_partial (ext : externals) (t : tensor_grid) (v : List ℚ) (ifree : Nat)
    (res : List ℚ) (T : tensor_grid) (vnew : List ℚ) (ix : List Nat)
    (hr : 2 ≤ t.rk) (hif : ifree < t.rk) (hgs : t.grid_set = true)
    (hpos : 0 < t.size.getD ifree 0)
    (hrk : T.rk = t.rk) (hsz : T.size = t.size.getD ifree 0 :: List.replicate (t.rk - 1) 2)
    (hTg : T.grid_set = true)
    (hv : ∀ k, k < t.rk - 1 →
      vnew.getD (k + 1) 0 = v.getD ((other_axes t.rk ifree).getD k 0) 0)
    (hg : ∀ k e, k < t.rk - 1 → e < 2 →
      T.grid.getD (t.size.getD ifree 0 + (2 * k + e)) 0 =
        (axis_grid t ((other_axes t.rk ifree).getD k 0)).getD
          (found ext t v ((other_axes t.rk ifree).getD k 0) + e) 0)
    (hc : ∀ (i : Nat) (c : List Nat), i < t.size.getD ifree 0 → c.length = t.rk - 1 →
      (∀ k, k < t.rk - 1 → c.getD k 0 < 2) →
      get T (i :: c) = get t (partial_cell ext t v ifree c (ix.set ifree i))) :
    ∃ R, interp_linear_power_two_vec0 T vnew res = .ok R ∧
      R.length = t.size.getD ifree 0 ∧
      ∀ i, i < t.size.getD ifree 0 →
        interp_linear_partial ext t (other_axes t.rk ifree) (ix.set ifree i)
          ((other_axes t.rk ifree).map (fun a => v.getD a 0)) = .ok (R.getD i 0) := by
  obtain ⟨o1, _⟩ := other_axes_spec t.rk ifree hif
  obtain ⟨m, hm⟩ : ∃ m, t.rk = m + 2 := ⟨t.rk - 2, by omega⟩
  have hm1 : t.rk - 1 = m + 1 := by omega
  choose H hH using fun i =>
    partial_others_cells ext t v ifree hr hif hgs (ix.set ifree i)
  obtain ⟨R, r1, r2, r3⟩ := vec0_levels (t.size.getD ifree 0) hpos
    ((other_axes t.rk ifree).map (fun a => v.getD a 0)) vnew m T H (T.rk + 1) (m + 2) res
    (by omega) (by omega) (by omega) (by rw [hsz, hm1]) hTg
    (fun j hj => by
      rw [hv j (by omega), map_getD_rat _ _ j (by rw [o1]; omega)])
    (fun i hi => by
      obtain ⟨_, h2, h3, h4⟩ := hH i
      refine ⟨by rw [← hm1]; exact h2, fun j hj => ?_, fun c hcl hlt => ?_⟩
      · have hj2 : j = 2 * (j / 2) + j % 2 := by omega
        rw [hj2, hg (j / 2) (j % 2) (by omega) (by omega),
          h3 (j / 2) (j % 2) (by omega) (by omega)]
      · rw [hc i c hi (by omega) (fun k hk => hlt k (by omega)),
          h4 c (by omega) (fun k hk => hlt k (by omega))])
  refine ⟨R, r1, r2, fun i hi => ?_⟩
  obtain ⟨h1, h2, _, _⟩ := hH i
  rw [h1]
  unfold interp_linear_power_two
  rw [h2.1, show t.rk - 1 + 1 = m + 2 by omega]
  exact r3 i hi

/-- The vector returned by `interp_linear_vec` holds, entry by entry, what
`interp_linear_partial` over the other axes returns with the free axis at that entry. -/
theorem vec_eq_partial (ext : externals) (t : tensor_grid) (v : List ℚ) (ifree : Nat)
    (res : List ℚ) (ix : List Nat) (hr : 2 ≤ t.rk) (hif : ifree < t.rk)
    (hgs : t.grid_set = true) (hpos : 0 < t.size.getD ifree 0)
    (hfind : ∀ a, a < t.rk → a ≠ ifree → found ext t v a + 1 < t.size.getD a 0)
    (hix : ix.length = t.rk) :
    ∃ R, interp_linear_vec ext t v ifree res = .ok R ∧ R.length = t.size.getD ifree 0 ∧
      ∀ i, i < t.size.getD ifree 0 →
        interp_linear_partial ext t (other_axes t.rk ifree) (ix.set ifree i)
          ((other_axes t.rk ifree).map (fun a => v.getD a 0)) = .ok (R.getD i 0) := by
  obtain ⟨o1, o2, o3, o4, o5, o6⟩ := other_axes_spec t.rk ifree hif
  obtain ⟨T, vnew, loc, e0, e1, e2, e3, e4, e5, e6, e7, e8⟩ :=
    vec_free_spec ext t v ifree res hr hif hgs hpos
  rw [e0]
  refine levels_to_partial ext t v ifree res T vnew ix hr hif hgs hpos e1 e2 e3 e7
    (fun k e hk he => ?_) (fun i c hi hcl hlt => ?_)
  · have hfk := hfind _ (o3 k hk).1 (o3 k hk).2
    rw [e6 k e hk he, e5 _ (o3 k hk).1 (o3 k hk).2,
      axis_grid_getD t _ _ (by unfold found at hfk ⊢; omega)]
    rfl
  · rw [e8 i c hi hcl hlt,
      free_index_eq t.rk ifree i c loc
        ((List.range (t.rk - 1)).map (fun k => found ext t v ((other_axes t.rk ifree).getD k 0)))
        ix hif hix e4 (fun k hk => by
          rw [e5 _ (o3 k hk).1 (o3 k hk).2, getD_map_range _ _ k hk]
          rfl)]
    unfold partial_cell
    congr 1
    apply List.foldl_ext
    intro a j hj
    rw [List.mem_range, o1] at hj
    rw [getD_map_range _ _ j hj]

/-- A vector built by appending one value per round. -/
theorem foldl_append_map (f : Nat → ℚ) (n : Nat) :
    (List.range n).foldl (fun g i => g ++ [f i]) [] = (List.range n).map f := by
  induction n with
  | zero => rfl
  | succ n ih =>
    rw [List.range_succ, List.foldl_append, ih, List.map_append]
    rfl

/-- The sizes built by `interp_linear_vec0`: the size of axis 0, then 2 for every other
axis. -/
theorem vec0_sizes_eq (rk n : Nat) (hr : 1 ≤ rk) :
    (List.range' 1 (rk - 1)).foldl (fun s i => s.set i 2) ((List.replicate rk 0).set 0 n) =
      n :: List.replicate (rk - 1) 2 := by
  have h : ∀ m, m ≤ rk - 1 →
      ((List.range' 1 m).foldl (fun s i => s.set i 2) ((List.replicate rk 0).set 0 n)).length =
        rk ∧
      ∀ a, ((List.range' 1 m).foldl (fun s i => s.set i 2)
          ((List.replicate rk 0).set 0 n)).getD a 0 =
        if a = 0 ∧ a < rk then n else if 1 ≤ a ∧ a < m + 1 then 2 else 0 := by
    intro m
    induction m with
    | zero =>
      intro _
      refine ⟨by simp, fun a => ?_⟩
      simp only [List.range'_zero, List.foldl_nil]
      rw [getD_set, List.length_replicate]
      by_cases ha : a = 0 ∧ a < rk
      · rw [if_pos ⟨ha.1.symm, ha.2⟩, if_pos ha]
      · rw [if_neg (fun h => ha ⟨h.1.symm, h.2⟩), if_neg ha, if_neg (by omega)]
        by_cases h : a < rk <;> simp [List.getD_eq_getElem?_getD, List.getElem?_replicate, h]
    | succ m ih =>
      intro hm
      obtain ⟨h1, h2⟩ := ih (by omega)
      rw [List.range'_concat, List.foldl_append]
      simp only [List.foldl_cons, List.foldl_nil, Nat.one_mul]
      refine ⟨by rw [List.length_set]; exact h1, fun a => ?_⟩
      rw [getD_set, h1, h2 a]
      by_cases ha : 1 + m = a
      · rw [if_pos ⟨ha, by omega⟩, if_neg (by omega), if_pos (by omega)]
      · rw [if_neg (fun h => ha h.1)]
        by_cases ha0 : a = 0 ∧ a < rk
        · rw [if_pos ha0, if_pos ha0]
        · rw [if_neg ha0, if_neg ha0]
          by_cases ha1 : 1 ≤ a ∧ a < m + 1
          · rw [if_pos ha1, if_pos (by omega)]
          · rw [if_neg ha1, if_neg (by omega)]
  obtain ⟨h1, h2⟩ := h (rk - 1) (le_refl _)
  apply list_ext_getD
  · rw [h1, List.length_cons, List.length_replicate]
    omega
  · intro a ha
    rw [h1] at ha
    rw [h2 a]
    cases a with
    | zero => rw [if_pos ⟨rfl, ha⟩]; rfl
    | succ k =>
      rw [if_neg (by omega), if_pos (by omega)]
      show 2 = (List.replicate (rk - 1) 2).getD k 0
      rw [getD_replicate_two _ _ (by omega)]

/-- The corner search of `interp_linear_vec0` after `m` rounds, from axis 1 on. -/
theorem corner_from_one (ext : externals) (t : tensor_grid) (v : List ℚ) (l0 : List Nat)
    (g0 : List ℚ) (m : Nat) :
    ((List.range' 1 m).foldl (corner_step ext t v) (istart_of t.size 1, l0, g0)).1 =
      istart_of t.size (m + 1) ∧
    ((List.range' 1 m).foldl (corner_step ext t v)
      (istart_of t.size 1, l0, g0)).2.1.length = l0.length ∧
    (∀ a, ((List.range' 1 m).foldl (corner_step ext t v)
        (istart_of t.size 1, l0, g0)).2.1.getD a 0 =
      if 1 ≤ a ∧ a < m + 1 ∧ a < l0.length then found ext t v a else l0.getD a 0) ∧
    ((List.range' 1 m).foldl (corner_step ext t v)
      (istart_of t.size 1, l0, g0)).2.2.length = g0.length + 2 * m ∧
    (∀ p, p < g0.length → ((List.range' 1 m).foldl (corner_step ext t v)
      (istart_of t.size 1, l0, g0)).2.2.getD p 0 = g0.getD p 0) ∧
    ∀ k e, k < m → e < 2 → ((List.range' 1 m).foldl (corner_step ext t v)
        (istart_of t.size 1, l0, g0)).2.2.getD (g0.length + (2 * k + e)) 0 =
      (axis_grid t (k + 1)).getD (found ext t v (k + 1) + e) 0 := by
  induction m with
  | zero =>
    refine ⟨rfl, rfl, fun a => ?_, rfl, fun p _ => rfl, fun k e hk => by omega⟩
    rw [if_neg (by omega)]
    rfl
  | succ m ih =>
    obtain ⟨h1, h2, h3, h4, h5, h6⟩ := ih
    rw [List.range'_concat, List.foldl_append]
    simp only [List.foldl_cons, List.foldl_nil, Nat.one_mul]
    generalize (List.range' 1 m).foldl (corner_step ext t v) (istart_of t.size 1, l0, g0) = s
      at h1 h2 h3 h4 h5 h6 ⊢
    have hone : 1 + m = m + 1 := by omega
    unfold corner_step
    simp only
    rw [h1, hone, unpack_grid_eq]
    refine ⟨?_, by rw [List.length_set]; exact h2, fun a => ?_, by simp [h4]; omega,
      fun p hp => ?_, fun k e hk he => ?_⟩
    · unfold istart_of
      exact (offset_of_succ _ (m + 1)).symm
    · rw [getD_set, h2, h3 a]
      by_cases ha : m + 1 = a
      · by_cases hl : a < l0.length
        · rw [if_pos ⟨ha, hl⟩, if_pos ⟨by omega, by omega, hl⟩, ← ha]
          rfl
        · rw [if_neg (fun h => hl h.2), if_neg (fun h => hl h.2.2),
            if_neg (fun h => hl h.2.2)]
      · rw [if_neg (fun h => ha h.1)]
        by_cases hc : 1 ≤ a ∧ a < m + 1 ∧ a < l0.length
        · rw [if_pos hc, if_pos ⟨hc.1, by omega, hc.2.2⟩]
        · rw [if_neg hc, if_neg (fun h => hc ⟨h.1, by omega, h.2.2⟩)]
    · rw [List.getD_append _ _ _ _ (by omega)]
      exact h5 p hp
    · by_cases hkm : k = m
      · rw [List.getD_append_right _ _ _ _ (by omega)]
        have hidx : g0.length + (2 * k + e) - s.2.2.length = e := by omega
        rw [hidx, hkm]
        have he2 : e = 0 ∨ e = 1 := by omega
        rcases he2 with he2 | he2
        · rw [he2]
          rfl
        · rw [he2]
          rfl
      · rw [List.getD_append _ _ _ _ (by omega)]
        exact h6 k e (by omega) he

/-- The cell `c` of the tensor filled by the copy loop of `interp_linear`, for any sizes
of the new tensor. -/
theorem copy_corner_cell (t tn : tensor_grid) (loc : List Nat) (S : List Nat)
    (hsize : tn.size = S) (hrk : tn.rk ≠ 0) (hlen : tn.data.length = S.prod)
    (hr : t.rk = S.length) (c : List Nat) (hc : c.length = S.length)
    (hlt : ∀ k, k < S.length → c.getD k 0 < S.getD k 0) :
    get (copy_corner t tn loc) c =
      get t ((List.range t.rk).map (fun j => c.getD j 0 + loc.getD j 0)) := by
  rw [← fold_set_replicate (fun j => c.getD j 0 + loc.getD j 0) t.rk]
  exact fill_cells_get tn S hsize hrk hlen t.rk hr
    (fun idx => get t ((List.range t.rk).foldl
      (fun io j => io.set j (idx.getD j 0 + loc.getD j 0)) (List.replicate t.rk 0))) c hc hlt

/-- The cell of `t` read by the copy loop of `interp_linear_vec0` for the new cell
`i :: c` is the cell read by the copy loop of `interp_linear_partial` over the axes from 1
on for the cell `c`, with axis 0 at `i`. -/
theorem vec0_index_eq (ext : externals) (t : tensor_grid) (v : List ℚ) (i : Nat)
    (c loc ix : List Nat) (hr : 1 ≤ t.rk) (hix : ix.length = t.rk)
    (hloc0 : loc.getD 0 0 = 0)
    (hloc : ∀ a, 1 ≤ a → a < t.rk → loc.getD a 0 = found ext t v a) :
    (List.range t.rk).map (fun j => (i :: c).getD j 0 + loc.getD j 0) =
      partial_cell ext t v 0 c (ix.set 0 i) := by
  obtain ⟨o1, o2, o3, o4, o5, o6⟩ := other_axes_spec t.rk 0 (by omega)
  unfold partial_cell
  obtain ⟨p1, p2, p3⟩ := scatter_spec (other_axes t.rk 0) o5
    (fun j => c.getD j 0 + found ext t v ((other_axes t.rk 0).getD j 0)) (ix.set 0 i)
    (fun j hj => by
      rw [o1] at hj
      rw [List.length_set, hix]
      exact (o3 j hj).1) (other_axes t.rk 0).length (le_refl _)
  apply list_ext_getD
  · rw [p1, List.length_map, List.length_range, List.length_set, hix]
  · intro a ha
    rw [List.length_map, List.length_range] at ha
    rw [getD_map_range _ _ a ha]
    cases a with
    | zero =>
      rw [p3 0 (fun j hj => by
        rw [o1] at hj
        exact (o3 j hj).2), getD_set, if_pos ⟨rfl, by rw [hix]; omega⟩, hloc0]
      rfl
    | succ k =>
      have hk : (other_axes t.rk 0).getD k 0 = k + 1 := by
        rw [o2 k (by omega), if_neg (by omega)]
      have e2 := p2 k (by rw [o1]; omega)
      rw [hk] at e2
      rw [e2, hloc (k + 1) (by omega) ha]
      rfl

/-- The vector returned by `interp_linear_vec0` holds, entry by entry, what
`interp_linear_partial` over the axes from 1 on returns with axis 0 at that entry. -/
theorem vec0_eq_partial (ext : externals) (t : tensor_grid) (v : List ℚ) (res : List ℚ)
    (ix : List Nat) (hr : 2 ≤ t.rk) (hgs : t.grid_set = true)
    (hpos : 0 < t.size.getD 0 0) (hix : ix.length = t.rk) :
    ∃ R, interp_linear_vec0 ext t v res = .ok R ∧ R.length = t.size.getD 0 0 ∧
      ∀ i, i < t.size.getD 0 0 →
        interp_linear_partial ext t (other_axes t.rk 0) (ix.set 0 i)
          ((other_axes t.rk 0).map (fun a => v.getD a 0)) = .ok (R.getD i 0) := by
  obtain ⟨o1, o2, o3, o4, o5, o6⟩ := other_axes_spec t.rk 0 (by omega)
  have hst : t.size.getD 0 0 = istart_of t.size 1 := by
    unfold istart_of
    rw [offset_of_succ]
    simp [offset_of]
  have hg0 : (List.range (t.size.getD 0 0)).foldl (fun g i => g ++ [t.grid.getD i 0]) [] =
      axis_grid t 0 := by
    rw [foldl_append_map]
    unfold axis_grid grid_at
    apply List.map_congr_left
    intro j _
    simp [istart_of, offset_of]
  have hlen0 : (axis_grid t 0).length = t.size.getD 0 0 := by
    unfold axis_grid
    simp
  obtain ⟨c1, c2, c3, c4, c5, c6⟩ := corner_from_one ext t v
    ((List.replicate t.rk 0).set 0 0) (axis_grid t 0) (t.rk - 1)
  generalize hcs : (List.range' 1 (t.rk - 1)).foldl (corner_step ext t v)
    (istart_of t.size 1, (List.replicate t.rk 0).set 0 0, axis_grid t 0) = cs
    at c1 c2 c3 c4 c5 c6
  have hdim : tensor_grid_rank_dim t.rk
      (t.size.getD 0 0 :: List.replicate (t.rk - 1) 2) = .ok
      { rk := t.rk, size := t.size.getD 0 0 :: List.replicate (t.rk - 1) 2,
        data := List.replicate (t.size.getD 0 0 * 2 ^ (t.rk - 1)) 0, grid := [],
        grid_set := false, itype := itp_linear } := by
    rw [tensor_grid_rank_dim_ok t.rk _ (by omega) (fun i hi => by
      cases i with
      | zero => exact hpos
      | succ k =>
        show 0 < (List.replicate (t.rk - 1) 2).getD k 0
        rw [getD_replicate_two _ _ (by omega)]
        omega), foldl_prod_range]
    have h1 : (List.range t.rk).map
        (fun i => (t.size.getD 0 0 :: List.replicate (t.rk - 1) 2).getD i 0) =
        t.size.getD 0 0 :: List.replicate (t.rk - 1) 2 := by
      have := sizes_free_take (t.size.getD 0 0) (t.rk - 1) (t.rk - 1) (le_refl _)
      rw [show t.rk - 1 + 1 = t.rk by omega] at this
      exact this
    rw [h1, prod_free]
  obtain ⟨s1, s2, s3, s4, s5, s6, s7⟩ := set_grid_packed_ok
    { rk := t.rk, size := t.size.getD 0 0 :: List.replicate (t.rk - 1) 2,
      data := List.replicate (t.size.getD 0 0 * 2 ^ (t.rk - 1)) 0, grid := [],
      grid_set := false, itype := itp_linear } cs.2.2 (by simp only; omega)
  simp only at s2 s3 s4 s6 s7
  obtain ⟨k1, k2, k3, k4⟩ := copy_corner_shape t (set_grid_packed
    { rk := t.rk, size := t.size.getD 0 0 :: List.replicate (t.rk - 1) 2,
      data := List.replicate (t.size.getD 0 0 * 2 ^ (t.rk - 1)) 0, grid := [],
      grid_set := false, itype := itp_linear } cs.2.2).st cs.2.1
  have hist : istart_of (t.size.getD 0 0 :: List.replicate (t.rk - 1) 2) t.rk =
      t.size.getD 0 0 + 2 * (t.rk - 1) := by
    obtain ⟨m, hm⟩ : ∃ m, t.rk = m + 1 := ⟨t.rk - 1, by omega⟩
    rw [hm, istart_of_cons, Nat.add_sub_cancel, istart_of_twos _ _ (le_refl _)]
  have hunf : interp_linear_vec0 ext t v res = interp_linear_power_two_vec0
      (copy_corner t (set_grid_packed
        { rk := t.rk, size := t.size.getD 0 0 :: List.replicate (t.rk - 1) 2,
          data := List.replicate (t.size.getD 0 0 * 2 ^ (t.rk - 1)) 0, grid := [],
          grid_set := false, itype := itp_linear } cs.2.2).st cs.2.1) v res := by
    unfold interp_linear_vec0
    simp only
    rw [hg0, vec0_sizes_eq t.rk _ (by omega), hdim]
    simp only
    have hcs2 : (List.range' 1 (t.rk - 1)).foldl (corner_step ext t v)
        (t.size.getD 0 0, (List.replicate t.rk 0).set 0 0, axis_grid t 0) = cs := by
      rw [← hcs, ← hst]
    rw [hcs2, s1]
  rw [hunf]
  refine levels_to_partial ext t v 0 res _ v ix hr (by omega) hgs hpos (by rw [k1, s2])
    (by rw [k2, s3]) (by rw [k4, s5]) (fun k hk => ?_) (fun k e hk he => ?_)
    (fun i c hi hcl hlt => ?_)
  · rw [o2 k hk, if_neg (by omega)]
  · rw [k3, s7 _ (by rw [hist]; omega), ← hlen0, c6 k e hk he, o2 k hk, if_neg (by omega)]
  · rw [copy_corner_cell t _ cs.2.1 (t.size.getD 0 0 :: List.replicate (t.rk - 1) 2) s3
      (by rw [s2]; omega) (by rw [s4, List.length_replicate, prod_free])
      (by rw [List.length_cons, List.length_replicate]; omega) (i :: c)
      (by rw [List.length_cons, List.length_cons, hcl, List.length_replicate])
      (fun k hk => by
        rw [List.length_cons, List.length_replicate] at hk
        cases k with
        | zero => exact hi
        | succ j =>
          show c.getD j 0 < (List.replicate (t.rk - 1) 2).getD j 0
          rw [getD_replicate_two _ _ (by omega)]
          exact hlt j (by omega)),
      vec0_index_eq ext t v i c cs.2.1 ix (by omega) hix
        (by
          rw [c3 0, if_neg (by omega), getD_set,
            if_pos ⟨rfl, by rw [List.length_replicate]; omega⟩])
        (fun a ha1 ha2 => by
          rw [c3 a, if_pos ⟨ha1, by omega, by rw [List.length_set, List.length_replicate]; exact ha2⟩])]

/-- Writing to an entry the value it holds changes nothing. -/
theorem set_getD_self (ix : List Nat) (a i : Nat) (h : ix.getD a 0 = i) : ix.set a i = ix := by
  apply list_ext_getD
  · simp
  · intro k _
    rw [getD_set]
    by_cases hk : a = k ∧ k < ix.length
    · rw [if_pos hk, ← hk.1, h]
    · rw [if_neg hk]

/-- C30: on a tensor of rank at least 2 with its grid set, a free axis `ifree` below the
rank that has a point, and a bracketing search that returns, on every other axis, an
index `l` with `l+1` below the size of the axis (so that each of them has at least 2
points), `interp_linear_vec(v,ifree,res)` returns a vector `res` of length
`size[ifree]` whose entry `i` is what `interp_linear_partial` returns over all axes but
`ifree`, in their order, with the coordinates of `v` on them and any index vector that
holds `i` on the free axis; with `ifree = 0` it is the vector of `interp_linear_vec0`;
and the entry `v[ifree]` has no influence. -/
theorem interp_linear_vec_spec (ext : externals) (t : tensor_grid) (v : List ℚ) (ifree : Nat)
    (res : List ℚ) (hr : 2 ≤ t.rk) (hif : ifree < t.rk) (hgs : t.grid_set = true)
    (hpos : 0 < t.size.getD ifree 0)
    (hfind : ∀ a, a < t.rk → a ≠ ifree →
      ext.find (axis_grid t a) (v.getD a 0) + 1 < t.size.getD a 0) :
    ∃ R, interp_linear_vec ext t v ifree res = .ok R ∧ R.length = t.size.getD ifree 0 ∧
      (∀ (i : Nat) (ix : List Nat), i < t.size.getD ifree 0 → ix.length = t.rk →
        ix.getD ifree 0 = i →
        interp_linear_partial ext t (other_axes t.rk ifree) ix
          ((other_axes t.rk ifree).map (fun a => v.getD a 0)) = .ok (R.getD i 0)) ∧
      (ifree = 0 → interp_linear_vec0 ext t v res = .ok R) ∧
      ∀ x, interp_linear_vec ext t (v.set ifree x) ifree res = .ok R := by
  obtain ⟨R, h1, h2, h3⟩ := vec_eq_partial ext t v ifree res (List.replicate t.rk 0) hr hif
    hgs hpos hfind (by simp)
  refine ⟨R, h1, h2, fun i ix hi hix hixi => ?_, fun h0 => ?_, fun x => ?_⟩
  · obtain ⟨R1, g1, _, g3⟩ := vec_eq_partial ext t v ifree res ix hr hif hgs hpos hfind hix
    rw [h1, Except.ok.injEq] at g1
    have h := g3 i hi
    rw [set_getD_self ix ifree i hixi, ← g1] at h
    exact h
  · subst h0
    obtain ⟨R0, g1, g2, g3⟩ := vec0_eq_partial ext t v res (List.replicate t.rk 0) hr hgs
      hpos (by simp)
    rw [g1]
    congr 1
    apply list_ext_getD_rat _ _ (by rw [g2, h2])
    intro i hi
    rw [g2] at hi
    have e1 := g3 i hi
    rw [h3 i hi, Except.ok.injEq] at e1
    exact e1.symm
  · have hget : ∀ a, a ≠ ifree → (v.set ifree x).getD a 0 = v.getD a 0 := by
      intro a ha
      rw [getD_set, if_neg (fun h => ha h.1.symm)]
    have hval : (other_axes t.rk ifree).map (fun a => (v.set ifree x).getD a 0) =
        (other_axes t.rk ifree).map (fun a => v.getD a 0) := by
      apply List.map_congr_left
      intro a ha
      unfold other_axes at ha
      simp only [List.mem_filter, decide_eq_true_eq] at ha
      exact hget a ha.2
    obtain ⟨R1, g1, g2, g3⟩ := vec_eq_partial ext t (v.set ifree x) ifree res
      (List.replicate t.rk 0) hr hif hgs hpos (fun a ha hne => by
        have := hfind a ha hne
        unfold found
        rw [hget a hne]
        exact this) (by simp)
    rw [g1]
    congr 1
    apply list_ext_getD_rat _ _ (by rw [g2, h2])
    intro i hi
    rw [g2] at hi
    have e1 := g3 i hi
    rw [hval, h3 i hi, Except.ok.injEq] at e1
    exact e1.symm

/-- Witness for C30: the `(3,3)` sample with the free axis 0, the point `(0.5, 0.5)` and
the nearest-below search. -/
theorem interp_linear_vec_spec_witness :
    ∃ R, interp_linear_vec sample_ext sample33 [1 / 2, 1 / 2] 0 [] = .ok R ∧
      R.length = sample33.size.getD 0 0 ∧
      (∀ (i : Nat) (ix : List Nat), i < sample33.size.getD 0 0 → ix.length = sample33.rk →
        ix.getD 0 0 = i →
        interp_linear_partial sample_ext sample33 (other_axes sample33.rk 0) ix
          ((other_axes sample33.rk 0).map (fun a => ([1 / 2, 1 / 2] : List ℚ).getD a 0)) =
          .ok (R.getD i 0)) ∧
      (0 = 0 → interp_linear_vec0 sample_ext sample33 [1 / 2, 1 / 2] [] = .ok R) ∧
      ∀ x, interp_linear_vec sample_ext sample33 (([1 / 2, 1 / 2] : List ℚ).set 0 x) 0 [] =
        .ok R :=
  interp_linear_vec_spec sample_ext sample33 [1 / 2, 1 / 2] 0 [] (by decide) (by decide)
    (by decide) (by decide) (fun a ha hne => by
      have ha1 : a = 1 := by
        have : sample33.rk = 2 := rfl
        omega
      subst ha1
      have h := search_below_lt (axis_grid sample33 1)
        (([1 / 2, 1 / 2] : List ℚ).getD 1 0) (by simp [axis_grid, sample33])
      have hl : (axis_grid sample33 1).length = sample33.size.getD 1 0 := by
        simp [axis_grid]
      rw [hl] at h
      exact h)

end O2scl
